import Mathlib

/-! # xv6 memory-management core: allocator, block cache, page tables, mmap

A shallow embedding of `kernel/kalloc.c`, `kernel/bio.c` and `kernel/vm.c`.

* Physical memory is a byte map `Mem`; page tables live in that memory and are
  read and written through `read64` / `write64`, exactly as the C code does
  through `pte_t *`.
* A kernel `panic` is the result `none`.
* Locks are not modelled: every function is executed atomically by one thread.
* `uint64` values are naturals below `2 ^ 64`; where C arithmetic can wrap or
  truncate, the reduction is explicit.
-/

namespace Xv6

/-! ## Machine constants (riscv.h) -/

/-- Modelled from the spec: `riscv.h` is not among the sources; pages are the
spec's fixed 4096-byte units. -/
def PGSIZE : Nat := 4096

/-- Reduction of a C `uint64` expression. -/
def u64 (x : Nat) : Nat := x % 2 ^ 64

/-- Modelled from the spec: `PGROUNDUP` of `riscv.h` (missing), rounding a
size up to the next page boundary in 64-bit arithmetic. -/
def PGROUNDUP (sz : Nat) : Nat := u64 (sz + PGSIZE - 1) / PGSIZE * PGSIZE

/-- Modelled from the spec: `PGROUNDDOWN` of `riscv.h` (missing), rounding an
address down to its page boundary. -/
def PGROUNDDOWN (a : Nat) : Nat := a / PGSIZE * PGSIZE

/-! ## Physical memory -/

/-- Physical memory, one byte per address. -/
abbrev Mem := Nat → Nat

/-- C `memset(dst, c, n)`. -/
def memset (m : Mem) (dst c n : Nat) : Mem :=
  fun a => if dst ≤ a ∧ a < dst + n then c % 256 else m a

/-- C `memmove(dst, src, n)` inside physical memory. -/
def memmove (m : Mem) (dst src n : Nat) : Mem :=
  fun a => if dst ≤ a ∧ a < dst + n then m (src + (a - dst)) else m a

/-- C `memmove(dst, src, n)` from a kernel buffer, given by its bytes
`src 0`, `src 1`, ..., into physical memory. -/
def memmoveIn (m : Mem) (dst : Nat) (src : Nat → Nat) (n : Nat) : Mem :=
  fun a => if dst ≤ a ∧ a < dst + n then src (a - dst) else m a

/-- The `n` bytes at `src` (a `memmove` into a kernel buffer). -/
def loadBytes (m : Mem) (src n : Nat) : List Nat :=
  (List.range n).map (fun i => m (src + i))

/-- Little-endian load of a 64-bit word. -/
def read64 (m : Mem) (a : Nat) : Nat :=
  m a % 256 + 256 * (m (a + 1) % 256 + 256 * (m (a + 2) % 256 + 256 * (m (a + 3) % 256
    + 256 * (m (a + 4) % 256 + 256 * (m (a + 5) % 256 + 256 * (m (a + 6) % 256
    + 256 * (m (a + 7) % 256)))))))

/-- Little-endian store of a 64-bit word. -/
def write64 (m : Mem) (a v : Nat) : Mem :=
  fun x => if a ≤ x ∧ x < a + 8 then v / 256 ^ (x - a) % 256 else m x

/-- Update of one entry of a table indexed by naturals. -/
def upd {α : Type} (f : Nat → α) (k : Nat) (v : α) : Nat → α :=
  fun i => if i = k then v else f i

/-! ## kalloc.c -/

/-- Constants of the physical allocator that come from headers and the linker
script, none of which is among the sources: `end` (first address after the
kernel), `PHYSTOP`, the table size `PGNUMS` and the index macro `PGIDX`.
`PGIDX` is only assumed to give distinct managed pages distinct entries of
`kmemref`. -/
structure KParams where
  kend : Nat
  PHYSTOP : Nat
  PGNUMS : Nat
  PGIDX : Nat → Nat
  kend_pos : 0 < kend
  PHYSTOP_lt : PHYSTOP < 2 ^ 64
  PGIDX_lt : ∀ pa, pa % PGSIZE = 0 → kend ≤ pa → pa < PHYSTOP → PGIDX pa < PGNUMS
  PGIDX_inj : ∀ pa pb, pa % PGSIZE = 0 → pb % PGSIZE = 0 → kend ≤ pa → kend ≤ pb →
    pa < PHYSTOP → pb < PHYSTOP → PGIDX pa = PGIDX pb → pa = pb

/-- Reduction of a C `int` expression to the 32 bits of an `int`, in two's
complement: `INT_MAX + 1` is `INT_MIN`, as the RV64 instruction `addiw`
computes it. -/
def i32 (x : Int) : Int := (x + 2 ^ 31) % 2 ^ 32 - 2 ^ 31

/-- State of the allocator: `kmem.freelist` as the list of the pages linked
from its head, the table `int kmemref[PGNUMS]`, and physical memory. The
entries of `kmemref` are `int`s: every function that changes one stores the
result reduced by `i32`. The list `freelist` stands for the chain of `next`
pointers that the C code keeps in the first 8 bytes of the free pages
(`Linked` below): `kfree` also writes the link into the page, and pushing and
popping the list is what the C code does to the chain as long as `kfree` is
not called on a page that is already on the list. -/
structure Kmem where
  freelist : List Nat
  kmemref : Nat → Int
  mem : Mem

/-- The pointer stored in `kmem.freelist`: the first free page, or 0. -/
def Kmem.head (s : Kmem) : Nat := s.freelist.headD 0

/-- The list `l` is the chain of `next` pointers in memory `m`: the word at the
start of each page of the list is the address of the page that follows it, and
0 in the last one. -/
def Linked (m : Mem) : List Nat → Prop
  | [] => True
  | p :: l => read64 m p = l.headD 0 ∧ Linked m l

/-- The address test shared by `kfree`, `inckmemref`, `deckmemref` and
`getkmemref`; when it holds they panic. -/
def badpa (P : KParams) (pa : Nat) : Bool :=
  pa % PGSIZE != 0 || decide (pa < P.kend) || decide (pa ≥ P.PHYSTOP)

/-- `inckmemref(pa)`: returns the new count. -/
def inckmemref (P : KParams) (s : Kmem) (pa : Nat) : Option (Int × Kmem) :=
  if badpa P pa then none
  else
    let count := i32 (s.kmemref (P.PGIDX pa) + 1)
    some (count, { s with kmemref := upd s.kmemref (P.PGIDX pa) count })

/-- `deckmemref(pa)`: returns the new count. -/
def deckmemref (P : KParams) (s : Kmem) (pa : Nat) : Option (Int × Kmem) :=
  if badpa P pa then none
  else
    let count := i32 (s.kmemref (P.PGIDX pa) - 1)
    some (count, { s with kmemref := upd s.kmemref (P.PGIDX pa) count })

/-- `getkmemref(pa)`. -/
def getkmemref (P : KParams) (s : Kmem) (pa : Nat) : Option Int :=
  if badpa P pa then none else some (s.kmemref (P.PGIDX pa))

/-- `kfree(pa)`. When the count comes to zero the page is filled with the junk
byte, the old head is written into its first 8 bytes (`r->next`), and the page
becomes the head of the list (`kfree_next`, `kfree_Linked`). -/
def kfree (P : KParams) (s : Kmem) (pa : Nat) : Option Kmem :=
  if badpa P pa then none
  else
    let refcnt := i32 (s.kmemref (P.PGIDX pa) - 1)
    let kmemref := upd s.kmemref (P.PGIDX pa) refcnt
    if refcnt = 0 then
      some { freelist := pa :: s.freelist
             kmemref := kmemref
             mem := write64 (memset s.mem pa 1 PGSIZE) pa s.head }
    else some { s with kmemref := kmemref }

/-- `kalloc()`: the page returned (0 when the free list is empty) and the new
state. The new head is the head of the rest of the list, which is the word
`r->next` in memory when the list is `Linked` (`kalloc_next`). -/
def kalloc (P : KParams) (s : Kmem) : Nat × Kmem :=
  match s.freelist with
  | [] => (0, s)
  | r :: rest =>
    (r, { freelist := rest
          kmemref := upd s.kmemref (P.PGIDX r) 1
          mem := memset s.mem r 5 PGSIZE })

/-- The loop of `freerange`, `p` being the loop variable; `fuel` bounds the
number of iterations. -/
def freerangeLoop (P : KParams) (pa_end : Nat) : Nat → Nat → Kmem → Option Kmem
  | 0, _, _ => none
  | fuel + 1, p, s =>
    if p + PGSIZE ≤ pa_end then
      (kfree P s p).bind (freerangeLoop P pa_end fuel (p + PGSIZE))
    else some s

/-- `freerange(pa_start, pa_end)`. -/
def freerange (P : KParams) (s : Kmem) (pa_start pa_end : Nat) : Option Kmem :=
  freerangeLoop P pa_end (pa_end / PGSIZE + 1) (PGROUNDUP pa_start) s

/-- `kinit()`, started on memory `mem0` with the zero-initialised globals. -/
def kinit (P : KParams) (mem0 : Mem) : Option Kmem :=
  freerange P
    { freelist := []
      kmemref := fun i => if i < P.PGNUMS then 1 else 0
      mem := mem0 }
    P.kend P.PHYSTOP

/-- One call into the allocator. -/
inductive KOp where
  | kalloc : KOp
  | kfree (pa : Nat) : KOp
  | inckmemref (pa : Nat) : KOp
  | deckmemref (pa : Nat) : KOp

/-- The state after one call; `none` when the call panics. -/
def KOp.run (P : KParams) (s : Kmem) : KOp → Option Kmem
  | .kalloc => some (Xv6.kalloc P s).2
  | .kfree pa => Xv6.kfree P s pa
  | .inckmemref pa => (Xv6.inckmemref P s pa).map (·.2)
  | .deckmemref pa => (Xv6.deckmemref P s pa).map (·.2)

/-- The page a call names, if any. -/
def KOp.page : KOp → Option Nat
  | .kalloc => none
  | .kfree pa => some pa
  | .inckmemref pa => some pa
  | .deckmemref pa => some pa

/-- States reached after `kinit` by calls that do not panic and that each
satisfy `ok` in the state they are made in. -/
inductive KReach (P : KParams) (ok : Kmem → KOp → Prop) : Kmem → Prop
  | init (mem0 : Mem) (s : Kmem) : kinit P mem0 = some s → KReach P ok s
  | step (s : Kmem) (op : KOp) (s' : Kmem) :
      KReach P ok s → ok s op → op.run P s = some s' → KReach P ok s'

/-- No restriction on the calls. -/
def anyCall : Kmem → KOp → Prop := fun _ _ => True

/-- The call names no page that is on the free list. -/
def offFreelist : Kmem → KOp → Prop := fun s op =>
  match op.page with
  | none => True
  | some pa => pa ∉ s.freelist

/-- The calls `kfree` and `deckmemref` name a page whose count is positive. -/
def releasesHeld (P : KParams) : Kmem → KOp → Prop := fun s op =>
  match op with
  | .kfree pa => 0 < s.kmemref (P.PGIDX pa)
  | .deckmemref pa => 0 < s.kmemref (P.PGIDX pa)
  | _ => True

/-- The call `inckmemref` names a page whose count is below `INT_MAX`. -/
def belowMax (P : KParams) : Kmem → KOp → Prop := fun s op =>
  match op with
  | .inckmemref pa => s.kmemref (P.PGIDX pa) < 2 ^ 31 - 1
  | _ => True

/-- The call names no page that is on the free list, and the count it changes
stays in the range from 0 to `INT_MAX`. -/
def heldCall (P : KParams) : Kmem → KOp → Prop := fun s op =>
  offFreelist s op ∧ releasesHeld P s op ∧ belowMax P s op

/-- The call names no page that is on the free list, and `kfree` and
`deckmemref` name a page whose count is positive. -/
def heldRelease (P : KParams) : Kmem → KOp → Prop := fun s op =>
  offFreelist s op ∧ releasesHeld P s op

instance (s : Kmem) (op : KOp) : Decidable (anyCall s op) := by
  unfold anyCall; infer_instance

instance (s : Kmem) (op : KOp) : Decidable (offFreelist s op) := by
  unfold offFreelist; cases op <;> simp only [KOp.page] <;> infer_instance

instance (P : KParams) (s : Kmem) (op : KOp) : Decidable (releasesHeld P s op) := by
  unfold releasesHeld; cases op <;> simp only <;> infer_instance

instance (P : KParams) (s : Kmem) (op : KOp) : Decidable (belowMax P s op) := by
  unfold belowMax; cases op <;> simp only <;> infer_instance

instance (P : KParams) (s : Kmem) (op : KOp) : Decidable (heldCall P s op) := by
  unfold heldCall; infer_instance

instance (P : KParams) (s : Kmem) (op : KOp) : Decidable (heldRelease P s op) := by
  unfold heldRelease; infer_instance

/-- The state after a sequence of calls, each checked against `ok`; `none`
when a call panics or fails `ok`. -/
def runOps (P : KParams) (ok : Kmem → KOp → Prop) [∀ s op, Decidable (ok s op)] :
    Kmem → List KOp → Option Kmem
  | s, [] => some s
  | s, op :: ops => if ok s op then (op.run P s).bind (fun s' => runOps P ok s' ops) else none

/-- Pages the allocator accepts: aligned and inside `[end, PHYSTOP)`. -/
def managed (P : KParams) (pa : Nat) : Prop :=
  pa % PGSIZE = 0 ∧ P.kend ≤ pa ∧ pa < P.PHYSTOP

instance (P : KParams) (pa : Nat) : Decidable (managed P pa) := by
  unfold managed; infer_instance

/-- The free list has no repetition, holds managed pages only, and each of
them has count zero. -/
def FreeInv (P : KParams) (s : Kmem) : Prop :=
  s.freelist.Nodup ∧ ∀ p ∈ s.freelist, managed P p ∧ s.kmemref (P.PGIDX p) = 0

/-- Every entry of `kmemref` is at least zero and at most `INT_MAX`. -/
def NonNeg (s : Kmem) : Prop := ∀ i, 0 ≤ s.kmemref i ∧ s.kmemref i ≤ 2 ^ 31 - 1

/-- What holds of the allocator in every state reached by calls that name
pages held by their caller: the free list has no repetition and its pages have
count zero, it is the chain of `next` pointers kept in memory, and every count
is a non-negative `int`. -/
structure KInv (P : KParams) (s : Kmem) : Prop where
  free : FreeInv P s
  link : Linked s.mem s.freelist
  rng : NonNeg s

/-- A small machine: two managed pages, `PGIDX` counting pages from
`KERNBASE = 0x80000000`. -/
def smallK : KParams where
  kend := 0x80001000
  PHYSTOP := 0x80003000
  PGNUMS := 3
  PGIDX := fun pa => (pa - 0x80000000) / 4096
  kend_pos := by decide
  PHYSTOP_lt := by decide
  PGIDX_lt := by intro pa h1 h2 h3; simp only [PGSIZE] at h1; show (pa - 0x80000000) / 4096 < 3; omega
  PGIDX_inj := by
    intro pa pb h1 h2 h3 h4 h5 h6 h7
    simp only [PGSIZE] at h1 h2
    have h7' : (pa - 0x80000000) / 4096 = (pb - 0x80000000) / 4096 := h7
    omega

/-- A state of the two-page machine (the one after `kinit` and one `kalloc`): page
`0x80002000` is allocated with count 1, page `0x80001000` is free. -/
def c6State : Kmem where
  freelist := [0x80001000]
  kmemref := fun i => if i = 2 then 1 else if i = 0 then 1 else 0
  mem := fun a => if 0x80002000 ≤ a ∧ a < 0x80003000 then 5 else
    if 0x80001008 ≤ a ∧ a < 0x80002000 then 1 else 0

/-! ## bio.c -/

/-- Reduction of a C `uint` expression. -/
def u32 (x : Nat) : Nat := x % 2 ^ 32

/-- The fields of `struct buf` (declared in `buf.h`, not among the sources)
that `bio.c` uses: the key, the validity flag, the reference count, whether
the sleep-lock is held, and the cached block content. -/
structure Buf where
  dev : Nat
  blockno : Nat
  valid : Nat
  refcnt : Nat
  locked : Bool
  data : Nat
deriving DecidableEq, Repr

/-- The zero-initialised `struct buf`. -/
def Buf.zero : Buf := { dev := 0, blockno := 0, valid := 0, refcnt := 0, locked := false, data := 0 }

/-- The array `bcache[NBUCKET]`, each shard with its `buf[PERBUF]`; `NBUCKET`
and `PERBUF` are the lengths (their values are in `param.h`, not among the
sources). -/
abbrev Bcache := List (List Buf)

/-- The cache before any call: every buffer zero. -/
def Bcache.init (NBUCKET PERBUF : Nat) : Bcache :=
  List.replicate NBUCKET (List.replicate PERBUF Buf.zero)

/-- Why a call does not return. -/
inductive Fail where
  | panic : Fail
  | sleeps : Fail
  | fuel : Fail
deriving DecidableEq, Repr

instance {ε α : Type} [DecidableEq ε] [DecidableEq α] : DecidableEq (Except ε α)
  | .ok a, .ok b => if h : a = b then isTrue (by rw [h]) else isFalse (fun e => h (by cases e; rfl))
  | .error a, .error b =>
    if h : a = b then isTrue (by rw [h]) else isFalse (fun e => h (by cases e; rfl))
  | .ok _, .error _ => isFalse (fun e => by cases e)
  | .error _, .ok _ => isFalse (fun e => by cases e)

/-- A buffer pointer: shard index and position in the shard. -/
abbrev BufPtr := Nat × Nat

/-- The buffer a pointer designates. -/
def Bcache.at (bc : Bcache) (b : BufPtr) : Buf := (bc.getD b.1 []).getD b.2 Buf.zero

/-- Store through a buffer pointer. -/
def Bcache.put (bc : Bcache) (b : BufPtr) (v : Buf) : Bcache :=
  bc.set b.1 ((bc.getD b.1 []).set b.2 v)

/-- The inner `for` of `bget` over one shard, from position `j` on: the first
buffer carrying the key, else the first buffer with `refcnt == 0`
(`blank`, initially `blank0`). -/
def scanShard (dev blockno : Nat) : List Buf → Nat → Option Nat → (Option Nat) × (Option Nat)
  | [], _, blank => (none, blank)
  | b :: bs, j, blank =>
    if b.dev = dev ∧ b.blockno = blockno then (some j, blank)
    else scanShard dev blockno bs (j + 1) (if blank = none ∧ b.refcnt = 0 then some j else blank)

/-- `acquiresleep(&b->lock)` by the one running thread: it sleeps for ever on
a lock that is held. -/
def acquiresleep (bc : Bcache) (b : BufPtr) : Except Fail Bcache :=
  if (bc.at b).locked then .error .sleeps else .ok (bc.put b { bc.at b with locked := true })

/-- The `do ... while (idx != plain)` loop of `bget`. -/
def bgetLoop (dev blockno plain : Nat) : Nat → Nat → Bcache → Except Fail (BufPtr × Bcache)
  | 0, _, _ => .error .fuel
  | fuel + 1, idx, bc =>
    match scanShard dev blockno (bc.getD idx []) 0 none with
    | (some j, _) =>
      let b := bc.at (idx, j)
      let bc1 := bc.put (idx, j) { b with refcnt := u32 (b.refcnt + 1) }
      (acquiresleep bc1 (idx, j)).map (fun bc2 => ((idx, j), bc2))
    | (none, some j) =>
      let b := bc.at (idx, j)
      let bc1 := bc.put (idx, j) { b with dev := dev, blockno := blockno, valid := 0, refcnt := 1 }
      (acquiresleep bc1 (idx, j)).map (fun bc2 => ((idx, j), bc2))
    | (none, none) =>
      let idx1 := if idx + 1 = bc.length then 0 else idx + 1
      if idx1 ≠ plain then bgetLoop dev blockno plain fuel idx1 bc else .error .panic

/-- `bget(dev, blockno)`. -/
def bget (bc : Bcache) (dev blockno : Nat) : Except Fail (BufPtr × Bcache) :=
  bgetLoop dev blockno (blockno % bc.length) bc.length (blockno % bc.length) bc

/-- Modelled from the spec: the cache together with the disk behind it, the
content of each block of each device; `virtio_disk_rw(b, write)` of the driver
(missing), "device-read-write(buffer, is-write)", synchronous, copies the
block of `b` from the disk into `b->data`, or `b->data` to the disk. -/
structure BState where
  bcache : Bcache
  disk : Nat → Nat → Nat

/-- `bread(dev, blockno)`. -/
def bread (s : BState) (dev blockno : Nat) : Except Fail (BufPtr × BState) :=
  match bget s.bcache dev blockno with
  | .error e => .error e
  | .ok (b, bc) =>
    if (bc.at b).valid = 0 then
      .ok (b, { s with bcache := bc.put b { bc.at b with data := s.disk dev blockno, valid := 1 } })
    else .ok (b, { s with bcache := bc })

/-- `bwrite(b)`. -/
def bwrite (s : BState) (b : BufPtr) : Except Fail BState :=
  if !(s.bcache.at b).locked then .error .panic
  else
    let v := s.bcache.at b
    .ok { s with disk := fun d n => if d = v.dev ∧ n = v.blockno then v.data else s.disk d n }

/-- The `do ... while (idx != tgt)` loop of `findbucket`. -/
def findbucketLoop (bc : Bcache) (dev blockno tgt : Nat) : Nat → Nat → Except Fail Nat
  | 0, _ => .error .fuel
  | fuel + 1, idx =>
    if (bc.getD idx []).any (fun it => decide (it.refcnt > 0 ∧ it.dev = dev ∧ it.blockno = blockno))
    then .ok idx
    else
      let idx1 := if idx + 1 = bc.length then 0 else idx + 1
      if idx1 ≠ tgt then findbucketLoop bc dev blockno tgt fuel idx1 else .error .panic

/-- `findbucket(b)`. -/
def findbucket (bc : Bcache) (b : BufPtr) : Except Fail Nat :=
  findbucketLoop bc (bc.at b).dev (bc.at b).blockno ((bc.at b).blockno % bc.length) bc.length
    ((bc.at b).blockno % bc.length)

/-- `brelse(b)`. -/
def brelse (bc : Bcache) (b : BufPtr) : Except Fail Bcache :=
  if !(bc.at b).locked then .error .panic
  else
    let bc1 := bc.put b { bc.at b with locked := false }
    match findbucket bc1 b with
    | .error e => .error e
    | .ok _ => .ok (bc1.put b { bc1.at b with refcnt := u32 ((bc1.at b).refcnt + 2 ^ 32 - 1) })

/-- `bpin(b)`. -/
def bpin (bc : Bcache) (b : BufPtr) : Except Fail Bcache :=
  match findbucket bc b with
  | .error e => .error e
  | .ok _ => .ok (bc.put b { bc.at b with refcnt := u32 ((bc.at b).refcnt + 1) })

/-- `bunpin(b)`. -/
def bunpin (bc : Bcache) (b : BufPtr) : Except Fail Bcache :=
  match findbucket bc b with
  | .error e => .error e
  | .ok _ => .ok (bc.put b { bc.at b with refcnt := u32 ((bc.at b).refcnt + 2 ^ 32 - 1) })

/-- One call into the block cache. -/
inductive BOp where
  | bget (dev blockno : Nat) : BOp
  | brelse (b : BufPtr) : BOp
  | bpin (b : BufPtr) : BOp
  | bunpin (b : BufPtr) : BOp

/-- The cache after one call. -/
def BOp.run (bc : Bcache) : BOp → Except Fail Bcache
  | .bget dev blockno => (Xv6.bget bc dev blockno).map (·.2)
  | .brelse b => Xv6.brelse bc b
  | .bpin b => Xv6.bpin bc b
  | .bunpin b => Xv6.bunpin bc b

/-- The cache after a sequence of calls, all of which return. -/
def runBOps : Bcache → List BOp → Except Fail Bcache
  | bc, [] => .ok bc
  | bc, op :: ops =>
    match op.run bc with
    | .error e => .error e
    | .ok bc1 => runBOps bc1 ops

/-- The buffers of the cache, with their pointers, that carry the key
`(dev, blockno)` with a positive reference count. -/
def holders (bc : Bcache) (dev blockno : Nat) : List BufPtr :=
  (List.range bc.length).flatMap (fun i =>
    ((List.range (bc.getD i []).length).filter (fun j =>
      decide ((bc.at (i, j)).dev = dev ∧ (bc.at (i, j)).blockno = blockno ∧
        0 < (bc.at (i, j)).refcnt))).map (fun j => (i, j)))


/-! ## bio.c: a single-threaded user of the cache -/

/-- One step of a single-threaded user of the block cache: `bread`, a store
of `v` into the data of the held buffer `b` followed at once by `bwrite(b)`,
or `brelse`. -/
inductive DOp where
  | bread (dev blockno : Nat) : DOp
  | store (b : BufPtr) (v : Nat) : DOp
  | brelse (b : BufPtr) : DOp

/-- The run of a sequence of steps, all of which return: for every `bread` in
turn, the buffer returned, the data of that buffer and the content of the
block on the device at that moment; and the final state. -/
def runDOps : BState → List DOp → Except Fail (List (BufPtr × Nat × Nat) × BState)
  | s, [] => .ok ([], s)
  | s, .bread dev blockno :: ops =>
    match bread s dev blockno with
    | .error e => .error e
    | .ok (b, s1) =>
      (runDOps s1 ops).map
        (fun r => ((b, (s1.bcache.at b).data, s1.disk dev blockno) :: r.1, r.2))
  | s, .store b v :: ops =>
    match bwrite { s with bcache := s.bcache.put b { s.bcache.at b with data := v } } b with
    | .error e => .error e
    | .ok s1 => runDOps s1 ops
  | s, .brelse b :: ops =>
    match brelse s.bcache b with
    | .error e => .error e
    | .ok bc => runDOps { s with bcache := bc } ops

/-- The cache of the C23 witness: two shards of two buffers; blocks 0 and 2 are
held in shard 0, block 1 is held in shard 1, whose second buffer, last used for
block 3, is free. -/
def twoShards : Bcache :=
  [[{ dev := 0, blockno := 0, valid := 1, refcnt := 1, locked := true, data := 10 },
    { dev := 0, blockno := 2, valid := 1, refcnt := 1, locked := true, data := 12 }],
   [{ dev := 0, blockno := 1, valid := 1, refcnt := 2, locked := false, data := 11 },
    { dev := 0, blockno := 3, valid := 1, refcnt := 0, locked := false, data := 13 }]]
/-! ## vm.c: page tables -/

/-- Modelled from the spec: the Sv39 entry layout of `riscv.h` (missing), the
valid flag of an entry. -/
def PTE_V : Nat := 1

/-- Modelled from the spec: the readable permission flag (`riscv.h`,
missing). -/
def PTE_R : Nat := 2

/-- Modelled from the spec: the writable permission flag (`riscv.h`,
missing). -/
def PTE_W : Nat := 4

/-- Modelled from the spec: the executable permission flag (`riscv.h`,
missing). -/
def PTE_X : Nat := 8

/-- Modelled from the spec: the user-accessible permission flag (`riscv.h`,
missing). -/
def PTE_U : Nat := 16

/-- Modelled from the spec: `MAXVA` of `riscv.h` (missing), the fixed maximum
virtual address: three 9-bit indices and a 12-bit offset, less the top bit. -/
def MAXVA : Nat := 2 ^ 38

/-- Modelled from the spec: `PX(level, va)` of `riscv.h` (missing), the 9-bit
index of `va` at `level`. -/
def PX (level va : Nat) : Nat := (va >>> (12 + 9 * level)) &&& 0x1FF

/-- Modelled from the spec: `PA2PTE` of `riscv.h` (missing), the entry bits
holding a physical page address. -/
def PA2PTE (pa : Nat) : Nat := (pa >>> 12) <<< 10

/-- Modelled from the spec: `PTE2PA` of `riscv.h` (missing), the physical page
address held by an entry. -/
def PTE2PA (pte : Nat) : Nat := u64 ((pte >>> 10) <<< 12)

/-- Modelled from the spec: `PTE_FLAGS` of `riscv.h` (missing), the ten flag
bits of an entry. -/
def PTE_FLAGS (pte : Nat) : Nat := pte &&& 0x3FF

/-- The `for` loop of `walk` from `level` down to 1, then the address of the
level-0 entry; 0 is the null pointer. -/
def walkLoop (P : KParams) (alloc : Bool) (va : Nat) : Nat → Kmem → Nat → Nat × Kmem
  | 0, s, pagetable => (pagetable + 8 * PX 0 va, s)
  | level + 1, s, pagetable =>
    let pte := pagetable + 8 * PX (level + 1) va
    if read64 s.mem pte &&& PTE_V ≠ 0 then
      walkLoop P alloc va level s (PTE2PA (read64 s.mem pte))
    else if alloc then
      let r := kalloc P s
      if r.1 = 0 then (0, r.2)
      else
        walkLoop P alloc va level
          { r.2 with mem := write64 (memset r.2.mem r.1 0 PGSIZE) pte (PA2PTE r.1 ||| PTE_V) } r.1
    else (0, s)

/-- `walk(pagetable, va, alloc)`: the address of the level-0 entry (0 when
there is none) and the state afterwards. -/
def walk (P : KParams) (s : Kmem) (pagetable va : Nat) (alloc : Bool) :
    Except Fail (Nat × Kmem) :=
  if va ≥ MAXVA then .error .panic else .ok (walkLoop P alloc va 2 s pagetable)

/-- `walkaddr(pagetable, va)`. -/
def walkaddr (P : KParams) (s : Kmem) (pagetable va : Nat) : Nat :=
  if va ≥ MAXVA then 0
  else
    let pte := (walkLoop P false va 2 s pagetable).1
    if pte = 0 then 0
    else if read64 s.mem pte &&& PTE_V = 0 then 0
    else if read64 s.mem pte &&& PTE_U = 0 then 0
    else PTE2PA (read64 s.mem pte)

/-- The `for (;;)` loop of `mappages`; `perm` is a non-negative `int`. -/
def mappagesLoop (P : KParams) (pagetable last perm : Nat) :
    Nat → Nat → Nat → Kmem → Except Fail (Int × Kmem)
  | 0, _, _, _ => .error .fuel
  | fuel + 1, a, pa, s =>
    match walk P s pagetable a true with
    | .error e => .error e
    | .ok (pte, s1) =>
      if pte = 0 then .ok (-1, s1)
      else if read64 s1.mem pte &&& PTE_V ≠ 0 then .error .panic
      else
        let s2 := { s1 with mem := write64 s1.mem pte (PA2PTE pa ||| perm ||| PTE_V) }
        if a = last then .ok (0, s2)
        else mappagesLoop P pagetable last perm fuel (a + PGSIZE) (pa + PGSIZE) s2

/-- `mappages(pagetable, va, size, pa, perm)`. -/
def mappages (P : KParams) (s : Kmem) (pagetable va size pa perm : Nat) :
    Except Fail (Int × Kmem) :=
  if va % PGSIZE ≠ 0 then .error .panic
  else if size % PGSIZE ≠ 0 then .error .panic
  else if size = 0 then .error .panic
  else mappagesLoop P pagetable (u64 (va + size - PGSIZE)) perm (size / PGSIZE) va pa s

/-- The `for` loop of `uvmunmap`, `lim` being `va + npages*PGSIZE`. -/
def uvmunmapLoop (P : KParams) (pagetable lim : Nat) (do_free : Bool) :
    Nat → Nat → Kmem → Except Fail Kmem
  | 0, _, _ => .error .fuel
  | fuel + 1, a, s =>
    if a < lim then
      match walk P s pagetable a false with
      | .error e => .error e
      | .ok (pte, s1) =>
        if pte = 0 then .error .panic
        else if read64 s1.mem pte &&& PTE_V = 0 then .error .panic
        else if PTE_FLAGS (read64 s1.mem pte) = PTE_V then .error .panic
        else
          match (if do_free then kfree P s1 (PTE2PA (read64 s1.mem pte)) else some s1) with
          | none => .error .panic
          | some s2 =>
            uvmunmapLoop P pagetable lim do_free fuel (a + PGSIZE)
              { s2 with mem := write64 s2.mem pte 0 }
    else .ok s

/-- `uvmunmap(pagetable, va, npages, do_free)`. -/
def uvmunmap (P : KParams) (s : Kmem) (pagetable va npages : Nat) (do_free : Bool) :
    Except Fail Kmem :=
  if va % PGSIZE ≠ 0 then .error .panic
  else uvmunmapLoop P pagetable (u64 (va + npages * PGSIZE)) do_free (npages + 1) va s

/-- `uvmcreate()`: the new root (0 when out of memory) and the state. -/
def uvmcreate (P : KParams) (s : Kmem) : Nat × Kmem :=
  let r := kalloc P s
  if r.1 = 0 then (0, r.2) else (r.1, { r.2 with mem := memset r.2.mem r.1 0 PGSIZE })

/-- The value of a C `int` converted to `uint64`, the `int` holding the low
32 bits of `x`. -/
def intToU64 (x : Nat) : Nat :=
  if x % 2 ^ 32 < 2 ^ 31 then x % 2 ^ 32 else x % 2 ^ 32 + (2 ^ 64 - 2 ^ 32)

/-- `uvmdealloc(pagetable, oldsz, newsz)`. -/
def uvmdealloc (P : KParams) (s : Kmem) (pagetable oldsz newsz : Nat) :
    Except Fail (Nat × Kmem) :=
  if newsz ≥ oldsz then .ok (oldsz, s)
  else if PGROUNDUP newsz < PGROUNDUP oldsz then
    let npages := (PGROUNDUP oldsz - PGROUNDUP newsz) / PGSIZE
    match uvmunmap P s pagetable (PGROUNDUP newsz) (intToU64 npages) true with
    | .error e => .error e
    | .ok s1 => .ok (newsz, s1)
  else .ok (newsz, s)

/-- The `for` loop of `uvmalloc`; `oldsz` is already rounded up. -/
def uvmallocLoop (P : KParams) (pagetable oldsz newsz xperm : Nat) :
    Nat → Nat → Kmem → Except Fail (Nat × Kmem)
  | 0, _, _ => .error .fuel
  | fuel + 1, a, s =>
    if a < newsz then
      let r := kalloc P s
      if r.1 = 0 then
        match uvmdealloc P r.2 pagetable a oldsz with
        | .error e => .error e
        | .ok (_, s1) => .ok (0, s1)
      else
        let s2 := { r.2 with mem := memset r.2.mem r.1 0 PGSIZE }
        match mappages P s2 pagetable a PGSIZE r.1 (PTE_R ||| PTE_U ||| xperm) with
        | .error e => .error e
        | .ok (rc, s3) =>
          if rc ≠ 0 then
            match kfree P s3 r.1 with
            | none => .error .panic
            | some s4 =>
              match uvmdealloc P s4 pagetable a oldsz with
              | .error e => .error e
              | .ok (_, s5) => .ok (0, s5)
          else uvmallocLoop P pagetable oldsz newsz xperm fuel (a + PGSIZE) s3
    else .ok (newsz, s)

/-- `uvmalloc(pagetable, oldsz, newsz, xperm)`; `xperm` is a non-negative
`int`. -/
def uvmalloc (P : KParams) (s : Kmem) (pagetable oldsz newsz xperm : Nat) :
    Except Fail (Nat × Kmem) :=
  if newsz < oldsz then .ok (oldsz, s)
  else uvmallocLoop P pagetable (PGROUNDUP oldsz) newsz xperm (newsz / PGSIZE + 2)
    (PGROUNDUP oldsz) s

/-- The `for` loop of `uvmcopy`, with the code after the label `err`. -/
def uvmcopyLoop (P : KParams) (old new sz : Nat) : Nat → Nat → Kmem → Except Fail (Int × Kmem)
  | 0, _, _ => .error .fuel
  | fuel + 1, i, s =>
    if i < sz then
      match walk P s old i false with
      | .error e => .error e
      | .ok (pte, s0) =>
        if pte = 0 then .error .panic
        else if read64 s0.mem pte &&& PTE_V = 0 then .error .panic
        else
          let pa := PTE2PA (read64 s0.mem pte)
          let flags := PTE_FLAGS (read64 s0.mem pte)
          let r := kalloc P s0
          if r.1 = 0 then
            match uvmunmap P r.2 new 0 (i / PGSIZE) true with
            | .error e => .error e
            | .ok s1 => .ok (-1, s1)
          else
            let s2 := { r.2 with mem := memmove r.2.mem r.1 pa PGSIZE }
            match mappages P s2 new i PGSIZE r.1 flags with
            | .error e => .error e
            | .ok (rc, s3) =>
              if rc ≠ 0 then
                match kfree P s3 r.1 with
                | none => .error .panic
                | some s4 =>
                  match uvmunmap P s4 new 0 (i / PGSIZE) true with
                  | .error e => .error e
                  | .ok s5 => .ok (-1, s5)
              else uvmcopyLoop P old new sz fuel (i + PGSIZE) s3
    else .ok (0, s)

/-- `uvmcopy(old, new, sz)`. -/
def uvmcopy (P : KParams) (s : Kmem) (old new sz : Nat) : Except Fail (Int × Kmem) :=
  uvmcopyLoop P old new sz (sz / PGSIZE + 2) 0 s

/-- The `while` loop of `copyout`; `src` is the kernel buffer (byte `k` of it
is `src k`, kept apart from the user pages) and `len` the number of bytes still
to be copied. -/
def copyoutLoop (P : KParams) (pagetable : Nat) :
    Nat → Kmem → Nat → (Nat → Nat) → Nat → Except Fail (Int × Kmem)
  | 0, _, _, _, _ => .error .fuel
  | fuel + 1, s, dstva, src, len =>
    if len > 0 then
      let va0 := PGROUNDDOWN dstva
      if va0 ≥ MAXVA then .ok (-1, s)
      else
        match walk P s pagetable va0 false with
        | .error e => .error e
        | .ok (pte, s1) =>
          if pte = 0 ∨ read64 s1.mem pte &&& PTE_V = 0 ∨ read64 s1.mem pte &&& PTE_U = 0 ∨
              read64 s1.mem pte &&& PTE_W = 0 then .ok (-1, s1)
          else
            let pa0 := PTE2PA (read64 s1.mem pte)
            let n := if PGSIZE - (dstva - va0) > len then len else PGSIZE - (dstva - va0)
            copyoutLoop P pagetable fuel
              { s1 with mem := memmoveIn s1.mem (pa0 + (dstva - va0)) src n }
              (va0 + PGSIZE) (fun k => src (n + k)) (len - n)
    else .ok (0, s)

/-- `copyout(pagetable, dstva, src, len)`. -/
def copyout (P : KParams) (s : Kmem) (pagetable dstva : Nat) (src : Nat → Nat) (len : Nat) :
    Except Fail (Int × Kmem) :=
  copyoutLoop P pagetable (len + 1) s dstva src len

/-- The `while` loop of `copyin`; `dst` holds the bytes copied so far. -/
def copyinLoop (P : KParams) (s : Kmem) (pagetable : Nat) :
    Nat → Nat → Nat → List Nat → Except Fail (Int × List Nat)
  | 0, _, _, _ => .error .fuel
  | fuel + 1, srcva, len, dst =>
    if len > 0 then
      let va0 := PGROUNDDOWN srcva
      let pa0 := walkaddr P s pagetable va0
      if pa0 = 0 then .ok (-1, dst)
      else
        let n := if PGSIZE - (srcva - va0) > len then len else PGSIZE - (srcva - va0)
        copyinLoop P s pagetable fuel (va0 + PGSIZE) (len - n)
          (dst ++ loadBytes s.mem (pa0 + (srcva - va0)) n)
    else .ok (0, dst)

/-- `copyin(pagetable, dst, srcva, len)`: the value returned and the bytes
stored in `dst`. -/
def copyin (P : KParams) (s : Kmem) (pagetable srcva len : Nat) : Except Fail (Int × List Nat) :=
  copyinLoop P s pagetable (len + 1) srcva len []

/-- The inner `while (n > 0)` of `copyinstr` from the physical address `p`:
whether the zero byte was met, the bytes stored in `dst`, and `max`
afterwards. -/
def copyinstrInner (m : Mem) : Nat → Nat → Nat → List Nat → Bool × List Nat × Nat
  | 0, _, max, dst => (false, dst, max)
  | n + 1, p, max, dst =>
    if m p = 0 then (true, dst ++ [0], max)
    else copyinstrInner m n (p + 1) (max - 1) (dst ++ [m p])

/-- The outer `while (got_null == 0 && max > 0)` of `copyinstr`. -/
def copyinstrLoop (P : KParams) (s : Kmem) (pagetable : Nat) :
    Nat → Nat → Nat → List Nat → Except Fail (Int × List Nat)
  | 0, _, _, _ => .error .fuel
  | fuel + 1, srcva, max, dst =>
    if max > 0 then
      let va0 := PGROUNDDOWN srcva
      let pa0 := walkaddr P s pagetable va0
      if pa0 = 0 then .ok (-1, dst)
      else
        let n := if PGSIZE - (srcva - va0) > max then max else PGSIZE - (srcva - va0)
        let r := copyinstrInner s.mem n (pa0 + (srcva - va0)) max dst
        if r.1 then .ok (0, r.2.1)
        else copyinstrLoop P s pagetable fuel (va0 + PGSIZE) r.2.2 r.2.1
    else .ok (-1, dst)

/-- `copyinstr(pagetable, dst, srcva, max)`: the value returned and the bytes
stored in `dst`. -/
def copyinstr (P : KParams) (s : Kmem) (pagetable srcva max : Nat) :
    Except Fail (Int × List Nat) :=
  copyinstrLoop P s pagetable (max + 1) srcva max []

/-- A machine with nine managed pages, `0x80001000 .. 0x80009000`. -/
def vmK : KParams where
  kend := 0x80001000
  PHYSTOP := 0x8000A000
  PGNUMS := 10
  PGIDX := fun pa => (pa - 0x80000000) / 4096
  kend_pos := by decide
  PHYSTOP_lt := by decide
  PGIDX_lt := by intro pa h1 h2 h3; simp only [PGSIZE] at h1; show (pa - 0x80000000) / 4096 < 10; omega
  PGIDX_inj := by
    intro pa pb h1 h2 h3 h4 h5 h6 h7
    simp only [PGSIZE] at h1 h2
    have h7' : (pa - 0x80000000) / 4096 = (pb - 0x80000000) / 4096 := h7
    omega

/-- The nine-page machine after `kinit` on zeroed memory. -/
def vmBoot : Kmem :=
  (kinit vmK (fun _ => 0)).getD { freelist := [], kmemref := fun _ => 0, mem := fun _ => 0 }

/-- The root of the table that `uvmcreate` makes on `vmBoot`. -/
def vmRoot : Nat := (uvmcreate vmK vmBoot).1

/-- The state after that `uvmcreate`: an empty table, eight free pages. -/
def vmState : Kmem := (uvmcreate vmK vmBoot).2

/-- The state after growing the table `vmRoot` from 0 to two pages. -/
def vmGrown : Kmem :=
  match uvmalloc vmK vmState vmRoot 0 8192 PTE_W with
  | .ok (_, s) => s
  | .error _ => vmState

/-- The root of a second table, made by `uvmcreate` on `vmGrown`. -/
def vmNew : Nat := (uvmcreate vmK vmGrown).1

/-- The state after the second `uvmcreate`: the table `vmRoot` maps two
pages, the table `vmNew` is empty, three pages are free. -/
def vmTwo : Kmem := (uvmcreate vmK vmGrown).2

/-! ## Page tables as seen in memory -/

/-- Entry `i` of the page-table page at `t`. -/
def pteAt (m : Mem) (t i : Nat) : Nat := read64 m (t + 8 * i)

/-- The page that entry `i` of the page-table page `t` points to, when the
entry is valid. -/
def child (m : Mem) (t i : Nat) : Option Nat :=
  if pteAt m t i &&& PTE_V ≠ 0 then some (PTE2PA (pteAt m t i)) else none

/-- The pages that the valid entries of the page-table page `t` point to. -/
@[irreducible] def kids (m : Mem) (t : Nat) : List Nat :=
  (List.range 512).filterMap (child m t)

/-- The page-table pages of the table rooted at `root`: the root, the level-1
pages and the level-0 pages. -/
def tablePages (m : Mem) (root : Nat) : List Nat :=
  root :: (kids m root ++ (kids m root).flatMap (kids m))

/-- The pointer that `walk` without allocation returns, as a function of
memory. -/
def walkp (m : Mem) (va : Nat) : Nat → Nat → Nat
  | 0, t => t + 8 * PX 0 va
  | l + 1, t =>
    if pteAt m t (PX (l + 1) va) &&& PTE_V ≠ 0 then
      walkp m va l (PTE2PA (pteAt m t (PX (l + 1) va)))
    else 0

/-- The level-0 entry of `va` in the table rooted at `root` (meaningful when
`walkp` is not 0). -/
def leafPte (m : Mem) (root va : Nat) : Nat := read64 m (walkp m va 2 root)

/-- The address `va` has a valid level-0 entry. -/
def mapped (m : Mem) (root va : Nat) : Prop :=
  walkp m va 2 root ≠ 0 ∧ leafPte m root va &&& PTE_V ≠ 0

instance (m : Mem) (root va : Nat) : Decidable (mapped m root va) := by
  unfold mapped; infer_instance

/-- Well-formed allocator and page table: the free list holds distinct managed
pages; the page-table pages of `root` are distinct, page-aligned, not at
address 0 and not on the free list. -/
structure WfPT (P : KParams) (s : Kmem) (root : Nat) : Prop where
  fl_nodup : s.freelist.Nodup
  fl_managed : ∀ p ∈ s.freelist, managed P p
  root_aligned : root % PGSIZE = 0
  tp_nodup : (tablePages s.mem root).Nodup
  tp_pos : ∀ t ∈ tablePages s.mem root, 0 < t
  tp_fl : ∀ t ∈ tablePages s.mem root, t ∉ s.freelist

/-- Accounting of the pages in use by one call: `held` are the data pages
taken from the free list and not given back; together with the free list and
the page-table pages of `root` they make up `pool`. -/
structure Held (P : KParams) (pool : List Nat) (s : Kmem) (root : Nat) (held : List Nat) :
    Prop where
  wf : WfPT P s root
  nodup : held.Nodup
  props : ∀ d ∈ held, managed P d ∧ d ∉ s.freelist ∧ d ∉ tablePages s.mem root ∧
    s.kmemref (P.PGIDX d) = 1
  perm : (held ++ (s.freelist ++ tablePages s.mem root)).Perm pool

/-- The pages `ds` are mapped, in this order, at `a`, `a + PGSIZE`, ...; `q`
holds of each of their entries. -/
def MappedRun (q : Nat → Prop) (m : Mem) (root : Nat) : Nat → List Nat → Prop
  | _, [] => True
  | a, d :: ds =>
    (a < MAXVA ∧ mapped m root a ∧ PTE2PA (leafPte m root a) = d ∧ q (leafPte m root a)) ∧
      MappedRun q m root (a + PGSIZE) ds

/-- Every valid level-0 entry of the table maps one of the pages `ds`. -/
def LeafInv (m : Mem) (root : Nat) (ds : List Nat) : Prop :=
  ∀ va, mapped m root va → PTE2PA (leafPte m root va) ∈ ds

/-- No physical page is mapped by two different level-0 entries. -/
def Uniq (m : Mem) (root : Nat) : Prop :=
  ∀ va va', mapped m root va → mapped m root va' →
    PTE2PA (leafPte m root va) = PTE2PA (leafPte m root va') →
    walkp m va 2 root = walkp m va' 2 root

/-- From `m` to `m'` every level-0 entry that exists keeps its place and its
content, and every level-0 entry that appears is invalid. -/
def LeafPres (m m' : Mem) (root : Nat) : Prop :=
  ∀ va,
    (walkp m va 2 root ≠ 0 →
      walkp m' va 2 root = walkp m va 2 root ∧ leafPte m' root va = leafPte m root va) ∧
    (walkp m va 2 root = 0 → walkp m' va 2 root ≠ 0 → leafPte m' root va &&& PTE_V = 0)

/-- The memory `m'` equals `m` on each of the pages `ts`. -/
def sameOn (m m' : Mem) (ts : List Nat) : Prop :=
  ∀ t ∈ ts, ∀ x, t ≤ x → x < t + PGSIZE → m' x = m x

/-- The state after `walk` has installed the fresh page `r` (the head of the
free list) in the invalid entry at `slot`. -/
def install (P : KParams) (s : Kmem) (slot r : Nat) (rest : List Nat) : Kmem :=
  { freelist := rest
    kmemref := upd s.kmemref (P.PGIDX r) 1
    mem := write64 (memset (memset s.mem r 5 PGSIZE) r 0 PGSIZE) slot (PA2PTE r ||| PTE_V) }

/-- The flags of an entry are not `PTE_V` alone (`uvmunmap` takes such an
entry for a pointer to a page-table page and panics). -/
def leafFlags (e : Nat) : Prop := PTE_FLAGS e ≠ PTE_V

/-- The byte that the table `pagetable` gives for the virtual address `va`:
the byte at the offset of `va` in the physical page that `walkaddr` finds for
the page of `va`. -/
def userByte (P : KParams) (s : Kmem) (pagetable va : Nat) : Nat :=
  s.mem (walkaddr P s pagetable (PGROUNDDOWN va) + va % PGSIZE)

/-- A hand-built table at `0x80001000` with a level-1 page at `0x80002000` and
a level-0 page at `0x80003000`, whose entries 0 and 1 are `e0` and `e1`. -/
def handTable (e0 e1 : Nat) : Kmem where
  freelist := []
  kmemref := fun _ => 1
  mem := write64 (write64 (write64 (write64 (fun _ => 0)
    0x80001000 (PA2PTE 0x80002000 ||| PTE_V))
    0x80002000 (PA2PTE 0x80003000 ||| PTE_V))
    0x80003000 e0)
    0x80003008 e1

/-- The page at `va0` is valid, user-accessible and mapped to a physical
address other than 0 (the value `walkaddr` uses for "not mapped"). -/
def userPage (m : Mem) (pagetable va0 : Nat) : Prop :=
  va0 < MAXVA ∧ mapped m pagetable va0 ∧ leafPte m pagetable va0 &&& PTE_U ≠ 0 ∧
    PTE2PA (leafPte m pagetable va0) ≠ 0

instance (m : Mem) (pagetable va0 : Nat) : Decidable (userPage m pagetable va0) := by
  unfold userPage; infer_instance

/-- The page at `va0` is below `MAXVA` and has a level-0 entry that is valid,
user-accessible and writable: what `copyout` asks of a destination page. -/
def writablePage (m : Mem) (pagetable va0 : Nat) : Prop :=
  va0 < MAXVA ∧ mapped m pagetable va0 ∧ leafPte m pagetable va0 &&& PTE_U ≠ 0 ∧
    leafPte m pagetable va0 &&& PTE_W ≠ 0

instance (m : Mem) (pagetable va0 : Nat) : Decidable (writablePage m pagetable va0) := by
  unfold writablePage; infer_instance

/-! ## vm.c: the mmap reservation bitmap and `sys_mmap` -/

/-- Constants of the mmap area (`memlayout.h` / `param.h`, not among the
sources): the number of page slots and the base address. -/
structure MParams where
  NMMAPPAGE : Nat
  MMAPBASE : Nat

/-- Modelled from the spec: `fcntl.h` is not among the sources; the protection
and sharing bits of the map request, with the values of the xv6 mmap lab. -/
def PROT_READ : Nat := 1

/-- Modelled from the spec: write-access bit of the protection flags
(`fcntl.h`, missing). -/
def PROT_WRITE : Nat := 2

/-- Modelled from the spec: shared-writeback bit of the sharing mode
(`fcntl.h`, missing). -/
def MAP_SHARED : Nat := 1

/-- Modelled from the spec: private-copy bit of the sharing mode (`fcntl.h`,
missing). -/
def MAP_PRIVATE : Nat := 2

/-- The value of `m = 1 << k` for `0 <= k < 64`, `m` being `uint64` and `1`
an `int`: the shift is a 32-bit shift whose result is sign-extended. For
`k < 31` it is `2 ^ k`; for `k = 31` it is `INT_MIN`, that is
`0xFFFFFFFF80000000` as `uint64`; for `k >= 32` (undefined in C) the RV64
instruction `sllw` uses the low five bits of `k`. -/
def shl1 (k : Nat) : Nat :=
  if k % 32 = 31 then 0xFFFFFFFF80000000 else 2 ^ (k % 32)

/-- The `uint64` complement `~m`. -/
def not64 (m : Nat) : Nat := (2 ^ 64 - 1) ^^^ m

/-- The loop of `mark_freespace`, `n = end - start` iterations left. -/
def markLoop (bm : Nat → Nat) : Nat → Nat → Nat → Nat
  | 0, _ => bm
  | n + 1, start =>
    markLoop (upd bm (start / 64) (bm (start / 64) ||| shl1 (start % 64))) n (start + 1)

/-- `mark_freespace(start, end)` on the bitmap of the current process. -/
def mark_freespace (bm : Nat → Nat) (start e : Nat) : Nat → Nat :=
  markLoop bm (e - start) start

/-- The `for` loop of `alloc_freespace`; `r = NMMAPPAGE - end` iterations are
left. The test `end - start + 1 == n` is on `int`s with `start <= end + 1`. -/
def allocLoop (M : MParams) (bm : Nat → Nat) (n : Nat) : Nat → Nat → Nat → Nat × (Nat → Nat)
  | 0, _, _ => (0, bm)
  | r + 1, start, e =>
    let start1 := if bm (e / 64) &&& shl1 (e % 64) ≠ 0 then e + 1 else start
    if e + 1 - start1 = n then
      (M.MMAPBASE + start1 * PGSIZE, mark_freespace bm start1 (e + 1))
    else allocLoop M bm n r start1 (e + 1)

/-- `alloc_freespace(size)`, `size` being a C `uint`: the address returned
(0 on failure) and the bitmap afterwards. -/
def alloc_freespace (M : MParams) (bm : Nat → Nat) (size : Nat) : Nat × (Nat → Nat) :=
  if size = 0 ∨ size % PGSIZE ≠ 0 ∨ size > M.NMMAPPAGE * PGSIZE then (0, bm)
  else allocLoop M bm (size / PGSIZE) M.NMMAPPAGE 0 0

/-- The loop of `dealloc_freespace`, `n = end - start` iterations left: the
value returned and the bitmap afterwards. -/
def deallocLoop : (Nat → Nat) → Nat → Nat → Int × (Nat → Nat)
  | bm, 0, _ => (0, bm)
  | bm, n + 1, start =>
    if bm (start / 64) &&& shl1 (start % 64) = 0 then (-1, bm)
    else deallocLoop (upd bm (start / 64) (bm (start / 64) &&& not64 (shl1 (start % 64)))) n
      (start + 1)

/-- `dealloc_freespace(base, size)`, `size` being a C `uint` and `start`,
`end` C `int`s (the error test before the loop only prints). -/
def dealloc_freespace (M : MParams) (bm : Nat → Nat) (base size : Nat) : Int × (Nat → Nat) :=
  let start := u32 (u64 (base + 2 ^ 64 - M.MMAPBASE) / PGSIZE)
  deallocLoop bm (size / PGSIZE) start

/-- The fields of `struct file` (`file.h`, not among the sources) that the
mmap code uses. -/
structure File where
  ref : Int
  readable : Bool
  writable : Bool
  size : Nat
  content : Nat → Nat

/-- `struct vma`. -/
structure Vma where
  addr : Nat
  len : Nat
  prot : Nat
  flags : Nat
  f : Nat
  valid : Nat

/-- The fields of `struct proc` that the mmap code uses, together with the
open-file objects, addressed by their pointers. -/
structure Proc where
  mmapbitmap : Nat → Nat
  vma : List Vma
  ofile : Nat → Nat
  files : Nat → File
  pagetable : Nat
  killed : Nat

/-- Modelled from the spec: `filedup` of `file.c` (missing) "duplicates the
file's reference": the count of the file goes up by one. -/
def filedup (p : Proc) (f : Nat) : Proc :=
  { p with files := upd p.files f { (p.files f) with ref := (p.files f).ref + 1 } }

/-- Modelled from the spec: `fileclose` of `file.c` (missing) "drops the file
reference": the count of the file goes down by one. -/
def fileclose (p : Proc) (f : Nat) : Proc :=
  { p with files := upd p.files f { (p.files f) with ref := (p.files f).ref - 1 } }

/-- The value `-1` returned as `uint64`. -/
def minus1 : Nat := 2 ^ 64 - 1

/-- `sys_mmap()`, its six arguments as fetched by `argaddr` / `argint`: the
value returned and the process afterwards. -/
def sys_mmap (M : MParams) (p : Proc) (addr len prot flags fd : Nat) (_offset : Nat) :
    Nat × Proc :=
  if addr ≠ 0 then (minus1, p)
  else
    let f := p.ofile fd
    if f = 0 then (minus1, p)
    else if !(p.files f).writable ∧ prot &&& PROT_WRITE ≠ 0 ∧ flags &&& MAP_PRIVATE = 0 then
      (minus1, p)
    else
      let p1 := filedup p f
      let r := alloc_freespace M p1.mmapbitmap (u32 len)
      if r.1 = 0 then (minus1, fileclose p1 f)
      else
        let p2 := { p1 with mmapbitmap := r.2 }
        match p2.vma.findIdx? (fun v => v.valid == 0) with
        | none =>
          let d := dealloc_freespace M p2.mmapbitmap r.1 (u32 len)
          (minus1, fileclose { p2 with mmapbitmap := d.2 } f)
        | some i =>
          let v : Vma := { addr := r.1, len := len, prot := prot, flags := flags, f := f, valid := 1 }
          (r.1, { p2 with vma := p2.vma.set i v })

/-- The mmap area assumed in the examples: 256 page slots (four bitmap words)
from `0x3000000000`. -/
def mmapArea : MParams := { NMMAPPAGE := 256, MMAPBASE := 0x3000000000 }

/-- A process with an empty bitmap, four free regions, and the readable and
writable file `7` open as descriptor 3. -/
def freshProc : Proc where
  mmapbitmap := fun _ => 0
  vma := List.replicate 4 { addr := 0, len := 0, prot := 0, flags := 0, f := 0, valid := 0 }
  ofile := fun fd => if fd = 3 then 7 else 0
  files := fun _ => { ref := 1, readable := true, writable := true, size := 8192,
                      content := fun _ => 0 }
  pagetable := 0
  killed := 0


/-! ## vm.c: `sys_munmap`, `free_vma` and the fault handler `uvmcoe` -/

/-- Modelled from the spec: `kill` of `proc.c` (missing) "initiates process
termination": the process is marked as killed. -/
def kill (p : Proc) : Proc := { p with killed := 1 }

/-- Modelled from the spec: `readi(ip, 0, dst, off, n)` of `fs.c` (missing),
"read-bytes-at-offset(file, buffer, offset, length) -> bytes actually read",
into the kernel address `dst`: the bytes of the file from `off`, as many of the
`n` as lie below the file size; the number read and the memory afterwards. -/
def readi (m : Mem) (f : File) (dst off n : Nat) : Nat × Mem :=
  let k := if off > f.size then 0 else if off + n > f.size then f.size - off else n
  (k, memmoveIn m dst (fun i => f.content (off + i)) k)

/-- Modelled from the spec: `writei(ip, 1, src, off, n)` of `fs.c` (missing),
"write-bytes-at-offset(file, buffer, offset, length) -> bytes actually
written", from the user address `src`: the bytes are fetched with `copyin`
through the page table of the process; when that fails nothing is written.
The number written and the file afterwards. -/
def writei (P : KParams) (s : Kmem) (pagetable : Nat) (f : File) (src off n : Nat) :
    Nat × File :=
  match copyin P s pagetable src n with
  | .ok (0, bytes) =>
    (n, { f with
          content := fun i => if off ≤ i ∧ i < off + n then bytes.getD (i - off) 0
                              else f.content i
          size := if off + n > f.size then off + n else f.size })
  | _ => (0, f)

/-- The first region of the table that satisfies `c`, with its index (the
pointer `vp` after the search loops of `sys_munmap` and `uvmcoe`). -/
def findVma (c : Vma → Bool) : List Vma → Option (Nat × Vma)
  | [] => none
  | v :: vs => if c v then some (0, v) else (findVma c vs).map (fun r => (r.1 + 1, r.2))

/-- The loop of `free_vma` from `addr` to `lim = vp->addr + vp->len`: whether
every slot tested is clear. -/
def freeVmaLoop (M : MParams) (TRAPFRAME : Nat) (bm : Nat → Nat) (lim : Nat) :
    Nat → Nat → Except Fail Bool
  | 0, _ => .error .fuel
  | fuel + 1, addr =>
    if addr < lim then
      if addr < M.MMAPBASE ∨ addr ≥ TRAPFRAME then .error .panic
      else
        let mmi := (addr - M.MMAPBASE) / PGSIZE
        if bm (mmi / 64) &&& shl1 (mmi % 64) ≠ 0 then .ok false
        else freeVmaLoop M TRAPFRAME bm lim fuel (u64 (addr + PGSIZE))
    else .ok true

/-- `free_vma(p, vp)`, `vp` being region `i` of the process; `TRAPFRAME` is a
constant of `memlayout.h` (not among the sources). -/
def free_vma (M : MParams) (TRAPFRAME : Nat) (p : Proc) (i : Nat) (vp : Vma) :
    Except Fail Proc :=
  match freeVmaLoop M TRAPFRAME p.mmapbitmap (u64 (vp.addr + vp.len)) (vp.len / PGSIZE + 2)
      vp.addr with
  | .error e => .error e
  | .ok clean =>
    if clean then .ok (fileclose { p with vma := p.vma.set i { vp with valid := 0 } } vp.f)
    else .ok p

/-- The write-back loop of `sys_munmap` for the file `fid` (`ip = vp->f->ip`):
whether every `writei` wrote `writelen` bytes, and the files afterwards. -/
def writebackLoop (P : KParams) (s : Kmem) (pagetable addr len fid : Nat) :
    Nat → Nat → (Nat → File) → Except Fail (Bool × (Nat → File))
  | 0, _, _ => .error .fuel
  | fuel + 1, off, files =>
    if off < len ∧ off < (files fid).size then
      let writelen := if PGSIZE < (files fid).size - off then PGSIZE else (files fid).size - off
      let r := writei P s pagetable (files fid) (u64 (addr + off)) (u32 off) (u32 writelen)
      if r.1 ≠ writelen then .ok (false, upd files fid r.2)
      else writebackLoop P s pagetable addr len fid fuel (u64 (off + PGSIZE)) (upd files fid r.2)
    else .ok (true, files)

/-- The last loop of `sys_munmap`: every page of the range for which `walk`
finds a level-0 entry is unmapped and freed. -/
def munmapLoop (P : KParams) (pagetable lim : Nat) : Nat → Nat → Kmem → Except Fail Kmem
  | 0, _, _ => .error .fuel
  | fuel + 1, va, s =>
    if va < lim then
      match walk P s pagetable va false with
      | .error e => .error e
      | .ok (pte, s1) =>
        match (if pte ≠ 0 then uvmunmap P s1 pagetable va 1 true else .ok s1) with
        | .error e => .error e
        | .ok s2 => munmapLoop P pagetable lim fuel (u64 (va + PGSIZE)) s2
    else .ok s

/-- `sys_munmap()`, its two arguments as fetched by `argaddr`: the value
returned, the process and the kernel memory afterwards. -/
def sys_munmap (P : KParams) (M : MParams) (TRAPFRAME : Nat) (p : Proc) (s : Kmem)
    (addr len : Nat) : Except Fail (Nat × Proc × Kmem) :=
  if addr < M.MMAPBASE ∨ u64 (addr + len) ≤ addr ∨ u64 (addr + len) ≥ TRAPFRAME ∨
      addr % PGSIZE ≠ 0 ∨ len % PGSIZE ≠ 0 then .ok (minus1, p, s)
  else
    match findVma (fun v => decide (v.valid ≠ 0 ∧ addr ≥ v.addr ∧
        u64 (addr + len) ≤ u64 (v.addr + v.len))) p.vma with
    | none => .ok (minus1, p, s)
    | some (i, vp) =>
      let d := dealloc_freespace M p.mmapbitmap addr (u32 len)
      let p1 := { p with mmapbitmap := d.2 }
      match (if vp.flags &&& MAP_SHARED ≠ 0 then
          writebackLoop P s p1.pagetable addr len vp.f (len / PGSIZE + 1)
            (u64 (addr + 2 ^ 64 - vp.addr)) p1.files
        else .ok (true, p1.files)) with
      | .error e => .error e
      | .ok (written, files) =>
        let p2 := { p1 with files := files }
        if !written then .ok (minus1, p2, s)
        else
          match munmapLoop P p2.pagetable (u64 (addr + len)) (len / PGSIZE + 1) addr s with
          | .error e => .error e
          | .ok s1 =>
            match free_vma M TRAPFRAME p2 i vp with
            | .error e => .error e
            | .ok p3 => .ok (0, p3, s1)

/-- `uvmcoe(va)`: the value returned, the process and the kernel memory
afterwards. `mmi` and `off` are C `int`s, `ip->size` a `uint`. -/
def uvmcoe (P : KParams) (M : MParams) (p : Proc) (s : Kmem) (va : Nat) :
    Except Fail (Int × Proc × Kmem) :=
  let va := PGROUNDDOWN va
  match findVma (fun v => decide (v.valid ≠ 0 ∧ va ≥ v.addr ∧ va < u64 (v.addr + v.len)))
      p.vma with
  | none => .ok (-2, p, s)
  | some (_, vp) =>
    let mmi := u64 (va + 2 ^ 64 - M.MMAPBASE) % PGSIZE
    let m := shl1 (mmi % 64)
    if p.mmapbitmap (mmi / 64) &&& m = 0 then .error .panic
    else
      let r := kalloc P s
      if r.1 = 0 then .ok (-1, kill p, r.2)
      else
        let ip := p.files vp.f
        let off := u32 (u64 (va + 2 ^ 64 - vp.addr))
        let copylen := if off ≥ ip.size then 0
          else if ip.size - off < PGSIZE then ip.size - off else PGSIZE
        let rd := readi r.2.mem ip r.1 off copylen
        if rd.1 ≠ copylen then
          match kfree P { r.2 with mem := rd.2 } r.1 with
          | none => .error .panic
          | some s1 => .ok (-1, kill p, s1)
        else
          let m1 := if copylen < PGSIZE then memset rd.2 (r.1 + copylen) 0 (PGSIZE - copylen)
            else rd.2
          let flags := if vp.prot &&& PROT_WRITE ≠ 0 then PTE_V ||| PTE_U ||| PTE_R ||| PTE_W
            else PTE_V ||| PTE_U ||| PTE_R
          match mappages P { r.2 with mem := m1 } p.pagetable va PGSIZE r.1 flags with
          | .error e => .error e
          | .ok (rc, s3) =>
            if rc = 1 then
              match kfree P s3 r.1 with
              | none => .error .panic
              | some s4 => .ok (-1, kill p, s4)
            else
              let bm := upd p.mmapbitmap (mmi / 64) (p.mmapbitmap (mmi / 64) ||| m)
              .ok (0, { p with mmapbitmap := bm }, s3)

/-- Modelled from the spec: `TRAPFRAME` of `memlayout.h` (missing), taken in
the examples as the page below the trampoline page at the top of the address
space. -/
def trapframe : Nat := MAXVA - 2 * PGSIZE

/-- The process `freshProc` with the page table `vmRoot` of the nine-page
machine. -/
def vmProc : Proc := { freshProc with pagetable := vmRoot }

/-- The process `vmProc` after four `sys_mmap` calls of one page each: the
four regions of the process are in use, at slots 0 to 3 of the mmap area. -/
def fourRegions : Proc :=
  (List.range 4).foldl
    (fun p _ => (sys_mmap mmapArea p 0 PGSIZE PROT_READ MAP_PRIVATE 3 0).2) vmProc

/-- The state `vmTwo` after one more `kalloc`: two pages are free. -/
def vmLow : Kmem := (kalloc vmK vmTwo).2

/-- The process `vmProc` after `sys_mmap` of one page with protection `prot`
and sharing mode `flags`, and the nine-page machine after `uvmcoe` has brought
that page in (a fault at the first address of the region). -/
def faulted (prot flags : Nat) : Proc × Kmem :=
  match uvmcoe vmK mmapArea (sys_mmap mmapArea vmProc 0 PGSIZE prot flags 3 0).2 vmState
      mmapArea.MMAPBASE with
  | .ok (_, p, s) => (p, s)
  | .error _ => (vmProc, vmState)

/-- The machine of `faulted` after the user has stored the bytes 9, 9, 9 at
the start of the page (`copyout` stands for the user's stores). -/
def dirtied (prot flags : Nat) : Kmem :=
  match copyout vmK (faulted prot flags).2 vmRoot mmapArea.MMAPBASE (fun _ => 9) 3 with
  | .ok (_, s) => s
  | .error _ => vmState

/-! ## Leaf mappings before and after a call -/

/-- The tables `m` and `m'` have the same leaf mappings: the same addresses
have a valid level-0 entry, and the entries are equal. -/
def SameLeaves (m m' : Mem) (root : Nat) : Prop :=
  ∀ va, (mapped m' root va ↔ mapped m root va) ∧
    (mapped m root va → leafPte m' root va = leafPte m root va)

/-- The level-0 entry of `va` is the entry of one of the `k` pages from
`a0`. -/
def RunSlot (m : Mem) (root a0 k va : Nat) : Prop :=
  ∃ j, j < k ∧ walkp m va 2 root = walkp m (a0 + j * PGSIZE) 2 root

/-- The table `m` is the table `m0` grown by the `k` pages from `a0`: walks
that existed are as before, the entries of the run were not mapped in `m0`,
every other entry that existed has its old content and every other entry that
has appeared is invalid. -/
structure GrowInv (m0 m : Mem) (root a0 k : Nat) : Prop where
  keep : ∀ va, walkp m0 va 2 root ≠ 0 → walkp m va 2 root = walkp m0 va 2 root
  fresh : ∀ va, RunSlot m root a0 k va → ¬ mapped m0 root va
  other : ∀ va, ¬ RunSlot m root a0 k va →
    (walkp m0 va 2 root ≠ 0 → leafPte m root va = leafPte m0 root va) ∧
    (walkp m0 va 2 root = 0 → walkp m va 2 root ≠ 0 → leafPte m root va &&& PTE_V = 0)

/-- The table `m'` is the table `m` with the entries of the `k` pages from `a`
cleared: walks are as before, the entries of the run are invalid, every other
entry has its old content and every other entry that has appeared is
invalid. -/
structure Cleared (m m' : Mem) (root a k : Nat) : Prop where
  keep : ∀ va, walkp m va 2 root ≠ 0 → walkp m' va 2 root = walkp m va 2 root
  zero : ∀ va, RunSlot m root a k va → walkp m va 2 root ≠ 0 →
    leafPte m' root va &&& PTE_V = 0
  other : ∀ va, ¬ RunSlot m root a k va →
    (walkp m va 2 root ≠ 0 → leafPte m' root va = leafPte m root va) ∧
    (walkp m va 2 root = 0 → walkp m' va 2 root ≠ 0 → leafPte m' root va &&& PTE_V = 0)

/-- The address `x` lies in none of the pages `ts`. -/
def Outside (ts : List Nat) (x : Nat) : Prop := ∀ t ∈ ts, ¬ (t ≤ x ∧ x < t + PGSIZE)

/-- The state of `uvmcopy` after the pages `ds` have been copied: they are
held; memory outside the pool (the free list and the destination's page-table
pages at the call) is as it was at the call, `m0`; and page `j` of the source
is mapped in the source, and in the destination to one of the pages `ds`, with
the source's flags and the source page's content. -/
structure CopyInv (P : KParams) (m0 : Mem) (old new : Nat) (pool : List Nat) (s : Kmem)
    (ds : List Nat) : Prop where
  held : Held P pool s new ds
  frame : ∀ x, Outside pool x → s.mem x = m0 x
  copied : ∀ j, j < ds.length → ∃ d, d ∈ ds ∧
    mapped m0 old (j * PGSIZE) ∧ walkp s.mem (j * PGSIZE) 2 new ≠ 0 ∧
    leafPte s.mem new (j * PGSIZE) =
      PA2PTE d ||| PTE_FLAGS (leafPte m0 old (j * PGSIZE)) ||| PTE_V ∧
    ∀ x, x < PGSIZE → s.mem (d + x) = m0 (PTE2PA (leafPte m0 old (j * PGSIZE)) + x)

/-! ## vm.c: examples for `sys_munmap`, and the teardown of a page table -/

/-- The process `vmProc` after `sys_mmap` of a private region of two pages,
and the nine-page machine after `uvmcoe` has brought in the first page of the
region; the second page is never touched. -/
def partlyResident : Proc × Kmem :=
  match uvmcoe vmK mmapArea
      (sys_mmap mmapArea vmProc 0 (2 * PGSIZE) PROT_READ MAP_PRIVATE 3 0).2 vmState
      mmapArea.MMAPBASE with
  | .ok (_, p, s) => (p, s)
  | .error _ => (vmProc, vmState)

/-- `uvmclear(pagetable, va)`: `~PTE_U` is taken in 64 bits. -/
def uvmclear (P : KParams) (s : Kmem) (pagetable va : Nat) : Except Fail Kmem :=
  match walk P s pagetable va false with
  | .error e => .error e
  | .ok (pte, s1) =>
    if pte = 0 then .error .panic
    else .ok { s1 with mem := write64 s1.mem pte (read64 s1.mem pte &&& (2 ^ 64 - 1 - PTE_U)) }

/-- The `for` loop of `freewalk` over the `n` entries from `i` on; `rec` is
the recursive call `freewalk(child)`. -/
def freewalkLoop (rec : Nat → Kmem → Except Fail Kmem) (pagetable : Nat) :
    Nat → Nat → Kmem → Except Fail Kmem
  | 0, _, s => .ok s
  | n + 1, i, s =>
    let pte := read64 s.mem (pagetable + 8 * i)
    if pte &&& PTE_V ≠ 0 ∧ pte &&& (PTE_R ||| PTE_W ||| PTE_X) = 0 then
      match rec (PTE2PA pte) s with
      | .error e => .error e
      | .ok s1 =>
        freewalkLoop rec pagetable n (i + 1) { s1 with mem := write64 s1.mem (pagetable + 8 * i) 0 }
    else if pte &&& PTE_V ≠ 0 then .error .panic
    else freewalkLoop rec pagetable n (i + 1) s

/-- `freewalk(pagetable)`; `fuel` bounds the depth of the recursion. -/
def freewalk (P : KParams) : Nat → Nat → Kmem → Except Fail Kmem
  | 0, _, _ => .error .fuel
  | fuel + 1, pagetable, s =>
    match freewalkLoop (freewalk P fuel) pagetable 512 0 s with
    | .error e => .error e
    | .ok s1 =>
      match kfree P s1 pagetable with
      | none => .error .panic
      | some s2 => .ok s2

/-- `uvmfree(pagetable, sz)`; `fuel` bounds the depth of the recursion of
`freewalk`. -/
def uvmfree (P : KParams) (fuel : Nat) (s : Kmem) (pagetable sz : Nat) : Except Fail Kmem :=
  match (if sz > 0 then uvmunmap P s pagetable 0 (PGROUNDUP sz / PGSIZE) true else .ok s) with
  | .error e => .error e
  | .ok s1 => freewalk P fuel pagetable s1

/-- The page-table pages below and including the page `t` of level `l`, every
page after the pages its entries point to (post-order). -/
def freeOrder (m : Mem) : Nat → Nat → List Nat
  | 0, t => [t]
  | l + 1, t => (kids m t).flatMap (freeOrder m l) ++ [t]

/-- The page `t` of level `l` and the pages below it hold no leaf: a valid
entry above level 0 has none of the bits `PTE_R`, `PTE_W`, `PTE_X`, and the
pages of level 0 hold no valid entry. -/
def Leafless (m : Mem) : Nat → Nat → Prop
  | 0, t => ∀ i, i < 512 → pteAt m t i &&& PTE_V = 0
  | l + 1, t =>
    (∀ i, i < 512 → pteAt m t i &&& PTE_V ≠ 0 →
      pteAt m t i &&& (PTE_R ||| PTE_W ||| PTE_X) = 0) ∧
    ∀ c ∈ kids m t, Leafless m l c

/-- The page-table pages of `root` are managed pages with reference count 1,
and the valid entries of the root and of the level-1 pages have the flags
`PTE_V` alone. -/
structure TabInv (P : KParams) (s : Kmem) (root : Nat) : Prop where
  ent : ∀ t, t = root ∨ t ∈ kids s.mem root → ∀ i, i < 512 → pteAt s.mem t i &&& PTE_V ≠ 0 →
    PTE_FLAGS (pteAt s.mem t i) = PTE_V
  tref : ∀ t ∈ tablePages s.mem root, managed P t ∧ s.kmemref (P.PGIDX t) = 1

/-- The invariant of a table built by `uvmalloc`: the accounting `Held` of the
data pages `held`, the invariant of the table pages, and the leaves: every
valid level-0 entry is readable and maps one of the pages `live`, which are
among `held`, and no page is mapped twice. -/
structure PtInv (P : KParams) (pool : List Nat) (s : Kmem) (root : Nat) (held live : List Nat) :
    Prop where
  acc : Held P pool s root held
  tab : TabInv P s root
  sub : ∀ d ∈ live, d ∈ held
  leaf : LeafInv s.mem root live
  uniq : Uniq s.mem root
  rd : ∀ va, mapped s.mem root va → leafPte s.mem root va &&& PTE_R ≠ 0

/-- The invariant `PtInv` for some lists of pages. -/
def PtOK (P : KParams) (pool : List Nat) (s : Kmem) (root : Nat) : Prop :=
  ∃ held live, PtInv P pool s root held live

/-- One call on a page table; `uvmcopy old sz` is the call
`uvmcopy(old, pagetable, sz)` that copies into the table. -/
inductive PtOp where
  | mappages (va size pa perm : Nat) : PtOp
  | uvmunmap (va npages : Nat) (do_free : Bool) : PtOp
  | uvmalloc (oldsz newsz xperm : Nat) : PtOp
  | uvmdealloc (oldsz newsz : Nat) : PtOp
  | uvmcopy (old sz : Nat) : PtOp
  | uvmclear (va : Nat) : PtOp

/-- The state after one call on the table `pagetable`. -/
def PtOp.run (P : KParams) (pagetable : Nat) (s : Kmem) : PtOp → Except Fail Kmem
  | .mappages va size pa perm => (Xv6.mappages P s pagetable va size pa perm).map (·.2)
  | .uvmunmap va npages do_free => Xv6.uvmunmap P s pagetable va npages do_free
  | .uvmalloc oldsz newsz xperm => (Xv6.uvmalloc P s pagetable oldsz newsz xperm).map (·.2)
  | .uvmdealloc oldsz newsz => (Xv6.uvmdealloc P s pagetable oldsz newsz).map (·.2)
  | .uvmcopy old sz => (Xv6.uvmcopy P s old pagetable sz).map (·.2)
  | .uvmclear va => Xv6.uvmclear P s pagetable va

/-- The state after a sequence of calls on the table `pagetable`, none of
which panics. -/
def runPtOps (P : KParams) (pagetable : Nat) : Kmem → List PtOp → Except Fail Kmem
  | s, [] => .ok s
  | s, op :: ops =>
    match op.run P pagetable s with
    | .error e => .error e
    | .ok s1 => runPtOps P pagetable s1 ops

/-- The bits of an entry that make it a leaf: readable, writable,
executable. -/
def rwxBits : Nat := PTE_R ||| PTE_W ||| PTE_X

/-- The page `x` is in nobody's hands as far as the allocator and the table
`root` go: it is not on the free list, it is not a page-table page of the
table, and no valid level-0 entry of the table maps it. -/
def Loose (s : Kmem) (root x : Nat) : Prop :=
  x ∉ s.freelist ∧ x ∉ tablePages s.mem root ∧
  ∀ va, mapped s.mem root va → PTE2PA (leafPte s.mem root va) ≠ x

/-- The page `x` may be mapped into the table `root` by its caller: it lies
outside the range of the allocator (a device or kernel page that `kfree`
refuses), or it is `Loose`. -/
def Owned (P : KParams) (s : Kmem) (root x : Nat) : Prop :=
  managed P x → Loose s root x

/-- The invariant of a table under `mappages`, `uvmunmap`, `uvmalloc`,
`uvmdealloc`, `uvmcopy` and `uvmclear`: allocator and table are well formed;
the entries of the root and of the level-1 pages have the flags `PTE_V` alone;
a page of the allocator that a valid level-0 entry maps is neither free nor a
page-table page, and no other level-0 entry maps it; and every valid level-0
entry carries one of the bits `PTE_R`, `PTE_W`, `PTE_X`. -/
structure PtSafe (P : KParams) (s : Kmem) (root : Nat) : Prop where
  wf : WfPT P s root
  tab : TabInv P s root
  apart : ∀ va, mapped s.mem root va → managed P (PTE2PA (leafPte s.mem root va)) →
    PTE2PA (leafPte s.mem root va) ∉ s.freelist ∧
      PTE2PA (leafPte s.mem root va) ∉ tablePages s.mem root
  uniq : ∀ va va', mapped s.mem root va → mapped s.mem root va' →
    managed P (PTE2PA (leafPte s.mem root va)) →
    PTE2PA (leafPte s.mem root va) = PTE2PA (leafPte s.mem root va') →
    walkp s.mem va 2 root = walkp s.mem va' 2 root
  rwx : ∀ va, mapped s.mem root va → leafPte s.mem root va &&& rwxBits ≠ 0

/-- The table `old` can be copied from into the table `root`: its page-table
pages are neither free pages nor page-table pages of `root`, and each of its
valid level-0 entries for an address below `sz` carries one of the bits
`PTE_R`, `PTE_W`, `PTE_X`. -/
def CopySource (s : Kmem) (root old sz : Nat) : Prop :=
  old % PGSIZE = 0 ∧
  (∀ t ∈ tablePages s.mem old, t ∉ s.freelist ∧ t ∉ tablePages s.mem root) ∧
  ∀ va, va < sz → mapped s.mem old va → leafPte s.mem old va &&& rwxBits ≠ 0

/-- What the caller of a call on the table `pagetable` respects. `mappages`:
the permissions lie inside the ten flag bits of an entry and include one of
`PTE_R`, `PTE_W`, `PTE_X`, and each page mapped is a page the caller owns.
`uvmalloc`: the extra permissions lie inside the ten flag bits. `uvmcopy`: the
source is a table apart from the destination whose entries carry one of
`PTE_R`, `PTE_W`, `PTE_X`. The other calls: nothing. -/
def PtOp.safe (P : KParams) (pagetable : Nat) (s : Kmem) : PtOp → Prop
  | .mappages _ size pa perm =>
    perm < 1024 ∧ perm &&& rwxBits ≠ 0 ∧ pa + size ≤ 2 ^ 64 ∧
      ∀ k, k < size / PGSIZE → Owned P s pagetable (PGROUNDDOWN (pa + k * PGSIZE))
  | .uvmalloc _ _ xperm => xperm < 1024
  | .uvmcopy old sz => CopySource s pagetable old sz
  | _ => True

/-- The states of a table: `PtReach P root s` holds when `root` is the table
that `uvmcreate` returned on an allocator whose free list holds distinct
managed pages, and `s` is the state after a sequence of calls on that table
of which none panics and each is `safe` in the state it is made in. -/
inductive PtReach (P : KParams) : Nat → Kmem → Prop
  | create (s0 : Kmem) : s0.freelist.Nodup → (∀ p ∈ s0.freelist, managed P p) →
      (uvmcreate P s0).1 ≠ 0 → PtReach P (uvmcreate P s0).1 (uvmcreate P s0).2
  | call (root : Nat) (s : Kmem) (op : PtOp) (s' : Kmem) : PtReach P root s →
      op.safe P root s → op.run P root s = .ok s' → PtReach P root s'

/-- The permission bits of an entry: readable, writable, executable,
user-accessible. -/
def permBits : Nat := PTE_R ||| PTE_W ||| PTE_X ||| PTE_U

/-- The invariant of the entries of the table `root`: a valid entry of the
root (level 2) or of a level-1 page carries no permission bit, and a valid
entry of a level-0 page carries at least one. -/
def PermInv (m : Mem) (root : Nat) : Prop :=
  (∀ i, i < 512 → pteAt m root i &&& PTE_V ≠ 0 → pteAt m root i &&& permBits = 0) ∧
  (∀ t1 ∈ kids m root, ∀ i, i < 512 → pteAt m t1 i &&& PTE_V ≠ 0 →
    pteAt m t1 i &&& permBits = 0) ∧
  (∀ t1 ∈ kids m root, ∀ t0 ∈ kids m t1, ∀ i, i < 512 → pteAt m t0 i &&& PTE_V ≠ 0 →
    pteAt m t0 i &&& permBits ≠ 0)

/-- The nine-page machine after `mappages(vmRoot, 0, PGSIZE, 0x87000000, 0)` on
the empty table `vmRoot`: one page mapped with no permission at all. -/
def vmBare : Kmem :=
  match mappages vmK vmState vmRoot 0 PGSIZE 0x87000000 0 with
  | .ok (_, s) => s
  | .error _ => vmState

/-- The nine-page machine after `mappages(vmRoot, 0, PGSIZE, 0x87000000,
PTE_U)` on the empty table `vmRoot` and then `uvmclear(vmRoot, 0)`. -/
def vmGuard : Kmem :=
  match mappages vmK vmState vmRoot 0 PGSIZE 0x87000000 PTE_U with
  | .ok (_, s) =>
    (match uvmclear vmK s vmRoot 0 with
      | .ok s1 => s1
      | .error _ => vmState)
  | .error _ => vmState


/-- The nine-page machine after `mappages(vmRoot, 0, PGSIZE, 0x87000000,
PTE_R)`, for which `walk` takes the pages `0x80008000` and `0x80007000` from
the free list as level-1 and level-0 page, then `mappages(vmRoot, 4096,
PGSIZE, 0x80007000, PTE_R)`, which maps that level-0 page as if it were a data
page, and `uvmunmap(vmRoot, 4096, 1, 1)`, which frees it. -/
def vmAlias : Kmem :=
  match runPtOps vmK vmRoot vmState [.mappages 0 PGSIZE 0x87000000 PTE_R,
      .mappages 4096 PGSIZE 0x80007000 PTE_R, .uvmunmap 4096 1 true] with
  | .ok s => s
  | .error _ => vmState

/-- The nine-page machine after `mappages(vmRoot, 0, PGSIZE, 0x87000000,
PTE_U)` on the empty table `vmRoot` and a second `uvmcreate`: the root of the
second table (`0x80006000`) and the state. -/
def vmSecond : Nat × Kmem :=
  match mappages vmK vmState vmRoot 0 PGSIZE 0x87000000 PTE_U with
  | .ok (_, s) => uvmcreate vmK s
  | .error _ => (0, vmState)

/-- The state `vmSecond` after `uvmcopy(vmRoot, root2, PGSIZE)` into the second
table and `uvmclear(root2, 0)`. -/
def vmCopied : Kmem :=
  match runPtOps vmK vmSecond.1 vmSecond.2 [.uvmcopy vmRoot PGSIZE, .uvmclear 0] with
  | .ok s => s
  | .error _ => vmState

/-- The page-table pages below the entries `i`, ..., `i + n - 1` of the page
`t` of level `l + 1`, in the order in which `freewalk` frees them. -/
def entriesBelow (m : Mem) (l t i n : Nat) : List Nat :=
  ((List.range' i n).filterMap (child m t)).flatMap (freeOrder m l)

/-- What `freewalk` does on a page of level `l` that holds no leaf and whose
pages are distinct managed pages with reference count 1: the pages go to the
free list, every page after the pages below it, and memory and reference
counts of other pages are untouched. -/
def FreewalkSpec (P : KParams) (l : Nat) : Prop :=
  ∀ (t : Nat) (s : Kmem) (fuel : Nat), l < fuel → Leafless s.mem l t →
    (freeOrder s.mem l t).Nodup →
    (∀ p ∈ freeOrder s.mem l t, managed P p ∧ s.kmemref (P.PGIDX p) = 1) →
    ∃ s', freewalk P fuel t s = .ok s' ∧
      s'.freelist = (freeOrder s.mem l t).reverse ++ s.freelist ∧
      (∀ x, Outside (freeOrder s.mem l t) x → s'.mem x = s.mem x) ∧
      (∀ p, managed P p → p ∉ freeOrder s.mem l t →
        s'.kmemref (P.PGIDX p) = s.kmemref (P.PGIDX p))
/-! ## The iterations of the loop of `uvmalloc` -/

/-- The states at the test of the `for` loop of `uvmalloc`:
`UvmallocAt P pagetable newsz xperm a0 s0 a s` holds when the loop, entered
with `a = a0` in state `s0`, comes to its test with the loop variable `a` in
state `s`, every iteration before having allocated its page (`kalloc`
returned a page) and mapped it (`mappages` returned 0). -/
inductive UvmallocAt (P : KParams) (pagetable newsz xperm a0 : Nat) (s0 : Kmem) :
    Nat → Kmem → Prop
  | start : UvmallocAt P pagetable newsz xperm a0 s0 a0 s0
  | next (a : Nat) (s s3 : Kmem) :
      UvmallocAt P pagetable newsz xperm a0 s0 a s → a < newsz → (kalloc P s).1 ≠ 0 →
      mappages P { (kalloc P s).2 with mem := memset (kalloc P s).2.mem (kalloc P s).1 0 PGSIZE }
        pagetable a PGSIZE (kalloc P s).1 (PTE_R ||| PTE_U ||| xperm) = .ok (0, s3) →
      UvmallocAt P pagetable newsz xperm a0 s0 (a + PGSIZE) s3

/-- A call fails in the iteration of the loop of `uvmalloc` that starts with
the loop variable `a` in state `s`: `kalloc` returns 0, or `mappages` returns
a value other than 0. -/
def UvmallocFails (P : KParams) (pagetable xperm a : Nat) (s : Kmem) : Prop :=
  (kalloc P s).1 = 0 ∨
  ∃ rc s3, rc ≠ 0 ∧
    mappages P { (kalloc P s).2 with mem := memset (kalloc P s).2.mem (kalloc P s).1 0 PGSIZE }
      pagetable a PGSIZE (kalloc P s).1 (PTE_R ||| PTE_U ||| xperm) = .ok (rc, s3)

/-! ## Allocator: basic facts -/

theorem i32_eq {x : Int} (h1 : -2 ^ 31 ≤ x) (h2 : x < 2 ^ 31) : i32 x = x := by
  unfold i32
  omega

theorem i32_zero : i32 (1 - 1) = 0 := by decide

theorem badpa_eq_false (P : KParams) (pa : Nat) : badpa P pa = false ↔ managed P pa := by
  unfold badpa managed
  simp only [Bool.or_eq_false_iff, bne_eq_false_iff_eq, decide_eq_false_iff_not, not_lt, ge_iff_le,
    not_le]
  tauto

theorem kfree_eq_some {P : KParams} {s s' : Kmem} {pa : Nat} (h : kfree P s pa = some s') :
    managed P pa ∧
    s'.kmemref = upd s.kmemref (P.PGIDX pa) (i32 (s.kmemref (P.PGIDX pa) - 1)) ∧
    ((i32 (s.kmemref (P.PGIDX pa) - 1) = 0 ∧ s'.freelist = pa :: s.freelist ∧
        s'.mem = write64 (memset s.mem pa 1 PGSIZE) pa s.head) ∨
     (i32 (s.kmemref (P.PGIDX pa) - 1) ≠ 0 ∧ s'.freelist = s.freelist ∧ s'.mem = s.mem)) := by
  unfold kfree at h
  by_cases hb : badpa P pa = true
  · simp [hb] at h
  · have hb' : badpa P pa = false := by simpa using hb
    simp only [hb', Bool.false_eq_true, if_false] at h
    refine ⟨(badpa_eq_false P pa).1 hb', ?_⟩
    by_cases hz : i32 (s.kmemref (P.PGIDX pa) - 1) = 0
    · simp only [hz, if_true, Option.some.injEq] at h
      subst h
      exact ⟨by simp [hz], Or.inl ⟨hz, rfl, rfl⟩⟩
    · simp only [hz, if_false, Option.some.injEq] at h
      subst h
      exact ⟨rfl, Or.inr ⟨hz, rfl, rfl⟩⟩

theorem kfree_isSome {P : KParams} (s : Kmem) {pa : Nat} (h : managed P pa) :
    ∃ s', kfree P s pa = some s' := by
  unfold kfree
  rw [(badpa_eq_false P pa).2 h]
  simp only [Bool.false_eq_true, if_false]
  split <;> exact ⟨_, rfl⟩

theorem kalloc_cons (P : KParams) (s : Kmem) (r : Nat) (rest : List Nat)
    (h : s.freelist = r :: rest) :
    kalloc P s = (r, { freelist := rest
                       kmemref := upd s.kmemref (P.PGIDX r) 1
                       mem := memset s.mem r 5 PGSIZE }) := by
  unfold kalloc; rw [h]

theorem kalloc_nil (P : KParams) (s : Kmem) (h : s.freelist = []) : kalloc P s = (0, s) := by
  unfold kalloc; rw [h]

theorem inckmemref_eq_some {P : KParams} {s s' : Kmem} {pa : Nat} {c : Int}
    (h : inckmemref P s pa = some (c, s')) :
    managed P pa ∧ c = i32 (s.kmemref (P.PGIDX pa) + 1) ∧
      s' = { s with kmemref := upd s.kmemref (P.PGIDX pa) (i32 (s.kmemref (P.PGIDX pa) + 1)) } := by
  unfold inckmemref at h
  by_cases hb : badpa P pa = true
  · simp [hb] at h
  · have hb' : badpa P pa = false := by simpa using hb
    simp only [hb', Bool.false_eq_true, if_false, Option.some.injEq, Prod.mk.injEq] at h
    exact ⟨(badpa_eq_false P pa).1 hb', h.1.symm, h.2.symm⟩

theorem deckmemref_eq_some {P : KParams} {s s' : Kmem} {pa : Nat} {c : Int}
    (h : deckmemref P s pa = some (c, s')) :
    managed P pa ∧ c = i32 (s.kmemref (P.PGIDX pa) - 1) ∧
      s' = { s with kmemref := upd s.kmemref (P.PGIDX pa) (i32 (s.kmemref (P.PGIDX pa) - 1)) } := by
  unfold deckmemref at h
  by_cases hb : badpa P pa = true
  · simp [hb] at h
  · have hb' : badpa P pa = false := by simpa using hb
    simp only [hb', Bool.false_eq_true, if_false, Option.some.injEq, Prod.mk.injEq] at h
    exact ⟨(badpa_eq_false P pa).1 hb', h.1.symm, h.2.symm⟩

theorem upd_same {α : Type} (f : Nat → α) (k : Nat) (v : α) : upd f k v k = v := by
  simp [upd]

theorem upd_other {α : Type} (f : Nat → α) (k : Nat) (v : α) (i : Nat) (h : i ≠ k) :
    upd f k v i = f i := by
  simp [upd, h]

/-! ## Allocator: the free-list invariant -/

theorem PGIDX_ne (P : KParams) {p q : Nat} (hp : managed P p) (hq : managed P q) (h : p ≠ q) :
    P.PGIDX p ≠ P.PGIDX q :=
  fun e => h (P.PGIDX_inj p q hp.1 hq.1 hp.2.1 hq.2.1 hp.2.2 hq.2.2 e)

theorem kfree_FreeInv {P : KParams} {s s' : Kmem} {pa : Nat} (hi : FreeInv P s)
    (hpa : pa ∉ s.freelist) (h : kfree P s pa = some s') : FreeInv P s' := by
  obtain ⟨hm, hk, hc⟩ := kfree_eq_some h
  have key : ∀ p ∈ s.freelist, managed P p ∧ s'.kmemref (P.PGIDX p) = 0 := by
    intro p hp
    have hne : p ≠ pa := fun e => hpa (e ▸ hp)
    refine ⟨(hi.2 p hp).1, ?_⟩
    rw [hk, upd_other _ _ _ _ (PGIDX_ne P (hi.2 p hp).1 hm hne)]
    exact (hi.2 p hp).2
  rcases hc with ⟨hz, hf, _⟩ | ⟨_, hf, _⟩
  · refine ⟨?_, ?_⟩
    · rw [hf]; exact List.nodup_cons.2 ⟨hpa, hi.1⟩
    · intro p hp
      rw [hf] at hp
      rcases List.mem_cons.1 hp with e | hp
      · subst e
        exact ⟨hm, by rw [hk, upd_same]; exact hz⟩
      · exact key p hp
  · refine ⟨by rw [hf]; exact hi.1, ?_⟩
    intro p hp
    rw [hf] at hp
    exact key p hp

theorem kalloc_FreeInv {P : KParams} {s : Kmem} (hi : FreeInv P s) : FreeInv P (kalloc P s).2 := by
  cases hf : s.freelist with
  | nil => rw [kalloc_nil P s hf]; exact hi
  | cons r rest =>
    rw [kalloc_cons P s r rest hf]
    have hnd : (r :: rest).Nodup := hf ▸ hi.1
    have hr : r ∉ rest := (List.nodup_cons.1 hnd).1
    refine ⟨(List.nodup_cons.1 hnd).2, ?_⟩
    intro p hp
    have hp' : p ∈ s.freelist := by rw [hf]; exact List.mem_cons_of_mem _ hp
    have hrm : managed P r := (hi.2 r (by rw [hf]; exact List.mem_cons_self _ _)).1
    have hne : p ≠ r := fun e => hr (e ▸ hp)
    refine ⟨(hi.2 p hp').1, ?_⟩
    show upd s.kmemref (P.PGIDX r) 1 (P.PGIDX p) = 0
    rw [upd_other _ _ _ _ (PGIDX_ne P (hi.2 p hp').1 hrm hne)]
    exact (hi.2 p hp').2

theorem inckmemref_FreeInv {P : KParams} {s s' : Kmem} {pa : Nat} {c : Int} (hi : FreeInv P s)
    (hpa : pa ∉ s.freelist) (h : inckmemref P s pa = some (c, s')) : FreeInv P s' := by
  obtain ⟨hm, _, hs⟩ := inckmemref_eq_some h
  subst hs
  refine ⟨hi.1, ?_⟩
  intro p hp
  have hne : p ≠ pa := fun e => hpa (e ▸ hp)
  refine ⟨(hi.2 p hp).1, ?_⟩
  show upd s.kmemref (P.PGIDX pa) _ (P.PGIDX p) = 0
  rw [upd_other _ _ _ _ (PGIDX_ne P (hi.2 p hp).1 hm hne)]
  exact (hi.2 p hp).2

theorem deckmemref_FreeInv {P : KParams} {s s' : Kmem} {pa : Nat} {c : Int} (hi : FreeInv P s)
    (hpa : pa ∉ s.freelist) (h : deckmemref P s pa = some (c, s')) : FreeInv P s' := by
  obtain ⟨hm, _, hs⟩ := deckmemref_eq_some h
  subst hs
  refine ⟨hi.1, ?_⟩
  intro p hp
  have hne : p ≠ pa := fun e => hpa (e ▸ hp)
  refine ⟨(hi.2 p hp).1, ?_⟩
  show upd s.kmemref (P.PGIDX pa) _ (P.PGIDX p) = 0
  rw [upd_other _ _ _ _ (PGIDX_ne P (hi.2 p hp).1 hm hne)]
  exact (hi.2 p hp).2

theorem freerangeLoop_FreeInv (P : KParams) (pa_end : Nat) :
    ∀ (fuel p : Nat) (s s' : Kmem), FreeInv P s → (∀ q ∈ s.freelist, q < p) →
      freerangeLoop P pa_end fuel p s = some s' → FreeInv P s' := by
  intro fuel
  induction fuel with
  | zero => intro p s s' _ _ h; simp [freerangeLoop] at h
  | succ n ih =>
    intro p s s' hi hlt h
    unfold freerangeLoop at h
    by_cases hc : p + PGSIZE ≤ pa_end
    · simp only [hc, if_true] at h
      cases hk : kfree P s p with
      | none => rw [hk] at h; simp at h
      | some s1 =>
        rw [hk] at h
        simp only [Option.some_bind] at h
        have hp : p ∉ s.freelist := fun hm => Nat.lt_irrefl _ (hlt p hm)
        have hi1 := kfree_FreeInv hi hp hk
        refine ih (p + PGSIZE) s1 s' hi1 ?_ h
        intro q hq
        obtain ⟨_, _, hcase⟩ := kfree_eq_some hk
        rcases hcase with ⟨_, hf, _⟩ | ⟨_, hf, _⟩
        · rw [hf] at hq
          rcases List.mem_cons.1 hq with e | hq
          · subst e; simp [PGSIZE]
          · exact Nat.lt_add_right _ (hlt q hq)
        · rw [hf] at hq
          exact Nat.lt_add_right _ (hlt q hq)
    · simp only [hc, if_false, Option.some.injEq] at h
      subst h; exact hi

theorem kinit_FreeInv {P : KParams} {mem0 : Mem} {s : Kmem} (h : kinit P mem0 = some s) :
    FreeInv P s := by
  unfold kinit freerange at h
  refine freerangeLoop_FreeInv P _ _ _ _ _ ?_ ?_ h
  · exact ⟨List.nodup_nil, fun p hp => by simp at hp⟩
  · intro q hq; simp at hq

theorem KReach_FreeInv {P : KParams} {s : Kmem} (h : KReach P offFreelist s) : FreeInv P s := by
  induction h with
  | init mem0 s h => exact kinit_FreeInv h
  | step s op s' _ hok hrun ih =>
    cases op with
    | kalloc =>
      simp only [KOp.run, Option.some.injEq] at hrun
      subst hrun; exact kalloc_FreeInv ih
    | kfree pa => exact kfree_FreeInv ih hok hrun
    | inckmemref pa =>
      simp only [KOp.run, Option.map_eq_some'] at hrun
      obtain ⟨⟨c, s1⟩, h1, h2⟩ := hrun
      simp only at h2; subst h2
      exact inckmemref_FreeInv ih hok h1
    | deckmemref pa =>
      simp only [KOp.run, Option.map_eq_some'] at hrun
      obtain ⟨⟨c, s1⟩, h1, h2⟩ := hrun
      simp only at h2; subst h2
      exact deckmemref_FreeInv ih hok h1

theorem KReach_runOps {P : KParams} {ok : Kmem → KOp → Prop} [∀ s op, Decidable (ok s op)] :
    ∀ (ops : List KOp) (s s' : Kmem), KReach P ok s → runOps P ok s ops = some s' →
      KReach P ok s' := by
  intro ops
  induction ops with
  | nil => intro s s' hs h; simp only [runOps, Option.some.injEq] at h; subst h; exact hs
  | cons op ops ih =>
    intro s s' hs h
    unfold runOps at h
    by_cases hok : ok s op
    · simp only [hok, if_true] at h
      cases hr : op.run P s with
      | none => rw [hr] at h; simp at h
      | some s1 =>
        rw [hr] at h
        exact ih s1 s' (KReach.step s op s1 hs hok hr) h
    · simp [hok] at h

theorem KReach_of_trace {P : KParams} {ok : Kmem → KOp → Prop} [∀ s op, Decidable (ok s op)]
    {mem0 : Mem} {ops : List KOp} {s : Kmem}
    (h : (kinit P mem0).bind (fun s0 => runOps P ok s0 ops) = some s) : KReach P ok s := by
  cases hk : kinit P mem0 with
  | none => rw [hk] at h; simp at h
  | some s0 =>
    rw [hk] at h
    exact KReach_runOps ops s0 s (KReach.init mem0 s0 hk) h

/-- C4 (as stated) fails: after `kinit` on the two-page machine, a call
`inckmemref(0x80002000)` on the page at the head of the free list leaves that
page on the free list with reference count 1. -/
theorem C4_counterexample :
    ∃ s, KReach smallK anyCall s ∧
      (kinit smallK (fun _ => 0)).bind (fun s0 => (KOp.inckmemref 0x80002000).run smallK s0) = some s ∧
      0x80002000 ∈ s.freelist ∧ s.kmemref (smallK.PGIDX 0x80002000) = 1 := by
  have hsome : ((kinit smallK (fun _ => 0)).bind
      (fun s0 => runOps smallK anyCall s0 [KOp.inckmemref 0x80002000])).isSome = true := by decide!
  obtain ⟨s, hs⟩ := Option.isSome_iff_exists.1 hsome
  have h1 : (kinit smallK (fun _ => 0)).bind
      (fun s0 => (KOp.inckmemref 0x80002000).run smallK s0) = some s := by
    rw [← hs]; congr 1
  have h2 : ((kinit smallK (fun _ => 0)).bind
      (fun s0 => (KOp.inckmemref 0x80002000).run smallK s0)).all
        (fun s => decide (0x80002000 ∈ s.freelist ∧ s.kmemref (smallK.PGIDX 0x80002000) = 1))
          = true := by decide!
  rw [h1] at h2
  simp only [Option.all_some, decide_eq_true_eq] at h2
  exact ⟨s, KReach_of_trace hs, h1, h2⟩

/-- C4 (amended): in every state reached after `kinit` by `kalloc` and by
`kfree`, `inckmemref`, `deckmemref` calls on managed pages that are not on the
free list when the call is made, every page on the free list has reference
count exactly zero. -/
theorem C4_freelist_pages_have_count_zero (P : KParams) (s : Kmem)
    (h : KReach P offFreelist s) : ∀ p ∈ s.freelist, s.kmemref (P.PGIDX p) = 0 :=
  fun p hp => ((KReach_FreeInv h).2 p hp).2

/-- C4 witness: `kinit`, `kalloc`, `inckmemref`, `kfree`, `kfree` on the
two-page machine. -/
theorem C4_freelist_pages_have_count_zero_witness :
    ∃ s, (kinit smallK (fun _ => 0)).bind (fun s0 => runOps smallK offFreelist s0
        [KOp.kalloc, KOp.inckmemref 0x80002000, KOp.kfree 0x80002000, KOp.kfree 0x80002000])
          = some s ∧
      s.freelist.length = 2 ∧ ∀ p ∈ s.freelist, s.kmemref (smallK.PGIDX p) = 0 := by
  have hsome : ((kinit smallK (fun _ => 0)).bind (fun s0 => runOps smallK offFreelist s0
        [KOp.kalloc, KOp.inckmemref 0x80002000, KOp.kfree 0x80002000,
          KOp.kfree 0x80002000])).isSome = true := by decide!
  obtain ⟨s, hs⟩ := Option.isSome_iff_exists.1 hsome
  have h2 : ((kinit smallK (fun _ => 0)).bind (fun s0 => runOps smallK offFreelist s0
        [KOp.kalloc, KOp.inckmemref 0x80002000, KOp.kfree 0x80002000,
          KOp.kfree 0x80002000])).all (fun s => decide (s.freelist.length = 2)) = true := by
    decide!
  rw [hs] at h2
  simp only [Option.all_some, decide_eq_true_eq] at h2
  exact ⟨s, hs, h2, C4_freelist_pages_have_count_zero smallK s (KReach_of_trace hs)⟩

/-! ## Memory writes -/

theorem write64_in (m : Mem) (a v x : Nat) (h1 : a ≤ x) (h2 : x < a + 8) :
    write64 m a v x = v / 256 ^ (x - a) % 256 := by
  unfold write64; rw [if_pos ⟨h1, h2⟩]

theorem write64_out (m : Mem) (a v x : Nat) (h : x < a ∨ a + 8 ≤ x) :
    write64 m a v x = m x := by
  unfold write64; rw [if_neg (by omega)]

theorem memset_in (m : Mem) (dst c n x : Nat) (h1 : dst ≤ x) (h2 : x < dst + n) :
    memset m dst c n x = c % 256 := by
  unfold memset; rw [if_pos ⟨h1, h2⟩]

theorem memset_out (m : Mem) (dst c n x : Nat) (h : x < dst ∨ dst + n ≤ x) :
    memset m dst c n x = m x := by
  unfold memset; rw [if_neg (by omega)]

/-! ## Block cache -/

/-- C1 (code defect): with 13 shards of 3 buffers, the calls `bget(0,0)`,
`bget(0,13)`, `bget(0,26)` fill the home shard 0 of block 39, `bget(0,39)`
therefore claims a buffer of shard 1, `brelse` of the buffer of block 0 frees
a buffer of shard 0, and a second `bget(0,39)` claims that buffer without
looking at shard 1: two buffers, `(0,0)` and `(1,0)`, now carry the key
`(0,39)` with reference count 1. -/
theorem C1_two_buffers_for_one_block :
    (runBOps (Bcache.init 13 3)
      [.bget 0 0, .bget 0 13, .bget 0 26, .bget 0 39, .brelse (0, 0), .bget 0 39]).map
      (fun bc => (holders bc 0 39, (bc.at (0, 0)).refcnt, (bc.at (1, 0)).refcnt,
        (bc.at (0, 0)).blockno, (bc.at (1, 0)).blockno))
      = .ok ([(0, 0), (1, 0)], 1, 1, 39, 39) := by
  decide!

/-! ## The mmap reservation bitmap -/

/-- C9 (code defect): `sys_mmap` passes the 64-bit `len` to
`alloc_freespace(uint size)`, which sees only its low 32 bits. With 256 page
slots (1 MiB) and an empty bitmap, the request `len = 0x100001000`
(4 GiB + 4 KiB, larger than the whole mmap range) does not return -1: it
returns the base address `0x3000000000`, sets bit 0 of the bitmap, takes a file
reference and records a region of length `0x100001000`. -/
theorem C9_oversized_length_is_accepted :
    mmapArea.NMMAPPAGE * PGSIZE < 0x100001000 ∧
    (sys_mmap mmapArea freshProc 0 0x100001000 PROT_READ MAP_PRIVATE 3 0).1 = 0x3000000000 ∧
    freshProc.mmapbitmap 0 = 0 ∧
    (sys_mmap mmapArea freshProc 0 0x100001000 PROT_READ MAP_PRIVATE 3 0).2.mmapbitmap 0 = 1 ∧
    ((sys_mmap mmapArea freshProc 0 0x100001000 PROT_READ MAP_PRIVATE 3 0).2.vma.map
      (fun v => (v.valid, v.addr, v.len))).head? = some (1, 0x3000000000, 0x100001000) ∧
    ((sys_mmap mmapArea freshProc 0 0x100001000 PROT_READ MAP_PRIVATE 3 0).2.files 7).ref = 2 := by
  decide!

/-- C10 (code defect): the mask `1 << (start % 64)` is computed as a 32-bit
`int`, so for slot 31 it is `0xFFFFFFFF80000000`. On an empty bitmap,
`alloc_freespace` for 32 pages returns `MMAPBASE` (the lowest run starts at
slot 0) but sets all 64 bits of word 0: the slots 32..63, outside the run
0..31, have changed from clear to set. -/
theorem C10_slot_31_marks_slots_32_to_63 :
    (alloc_freespace mmapArea (fun _ => 0) (32 * PGSIZE)).1 = mmapArea.MMAPBASE + 0 * PGSIZE ∧
    (alloc_freespace mmapArea (fun _ => 0) (32 * PGSIZE)).2 0 = 0xFFFFFFFFFFFFFFFF ∧
    (List.range 64).map (fun i =>
      ((alloc_freespace mmapArea (fun _ => 0) (32 * PGSIZE)).2 0).testBit i)
        = List.replicate 64 true ∧
    shl1 (31 % 64) = 0xFFFFFFFF80000000 := by
  decide!

/-! ## Memory and entry arithmetic -/

theorem read64_lt (m : Mem) (a : Nat) : read64 m a < 2 ^ 64 := by
  unfold read64; omega

theorem read64_congr (m m' : Mem) (a : Nat) (h : ∀ x, a ≤ x → x < a + 8 → m' x = m x) :
    read64 m' a = read64 m a := by
  unfold read64
  rw [h a (by omega) (by omega), h (a + 1) (by omega) (by omega), h (a + 2) (by omega) (by omega),
    h (a + 3) (by omega) (by omega), h (a + 4) (by omega) (by omega),
    h (a + 5) (by omega) (by omega), h (a + 6) (by omega) (by omega),
    h (a + 7) (by omega) (by omega)]

theorem read64_write64_same (m : Mem) (a v : Nat) (hv : v < 2 ^ 64) :
    read64 (write64 m a v) a = v := by
  unfold read64
  rw [write64_in _ _ _ _ (Nat.le_refl _) (by omega), write64_in _ _ _ _ (by omega) (by omega),
    write64_in _ _ _ (a + 2) (by omega) (by omega), write64_in _ _ _ (a + 3) (by omega) (by omega),
    write64_in _ _ _ (a + 4) (by omega) (by omega), write64_in _ _ _ (a + 5) (by omega) (by omega),
    write64_in _ _ _ (a + 6) (by omega) (by omega), write64_in _ _ _ (a + 7) (by omega) (by omega)]
  simp only [Nat.sub_self, Nat.add_sub_cancel_left, pow_zero, Nat.div_one]
  norm_num
  omega

theorem read64_write64_other (m : Mem) (a v b : Nat) (h : b + 8 ≤ a ∨ a + 8 ≤ b) :
    read64 (write64 m a v) b = read64 m b :=
  read64_congr _ _ _ (fun x h1 h2 => write64_out _ _ _ _ (by omega))

theorem read64_memset_in (m : Mem) (dst c n b : Nat) (h1 : dst ≤ b) (h2 : b + 8 ≤ dst + n)
    (hc : c = 0) : read64 (memset m dst c n) b = 0 := by
  subst hc
  unfold read64
  rw [memset_in _ _ _ _ _ (by omega) (by omega), memset_in _ _ _ _ (b + 1) (by omega) (by omega),
    memset_in _ _ _ _ (b + 2) (by omega) (by omega), memset_in _ _ _ _ (b + 3) (by omega) (by omega),
    memset_in _ _ _ _ (b + 4) (by omega) (by omega), memset_in _ _ _ _ (b + 5) (by omega) (by omega),
    memset_in _ _ _ _ (b + 6) (by omega) (by omega), memset_in _ _ _ _ (b + 7) (by omega) (by omega)]

theorem PTE2PA_eq (e : Nat) (he : e < 2 ^ 62) : PTE2PA e = e / 1024 * 4096 := by
  unfold PTE2PA u64
  rw [Nat.shiftRight_eq_div_pow, Nat.shiftLeft_eq]
  norm_num at he ⊢
  omega

theorem PTE2PA_mod (e : Nat) : PTE2PA e % PGSIZE = 0 := by
  unfold PTE2PA u64 PGSIZE
  rw [Nat.shiftRight_eq_div_pow, Nat.shiftLeft_eq]
  norm_num

theorem PA2PTE_eq (pa : Nat) : PA2PTE pa = 1024 * (pa / 4096) := by
  unfold PA2PTE
  rw [Nat.shiftRight_eq_div_pow, Nat.shiftLeft_eq]
  norm_num
  omega

theorem PX_lt (level va : Nat) : PX level va < 512 := by
  unfold PX
  have : (0x1FF : Nat) = 2 ^ 9 - 1 := by norm_num
  rw [this, Nat.and_pow_two_sub_one_eq_mod]
  exact Nat.mod_lt _ (by norm_num)

theorem valid_iff (e : Nat) : e &&& PTE_V ≠ 0 ↔ e % 2 = 1 := by
  unfold PTE_V
  rw [Nat.and_one_is_mod]
  omega

/-- The entry `PA2PTE(pa) | perm | PTE_V` as a sum. -/
theorem mkpte_eq (pa perm : Nat) (hp : perm < 1024) :
    PA2PTE pa ||| perm ||| PTE_V = 1024 * (pa / 4096) + (perm ||| 1) := by
  rw [PA2PTE_eq, Nat.lor_assoc]
  have h1 : perm ||| PTE_V < 2 ^ 10 := Nat.or_lt_two_pow (by simpa using hp) (by decide)
  have := Nat.mul_add_lt_is_or h1 (pa / 4096)
  simp only [PTE_V] at this ⊢
  rw [← this]

theorem or_one_mod_two (x : Nat) : (x ||| 1) % 2 = 1 := by
  have h := Nat.testBit_lor x 1 0
  simp only [Nat.testBit_zero] at h
  have h2 : decide ((x ||| 1) % 2 = 1) = true := by rw [h]; simp
  exact of_decide_eq_true h2

theorem mkpte_lt (pa perm : Nat) (hp : perm < 1024) (hpa : pa < 2 ^ 64) :
    PA2PTE pa ||| perm ||| PTE_V < 2 ^ 62 := by
  rw [mkpte_eq pa perm hp]
  have h1 : perm ||| 1 < 2 ^ 10 := Nat.or_lt_two_pow (by simpa using hp) (by decide)
  norm_num at h1 hpa ⊢
  omega

theorem mkpte_valid (pa perm : Nat) (hp : perm < 1024) :
    (PA2PTE pa ||| perm ||| PTE_V) &&& PTE_V ≠ 0 := by
  rw [valid_iff, mkpte_eq pa perm hp]
  have := or_one_mod_two perm
  omega

theorem mkpte_PTE2PA (pa perm : Nat) (hp : perm < 1024) (hpa : pa < 2 ^ 64)
    (hal : pa % PGSIZE = 0) : PTE2PA (PA2PTE pa ||| perm ||| PTE_V) = pa := by
  rw [PTE2PA_eq _ (mkpte_lt pa perm hp hpa), mkpte_eq pa perm hp]
  have h1 : perm ||| 1 < 2 ^ 10 := Nat.or_lt_two_pow (by simpa using hp) (by decide)
  simp only [PGSIZE] at hal
  norm_num at h1
  omega

theorem tabpte_eq (pa : Nat) : PA2PTE pa ||| PTE_V = PA2PTE pa ||| 0 ||| PTE_V := by
  rw [Nat.or_zero]

/-! ## Page tables in memory: structure -/

theorem walkLoop_false (P : KParams) (va : Nat) :
    ∀ (l : Nat) (s : Kmem) (t : Nat), walkLoop P false va l s t = (walkp s.mem va l t, s) := by
  intro l
  induction l with
  | zero => intro s t; rfl
  | succ n ih =>
    intro s t
    unfold walkLoop walkp pteAt
    by_cases h : read64 s.mem (t + 8 * PX (n + 1) va) &&& PTE_V ≠ 0
    · simp only [h, if_true, ne_eq, not_false_eq_true]
      exact ih s _
    · simp only [h, if_false, Bool.false_eq_true]

theorem walkp_two (m : Mem) (va root : Nat) :
    walkp m va 2 root =
      match child m root (PX 2 va) with
      | none => 0
      | some t1 =>
        match child m t1 (PX 1 va) with
        | none => 0
        | some t0 => t0 + 8 * PX 0 va := by
  unfold child
  simp only [walkp]
  by_cases h2 : pteAt m root (PX 2 va) &&& PTE_V ≠ 0
  · simp only [h2, if_true, ne_eq, not_false_eq_true]
    by_cases h1 : pteAt m (PTE2PA (pteAt m root (PX 2 va))) (PX 1 va) &&& PTE_V ≠ 0
    · simp only [h1, if_true, ne_eq, not_false_eq_true]
    · simp only [h1, if_false]
  · simp only [h2, if_false]

theorem mem_kids (m : Mem) (t x : Nat) : x ∈ kids m t ↔ ∃ i, i < 512 ∧ child m t i = some x := by
  unfold kids
  simp only [List.mem_filterMap, List.mem_range]

theorem child_aligned {m : Mem} {t i x : Nat} (h : child m t i = some x) : x % PGSIZE = 0 := by
  unfold child at h
  split at h
  · simp only [Option.some.injEq] at h
    rw [← h]; exact PTE2PA_mod _
  · simp at h

theorem kids_aligned {m : Mem} {t x : Nat} (h : x ∈ kids m t) : x % PGSIZE = 0 := by
  obtain ⟨i, _, hi⟩ := (mem_kids m t x).1 h
  exact child_aligned hi

theorem mem_tablePages (m : Mem) (root x : Nat) :
    x ∈ tablePages m root ↔
      x = root ∨ x ∈ kids m root ∨ ∃ t1, t1 ∈ kids m root ∧ x ∈ kids m t1 := by
  unfold tablePages
  simp only [List.mem_cons, List.mem_append, List.mem_flatMap]

theorem tablePages_aligned {P : KParams} {s : Kmem} {root : Nat} (h : WfPT P s root) :
    ∀ t ∈ tablePages s.mem root, t % PGSIZE = 0 := by
  intro t ht
  rcases (mem_tablePages _ _ _).1 ht with e | h1 | ⟨t1, _, h0⟩
  · rw [e]; exact h.root_aligned
  · exact kids_aligned h1
  · exact kids_aligned h0

theorem pages_disjoint {t t' x : Nat} (ht : t % PGSIZE = 0) (ht' : t' % PGSIZE = 0) (hne : t ≠ t')
    (hx : t ≤ x ∧ x < t + PGSIZE) : ¬ (t' ≤ x ∧ x < t' + PGSIZE) := by
  simp only [PGSIZE] at *
  omega

/-- A walk that ends in a level-0 entry goes through a level-1 page and a
level-0 page of the table. -/
theorem walkp_ne_zero {m : Mem} {va root : Nat} (h : walkp m va 2 root ≠ 0) :
    ∃ t1 t0, child m root (PX 2 va) = some t1 ∧ child m t1 (PX 1 va) = some t0 ∧
      walkp m va 2 root = t0 + 8 * PX 0 va ∧ t1 ∈ kids m root ∧ t0 ∈ kids m t1 ∧
      t0 ∈ tablePages m root ∧ t1 ∈ tablePages m root := by
  rw [walkp_two] at h ⊢
  cases h2 : child m root (PX 2 va) with
  | none => rw [h2] at h; simp at h
  | some t1 =>
    rw [h2] at h
    simp only at h ⊢
    cases h1 : child m t1 (PX 1 va) with
    | none => rw [h1] at h; simp at h
    | some t0 =>
      have k1 : t1 ∈ kids m root := (mem_kids _ _ _).2 ⟨_, PX_lt 2 va, h2⟩
      have k0 : t0 ∈ kids m t1 := (mem_kids _ _ _).2 ⟨_, PX_lt 1 va, h1⟩
      exact ⟨t1, t0, rfl, h1, rfl, k1, k0,
        (mem_tablePages _ _ _).2 (Or.inr (Or.inr ⟨t1, k1, k0⟩)),
        (mem_tablePages _ _ _).2 (Or.inr (Or.inl k1))⟩

theorem walkp_of_children {m : Mem} {va root t1 t0 : Nat}
    (h2 : child m root (PX 2 va) = some t1) (h1 : child m t1 (PX 1 va) = some t0) :
    walkp m va 2 root = t0 + 8 * PX 0 va := by
  rw [walkp_two, h2]; simp only; rw [h1]

theorem pteAt_congr {m m' : Mem} {t i : Nat} (hi : i < 512)
    (h : ∀ x, t ≤ x → x < t + PGSIZE → m' x = m x) : pteAt m' t i = pteAt m t i := by
  unfold pteAt
  apply read64_congr
  intro x h1 h2
  exact h x (by omega) (by simp only [PGSIZE]; omega)

theorem child_congr {m m' : Mem} {t i : Nat} (hi : i < 512)
    (h : ∀ x, t ≤ x → x < t + PGSIZE → m' x = m x) : child m' t i = child m t i := by
  unfold child; rw [pteAt_congr hi h]

theorem kids_congr {m m' : Mem} {t : Nat}
    (h : ∀ x, t ≤ x → x < t + PGSIZE → m' x = m x) : kids m' t = kids m t := by
  unfold kids
  apply List.filterMap_congr
  intro i hi
  exact child_congr (List.mem_range.1 hi) h

/-! ## Frame: writes outside the level-2 and level-1 pages -/

theorem sameOn_kids {m m' : Mem} {root : Nat} (h : sameOn m m' (root :: kids m root)) :
    kids m' root = kids m root ∧ ∀ t ∈ kids m root, kids m' t = kids m t :=
  ⟨kids_congr (h root (List.mem_cons_self _ _)),
    fun t ht => kids_congr (h t (List.mem_cons_of_mem _ ht))⟩

theorem sameOn_tablePages {m m' : Mem} {root : Nat} (h : sameOn m m' (root :: kids m root)) :
    tablePages m' root = tablePages m root := by
  obtain ⟨h1, h2⟩ := sameOn_kids h
  unfold tablePages
  rw [h1, List.flatMap_congr h2]

theorem sameOn_child_root {m m' : Mem} {root i : Nat} (hi : i < 512)
    (h : sameOn m m' (root :: kids m root)) : child m' root i = child m root i :=
  child_congr hi (h root (List.mem_cons_self _ _))

theorem sameOn_walkp {m m' : Mem} {root : Nat} (h : sameOn m m' (root :: kids m root))
    (va : Nat) : walkp m' va 2 root = walkp m va 2 root := by
  rw [walkp_two, walkp_two, sameOn_child_root (PX_lt 2 va) h]
  cases h2 : child m root (PX 2 va) with
  | none => rfl
  | some t1 =>
    simp only
    have k1 : t1 ∈ kids m root := (mem_kids _ _ _).2 ⟨_, PX_lt 2 va, h2⟩
    rw [child_congr (PX_lt 1 va) (h t1 (List.mem_cons_of_mem _ k1))]

theorem sameOn_mono {m m' : Mem} {ts ts' : List Nat} (h : sameOn m m' ts)
    (hs : ∀ t ∈ ts', t ∈ ts) : sameOn m m' ts' :=
  fun t ht => h t (hs t ht)

theorem sameOn_top {m m' : Mem} {root : Nat} (h : sameOn m m' (tablePages m root)) :
    sameOn m m' (root :: kids m root) :=
  sameOn_mono h (fun t ht => by
    rcases List.mem_cons.1 ht with e | hk
    · exact (mem_tablePages _ _ _).2 (Or.inl e)
    · exact (mem_tablePages _ _ _).2 (Or.inr (Or.inl hk)))

theorem sameOn_leafPte {m m' : Mem} {root : Nat} (h : sameOn m m' (tablePages m root))
    (va : Nat) (hw : walkp m va 2 root ≠ 0) : leafPte m' root va = leafPte m root va := by
  unfold leafPte
  rw [sameOn_walkp (sameOn_top h) va]
  obtain ⟨t1, t0, _, _, e, _, _, ht0, _⟩ := walkp_ne_zero hw
  rw [e]
  exact pteAt_congr (PX_lt 0 va) (h t0 ht0)

/-- Writes outside the page-table pages leave every walk and every level-0
entry as it was. -/
theorem sameOn_LeafPres {m m' : Mem} {root : Nat} (h : sameOn m m' (tablePages m root)) :
    LeafPres m m' root := by
  intro va
  refine ⟨fun hw => ⟨sameOn_walkp (sameOn_top h) va, sameOn_leafPte h va hw⟩, ?_⟩
  intro h0 hne
  rw [sameOn_walkp (sameOn_top h) va] at hne
  exact absurd h0 hne

/-! ## What is preserved when level-0 entries are preserved -/

theorem LeafPres_refl (m : Mem) (root : Nat) : LeafPres m m root :=
  fun _ => ⟨fun _ => ⟨rfl, rfl⟩, fun h0 hne => absurd h0 hne⟩

theorem LeafPres_mapped {m m' : Mem} {root va : Nat} (h : LeafPres m m' root)
    (hm : mapped m root va) :
    mapped m' root va ∧ walkp m' va 2 root = walkp m va 2 root ∧
      leafPte m' root va = leafPte m root va := by
  obtain ⟨hw, hl⟩ := (h va).1 hm.1
  exact ⟨⟨by rw [hw]; exact hm.1, by rw [hl]; exact hm.2⟩, hw, hl⟩

theorem LeafPres_mapped_back {m m' : Mem} {root va : Nat} (h : LeafPres m m' root)
    (hm : mapped m' root va) :
    mapped m root va ∧ walkp m' va 2 root = walkp m va 2 root ∧
      leafPte m' root va = leafPte m root va := by
  by_cases h0 : walkp m va 2 root = 0
  · exact absurd ((h va).2 h0 hm.1) hm.2
  · obtain ⟨hw, hl⟩ := (h va).1 h0
    exact ⟨⟨h0, by rw [← hl]; exact hm.2⟩, hw, hl⟩

theorem LeafPres_trans {m m' m'' : Mem} {root : Nat} (h1 : LeafPres m m' root)
    (h2 : LeafPres m' m'' root) : LeafPres m m'' root := by
  intro va
  constructor
  · intro hw
    obtain ⟨a1, b1⟩ := (h1 va).1 hw
    obtain ⟨a2, b2⟩ := (h2 va).1 (by rw [a1]; exact hw)
    exact ⟨a2.trans a1, b2.trans b1⟩
  · intro h0 hne
    by_cases h0' : walkp m' va 2 root = 0
    · exact (h2 va).2 h0' hne
    · obtain ⟨_, b2⟩ := (h2 va).1 h0'
      rw [b2]
      exact (h1 va).2 h0 h0'

theorem MappedRun_pres {q : Nat → Prop} {m m' : Mem} {root : Nat} (h : LeafPres m m' root) :
    ∀ (ds : List Nat) (a : Nat), MappedRun q m root a ds → MappedRun q m' root a ds := by
  intro ds
  induction ds with
  | nil => intro a _; trivial
  | cons d ds ih =>
    intro a hr
    obtain ⟨⟨h1, h2, h3, h4⟩, h5⟩ := hr
    obtain ⟨k1, _, k3⟩ := LeafPres_mapped h h2
    exact ⟨⟨h1, k1, by rw [k3]; exact h3, by rw [k3]; exact h4⟩, ih _ h5⟩

theorem LeafInv_pres {m m' : Mem} {root : Nat} {ds : List Nat} (h : LeafPres m m' root)
    (hl : LeafInv m root ds) : LeafInv m' root ds := by
  intro va hm
  obtain ⟨k1, _, k3⟩ := LeafPres_mapped_back h hm
  rw [k3]; exact hl va k1

theorem Uniq_pres {m m' : Mem} {root : Nat} (h : LeafPres m m' root) (hu : Uniq m root) :
    Uniq m' root := by
  intro va va' hm hm' he
  obtain ⟨k1, k2, k3⟩ := LeafPres_mapped_back h hm
  obtain ⟨k1', k2', k3'⟩ := LeafPres_mapped_back h hm'
  rw [k2, k2']
  rw [k3, k3'] at he
  exact hu va va' k1 k1' he

theorem MappedRun_snoc {q : Nat → Prop} {m : Mem} {root : Nat} :
    ∀ (ds : List Nat) (a d : Nat), MappedRun q m root a ds →
      (a + ds.length * PGSIZE < MAXVA ∧ mapped m root (a + ds.length * PGSIZE) ∧
        PTE2PA (leafPte m root (a + ds.length * PGSIZE)) = d ∧
        q (leafPte m root (a + ds.length * PGSIZE))) →
      MappedRun q m root a (ds ++ [d]) := by
  intro ds
  induction ds with
  | nil =>
    intro a d _ h
    simp only [List.length_nil, Nat.zero_mul, Nat.add_zero] at h
    exact ⟨h, trivial⟩
  | cons x xs ih =>
    intro a d hr h
    obtain ⟨h1, h2⟩ := hr
    refine ⟨h1, ih (a + PGSIZE) d h2 ?_⟩
    have e : a + PGSIZE + xs.length * PGSIZE = a + (x :: xs).length * PGSIZE := by
      simp only [List.length_cons]; ring
    rw [e]; exact h

/-! ## The accounting invariant under the elementary steps -/

theorem outside_sameOn {m m' : Mem} {ts : List Nat} {d : Nat} (hd : d % PGSIZE = 0)
    (hts : ∀ t ∈ ts, t % PGSIZE = 0) (hnot : d ∉ ts)
    (h : ∀ x, ¬ (d ≤ x ∧ x < d + PGSIZE) → m' x = m x) : sameOn m m' ts := by
  intro t ht x h1 h2
  have hne : t ≠ d := fun e => hnot (e ▸ ht)
  exact h x (pages_disjoint (hts t ht) hd hne ⟨h1, h2⟩)

theorem Held_frame {P : KParams} {pool : List Nat} {s s' : Kmem} {root : Nat} {held : List Nat}
    (h : Held P pool s root held) (hf : s'.freelist = s.freelist) (hk : s'.kmemref = s.kmemref)
    (hm : sameOn s.mem s'.mem (tablePages s.mem root)) : Held P pool s' root held := by
  have htp : tablePages s'.mem root = tablePages s.mem root := sameOn_tablePages (sameOn_top hm)
  refine ⟨⟨?_, ?_, h.wf.root_aligned, ?_, ?_, ?_⟩, h.nodup, ?_, ?_⟩
  · rw [hf]; exact h.wf.fl_nodup
  · rw [hf]; exact h.wf.fl_managed
  · rw [htp]; exact h.wf.tp_nodup
  · rw [htp]; exact h.wf.tp_pos
  · rw [htp, hf]; exact h.wf.tp_fl
  · rw [htp, hf, hk]; exact h.props
  · rw [htp, hf]; exact h.perm

/-- A write inside a page that is held leaves the accounting and every level-0
entry as they were. -/
theorem Held_data_write {P : KParams} {pool : List Nat} {s : Kmem} {root : Nat}
    {held : List Nat} (h : Held P pool s root held) {d : Nat} (hd : d ∈ held) (m' : Mem)
    (hm : ∀ x, ¬ (d ≤ x ∧ x < d + PGSIZE) → m' x = s.mem x) :
    Held P pool { s with mem := m' } root held ∧ LeafPres s.mem m' root := by
  have hs : sameOn s.mem m' (tablePages s.mem root) :=
    outside_sameOn (h.props d hd).1.1 (tablePages_aligned h.wf) (h.props d hd).2.2.1 hm
  exact ⟨Held_frame h rfl rfl hs, sameOn_LeafPres hs⟩

theorem Held_kalloc {P : KParams} {pool : List Nat} {s : Kmem} {root : Nat} {held : List Nat}
    (h : Held P pool s root held) {r : Nat} {rest : List Nat} (hf : s.freelist = r :: rest) :
    (kalloc P s).1 = r ∧ managed P r ∧ Held P pool (kalloc P s).2 root (held ++ [r]) ∧
      LeafPres s.mem (kalloc P s).2.mem root := by
  rw [kalloc_cons P s r rest hf]
  have hr : r ∈ s.freelist := by rw [hf]; exact List.mem_cons_self _ _
  have hrm : managed P r := h.wf.fl_managed r hr
  have hnd : (r :: rest).Nodup := hf ▸ h.wf.fl_nodup
  have hrtp : r ∉ tablePages s.mem root := fun ht => h.wf.tp_fl r ht hr
  have hs : sameOn s.mem (memset s.mem r 5 PGSIZE) (tablePages s.mem root) :=
    outside_sameOn hrm.1 (tablePages_aligned h.wf) hrtp
      (fun x hx => memset_out _ _ _ _ _ (by omega))
  have htp : tablePages (memset s.mem r 5 PGSIZE) root = tablePages s.mem root :=
    sameOn_tablePages (sameOn_top hs)
  have hsub : ∀ x, x ∈ rest → x ∈ s.freelist := fun x hx => by
    rw [hf]; exact List.mem_cons_of_mem _ hx
  refine ⟨rfl, hrm, ⟨⟨(List.nodup_cons.1 hnd).2, fun p hp => h.wf.fl_managed p (hsub p hp),
    h.wf.root_aligned, ?_, ?_, ?_⟩, ?_, ?_, ?_⟩, sameOn_LeafPres hs⟩
  · show (tablePages (memset s.mem r 5 PGSIZE) root).Nodup
    rw [htp]; exact h.wf.tp_nodup
  · show ∀ t ∈ tablePages (memset s.mem r 5 PGSIZE) root, 0 < t
    rw [htp]; exact h.wf.tp_pos
  · show ∀ t ∈ tablePages (memset s.mem r 5 PGSIZE) root, t ∉ rest
    rw [htp]; exact fun t ht hx => h.wf.tp_fl t ht (hsub t hx)
  · refine List.Nodup.append h.nodup (List.nodup_singleton r) ?_
    intro x hx hx'
    rw [List.mem_singleton] at hx'
    subst hx'
    exact (h.props x hx).2.1 hr
  · intro d hd
    show managed P d ∧ d ∉ rest ∧ d ∉ tablePages (memset s.mem r 5 PGSIZE) root ∧
      upd s.kmemref (P.PGIDX r) 1 (P.PGIDX d) = 1
    rw [htp]
    rcases List.mem_append.1 hd with hd | hd
    · obtain ⟨a, b, c, e⟩ := h.props d hd
      refine ⟨a, fun hx => b (hsub d hx), c, ?_⟩
      unfold upd; split
      · rfl
      · exact e
    · rw [List.mem_singleton] at hd
      subst hd
      exact ⟨hrm, (List.nodup_cons.1 hnd).1, hrtp, upd_same _ _ _⟩
  · show ((held ++ [r]) ++ (rest ++ tablePages (memset s.mem r 5 PGSIZE) root)).Perm pool
    rw [htp]
    refine List.Perm.trans ?_ h.perm
    rw [hf, List.append_assoc]
    apply List.Perm.append_left
    simp only [List.singleton_append, List.cons_append]
    exact List.Perm.refl _

theorem Held_kfree {P : KParams} {pool : List Nat} {s : Kmem} {root : Nat} {held : List Nat}
    (h : Held P pool s root held) {d : Nat} (hd : d ∈ held) :
    ∃ s', kfree P s d = some s' ∧ s'.freelist = d :: s.freelist ∧
      Held P pool s' root (held.erase d) ∧ LeafPres s.mem s'.mem root := by
  obtain ⟨hdm, hdf, hdt, hdk⟩ := h.props d hd
  obtain ⟨s', hs'⟩ := kfree_isSome s hdm
  obtain ⟨_, hk, hc⟩ := kfree_eq_some hs'
  rcases hc with ⟨_, hfl, hmem⟩ | ⟨hnz, _, _⟩
  · have hs : sameOn s.mem s'.mem (tablePages s.mem root) := by
      refine outside_sameOn hdm.1 (tablePages_aligned h.wf) hdt ?_
      intro x hx
      simp only [PGSIZE] at hx
      rw [hmem, write64_out _ _ _ _ (by omega),
        memset_out _ _ _ _ _ (by simp only [PGSIZE]; omega)]
    have htp : tablePages s'.mem root = tablePages s.mem root :=
      sameOn_tablePages (sameOn_top hs)
    refine ⟨s', hs', hfl, ⟨⟨?_, ?_, h.wf.root_aligned, ?_, ?_, ?_⟩, ?_, ?_, ?_⟩,
      sameOn_LeafPres hs⟩
    · rw [hfl]; exact List.nodup_cons.2 ⟨hdf, h.wf.fl_nodup⟩
    · rw [hfl]
      intro p hp
      rcases List.mem_cons.1 hp with e | hp
      · rw [e]; exact hdm
      · exact h.wf.fl_managed p hp
    · rw [htp]; exact h.wf.tp_nodup
    · rw [htp]; exact h.wf.tp_pos
    · rw [htp, hfl]
      intro t ht hx
      rcases List.mem_cons.1 hx with e | hx
      · exact hdt (e ▸ ht)
      · exact h.wf.tp_fl t ht hx
    · exact h.nodup.erase d
    · intro x hx
      have hxh : x ∈ held := List.mem_of_mem_erase hx
      have hne : x ≠ d := fun e => by
        rw [e] at hx
        exact (List.Nodup.not_mem_erase h.nodup) hx
      obtain ⟨a, b, c, e⟩ := h.props x hxh
      rw [htp, hfl, hk]
      refine ⟨a, ?_, c, ?_⟩
      · intro hm
        rcases List.mem_cons.1 hm with e' | hm
        · exact hne e'
        · exact b hm
      · rw [upd_other _ _ _ _ (PGIDX_ne P a hdm hne)]; exact e
    · rw [htp, hfl]
      refine List.Perm.trans ?_ h.perm
      have p1 : held.Perm (d :: held.erase d) := List.perm_cons_erase hd
      refine List.Perm.trans ?_ (List.Perm.append_right _ p1.symm)
      simp only [List.cons_append]
      exact List.perm_middle
  · exact absurd (by rw [hdk]; exact i32_zero) hnz

/-! ## Installing a fresh page-table page -/

theorem filterMap_update_perm {α : Type} (f f' : Nat → Option α) (r : α) (i : Nat) :
    ∀ n, i < n → f i = none → f' i = some r → (∀ j, j < n → j ≠ i → f' j = f j) →
      ((List.range n).filterMap f').Perm (r :: (List.range n).filterMap f) := by
  intro n
  induction n with
  | zero => intro h; exact absurd h (Nat.not_lt_zero _)
  | succ n ih =>
    intro hi hf hf' hj
    rw [List.range_succ, List.filterMap_append, List.filterMap_append]
    by_cases e : i = n
    · subst e
      have h1 : (List.range i).filterMap f' = (List.range i).filterMap f := by
        apply List.filterMap_congr
        intro j hjm
        exact hj j (Nat.lt_succ_of_lt (List.mem_range.1 hjm)) (Nat.ne_of_lt (List.mem_range.1 hjm))
      have h2 : List.filterMap f' [i] = [r] := by simp [List.filterMap_cons, hf']
      have h3 : List.filterMap f [i] = [] := by simp [List.filterMap_cons, hf]
      rw [h1, h2, h3, List.append_nil]
      exact List.perm_append_singleton _ _
    · have hlt : i < n := by omega
      have h2 : List.filterMap f' [n] = List.filterMap f [n] := by
        apply List.filterMap_congr
        intro j hjm
        rw [List.mem_singleton] at hjm
        subst hjm
        exact hj j (Nat.lt_succ_self _) (fun e' => e e'.symm)
      rw [h2]
      exact List.Perm.append_right _ (ih hlt hf hf' (fun j h1 h2 => hj j (Nat.lt_succ_of_lt h1) h2))

theorem flatMap_update_perm {α β : Type} (g g' : α → List β) (r : β) (t1 : α) :
    ∀ l : List α, l.Nodup → t1 ∈ l → (∀ t ∈ l, t ≠ t1 → g' t = g t) →
      (g' t1).Perm (r :: g t1) → (l.flatMap g').Perm (r :: l.flatMap g) := by
  intro l
  induction l with
  | nil => intro _ h; simp at h
  | cons a l ih =>
    intro hnd hmem hg hp
    rw [List.flatMap_cons, List.flatMap_cons]
    obtain ⟨ha, hnd'⟩ := List.nodup_cons.1 hnd
    by_cases e : a = t1
    · subst e
      have h1 : l.flatMap g' = l.flatMap g := by
        apply List.flatMap_congr
        intro t ht
        exact hg t (List.mem_cons_of_mem _ ht) (fun e' => ha (e' ▸ ht))
      rw [h1]
      exact List.Perm.append_right _ hp
    · have hm' : t1 ∈ l := by
        rcases List.mem_cons.1 hmem with e' | h'
        · exact absurd e'.symm e
        · exact h'
      rw [hg a (List.mem_cons_self _ _) e]
      have ih' := ih hnd' hm' (fun t ht hne => hg t (List.mem_cons_of_mem _ ht) hne) hp
      exact (List.Perm.append_left (g a) ih').trans List.perm_middle

theorem cells_disjoint {t t' i i' : Nat} (ht : t % PGSIZE = 0) (ht' : t' % PGSIZE = 0)
    (hi : i < 512) (hi' : i' < 512) (hne : ¬ (t = t' ∧ i = i')) :
    t + 8 * i + 8 ≤ t' + 8 * i' ∨ t' + 8 * i' + 8 ≤ t + 8 * i := by
  simp only [PGSIZE] at ht ht'
  omega

theorem cell_in_page {t i x : Nat} (hi : i < 512) (h1 : t + 8 * i ≤ x) (h2 : x < t + 8 * i + 8) :
    t ≤ x ∧ x < t + PGSIZE := by
  simp only [PGSIZE]; omega

/-- The entries of the page-table pages after an installation: the raw
words. -/
theorem install_pteAt {P : KParams} {s : Kmem} {parent idx r : Nat} {l : List Nat}
    (hpa : parent % PGSIZE = 0) (hidx : idx < 512) (hr : r % PGSIZE = 0) (hr64 : r < 2 ^ 64)
    {t i : Nat} (ht : t % PGSIZE = 0) (hi : i < 512) :
    pteAt (install P s (parent + 8 * idx) r l).mem t i =
      if t = parent ∧ i = idx then PA2PTE r ||| PTE_V else if t = r then 0 else pteAt s.mem t i := by
  unfold pteAt install
  simp only
  by_cases h1 : t = parent ∧ i = idx
  · rw [if_pos h1, h1.1, h1.2, tabpte_eq,
      read64_write64_same _ _ _ (Nat.lt_trans (mkpte_lt r 0 (by decide) hr64) (by norm_num))]
  · rw [if_neg h1, read64_write64_other _ _ _ _ (by
      have := cells_disjoint ht hpa hi hidx h1
      omega)]
    by_cases h2 : t = r
    · rw [if_pos h2, h2, read64_memset_in _ _ _ _ _ (by omega) (by simp only [PGSIZE]; omega) rfl]
    · rw [if_neg h2]
      apply read64_congr
      intro x hx1 hx2
      have hin := cell_in_page hi hx1 (by omega)
      have hout := pages_disjoint ht hr h2 hin
      rw [memset_out _ _ _ _ _ (by omega), memset_out _ _ _ _ _ (by omega)]

/-- The entries of the page-table pages after an installation. -/
theorem install_child {P : KParams} {s : Kmem} {parent idx r : Nat} {rest : List Nat}
    (hpa : parent % PGSIZE = 0) (hidx : idx < 512) (hr : r % PGSIZE = 0) (hr64 : r < 2 ^ 64)
    {t i : Nat} (ht : t % PGSIZE = 0) (hi : i < 512) :
    child (install P s (parent + 8 * idx) r rest).mem t i =
      if t = parent ∧ i = idx then some r else if t = r then none else child s.mem t i := by
  unfold child
  rw [install_pteAt hpa hidx hr hr64 ht hi]
  by_cases h1 : t = parent ∧ i = idx
  · rw [if_pos h1, if_pos h1, tabpte_eq, if_pos (mkpte_valid r 0 (by decide)),
      mkpte_PTE2PA r 0 (by decide) hr64 hr]
  · rw [if_neg h1, if_neg h1]
    by_cases h2 : t = r
    · rw [if_pos h2, if_pos h2]; simp
    · rw [if_neg h2, if_neg h2]

theorem kids_root_not_root {m : Mem} {root t : Nat} (h : (tablePages m root).Nodup)
    (ht : t ∈ kids m root) : t ≠ root := by
  intro e
  unfold tablePages at h
  have := (List.nodup_cons.1 h).1
  rw [e] at ht
  exact this (List.mem_append_left _ ht)

theorem kids_nodup {m : Mem} {root : Nat} (h : (tablePages m root).Nodup) :
    (kids m root).Nodup := by
  unfold tablePages at h
  exact (List.nodup_append.1 (List.nodup_cons.1 h).2).1

theorem leaf_not_top {m : Mem} {root t1 t0 : Nat} (h : (tablePages m root).Nodup)
    (h1 : t1 ∈ kids m root) (h0 : t0 ∈ kids m t1) : t0 ≠ root ∧ t0 ∉ kids m root := by
  unfold tablePages at h
  obtain ⟨ha, hb⟩ := List.nodup_cons.1 h
  have hl0 : t0 ∈ (kids m root).flatMap (kids m) := List.mem_flatMap.2 ⟨t1, h1, h0⟩
  refine ⟨fun e => ?_, fun hk => ?_⟩
  · rw [e] at hl0
    exact ha (List.mem_append_right _ hl0)
  · exact (List.nodup_append.1 hb).2.2 hk hl0

theorem kids_install_nil {P : KParams} {s : Kmem} {parent idx r : Nat} {l : List Nat}
    (hpa : parent % PGSIZE = 0) (hidx : idx < 512) (hr : r % PGSIZE = 0) (hr64 : r < 2 ^ 64)
    (hne : parent ≠ r) : kids (install P s (parent + 8 * idx) r l).mem r = [] := by
  unfold kids
  rw [List.filterMap_eq_nil_iff]
  intro i hi
  rw [install_child hpa hidx hr hr64 hr (List.mem_range.1 hi), if_neg (fun h => hne h.1.symm),
    if_pos rfl]

theorem kids_install_other {P : KParams} {s : Kmem} {parent idx r : Nat} {rest : List Nat}
    (hpa : parent % PGSIZE = 0) (hidx : idx < 512) (hr : r % PGSIZE = 0) (hr64 : r < 2 ^ 64)
    (_hne : parent ≠ r) {t : Nat} (ht : t % PGSIZE = 0) (h1 : t ≠ parent) (h2 : t ≠ r) :
    kids (install P s (parent + 8 * idx) r rest).mem t = kids s.mem t := by
  unfold kids
  apply List.filterMap_congr
  intro i hi
  rw [install_child hpa hidx hr hr64 ht (List.mem_range.1 hi), if_neg (fun h => h1 h.1),
    if_neg h2]

theorem kids_install_parent {P : KParams} {s : Kmem} {parent idx r : Nat} {l : List Nat}
    (hpa : parent % PGSIZE = 0) (hidx : idx < 512) (hr : r % PGSIZE = 0) (hr64 : r < 2 ^ 64)
    (hne : parent ≠ r) (hinv : child s.mem parent idx = none) :
    (kids (install P s (parent + 8 * idx) r l).mem parent).Perm (r :: kids s.mem parent) := by
  unfold kids
  refine filterMap_update_perm (child s.mem parent) _ r idx 512 hidx hinv ?_ ?_
  · rw [install_child hpa hidx hr hr64 hpa hidx, if_pos ⟨rfl, rfl⟩]
  · intro j hj5 hj
    rw [install_child hpa hidx hr hr64 hpa hj5, if_neg (fun h => hj h.2), if_neg hne]

theorem managed_lt (P : KParams) {r : Nat} (h : managed P r) : r < 2 ^ 64 :=
  Nat.lt_trans h.2.2 P.PHYSTOP_lt

theorem managed_pos (P : KParams) {r : Nat} (h : managed P r) : 0 < r :=
  Nat.lt_of_lt_of_le P.kend_pos h.2.1

theorem top_mem_tablePages {m : Mem} {root t : Nat} (h : t = root ∨ t ∈ kids m root) :
    t ∈ tablePages m root :=
  (mem_tablePages _ _ _).2 (h.elim Or.inl (fun k => Or.inr (Or.inl k)))

theorem top_aligned {P : KParams} {s : Kmem} {root t : Nat} (hwf : WfPT P s root)
    (h : t = root ∨ t ∈ kids s.mem root) : t % PGSIZE = 0 :=
  tablePages_aligned hwf t (top_mem_tablePages h)

/-- Installing a fresh page adds exactly that page to the page-table pages. -/
theorem install_tablePages {P : KParams} {s : Kmem} {root parent idx r : Nat} {l : List Nat}
    (hwf : WfPT P s root) (hp : parent = root ∨ parent ∈ kids s.mem root) (hidx : idx < 512)
    (hinv : child s.mem parent idx = none) (hrm : managed P r)
    (hrt : r ∉ tablePages s.mem root) :
    (tablePages (install P s (parent + 8 * idx) r l).mem root).Perm
      (r :: tablePages s.mem root) := by
  have hpa : parent % PGSIZE = 0 := top_aligned hwf hp
  have hr64 := managed_lt P hrm
  have hr := hrm.1
  have hpr : parent ≠ r := fun e => hrt (e ▸ top_mem_tablePages hp)
  have hrr : root ≠ r := fun e => hrt (e ▸ top_mem_tablePages (Or.inl rfl))
  have hkr : ∀ t ∈ kids s.mem root, t ≠ r := fun t ht e =>
    hrt (e ▸ top_mem_tablePages (Or.inr ht))
  unfold tablePages
  rcases hp with e | hk
  · subst e
    have hK := kids_install_parent (P := P) (s := s) (l := l) hpa hidx hr hr64 hpr hinv
    have hnil := kids_install_nil (P := P) (s := s) (l := l) hpa hidx hr hr64 hpr
    have hsame : ∀ t ∈ kids s.mem parent,
        kids (install P s (parent + 8 * idx) r l).mem t = kids s.mem t := fun t ht =>
      kids_install_other hpa hidx hr hr64 hpr (kids_aligned ht)
        (kids_root_not_root hwf.tp_nodup ht) (hkr t ht)
    have hA : ((kids (install P s (parent + 8 * idx) r l).mem parent).flatMap
        (kids (install P s (parent + 8 * idx) r l).mem)).Perm
        ((kids s.mem parent).flatMap (kids s.mem)) := by
      refine (List.Perm.flatMap_right _ hK).trans ?_
      rw [List.flatMap_cons, hnil, List.nil_append, List.flatMap_congr hsame]
    exact (List.Perm.cons parent (List.Perm.append hK hA)).trans (List.Perm.swap r parent _)
  · have hne : root ≠ parent := fun e => kids_root_not_root hwf.tp_nodup hk e.symm
    have hK : kids (install P s (parent + 8 * idx) r l).mem root = kids s.mem root :=
      kids_install_other hpa hidx hr hr64 hpr hwf.root_aligned hne hrr
    rw [hK]
    have hB := flatMap_update_perm (kids s.mem) (kids (install P s (parent + 8 * idx) r l).mem)
      r parent (kids s.mem root) (kids_nodup hwf.tp_nodup) hk
      (fun t ht hn => kids_install_other hpa hidx hr hr64 hpr (kids_aligned ht) hn (hkr t ht))
      (kids_install_parent hpa hidx hr hr64 hpr hinv)
    exact (List.Perm.cons root ((List.Perm.append_left _ hB).trans List.perm_middle)).trans
      (List.Perm.swap r root _)

theorem install_Held {P : KParams} {pool : List Nat} {s : Kmem} {root : Nat} {held : List Nat}
    (h : Held P pool s root held) {parent idx r : Nat} {rest : List Nat}
    (hp : parent = root ∨ parent ∈ kids s.mem root) (hidx : idx < 512)
    (hinv : child s.mem parent idx = none) (hf : s.freelist = r :: rest) :
    Held P pool (install P s (parent + 8 * idx) r rest) root held := by
  have hrf : r ∈ s.freelist := by rw [hf]; exact List.mem_cons_self _ _
  have hrm : managed P r := h.wf.fl_managed r hrf
  have hrt : r ∉ tablePages s.mem root := fun ht => h.wf.tp_fl r ht hrf
  have hnd : (r :: rest).Nodup := hf ▸ h.wf.fl_nodup
  have hsub : ∀ x, x ∈ rest → x ∈ s.freelist := fun x hx => by
    rw [hf]; exact List.mem_cons_of_mem _ hx
  have hperm := install_tablePages (l := rest) h.wf hp hidx hinv hrm hrt
  have hmem : ∀ t, t ∈ tablePages (install P s (parent + 8 * idx) r rest).mem root ↔
      t = r ∨ t ∈ tablePages s.mem root := fun t => by
    rw [hperm.mem_iff, List.mem_cons]
  refine ⟨⟨(List.nodup_cons.1 hnd).2, fun p hp' => h.wf.fl_managed p (hsub p hp'),
    h.wf.root_aligned, ?_, ?_, ?_⟩, h.nodup, ?_, ?_⟩
  · exact hperm.nodup_iff.2 (List.nodup_cons.2 ⟨hrt, h.wf.tp_nodup⟩)
  · intro t ht
    rcases (hmem t).1 ht with e | ht
    · rw [e]; exact managed_pos P hrm
    · exact h.wf.tp_pos t ht
  · intro t ht
    show t ∉ rest
    rcases (hmem t).1 ht with e | ht
    · rw [e]; exact (List.nodup_cons.1 hnd).1
    · exact fun hx => h.wf.tp_fl t ht (hsub t hx)
  · intro d hd
    obtain ⟨a, b, c, e⟩ := h.props d hd
    refine ⟨a, fun hx => b (hsub d hx), ?_, ?_⟩
    · intro ht
      rcases (hmem d).1 ht with e' | ht
      · exact b (e' ▸ hrf)
      · exact c ht
    · show upd s.kmemref (P.PGIDX r) 1 (P.PGIDX d) = 1
      unfold upd; split
      · rfl
      · exact e
  · show (held ++ (rest ++ tablePages (install P s (parent + 8 * idx) r rest).mem root)).Perm pool
    refine List.Perm.trans ?_ h.perm
    apply List.Perm.append_left
    rw [hf]
    exact (List.Perm.append_left _ hperm).trans List.perm_middle

theorem install_LeafPres {P : KParams} {s : Kmem} {root : Nat}
    (hwf : WfPT P s root) {parent idx r : Nat} {l : List Nat}
    (hp : parent = root ∨ parent ∈ kids s.mem root) (hidx : idx < 512)
    (hinv : child s.mem parent idx = none) (hrm : managed P r)
    (hrt : r ∉ tablePages s.mem root) :
    LeafPres s.mem (install P s (parent + 8 * idx) r l).mem root := by
  have hpa : parent % PGSIZE = 0 := top_aligned hwf hp
  have hr64 := managed_lt P hrm
  have hr := hrm.1
  have hpr : parent ≠ r := fun e => hrt (e ▸ top_mem_tablePages hp)
  have hrr : root ≠ r := fun e => hrt (e ▸ top_mem_tablePages (Or.inl rfl))
  have hc : ∀ {t i : Nat}, t % PGSIZE = 0 → i < 512 →
      child (install P s (parent + 8 * idx) r l).mem t i =
        if t = parent ∧ i = idx then some r else if t = r then none else child s.mem t i :=
    fun ht hi => install_child hpa hidx hr hr64 ht hi
  intro va
  constructor
  · intro hw
    obtain ⟨t1, t0, h2, h1, e, k1, k0, ht0, ht1⟩ := walkp_ne_zero hw
    have h2' : child (install P s (parent + 8 * idx) r l).mem root (PX 2 va) = some t1 := by
      rw [hc hwf.root_aligned (PX_lt 2 va), if_neg, if_neg hrr]
      · exact h2
      · intro hh
        rw [hh.1, hh.2, hinv] at h2
        exact Option.noConfusion h2
    have h1' : child (install P s (parent + 8 * idx) r l).mem t1 (PX 1 va) = some t0 := by
      rw [hc (kids_aligned k1) (PX_lt 1 va), if_neg, if_neg (fun (e' : t1 = r) => hrt (e' ▸ ht1))]
      · exact h1
      · intro hh
        rw [hh.1, hh.2, hinv] at h1
        exact Option.noConfusion h1
    have hw' := walkp_of_children h2' h1'
    refine ⟨by rw [hw', e], ?_⟩
    unfold leafPte
    rw [hw', e]
    have hlt := leaf_not_top hwf.tp_nodup k1 k0
    have := install_pteAt (P := P) (s := s) (l := l) hpa hidx hr hr64 (kids_aligned k0)
      (PX_lt 0 va)
    unfold pteAt at this
    rw [this, if_neg, if_neg (fun (e' : t0 = r) => hrt (e' ▸ ht0))]
    intro hh
    rcases hp with e' | hk
    · exact hlt.1 (hh.1.trans e')
    · exact hlt.2 (hh.1 ▸ hk)
  · intro h0 hne
    obtain ⟨t1, t0, h2, h1, e, k1, k0, ht0, ht1⟩ := walkp_ne_zero hne
    unfold leafPte
    rw [e]
    rw [hc hwf.root_aligned (PX_lt 2 va)] at h2
    by_cases c1 : root = parent ∧ PX 2 va = idx
    · rw [if_pos c1] at h2
      simp only [Option.some.injEq] at h2
      rw [← h2, hc hr (PX_lt 1 va), if_neg (fun hh => hpr hh.1.symm), if_pos rfl] at h1
      exact Option.noConfusion h1
    · rw [if_neg c1, if_neg hrr] at h2
      have k1' : t1 ∈ kids s.mem root := (mem_kids _ _ _).2 ⟨_, PX_lt 2 va, h2⟩
      have ht1r : t1 ≠ r := fun e' => hrt (e' ▸ top_mem_tablePages (Or.inr k1'))
      rw [hc (kids_aligned k1') (PX_lt 1 va)] at h1
      by_cases c2 : t1 = parent ∧ PX 1 va = idx
      · rw [if_pos c2] at h1
        simp only [Option.some.injEq] at h1
        have := install_pteAt (P := P) (s := s) (l := l) hpa hidx hr hr64 hr (PX_lt 0 va)
        unfold pteAt at this
        rw [← h1, this, if_neg (fun hh => hpr hh.1.symm), if_pos rfl]
        rfl
      · rw [if_neg c2, if_neg ht1r] at h1
        have hw0 := walkp_of_children h2 h1
        have k0' : t0 ∈ kids s.mem t1 := (mem_kids _ _ _).2 ⟨_, PX_lt 1 va, h1⟩
        have hpos := hwf.tp_pos t0 ((mem_tablePages _ _ _).2 (Or.inr (Or.inr ⟨t1, k1', k0'⟩)))
        rw [h0] at hw0
        omega

/-! ## `walk` with allocation -/

theorem child_some_iff {m : Mem} {t i c : Nat} :
    child m t i = some c ↔ pteAt m t i &&& PTE_V ≠ 0 ∧ PTE2PA (pteAt m t i) = c := by
  unfold child
  by_cases h : pteAt m t i &&& PTE_V ≠ 0
  · rw [if_pos h]; simp [h]
  · rw [if_neg h]; simp [h]

theorem child_none_iff {m : Mem} {t i : Nat} :
    child m t i = none ↔ pteAt m t i &&& PTE_V = 0 := by
  unfold child
  by_cases h : pteAt m t i &&& PTE_V ≠ 0
  · rw [if_pos h]; simp [h]
  · rw [if_neg h]; simpa using h

theorem walkLoop_succ_valid (P : KParams) (alloc : Bool) (va l : Nat) (s : Kmem) (t c : Nat)
    (h : child s.mem t (PX (l + 1) va) = some c) :
    walkLoop P alloc va (l + 1) s t = walkLoop P alloc va l s c := by
  obtain ⟨hv, hc⟩ := child_some_iff.1 h
  unfold pteAt at hv hc
  rw [walkLoop]
  simp only [hv, if_true, ne_eq, not_false_eq_true, hc]

theorem walkLoop_succ_nil (P : KParams) (va l : Nat) (s : Kmem) (t : Nat)
    (h : child s.mem t (PX (l + 1) va) = none) (hf : s.freelist = []) :
    walkLoop P true va (l + 1) s t = (0, s) := by
  have hv := child_none_iff.1 h
  unfold pteAt at hv
  rw [walkLoop]
  simp only [hv, ne_eq, not_true_eq_false, if_false, if_true, kalloc_nil P s hf]

theorem walkLoop_succ_cons (P : KParams) (va l : Nat) (s : Kmem) (t r : Nat) (rest : List Nat)
    (h : child s.mem t (PX (l + 1) va) = none) (hf : s.freelist = r :: rest) (hr : r ≠ 0) :
    walkLoop P true va (l + 1) s t =
      walkLoop P true va l (install P s (t + 8 * PX (l + 1) va) r rest) r := by
  have hv := child_none_iff.1 h
  unfold pteAt at hv
  rw [walkLoop]
  simp only [hv, ne_eq, not_true_eq_false, if_false, if_true, kalloc_cons P s r rest hf, hr]
  rfl

theorem walkLoop_zero (P : KParams) (alloc : Bool) (va : Nat) (s : Kmem) (t : Nat) :
    walkLoop P alloc va 0 s t = (t + 8 * PX 0 va, s) := by
  rw [walkLoop]

/-- The last level of `walk` with allocation, below a valid level-2 entry. -/
theorem walk_alloc_level1 {P : KParams} {pool : List Nat} {s : Kmem} {root : Nat}
    {held : List Nat} (h : Held P pool s root held) (va t1 : Nat)
    (h2 : child s.mem root (PX 2 va) = some t1) :
    Held P pool (walkLoop P true va 1 s t1).2 root held ∧
      LeafPres s.mem (walkLoop P true va 1 s t1).2.mem root ∧
      ((walkLoop P true va 1 s t1).1 ≠ 0 →
        (walkLoop P true va 1 s t1).1 = walkp (walkLoop P true va 1 s t1).2.mem va 2 root) := by
  have k1 : t1 ∈ kids s.mem root := (mem_kids _ _ _).2 ⟨_, PX_lt 2 va, h2⟩
  cases c1 : child s.mem t1 (PX 1 va) with
  | some t0 =>
    rw [walkLoop_succ_valid P true va 0 s t1 t0 c1, walkLoop_zero]
    exact ⟨h, LeafPres_refl _ _, fun _ => (walkp_of_children h2 c1).symm⟩
  | none =>
    cases hf : s.freelist with
    | nil =>
      rw [walkLoop_succ_nil P va 0 s t1 c1 hf]
      exact ⟨h, LeafPres_refl _ _, fun hne => absurd rfl hne⟩
    | cons r rest =>
      have hrf : r ∈ s.freelist := by rw [hf]; exact List.mem_cons_self _ _
      have hrm : managed P r := h.wf.fl_managed r hrf
      have hrt : r ∉ tablePages s.mem root := fun ht => h.wf.tp_fl r ht hrf
      rw [walkLoop_succ_cons P va 0 s t1 r rest c1 hf (Nat.pos_iff_ne_zero.1 (managed_pos P hrm)),
        walkLoop_zero]
      refine ⟨install_Held h (Or.inr k1) (PX_lt 1 va) c1 hf,
        install_LeafPres h.wf (Or.inr k1) (PX_lt 1 va) c1 hrm hrt, fun _ => ?_⟩
      have hpa : t1 % PGSIZE = 0 := kids_aligned k1
      have hne : root ≠ t1 := fun e => kids_root_not_root h.wf.tp_nodup k1 e.symm
      have hrr : root ≠ r := fun e => hrt (e ▸ top_mem_tablePages (Or.inl rfl))
      have h2' : child (install P s (t1 + 8 * PX 1 va) r rest).mem root (PX 2 va) = some t1 := by
        rw [install_child hpa (PX_lt 1 va) hrm.1 (managed_lt P hrm) h.wf.root_aligned (PX_lt 2 va),
          if_neg (fun hh => hne hh.1), if_neg hrr]
        exact h2
      have h1' : child (install P s (t1 + 8 * PX 1 va) r rest).mem t1 (PX 1 va) = some r := by
        rw [install_child hpa (PX_lt 1 va) hrm.1 (managed_lt P hrm) hpa (PX_lt 1 va),
          if_pos ⟨rfl, rfl⟩]
      exact (walkp_of_children h2' h1').symm

/-- `walk` with allocation keeps the accounting and the existing level-0
entries, and the pointer it returns is the one a walk without allocation
finds afterwards. -/
theorem walk_alloc_spec {P : KParams} {pool : List Nat} {s : Kmem} {root : Nat}
    {held : List Nat} (h : Held P pool s root held) (va : Nat) :
    Held P pool (walkLoop P true va 2 s root).2 root held ∧
      LeafPres s.mem (walkLoop P true va 2 s root).2.mem root ∧
      ((walkLoop P true va 2 s root).1 ≠ 0 →
        (walkLoop P true va 2 s root).1 = walkp (walkLoop P true va 2 s root).2.mem va 2 root) := by
  cases c2 : child s.mem root (PX 2 va) with
  | some t1 =>
    rw [walkLoop_succ_valid P true va 1 s root t1 c2]
    exact walk_alloc_level1 h va t1 c2
  | none =>
    cases hf : s.freelist with
    | nil =>
      rw [walkLoop_succ_nil P va 1 s root c2 hf]
      exact ⟨h, LeafPres_refl _ _, fun hne => absurd rfl hne⟩
    | cons r rest =>
      have hrf : r ∈ s.freelist := by rw [hf]; exact List.mem_cons_self _ _
      have hrm : managed P r := h.wf.fl_managed r hrf
      have hrt : r ∉ tablePages s.mem root := fun ht => h.wf.tp_fl r ht hrf
      rw [walkLoop_succ_cons P va 1 s root r rest c2 hf
        (Nat.pos_iff_ne_zero.1 (managed_pos P hrm))]
      have hH := install_Held h (Or.inl rfl) (PX_lt 2 va) c2 hf
      have hL := install_LeafPres (l := rest) h.wf (Or.inl rfl) (PX_lt 2 va) c2 hrm hrt
      have h2' : child (install P s (root + 8 * PX 2 va) r rest).mem root (PX 2 va) = some r := by
        rw [install_child h.wf.root_aligned (PX_lt 2 va) hrm.1 (managed_lt P hrm)
          h.wf.root_aligned (PX_lt 2 va), if_pos ⟨rfl, rfl⟩]
      obtain ⟨a, b, c⟩ := walk_alloc_level1 hH va r h2'
      exact ⟨a, LeafPres_trans hL b, c⟩

/-! ## Writing a level-0 entry -/

/-- After a store into the level-0 entry at `p`, every walk is as before and
every other level-0 entry has its old content. -/
theorem leaf_write_char {P : KParams} {s : Kmem} {root : Nat} (hwf : WfPT P s root)
    {va : Nat} (hw : walkp s.mem va 2 root ≠ 0) (v : Nat) (hv : v < 2 ^ 64) :
    tablePages (write64 s.mem (walkp s.mem va 2 root) v) root = tablePages s.mem root ∧
    ∀ va', walkp (write64 s.mem (walkp s.mem va 2 root) v) va' 2 root = walkp s.mem va' 2 root ∧
      (walkp s.mem va' 2 root ≠ 0 →
        leafPte (write64 s.mem (walkp s.mem va 2 root) v) root va' =
          if walkp s.mem va' 2 root = walkp s.mem va 2 root then v else leafPte s.mem root va') := by
  obtain ⟨t1, t0, _, _, e, k1, k0, ht0, _⟩ := walkp_ne_zero hw
  have hlt := leaf_not_top hwf.tp_nodup k1 k0
  have hal := tablePages_aligned hwf
  have hs : sameOn s.mem (write64 s.mem (walkp s.mem va 2 root) v) (root :: kids s.mem root) := by
    intro t ht x h1 h2
    have hta : t % PGSIZE = 0 := hal t (top_mem_tablePages (List.mem_cons.1 ht))
    have hne : t ≠ t0 := by
      rcases List.mem_cons.1 ht with e' | hk
      · exact fun e'' => hlt.1 (e''.symm.trans e')
      · exact fun e'' => hlt.2 (e'' ▸ hk)
    rw [e]
    apply write64_out
    by_contra hcon
    have hin := cell_in_page (PX_lt 0 va) (t := t0) (x := x) (by omega) (by omega)
    exact pages_disjoint hta (hal t0 ht0) hne ⟨h1, h2⟩ hin
  refine ⟨sameOn_tablePages hs, fun va' => ⟨sameOn_walkp hs va', fun hw' => ?_⟩⟩
  unfold leafPte
  rw [sameOn_walkp hs va']
  by_cases heq : walkp s.mem va' 2 root = walkp s.mem va 2 root
  · rw [if_pos heq, heq, read64_write64_same _ _ _ hv]
  · rw [if_neg heq]
    obtain ⟨t1', t0', _, _, e', k1', k0', ht0', _⟩ := walkp_ne_zero hw'
    rw [e, e'] at heq ⊢
    apply read64_write64_other
    have := cells_disjoint (hal t0' ht0') (hal t0 ht0) (PX_lt 0 va') (PX_lt 0 va)
      (fun hh => heq (by rw [hh.1, hh.2]))
    omega

theorem Held_of_tablePages_eq {P : KParams} {pool : List Nat} {s s' : Kmem} {root : Nat}
    {held : List Nat} (h : Held P pool s root held) (hf : s'.freelist = s.freelist)
    (hk : s'.kmemref = s.kmemref) (htp : tablePages s'.mem root = tablePages s.mem root) :
    Held P pool s' root held := by
  refine ⟨⟨?_, ?_, h.wf.root_aligned, ?_, ?_, ?_⟩, h.nodup, ?_, ?_⟩
  · rw [hf]; exact h.wf.fl_nodup
  · rw [hf]; exact h.wf.fl_managed
  · rw [htp]; exact h.wf.tp_nodup
  · rw [htp]; exact h.wf.tp_pos
  · rw [htp, hf]; exact h.wf.tp_fl
  · rw [htp, hf, hk]; exact h.props
  · rw [htp, hf]; exact h.perm

theorem MappedRun_mono {q : Nat → Prop} {m m' : Mem} {root : Nat} {D : List Nat}
    (h : ∀ va, mapped m root va → PTE2PA (leafPte m root va) ∈ D →
      mapped m' root va ∧ leafPte m' root va = leafPte m root va) :
    ∀ (D' : List Nat) (a : Nat), (∀ x ∈ D', x ∈ D) → MappedRun q m root a D' →
      MappedRun q m' root a D' := by
  intro D'
  induction D' with
  | nil => intro a _ _; trivial
  | cons d D' ih =>
    intro a hsub hr
    obtain ⟨⟨h1, h2, h3, h4⟩, h5⟩ := hr
    obtain ⟨k1, k2⟩ := h a h2 (by rw [h3]; exact hsub d (List.mem_cons_self _ _))
    exact ⟨⟨h1, k1, by rw [k2]; exact h3, by rw [k2]; exact h4⟩,
      ih _ (fun x hx => hsub x (List.mem_cons_of_mem _ hx)) h5⟩

theorem MappedRun_mem {q : Nat → Prop} {m : Mem} {root : Nat} :
    ∀ (ds : List Nat) (a : Nat), MappedRun q m root a ds → ∀ d ∈ ds,
      ∃ va, mapped m root va ∧ PTE2PA (leafPte m root va) = d := by
  intro ds
  induction ds with
  | nil => intro a _ d hd; simp at hd
  | cons x xs ih =>
    intro a hr d hd
    obtain ⟨⟨_, h2, h3, _⟩, h5⟩ := hr
    rcases List.mem_cons.1 hd with e | hd
    · exact ⟨a, h2, by rw [h3, e]⟩
    · exact ih _ h5 d hd

/-- Setting an invalid level-0 entry maps one more page and changes nothing
else. -/
theorem leaf_set {P : KParams} {pool : List Nat} {s : Kmem} {root : Nat} {held : List Nat}
    (h : Held P pool s root held) {va : Nat} (hw : walkp s.mem va 2 root ≠ 0)
    (hinv : leafPte s.mem root va &&& PTE_V = 0) (v : Nat) (hv : v < 2 ^ 64)
    (hvv : v &&& PTE_V ≠ 0) {q : Nat → Prop} (hq : q v) (a0 : Nat) (ds : List Nat)
    (hva : va = a0 + ds.length * PGSIZE) (hlt : va < MAXVA)
    (hrun : MappedRun q s.mem root a0 ds) :
    Held P pool { s with mem := write64 s.mem (walkp s.mem va 2 root) v } root held ∧
      MappedRun q (write64 s.mem (walkp s.mem va 2 root) v) root a0 (ds ++ [PTE2PA v]) ∧
      (PTE2PA v ∉ ds → LeafInv s.mem root ds → Uniq s.mem root →
        LeafInv (write64 s.mem (walkp s.mem va 2 root) v) root (ds ++ [PTE2PA v]) ∧
        Uniq (write64 s.mem (walkp s.mem va 2 root) v) root) := by
  obtain ⟨htp, hch⟩ := leaf_write_char h.wf hw v hv
  have hnew : mapped (write64 s.mem (walkp s.mem va 2 root) v) root va ∧
      leafPte (write64 s.mem (walkp s.mem va 2 root) v) root va = v := by
    have := (hch va).2 hw
    rw [if_pos rfl] at this
    exact ⟨⟨by rw [(hch va).1]; exact hw, by rw [this]; exact hvv⟩, this⟩
  have hold : ∀ va', mapped s.mem root va' →
      mapped (write64 s.mem (walkp s.mem va 2 root) v) root va' ∧
      leafPte (write64 s.mem (walkp s.mem va 2 root) v) root va' = leafPte s.mem root va' := by
    intro va' hm
    have hne : walkp s.mem va' 2 root ≠ walkp s.mem va 2 root := by
      intro e
      have hm2 := hm.2
      unfold leafPte at hm2 hinv
      rw [e] at hm2
      exact hm2 hinv
    have := (hch va').2 hm.1
    rw [if_neg hne] at this
    exact ⟨⟨by rw [(hch va').1]; exact hm.1, by rw [this]; exact hm.2⟩, this⟩
  have hback : ∀ va', mapped (write64 s.mem (walkp s.mem va 2 root) v) root va' →
      (walkp s.mem va' 2 root = walkp s.mem va 2 root ∧
        leafPte (write64 s.mem (walkp s.mem va 2 root) v) root va' = v) ∨
      (walkp s.mem va' 2 root ≠ walkp s.mem va 2 root ∧ mapped s.mem root va' ∧
        leafPte (write64 s.mem (walkp s.mem va 2 root) v) root va' = leafPte s.mem root va') := by
    intro va' hm
    have hw' : walkp s.mem va' 2 root ≠ 0 := by rw [← (hch va').1]; exact hm.1
    have := (hch va').2 hw'
    by_cases e : walkp s.mem va' 2 root = walkp s.mem va 2 root
    · rw [if_pos e] at this; exact Or.inl ⟨e, this⟩
    · rw [if_neg e] at this
      exact Or.inr ⟨e, ⟨hw', by rw [← this]; exact hm.2⟩, this⟩
  refine ⟨Held_of_tablePages_eq h rfl rfl htp, ?_, ?_⟩
  · refine MappedRun_snoc ds a0 _ ?_ ?_
    · exact MappedRun_mono (D := ds) (fun va' hm _ => hold va' hm) ds a0 (fun _ hx => hx) hrun
    · rw [← hva]
      exact ⟨hlt, hnew.1, by rw [hnew.2], by rw [hnew.2]; exact hq⟩
  · intro hfresh hleaf huniq
    constructor
    · intro va' hm
      rcases hback va' hm with ⟨_, e⟩ | ⟨_, hm', e⟩
      · rw [e]; exact List.mem_append_right _ (List.mem_singleton_self _)
      · rw [e]; exact List.mem_append_left _ (hleaf va' hm')
    · intro va1 va2 hm1 hm2 he
      rw [(hch va1).1, (hch va2).1]
      rcases hback va1 hm1 with ⟨w1, e1⟩ | ⟨_, hm1', e1⟩ <;>
        rcases hback va2 hm2 with ⟨w2, e2⟩ | ⟨_, hm2', e2⟩
      · rw [w1, w2]
      · rw [e1, e2] at he
        exact absurd (he ▸ hleaf va2 hm2') hfresh
      · rw [e1, e2] at he
        exact absurd (he ▸ hleaf va1 hm1') hfresh
      · rw [e1, e2] at he
        exact huniq va1 va2 hm1' hm2' he

/-- Clearing the level-0 entry of `va` unmaps the page it held and changes
nothing else. -/
theorem leaf_clear {P : KParams} {pool : List Nat} {s : Kmem} {root : Nat} {held : List Nat}
    (h : Held P pool s root held) {va : Nat} (hm : mapped s.mem root va) {q : Nat → Prop}
    (ds : List Nat) (hd : PTE2PA (leafPte s.mem root va) ∉ ds) :
    Held P pool { s with mem := write64 s.mem (walkp s.mem va 2 root) 0 } root held ∧
      (∀ ds' b, (∀ x ∈ ds', x ∈ ds) → MappedRun q s.mem root b ds' →
        MappedRun q (write64 s.mem (walkp s.mem va 2 root) 0) root b ds') ∧
      (LeafInv s.mem root (PTE2PA (leafPte s.mem root va) :: ds) → Uniq s.mem root →
        LeafInv (write64 s.mem (walkp s.mem va 2 root) 0) root ds ∧
        Uniq (write64 s.mem (walkp s.mem va 2 root) 0) root) := by
  obtain ⟨htp, hch⟩ := leaf_write_char h.wf hm.1 0 (by norm_num)
  have hback : ∀ va', mapped (write64 s.mem (walkp s.mem va 2 root) 0) root va' →
      walkp s.mem va' 2 root ≠ walkp s.mem va 2 root ∧ mapped s.mem root va' ∧
        leafPte (write64 s.mem (walkp s.mem va 2 root) 0) root va' = leafPte s.mem root va' := by
    intro va' hm'
    have hw' : walkp s.mem va' 2 root ≠ 0 := by rw [← (hch va').1]; exact hm'.1
    have := (hch va').2 hw'
    by_cases e : walkp s.mem va' 2 root = walkp s.mem va 2 root
    · rw [if_pos e] at this
      have h2 := hm'.2
      rw [this] at h2
      exact absurd rfl h2
    · rw [if_neg e] at this
      exact ⟨e, ⟨hw', by rw [← this]; exact hm'.2⟩, this⟩
  refine ⟨Held_of_tablePages_eq h rfl rfl htp, ?_, ?_⟩
  · intro ds' b hsub hrun
    refine MappedRun_mono (D := ds) ?_ ds' b hsub hrun
    intro va' hm' hin
    have hne : walkp s.mem va' 2 root ≠ walkp s.mem va 2 root := by
      intro e
      unfold leafPte at hin hd
      rw [e] at hin
      exact hd hin
    have := (hch va').2 hm'.1
    rw [if_neg hne] at this
    exact ⟨⟨by rw [(hch va').1]; exact hm'.1, by rw [this]; exact hm'.2⟩, this⟩
  · intro hleaf huniq
    constructor
    · intro va' hm'
      obtain ⟨hne, hm0, e⟩ := hback va' hm'
      rw [e]
      rcases List.mem_cons.1 (hleaf va' hm0) with e' | hin
      · exact absurd (huniq va' va hm0 hm e') hne
      · exact hin
    · intro va1 va2 hm1 hm2 he
      obtain ⟨_, hm1', e1⟩ := hback va1 hm1
      obtain ⟨_, hm2', e2⟩ := hback va2 hm2
      rw [(hch va1).1, (hch va2).1]
      rw [e1, e2] at he
      exact huniq va1 va2 hm1' hm2' he

/-! ## The loops -/

theorem u64_of_lt {x : Nat} (h : x < 2 ^ 64) : u64 x = x := Nat.mod_eq_of_lt h

theorem MAXVA_lt : MAXVA < 2 ^ 64 := by unfold MAXVA; norm_num

/-- `mappages` of one page. -/
theorem mappages_one (P : KParams) (s : Kmem) (root a pa perm : Nat) (ha : a % PGSIZE = 0)
    (hlt : a < MAXVA) :
    mappages P s root a PGSIZE pa perm =
      if (walkLoop P true a 2 s root).1 = 0 then .ok (-1, (walkLoop P true a 2 s root).2)
      else if read64 (walkLoop P true a 2 s root).2.mem (walkLoop P true a 2 s root).1 &&& PTE_V ≠ 0
        then .error .panic
      else .ok (0, { (walkLoop P true a 2 s root).2 with
        mem := write64 (walkLoop P true a 2 s root).2.mem (walkLoop P true a 2 s root).1
          (PA2PTE pa ||| perm ||| PTE_V) }) := by
  have h1 : PGSIZE / PGSIZE = 1 := by decide
  have h2 : u64 (a + PGSIZE - PGSIZE) = a := by
    rw [Nat.add_sub_cancel]; exact u64_of_lt (Nat.lt_trans hlt MAXVA_lt)
  have h3 : ¬ (a ≥ MAXVA) := Nat.not_le.2 hlt
  unfold mappages
  rw [if_neg (not_not.2 ha), if_neg (by decide), if_neg (by decide), h1, h2]
  unfold mappagesLoop walk
  rw [if_neg h3]
  simp only [if_true]

theorem mappages_panic (P : KParams) (s : Kmem) (root a pa perm : Nat)
    (h : ¬ (a % PGSIZE = 0 ∧ a < MAXVA)) :
    ∃ e, mappages P s root a PGSIZE pa perm = .error e := by
  unfold mappages
  by_cases ha : a % PGSIZE = 0
  · have hge : a ≥ MAXVA := Nat.not_lt.1 (fun hlt => h ⟨ha, hlt⟩)
    have h1 : PGSIZE / PGSIZE = 1 := by decide
    rw [if_neg (not_not.2 ha), if_neg (by decide), if_neg (by decide), h1]
    unfold mappagesLoop walk
    rw [if_pos hge]
    exact ⟨_, rfl⟩
  · rw [if_pos ha]; exact ⟨_, rfl⟩

theorem uvmunmapLoop_step (P : KParams) (root lim fuel a : Nat) (s : Kmem) (h1 : a < lim)
    (h2 : a < MAXVA) (hw : walkp s.mem a 2 root ≠ 0) (hv : leafPte s.mem root a &&& PTE_V ≠ 0) :
    uvmunmapLoop P root lim true (fuel + 1) a s =
      if PTE_FLAGS (leafPte s.mem root a) = PTE_V then .error .panic
      else
        match kfree P s (PTE2PA (leafPte s.mem root a)) with
        | none => .error .panic
        | some s2 =>
          uvmunmapLoop P root lim true fuel (a + PGSIZE)
            { s2 with mem := write64 s2.mem (walkp s.mem a 2 root) 0 } := by
  have h3 : ¬ (a ≥ MAXVA) := Nat.not_le.2 h2
  unfold leafPte at hv ⊢
  rw [uvmunmapLoop]
  unfold walk
  rw [if_pos h1, if_neg h3, walkLoop_false]
  simp only [hw, if_false, if_true]
  rw [if_neg (by simpa using hv)]

/-- The loop of `uvmunmap` over a run of mapped pages that are held: either it
returns, all pages of the run are back on the free list and their entries are
cleared; or an entry whose flags are exactly `PTE_V` makes it panic. -/
theorem uvmunmapLoop_spec {P : KParams} {pool : List Nat} {root : Nat} {q : Nat → Prop} :
    ∀ (ds : List Nat) (fuel a : Nat) (s : Kmem), Held P pool s root ds →
      MappedRun q s.mem root a ds → ds.length < fuel →
      (∃ s', uvmunmapLoop P root (a + ds.length * PGSIZE) true fuel a s = .ok s' ∧
          Held P pool s' root [] ∧
          (LeafInv s.mem root ds → Uniq s.mem root → LeafInv s'.mem root [])) ∨
        (uvmunmapLoop P root (a + ds.length * PGSIZE) true fuel a s = .error .panic ∧
          ∃ e, q e ∧ PTE_FLAGS e = PTE_V) := by
  intro ds
  induction ds with
  | nil =>
    intro fuel a s h _ hf
    cases fuel with
    | zero => exact absurd hf (Nat.lt_irrefl _)
    | succ f =>
      left
      refine ⟨s, ?_, h, fun hl _ => hl⟩
      rw [uvmunmapLoop]
      simp
  | cons d ds ih =>
    intro fuel a s h hrun hf
    cases fuel with
    | zero => exact absurd hf (Nat.not_lt_zero _)
    | succ f =>
      obtain ⟨⟨hlt, hm, hd, hq⟩, hrest⟩ := hrun
      have hl : a + (d :: ds).length * PGSIZE = a + PGSIZE + ds.length * PGSIZE := by
        simp only [List.length_cons]; ring
      have h1 : a < a + (d :: ds).length * PGSIZE := by
        simp only [List.length_cons, PGSIZE]; omega
      rw [uvmunmapLoop_step P root _ f a s h1 hlt hm.1 hm.2]
      by_cases hfl : PTE_FLAGS (leafPte s.mem root a) = PTE_V
      · rw [if_pos hfl]
        exact Or.inr ⟨rfl, _, hq, hfl⟩
      · rw [if_neg hfl, hd]
        obtain ⟨s2, hk, _, hH2, hL2⟩ := Held_kfree h (List.mem_cons_self d ds)
        rw [List.erase_cons_head] at hH2
        rw [hk]
        simp only
        obtain ⟨hm2, hw2, hl2⟩ := LeafPres_mapped hL2 hm
        have hdn : PTE2PA (leafPte s2.mem root a) ∉ ds := by
          rw [hl2, hd]; exact (List.nodup_cons.1 h.nodup).1
        obtain ⟨hH3, hR3, hI3⟩ := leaf_clear (q := q) hH2 hm2 ds hdn
        rw [hw2] at hH3 hR3 hI3
        have hrun3 := hR3 ds (a + PGSIZE) (fun _ hx => hx) (MappedRun_pres hL2 ds _ hrest)
        have hf' : ds.length < f := by
          simp only [List.length_cons] at hf; omega
        rw [hl]
        rcases ih f (a + PGSIZE) _ hH3 hrun3 hf' with ⟨s', e, hH, hI⟩ | ⟨e, hp⟩
        · left
          refine ⟨s', e, hH, fun hleaf huniq => ?_⟩
          have hleaf2 : LeafInv s2.mem root (PTE2PA (leafPte s2.mem root a) :: ds) := by
            rw [hl2, hd]; exact LeafInv_pres hL2 hleaf
          obtain ⟨a1, a2⟩ := hI3 hleaf2 (Uniq_pres hL2 huniq)
          exact hI a1 a2
        · exact Or.inr ⟨e, hp⟩

theorem PTE_FLAGS_mkpte (pa perm : Nat) (hp : perm < 1024) :
    PTE_FLAGS (PA2PTE pa ||| perm ||| PTE_V) = perm ||| 1 := by
  unfold PTE_FLAGS
  have : (0x3FF : Nat) = 2 ^ 10 - 1 := by norm_num
  rw [this, Nat.and_pow_two_sub_one_eq_mod, mkpte_eq pa perm hp]
  have h1 : perm ||| 1 < 2 ^ 10 := Nat.or_lt_two_pow (by simpa using hp) (by decide)
  norm_num at h1 ⊢
  omega

theorem uperm_lt (xperm : Nat) (hx : xperm < 1024) : PTE_R ||| PTE_U ||| xperm < 1024 := by
  have : PTE_R ||| PTE_U ||| xperm < 2 ^ 10 :=
    Nat.or_lt_two_pow (by decide) (by simpa using hx)
  simpa using this

theorem uperm_flags (pa xperm : Nat) (hx : xperm < 1024) :
    PTE_FLAGS (PA2PTE pa ||| (PTE_R ||| PTE_U ||| xperm) ||| PTE_V) ≠ PTE_V := by
  rw [PTE_FLAGS_mkpte pa _ (uperm_lt xperm hx)]
  intro e
  have h1 : (PTE_R ||| PTE_U ||| xperm ||| 1).testBit 1 = true := by
    have hr : PTE_R.testBit 1 = true := by decide
    rw [Nat.testBit_lor, Nat.testBit_lor, Nat.testBit_lor, hr]
    simp
  have h2 : PTE_V.testBit 1 = false := by decide
  rw [e, h2] at h1
  exact Bool.noConfusion h1

/-- One successful or failed `mappages` of the page `r` just allocated. -/
theorem grow_step {P : KParams} {pool : List Nat} {s : Kmem} {root : Nat} {ds : List Nat}
    {r a0 : Nat} {q : Nat → Prop} (h : Held P pool s root (ds ++ [r]))
    (hrun : MappedRun q s.mem root a0 ds) (a : Nat) (ha : a = a0 + ds.length * PGSIZE)
    (hal : a % PGSIZE = 0) (hlt : a < MAXVA) (perm : Nat) (hperm : perm < 1024)
    (hq : q (PA2PTE r ||| perm ||| PTE_V)) :
    (∃ s3, mappages P s root a PGSIZE r perm = .ok (-1, s3) ∧ Held P pool s3 root (ds ++ [r]) ∧
        MappedRun q s3.mem root a0 ds ∧ LeafPres s.mem s3.mem root) ∨
      (∃ s4, mappages P s root a PGSIZE r perm = .ok (0, s4) ∧ Held P pool s4 root (ds ++ [r]) ∧
        MappedRun q s4.mem root a0 (ds ++ [r]) ∧
        (LeafInv s.mem root ds → Uniq s.mem root →
          LeafInv s4.mem root (ds ++ [r]) ∧ Uniq s4.mem root)) ∨
      mappages P s root a PGSIZE r perm = .error .panic := by
  rw [mappages_one P s root a r perm hal hlt]
  obtain ⟨hH, hL, hp⟩ := walk_alloc_spec h a
  have hrin : r ∈ ds ++ [r] := List.mem_append_right _ (List.mem_singleton_self _)
  have hrm : managed P r := (h.props r hrin).1
  have hrn : r ∉ ds := by
    have := h.nodup
    rw [List.nodup_append] at this
    exact fun hx => this.2.2 hx (List.mem_singleton_self _)
  by_cases h0 : (walkLoop P true a 2 s root).1 = 0
  · rw [if_pos h0]
    exact Or.inl ⟨_, rfl, hH, MappedRun_pres hL ds a0 hrun, hL⟩
  · rw [if_neg h0]
    by_cases hv : read64 (walkLoop P true a 2 s root).2.mem (walkLoop P true a 2 s root).1
        &&& PTE_V ≠ 0
    · rw [if_pos hv]; exact Or.inr (Or.inr rfl)
    · rw [if_neg hv]
      right; left
      have hw := hp h0
      have hw0 : walkp (walkLoop P true a 2 s root).2.mem a 2 root ≠ 0 := by rw [← hw]; exact h0
      have hinv : leafPte (walkLoop P true a 2 s root).2.mem root a &&& PTE_V = 0 := by
        unfold leafPte; rw [← hw]; simpa using hv
      have hv64 := Nat.lt_trans (mkpte_lt r perm hperm (managed_lt P hrm))
        (by norm_num : 2 ^ 62 < 2 ^ 64)
      obtain ⟨k1, k2, k3⟩ := leaf_set hH hw0 hinv (PA2PTE r ||| perm ||| PTE_V) hv64
        (mkpte_valid r perm hperm) hq a0 ds ha hlt (MappedRun_pres hL ds a0 hrun)
      rw [mkpte_PTE2PA r perm hperm (managed_lt P hrm) hrm.1, ← hw] at k2 k3
      rw [← hw] at k1
      exact ⟨_, rfl, k1, k2, fun hleaf huniq =>
        k3 hrn (LeafInv_pres hL hleaf) (Uniq_pres hL huniq)⟩

theorem uvmdealloc_not_ok (P : KParams) (s : Kmem) (root a b n : Nat) (s1 : Kmem) (hn : n ≠ 0) :
    (match uvmdealloc P s root a b with
      | .error e => (Except.error e : Except Fail (Nat × Kmem))
      | .ok (_, s') => .ok (0, s')) ≠ .ok (n, s1) := by
  cases uvmdealloc P s root a b with
  | error e => simp
  | ok p =>
    obtain ⟨x, y⟩ := p
    simp only [ne_eq, Except.ok.injEq, Prod.mk.injEq, not_and]
    intro e; exact absurd e.symm hn

theorem uvmallocLoop_spec {P : KParams} {pool : List Nat} {root a0 newsz xperm : Nat}
    (hx : xperm < 1024) (ha0 : a0 % PGSIZE = 0) :
    ∀ (fuel : Nat) (ds : List Nat) (s s1 : Kmem), Held P pool s root ds →
      MappedRun leafFlags s.mem root a0 ds →
      uvmallocLoop P root a0 newsz xperm fuel (a0 + ds.length * PGSIZE) s = .ok (newsz, s1) →
      ∃ ds', Held P pool s1 root ds' ∧ MappedRun leafFlags s1.mem root a0 ds' ∧
        newsz ≤ a0 + ds'.length * PGSIZE ∧ ds.length ≤ ds'.length ∧
        (ds.length < ds'.length → a0 + (ds'.length - 1) * PGSIZE < newsz) := by
  intro fuel
  induction fuel with
  | zero => intro ds s s1 _ _ h; simp [uvmallocLoop] at h
  | succ f ih =>
    intro ds s s1 hH hrun h
    rw [uvmallocLoop] at h
    by_cases hlt : a0 + ds.length * PGSIZE < newsz
    · rw [if_pos hlt] at h
      have hn0 : newsz ≠ 0 := by omega
      cases hf : s.freelist with
      | nil =>
        rw [kalloc_nil P s hf] at h
        simp only [if_true] at h
        exact absurd h (uvmdealloc_not_ok P s root _ _ newsz s1 hn0)
      | cons r rest =>
        obtain ⟨hk1, hrm, hH1, hL1⟩ := Held_kalloc hH hf
        have hr0 : (kalloc P s).1 ≠ 0 := by
          rw [hk1]; exact Nat.pos_iff_ne_zero.1 (managed_pos P hrm)
        simp only [hr0, if_false] at h
        rw [hk1] at h
        have hrin : r ∈ ds ++ [r] := List.mem_append_right _ (List.mem_singleton_self _)
        obtain ⟨hH2, hL2⟩ := Held_data_write hH1 hrin
          (memset (kalloc P s).2.mem r 0 PGSIZE) (fun x hx => memset_out _ _ _ _ _ (by omega))
        have hrun2 := MappedRun_pres hL2 ds a0 (MappedRun_pres hL1 ds a0 hrun)
        have hal : (a0 + ds.length * PGSIZE) % PGSIZE = 0 := by
          simp only [PGSIZE] at ha0 ⊢; omega
        by_cases hmax : a0 + ds.length * PGSIZE < MAXVA
        · rcases grow_step hH2 hrun2 (a0 + ds.length * PGSIZE) rfl hal hmax
            (PTE_R ||| PTE_U ||| xperm) (uperm_lt xperm hx) (uperm_flags r xperm hx) with
            ⟨s3, e, _, _, _⟩ | ⟨s4, e, hH4, hrun4, _⟩ | e
          · rw [e] at h
            simp only [ne_eq, Int.reduceNeg, neg_eq_zero, one_ne_zero, not_false_eq_true,
              if_true] at h
            cases hk : kfree P s3 r with
            | none => rw [hk] at h; simp at h
            | some s5 =>
              rw [hk] at h
              exact absurd h (uvmdealloc_not_ok P s5 root _ _ newsz s1 hn0)
          · rw [e] at h
            simp only [ne_eq, not_true_eq_false, if_false] at h
            have hlen : a0 + ds.length * PGSIZE + PGSIZE = a0 + (ds ++ [r]).length * PGSIZE := by
              simp only [List.length_append, List.length_singleton]; ring
            rw [hlen] at h
            obtain ⟨ds', k1, k2, k3, k4, k5⟩ := ih (ds ++ [r]) s4 s1 hH4 hrun4 h
            simp only [List.length_append, List.length_singleton] at k4 k5
            refine ⟨ds', k1, k2, k3, by omega, fun _ => ?_⟩
            by_cases hc : ds.length + 1 < ds'.length
            · exact k5 hc
            · have : ds'.length = ds.length + 1 := by omega
              rw [this, Nat.add_sub_cancel]; exact hlt
          · rw [e] at h; simp at h
        · obtain ⟨e, he⟩ := mappages_panic P
            { (kalloc P s).2 with mem := memset (kalloc P s).2.mem r 0 PGSIZE } root
            (a0 + ds.length * PGSIZE) r (PTE_R ||| PTE_U ||| xperm) (fun hh => hmax hh.2)
          rw [he] at h; simp at h
    · rw [if_neg hlt] at h
      simp only [Except.ok.injEq, Prod.mk.injEq, true_and] at h
      subst h
      exact ⟨ds, hH, hrun, by omega, Nat.le_refl _, fun hc => absurd hc (Nat.lt_irrefl _)⟩

theorem MappedRun_lt {q : Nat → Prop} {m : Mem} {root : Nat} :
    ∀ (ds : List Nat) (a : Nat), MappedRun q m root a ds →
      ∀ j, j < ds.length → a + j * PGSIZE < MAXVA := by
  intro ds
  induction ds with
  | nil => intro a _ j hj; exact absurd hj (Nat.not_lt_zero _)
  | cons d ds ih =>
    intro a hr j hj
    obtain ⟨⟨h1, _⟩, h5⟩ := hr
    cases j with
    | zero => simpa using h1
    | succ j =>
      have := ih (a + PGSIZE) h5 j (by simpa using hj)
      have e : a + (j + 1) * PGSIZE = a + PGSIZE + j * PGSIZE := by ring
      rw [e]; exact this

theorem Held_init {P : KParams} {s : Kmem} {root : Nat} (hwf : WfPT P s root) :
    Held P (s.freelist ++ tablePages s.mem root) s root [] :=
  ⟨hwf, List.nodup_nil, fun d hd => absurd hd (List.not_mem_nil d), List.Perm.refl _⟩

theorem Held_nil_perm {P : KParams} {pool : List Nat} {s : Kmem} {root : Nat}
    (h : Held P pool s root []) : (s.freelist ++ tablePages s.mem root).Perm pool := by
  have := h.perm
  simpa using this

theorem grow_pages_arith (oldsz newsz k : Nat) (hle : oldsz ≤ newsz) (hn : newsz < 2 ^ 64)
    (h1 : newsz ≤ PGROUNDUP oldsz + k * PGSIZE)
    (h2 : 0 < k → PGROUNDUP oldsz + (k - 1) * PGSIZE < newsz)
    (h3 : 0 < k → PGROUNDUP oldsz + (k - 1) * PGSIZE < MAXVA) :
    (k = 0 ∧ ¬ (PGROUNDUP oldsz < PGROUNDUP newsz)) ∨
      (0 < k ∧ oldsz < newsz ∧ PGROUNDUP oldsz < PGROUNDUP newsz ∧
        (PGROUNDUP newsz - PGROUNDUP oldsz) / PGSIZE = k ∧ k < 2 ^ 31 ∧
        PGROUNDUP oldsz + k * PGSIZE < 2 ^ 64) := by
  unfold PGROUNDUP u64 PGSIZE MAXVA at *
  norm_num at *
  omega

theorem PGROUNDUP_mod (a : Nat) : PGROUNDUP a % PGSIZE = 0 := by
  unfold PGROUNDUP; exact Nat.mul_mod_left _ _

theorem intToU64_of_lt {x : Nat} (h : x < 2 ^ 31) : intToU64 x = x := by
  unfold intToU64
  have : x % 2 ^ 32 = x := Nat.mod_eq_of_lt (by omega)
  rw [this, if_pos h]

/-- `uvmunmap` of a run of held pages from `a`. -/
theorem uvmunmap_run {P : KParams} {pool : List Nat} {root : Nat} {q : Nat → Prop}
    (ds : List Nat) (a : Nat) (s : Kmem) (hH : Held P pool s root ds)
    (hrun : MappedRun q s.mem root a ds) (ha : a % PGSIZE = 0)
    (h64 : a + ds.length * PGSIZE < 2 ^ 64) :
    (∃ s', uvmunmap P s root a ds.length true = .ok s' ∧ Held P pool s' root [] ∧
        (LeafInv s.mem root ds → Uniq s.mem root → LeafInv s'.mem root [])) ∨
      (uvmunmap P s root a ds.length true = .error .panic ∧ ∃ e, q e ∧ PTE_FLAGS e = PTE_V) := by
  unfold uvmunmap
  rw [if_neg (not_not.2 ha), u64_of_lt h64]
  exact uvmunmapLoop_spec ds (ds.length + 1) a s hH hrun (Nat.lt_succ_self _)

/-- C3 (amended): for every well-formed allocator and page table, permission
bits `xperm < 1024` and sizes `oldsz <= newsz` for which `uvmalloc` succeeds
(returns `newsz`), the following `uvmdealloc(pt, newsz, oldsz)` returns
`oldsz`, and afterwards the free list together with the page-table pages of
`pt` holds exactly the pages that the free list and the page-table pages held
before the `uvmalloc`: every data page that the grow allocated has been freed,
and the free list is shorter than before by exactly the number of page-table
pages that `walk` added to the table. -/
theorem C3_grow_then_shrink (P : KParams) (s : Kmem) (pt oldsz newsz xperm : Nat) (s1 : Kmem)
    (hwf : WfPT P s pt) (hx : xperm < 1024) (hle : oldsz ≤ newsz) (hn : newsz < 2 ^ 64)
    (hg : uvmalloc P s pt oldsz newsz xperm = .ok (newsz, s1)) :
    ∃ s2, uvmdealloc P s1 pt newsz oldsz = .ok (oldsz, s2) ∧
      (s2.freelist ++ tablePages s2.mem pt).Perm (s.freelist ++ tablePages s.mem pt) ∧
      s2.freelist.length + (tablePages s2.mem pt).length =
        s.freelist.length + (tablePages s.mem pt).length := by
  unfold uvmalloc at hg
  rw [if_neg (Nat.not_lt.2 hle)] at hg
  have hg' : uvmallocLoop P pt (PGROUNDUP oldsz) newsz xperm (newsz / PGSIZE + 2)
      (PGROUNDUP oldsz + ([] : List Nat).length * PGSIZE) s = .ok (newsz, s1) := by
    simpa using hg
  obtain ⟨ds, hH, hrun, k3, _, k5⟩ :=
    uvmallocLoop_spec hx (PGROUNDUP_mod oldsz) _ [] s s1 (Held_init hwf) trivial hg'
  have key : ∃ s2, uvmdealloc P s1 pt newsz oldsz = .ok (oldsz, s2) ∧
      Held P (s.freelist ++ tablePages s.mem pt) s2 pt [] := by
    have hlast : 0 < ds.length → PGROUNDUP oldsz + (ds.length - 1) * PGSIZE < MAXVA :=
      fun hpos => MappedRun_lt ds _ hrun (ds.length - 1) (by omega)
    unfold uvmdealloc
    rcases grow_pages_arith oldsz newsz ds.length hle hn k3 (by simpa using k5) hlast with
      ⟨hk, hnr⟩ | ⟨_, hlt, hr, hnp, h31, h64⟩
    · have hnil : ds = [] := List.length_eq_zero.1 hk
      rw [hnil] at hH
      by_cases hge : oldsz ≥ newsz
      · rw [if_pos hge]
        have : oldsz = newsz := Nat.le_antisymm hle hge
        exact ⟨s1, by rw [this], hH⟩
      · rw [if_neg hge, if_neg hnr]
        exact ⟨s1, rfl, hH⟩
    · rw [if_neg (Nat.not_le.2 hlt), if_pos hr]
      simp only
      rw [hnp, intToU64_of_lt h31]
      rcases uvmunmap_run ds (PGROUNDUP oldsz) s1 hH hrun (PGROUNDUP_mod oldsz) h64 with
        ⟨s2, e, hH2, _⟩ | ⟨_, e, he1, he2⟩
      · rw [e]; exact ⟨s2, rfl, hH2⟩
      · exact absurd he2 he1
  obtain ⟨s2, e, hH2⟩ := key
  have hp := Held_nil_perm hH2
  refine ⟨s2, e, hp, ?_⟩
  have := hp.length_eq
  simpa [List.length_append] using this

theorem PTE_FLAGS_lt (e : Nat) : PTE_FLAGS e < 1024 := by
  unfold PTE_FLAGS
  have : (0x3FF : Nat) = 2 ^ 10 - 1 := by norm_num
  rw [this, Nat.and_pow_two_sub_one_eq_mod]
  exact Nat.mod_lt _ (by norm_num)

theorem MappedRun_bound {q : Nat → Prop} {m : Mem} {root : Nat} (ds : List Nat) (a : Nat)
    (h : MappedRun q m root a ds) : a + ds.length * PGSIZE < MAXVA + PGSIZE ∨ ds = [] := by
  cases ds with
  | nil => exact Or.inr rfl
  | cons d ds =>
    left
    have := MappedRun_lt (d :: ds) a h ds.length (by simp)
    simp only [List.length_cons, PGSIZE] at this ⊢
    omega

/-- The code after the label `err` of `uvmcopy`, run on the pages copied so
far. -/
theorem uvmcopy_err {P : KParams} {pool : List Nat} {new : Nat} (ds : List Nat) (s s' : Kmem)
    (hH : Held P pool s new ds) (hrun : MappedRun (fun _ => True) s.mem new 0 ds)
    (hleaf : LeafInv s.mem new ds) (huniq : Uniq s.mem new)
    (h : uvmunmap P s new 0 ((0 + ds.length * PGSIZE) / PGSIZE) true = .ok s') :
    Held P pool s' new [] ∧ LeafInv s'.mem new [] := by
  have e : (0 + ds.length * PGSIZE) / PGSIZE = ds.length := by
    rw [Nat.zero_add]; exact Nat.mul_div_cancel _ (by decide)
  rw [e] at h
  have h64 : 0 + ds.length * PGSIZE < 2 ^ 64 := by
    rcases MappedRun_bound ds 0 hrun with hb | hb
    · unfold MAXVA PGSIZE at hb; unfold PGSIZE; norm_num at hb ⊢; omega
    · rw [hb]; norm_num
  rcases uvmunmap_run ds 0 s hH hrun (by decide) h64 with ⟨s2, e2, hH2, hI⟩ | ⟨e2, _⟩
  · rw [e2] at h
    simp only [Except.ok.injEq] at h
    subst h
    exact ⟨hH2, hI hleaf huniq⟩
  · rw [e2] at h; simp at h

theorem uvmcopyLoop_spec {P : KParams} {pool : List Nat} {old new sz : Nat} :
    ∀ (fuel : Nat) (ds : List Nat) (s s' : Kmem), Held P pool s new ds →
      MappedRun (fun _ => True) s.mem new 0 ds → LeafInv s.mem new ds → Uniq s.mem new →
      uvmcopyLoop P old new sz fuel (0 + ds.length * PGSIZE) s = .ok (-1, s') →
      Held P pool s' new [] ∧ LeafInv s'.mem new [] := by
  intro fuel
  induction fuel with
  | zero => intro ds s s' _ _ _ _ h; simp [uvmcopyLoop] at h
  | succ f ih =>
    intro ds s s' hH hrun hleaf huniq h
    rw [uvmcopyLoop] at h
    by_cases hlt : 0 + ds.length * PGSIZE < sz
    · rw [if_pos hlt] at h
      unfold walk at h
      by_cases hmax : 0 + ds.length * PGSIZE < MAXVA
      · rw [if_neg (Nat.not_le.2 hmax), walkLoop_false] at h
        simp only at h
        by_cases hp0 : walkp s.mem (0 + ds.length * PGSIZE) 2 old = 0
        · rw [if_pos hp0] at h; simp at h
        · rw [if_neg hp0] at h
          by_cases hpv : read64 s.mem (walkp s.mem (0 + ds.length * PGSIZE) 2 old) &&& PTE_V = 0
          · rw [if_pos hpv] at h; simp at h
          · rw [if_neg hpv] at h
            cases hf : s.freelist with
            | nil =>
              rw [kalloc_nil P s hf] at h
              simp only [if_true] at h
              cases hu : uvmunmap P s new 0 ((0 + ds.length * PGSIZE) / PGSIZE) true with
              | error e => rw [hu] at h; simp at h
              | ok s1 =>
                rw [hu] at h
                simp only [Except.ok.injEq, Prod.mk.injEq, true_and] at h
                subst h
                exact uvmcopy_err ds s s1 hH hrun hleaf huniq hu
            | cons r rest =>
              obtain ⟨hk1, hrm, hH1, hL1⟩ := Held_kalloc hH hf
              have hr0 : (kalloc P s).1 ≠ 0 := by
                rw [hk1]; exact Nat.pos_iff_ne_zero.1 (managed_pos P hrm)
              simp only [hr0, if_false] at h
              rw [hk1] at h
              have hrin : r ∈ ds ++ [r] := List.mem_append_right _ (List.mem_singleton_self _)
              have hrn : r ∉ ds := by
                have := hH1.nodup
                rw [List.nodup_append] at this
                exact fun hx => this.2.2 hx (List.mem_singleton_self _)
              obtain ⟨hH2, hL2⟩ := Held_data_write hH1 hrin
                (memmove (kalloc P s).2.mem r
                  (PTE2PA (read64 s.mem (walkp s.mem (0 + ds.length * PGSIZE) 2 old))) PGSIZE)
                (fun x hx => by unfold memmove; rw [if_neg hx])
              have hL12 := LeafPres_trans hL1 hL2
              have hrun2 := MappedRun_pres hL12 ds 0 hrun
              have hal : (0 + ds.length * PGSIZE) % PGSIZE = 0 := by
                simp only [PGSIZE]; omega
              rcases grow_step hH2 hrun2 (0 + ds.length * PGSIZE) rfl hal hmax
                (PTE_FLAGS (read64 s.mem (walkp s.mem (0 + ds.length * PGSIZE) 2 old)))
                (PTE_FLAGS_lt _) trivial with
                ⟨s3, e, hH3, hrun3, hL3⟩ | ⟨s4, e, hH4, hrun4, hI4⟩ | e
              · rw [e] at h
                simp only [ne_eq, Int.reduceNeg, neg_eq_zero, one_ne_zero, not_false_eq_true,
                  if_true] at h
                obtain ⟨s5, hk, _, hH5, hL5⟩ := Held_kfree hH3 hrin
                rw [List.erase_append_right _ hrn, List.erase_cons_head, List.append_nil] at hH5
                rw [hk] at h
                simp only at h
                cases hu : uvmunmap P s5 new 0 ((0 + ds.length * PGSIZE) / PGSIZE) true with
                | error e => rw [hu] at h; simp at h
                | ok s1 =>
                  rw [hu] at h
                  simp only [Except.ok.injEq, Prod.mk.injEq, true_and] at h
                  subst h
                  have hLall := LeafPres_trans hL12 (LeafPres_trans hL3 hL5)
                  exact uvmcopy_err ds s5 s1 hH5 (MappedRun_pres hLall ds 0 hrun)
                    (LeafInv_pres hLall hleaf) (Uniq_pres hLall huniq) hu
              · rw [e] at h
                simp only [ne_eq, not_true_eq_false, if_false] at h
                have hlen : 0 + ds.length * PGSIZE + PGSIZE = 0 + (ds ++ [r]).length * PGSIZE := by
                  simp only [List.length_append, List.length_singleton]; ring
                rw [hlen] at h
                obtain ⟨a1, a2⟩ := hI4 (LeafInv_pres hL12 hleaf) (Uniq_pres hL12 huniq)
                exact ih (ds ++ [r]) s4 s' hH4 hrun4 a1 a2 h
              · rw [e] at h; simp at h
      · rw [if_pos (Nat.not_lt.1 hmax)] at h; simp at h
    · rw [if_neg hlt] at h
      simp at h

/-- C2 (amended): for every source table, every well-formed destination
table that starts with no valid level-0 entry, and every size `sz`: if
`uvmcopy(old, new, sz)` returns -1, then afterwards the destination has no
valid level-0 entry, and the free list together with the page-table pages of
the destination holds exactly the pages that the free list and those
page-table pages held before the call: every data page is back on the free
list, and the only pages missing from the free list are the page-table pages
that `walk` added to the destination (they stay in the destination). -/
theorem C2_uvmcopy_failure_unwinds (P : KParams) (s : Kmem) (old new sz : Nat) (s' : Kmem)
    (hwf : WfPT P s new) (hempty : ∀ va, ¬ mapped s.mem new va)
    (h : uvmcopy P s old new sz = .ok (-1, s')) :
    (∀ va, ¬ mapped s'.mem new va) ∧
      (s'.freelist ++ tablePages s'.mem new).Perm (s.freelist ++ tablePages s.mem new) ∧
      s'.freelist.length + (tablePages s'.mem new).length =
        s.freelist.length + (tablePages s.mem new).length := by
  unfold uvmcopy at h
  have h' : uvmcopyLoop P old new sz (sz / PGSIZE + 2) (0 + ([] : List Nat).length * PGSIZE) s =
      .ok (-1, s') := by simpa using h
  obtain ⟨hH, hI⟩ := uvmcopyLoop_spec _ [] s s' (Held_init hwf) trivial
    (fun va hm => absurd hm (hempty va)) (fun va _ hm _ _ => absurd hm (hempty va)) h'
  have hp := Held_nil_perm hH
  refine ⟨fun va hm => List.not_mem_nil _ (hI va hm), hp, ?_⟩
  have := hp.length_eq
  simpa [List.length_append] using this
/-! ## Allocator: the free list and the chain of `next` pointers -/

theorem i32_range (x : Int) : -2 ^ 31 ≤ i32 x ∧ i32 x < 2 ^ 31 := by
  unfold i32
  omega

theorem i32_succ (x : Int) (n : Nat) : i32 (i32 (x + 1) + n) = i32 (x + (n + 1 : Nat)) := by
  unfold i32
  push_cast
  omega

theorem Linked_congr {m m' : Mem} :
    ∀ (l : List Nat), (∀ p ∈ l, read64 m' p = read64 m p) → Linked m l → Linked m' l := by
  intro l
  induction l with
  | nil => intro _ _; trivial
  | cons p l ih =>
    intro h hl
    exact ⟨by rw [h p (List.mem_cons_self _ _)]; exact hl.1,
      ih (fun q hq => h q (List.mem_cons_of_mem _ hq)) hl.2⟩

theorem head_lt (P : KParams) {s : Kmem} (hmg : ∀ p ∈ s.freelist, managed P p) :
    s.head < 2 ^ 64 := by
  unfold Kmem.head
  cases hf : s.freelist with
  | nil => simp
  | cons r rest =>
    simp only [List.headD_cons]
    exact managed_lt P (hmg r (by rw [hf]; exact List.mem_cons_self _ _))

theorem kfree_Linked {P : KParams} {s s' : Kmem} {pa : Nat}
    (hmg : ∀ p ∈ s.freelist, managed P p) (hpa : pa ∉ s.freelist)
    (hl : Linked s.mem s.freelist) (h : kfree P s pa = some s') : Linked s'.mem s'.freelist := by
  obtain ⟨hm, _, hc⟩ := kfree_eq_some h
  rcases hc with ⟨_, hf, hmem⟩ | ⟨_, hf, hmem⟩
  · rw [hf, hmem]
    refine ⟨?_, ?_⟩
    · rw [read64_write64_same _ _ _ (head_lt P hmg)]
      rfl
    · refine Linked_congr _ ?_ hl
      intro p hp
      have hpm := hmg p hp
      have hne : p ≠ pa := fun e => hpa (e ▸ hp)
      have h1 := hpm.1
      have h2 := hm.1
      simp only [PGSIZE] at h1 h2
      refine read64_congr _ _ _ (fun x hx1 hx2 => ?_)
      rw [write64_out _ _ _ _ (by omega), memset_out _ _ _ _ _ (by simp only [PGSIZE]; omega)]
  · rw [hf, hmem]; exact hl

theorem kalloc_Linked {P : KParams} {s : Kmem} (hmg : ∀ p ∈ s.freelist, managed P p)
    (hnd : ∀ r rest, s.freelist = r :: rest → r ∉ rest) (hl : Linked s.mem s.freelist) :
    Linked (kalloc P s).2.mem (kalloc P s).2.freelist := by
  cases hf : s.freelist with
  | nil => rw [kalloc_nil P s hf, hf]; trivial
  | cons r rest =>
    rw [kalloc_cons P s r rest hf]
    rw [hf] at hl
    refine Linked_congr _ ?_ hl.2
    intro p hp
    have hpm := hmg p (by rw [hf]; exact List.mem_cons_of_mem _ hp)
    have hrm := hmg r (by rw [hf]; exact List.mem_cons_self _ _)
    have hne : p ≠ r := fun e => hnd r rest hf (e ▸ hp)
    have h1 := hpm.1
    have h2 := hrm.1
    simp only [PGSIZE] at h1 h2
    refine read64_congr _ _ _ (fun x hx1 hx2 => ?_)
    show memset s.mem r 5 PGSIZE x = s.mem x
    rw [memset_out _ _ _ _ _ (by simp only [PGSIZE]; omega)]

/-- The new head that `kalloc` leaves is the word `r->next` that the C code
loads from the page it returns. -/
theorem kalloc_next {P : KParams} {s : Kmem} {r : Nat} {rest : List Nat}
    (hl : Linked s.mem s.freelist) (hf : s.freelist = r :: rest) :
    (kalloc P s).1 = r ∧ (kalloc P s).2.head = read64 s.mem r := by
  rw [kalloc_cons P s r rest hf]
  rw [hf] at hl
  exact ⟨rfl, hl.1.symm⟩

/-- The link that `kfree` stores: the first word of the freed page is the old
head, `r->next = kmem.freelist`, and the page is the new head. -/
theorem kfree_next {P : KParams} {s s' : Kmem} {pa : Nat}
    (hmg : ∀ p ∈ s.freelist, managed P p) (h : kfree P s pa = some s')
    (hz : i32 (s.kmemref (P.PGIDX pa) - 1) = 0) :
    s'.head = pa ∧ read64 s'.mem pa = s.head := by
  obtain ⟨_, _, hc⟩ := kfree_eq_some h
  rcases hc with ⟨_, hf, hm⟩ | ⟨hnz, _, _⟩
  · refine ⟨by unfold Kmem.head; rw [hf]; rfl, ?_⟩
    rw [hm, read64_write64_same _ _ _ (head_lt P hmg)]
  · exact absurd hz hnz

theorem upd_rng {f : Nat → Int} (h : ∀ i, 0 ≤ f i ∧ f i ≤ 2 ^ 31 - 1) (k : Nat) (v : Int)
    (hv : 0 ≤ v ∧ v ≤ 2 ^ 31 - 1) : ∀ i, 0 ≤ upd f k v i ∧ upd f k v i ≤ 2 ^ 31 - 1 := by
  intro i
  by_cases e : i = k
  · subst e; rw [upd_same]; exact hv
  · rw [upd_other _ _ _ _ e]; exact h i

theorem i32_pred {x : Int} (h1 : 0 < x) (h2 : x ≤ 2 ^ 31 - 1) :
    0 ≤ i32 (x - 1) ∧ i32 (x - 1) ≤ 2 ^ 31 - 1 := by
  rw [i32_eq (by omega) (by omega)]
  omega

theorem kfree_KInv {P : KParams} {s s' : Kmem} {pa : Nat} (hi : KInv P s)
    (hpa : pa ∉ s.freelist) (hpos : 0 < s.kmemref (P.PGIDX pa)) (h : kfree P s pa = some s') :
    KInv P s' := by
  refine ⟨kfree_FreeInv hi.free hpa h,
    kfree_Linked (fun p hp => (hi.free.2 p hp).1) hpa hi.link h, ?_⟩
  obtain ⟨_, hk, _⟩ := kfree_eq_some h
  unfold NonNeg
  rw [hk]
  exact upd_rng hi.rng _ _ (i32_pred hpos (hi.rng _).2)

theorem kalloc_KInv {P : KParams} {s : Kmem} (hi : KInv P s) : KInv P (kalloc P s).2 := by
  refine ⟨kalloc_FreeInv hi.free,
    kalloc_Linked (fun p hp => (hi.free.2 p hp).1)
      (fun r rest e => (List.nodup_cons.1 (e ▸ hi.free.1)).1) hi.link, ?_⟩
  cases hf : s.freelist with
  | nil => rw [kalloc_nil P s hf]; exact hi.rng
  | cons r rest =>
    rw [kalloc_cons P s r rest hf]
    exact upd_rng hi.rng _ _ (by decide)

theorem freerangeLoop_KInv (P : KParams) (pa_end : Nat) :
    ∀ (fuel p : Nat) (s s' : Kmem), KInv P s → (∀ q ∈ s.freelist, q < p) →
      (∀ q, managed P q → p ≤ q → s.kmemref (P.PGIDX q) = 1) →
      freerangeLoop P pa_end fuel p s = some s' → KInv P s' := by
  intro fuel
  induction fuel with
  | zero => intro p s s' _ _ _ h; simp [freerangeLoop] at h
  | succ n ih =>
    intro p s s' hi hlt hone h
    unfold freerangeLoop at h
    by_cases hc : p + PGSIZE ≤ pa_end
    · simp only [hc, if_true] at h
      cases hk : kfree P s p with
      | none => rw [hk] at h; simp at h
      | some s1 =>
        rw [hk] at h
        simp only [Option.some_bind] at h
        obtain ⟨hpm, hkm, hcase⟩ := kfree_eq_some hk
        have hp : p ∉ s.freelist := fun hm => Nat.lt_irrefl _ (hlt p hm)
        have h1 : s.kmemref (P.PGIDX p) = 1 := hone p hpm (Nat.le_refl _)
        refine ih (p + PGSIZE) s1 s' (kfree_KInv hi hp (by omega) hk) ?_ ?_ h
        · intro q hq
          rcases hcase with ⟨_, hf, _⟩ | ⟨_, hf, _⟩
          · rw [hf] at hq
            rcases List.mem_cons.1 hq with e | hq
            · subst e; simp [PGSIZE]
            · exact Nat.lt_add_right _ (hlt q hq)
          · rw [hf] at hq
            exact Nat.lt_add_right _ (hlt q hq)
        · intro q hq hpq
          have hne : q ≠ p := by simp only [PGSIZE] at hpq; omega
          rw [hkm, upd_other _ _ _ _ (PGIDX_ne P hq hpm hne)]
          exact hone q hq (by omega)
    · simp only [hc, if_false, Option.some.injEq] at h
      subst h; exact hi

theorem kinit_KInv {P : KParams} {mem0 : Mem} {s : Kmem} (h : kinit P mem0 = some s) :
    KInv P s := by
  unfold kinit freerange at h
  have hl : Linked mem0 [] := trivial
  refine freerangeLoop_KInv P _ _ _ _ _ ⟨⟨List.nodup_nil, fun p hp => by simp at hp⟩, hl, ?_⟩
    ?_ ?_ h
  · intro i
    show 0 ≤ (if i < P.PGNUMS then (1 : Int) else 0) ∧
      (if i < P.PGNUMS then (1 : Int) else 0) ≤ 2 ^ 31 - 1
    split <;> decide
  · intro q hq; simp at hq
  · intro q hq _
    show (if P.PGIDX q < P.PGNUMS then (1 : Int) else 0) = 1
    rw [if_pos (P.PGIDX_lt q hq.1 hq.2.1 hq.2.2)]

theorem KReach_KInv {P : KParams} {s : Kmem} (h : KReach P (heldCall P) s) : KInv P s := by
  induction h with
  | init mem0 s h => exact kinit_KInv h
  | step s op s' _ hok hrun ih =>
    obtain ⟨hoff, hrel, hmax⟩ := hok
    cases op with
    | kalloc =>
      simp only [KOp.run, Option.some.injEq] at hrun
      subst hrun; exact kalloc_KInv ih
    | kfree pa => exact kfree_KInv ih hoff hrel hrun
    | inckmemref pa =>
      simp only [KOp.run, Option.map_eq_some'] at hrun
      obtain ⟨⟨c, s1⟩, h1, h2⟩ := hrun
      simp only at h2; subst h2
      refine ⟨inckmemref_FreeInv ih.free hoff h1, ?_, ?_⟩
      · obtain ⟨_, _, hs⟩ := inckmemref_eq_some h1
        subst hs; exact ih.link
      · obtain ⟨_, _, hs⟩ := inckmemref_eq_some h1
        subst hs
        have hb : s.kmemref (P.PGIDX pa) < 2 ^ 31 - 1 := hmax
        have h0 := (ih.rng (P.PGIDX pa)).1
        refine upd_rng ih.rng _ _ ?_
        rw [i32_eq (by omega) (by omega)]
        omega
    | deckmemref pa =>
      simp only [KOp.run, Option.map_eq_some'] at hrun
      obtain ⟨⟨c, s1⟩, h1, h2⟩ := hrun
      simp only at h2; subst h2
      refine ⟨deckmemref_FreeInv ih.free hoff h1, ?_, ?_⟩
      · obtain ⟨_, _, hs⟩ := deckmemref_eq_some h1
        subst hs; exact ih.link
      · obtain ⟨_, _, hs⟩ := deckmemref_eq_some h1
        subst hs
        have hp : 0 < s.kmemref (P.PGIDX pa) := hrel
        exact upd_rng ih.rng _ _ (i32_pred hp (ih.rng _).2)

/-! ## Allocator: counts are never negative -/

theorem runOps_inc {P : KParams} {pa : Nat} (hm : managed P pa) :
    ∀ (n : Nat) (s : Kmem), pa ∉ s.freelist → -2 ^ 31 ≤ s.kmemref (P.PGIDX pa) →
      s.kmemref (P.PGIDX pa) < 2 ^ 31 →
      ∃ s', runOps P (heldRelease P) s (List.replicate n (KOp.inckmemref pa)) = some s' ∧
        s'.kmemref (P.PGIDX pa) = i32 (s.kmemref (P.PGIDX pa) + n) := by
  intro n
  induction n with
  | zero =>
    intro s _ h1 h2
    exact ⟨s, rfl, by rw [Nat.cast_zero, add_zero, i32_eq h1 h2]⟩
  | succ n ih =>
    intro s hpa h1 h2
    have hok : heldRelease P s (KOp.inckmemref pa) := ⟨hpa, trivial⟩
    have hinc : ∃ c s1, inckmemref P s pa = some (c, s1) := by
      unfold inckmemref
      rw [(badpa_eq_false P pa).2 hm]
      exact ⟨_, _, rfl⟩
    obtain ⟨c, s1, hinc⟩ := hinc
    obtain ⟨_, _, hs1⟩ := inckmemref_eq_some hinc
    have hrun : (KOp.inckmemref pa).run P s = some s1 := by
      show (inckmemref P s pa).map (·.2) = _
      rw [hinc]; rfl
    have hf1 : s1.freelist = s.freelist := by rw [hs1]
    have hk1 : s1.kmemref (P.PGIDX pa) = i32 (s.kmemref (P.PGIDX pa) + 1) := by
      rw [hs1]; exact upd_same _ _ _
    obtain ⟨s', e, hc⟩ := ih s1 (by rw [hf1]; exact hpa)
      (by rw [hk1]; exact (i32_range _).1) (by rw [hk1]; exact (i32_range _).2)
    refine ⟨s', ?_, ?_⟩
    · rw [List.replicate_succ, runOps, if_pos hok, hrun]
      exact e
    · rw [hc, hk1, i32_succ]

/-- C5 (as stated) fails, in two ways. After `kinit` on the two-page machine, a
call `deckmemref(0x80002000)` on a free page (count 0) leaves its reference
count at -1. And with every call made on a page that is off the free list, and
`kfree` and `deckmemref` only on pages with a positive count: after `kinit`,
`kalloc` (which returns `0x80002000` with count 1) and 2147483647 calls
`inckmemref(0x80002000)`, the `int` count has gone past `INT_MAX` and is
`INT_MIN`. -/
theorem C5_counterexample :
    (∃ s, KReach smallK anyCall s ∧
      (kinit smallK (fun _ => 0)).bind (fun s0 => (KOp.deckmemref 0x80002000).run smallK s0)
        = some s ∧
      s.kmemref (smallK.PGIDX 0x80002000) = -1) ∧
    (∃ s, KReach smallK (heldRelease smallK) s ∧
      (kinit smallK (fun _ => 0)).bind (fun s0 => runOps smallK (heldRelease smallK) s0
        (KOp.kalloc :: List.replicate 2147483647 (KOp.inckmemref 0x80002000))) = some s ∧
      s.kmemref (smallK.PGIDX 0x80002000) = -2147483648) := by
  refine ⟨?_, ?_⟩
  · have hsome : ((kinit smallK (fun _ => 0)).bind
        (fun s0 => runOps smallK anyCall s0 [KOp.deckmemref 0x80002000])).isSome = true := by
      decide!
    obtain ⟨s, hs⟩ := Option.isSome_iff_exists.1 hsome
    have h1 : (kinit smallK (fun _ => 0)).bind
        (fun s0 => (KOp.deckmemref 0x80002000).run smallK s0) = some s := by
      rw [← hs]; congr 1
    have h2 : ((kinit smallK (fun _ => 0)).bind
        (fun s0 => (KOp.deckmemref 0x80002000).run smallK s0)).all
          (fun s => decide (s.kmemref (smallK.PGIDX 0x80002000) = -1)) = true := by decide!
    rw [h1] at h2
    simp only [Option.all_some, decide_eq_true_eq] at h2
    exact ⟨s, KReach_of_trace hs, h1, h2⟩
  · have hsome : (kinit smallK (fun _ => 0)).isSome = true := by decide!
    obtain ⟨s0, hs0⟩ := Option.isSome_iff_exists.1 hsome
    have h2 : (kinit smallK (fun _ => 0)).all (fun s0 =>
        decide (0x80002000 ∉ (kalloc smallK s0).2.freelist ∧
          (kalloc smallK s0).2.kmemref (smallK.PGIDX 0x80002000) = 1)) = true := by decide!
    rw [hs0] at h2
    simp only [Option.all_some, decide_eq_true_eq] at h2
    have hm : managed smallK 0x80002000 := by decide
    obtain ⟨s, e, hc⟩ := runOps_inc hm 2147483647 (kalloc smallK s0).2 h2.1
      (by rw [h2.2]; decide) (by rw [h2.2]; decide)
    have hok : heldRelease smallK s0 KOp.kalloc := ⟨trivial, trivial⟩
    have htr : (kinit smallK (fun _ => 0)).bind (fun s0 => runOps smallK (heldRelease smallK) s0
        (KOp.kalloc :: List.replicate 2147483647 (KOp.inckmemref 0x80002000))) = some s := by
      rw [hs0, Option.some_bind, runOps, if_pos hok]
      exact e
    refine ⟨s, KReach_of_trace htr, htr, ?_⟩
    rw [hc, h2.2]
    decide

/-- C5 (amended): in every state reached after `kinit` by `kalloc` and by
`kfree`, `inckmemref` and `deckmemref` calls on managed pages that are not on
the free list when the call is made, `kfree` and `deckmemref` on pages whose
reference count is positive and `inckmemref` on pages whose count is below
`INT_MAX`, every entry of the reference-count table is greater than or equal
to zero (and at most `INT_MAX`: no count has wrapped), and the free list is
the chain of `next` pointers kept in the free pages. -/
theorem C5_counts_never_negative (P : KParams) (s : Kmem)
    (h : KReach P (heldCall P) s) :
    (∀ i, 0 ≤ s.kmemref i ∧ s.kmemref i ≤ 2 ^ 31 - 1) ∧ Linked s.mem s.freelist :=
  ⟨(KReach_KInv h).rng, (KReach_KInv h).link⟩

/-- C5 witness: `kinit`, `kalloc`, `inckmemref`, `deckmemref`, `kfree` on the
two-page machine. -/
theorem C5_counts_never_negative_witness :
    ∃ s, (kinit smallK (fun _ => 0)).bind (fun s0 => runOps smallK (heldCall smallK) s0
        [KOp.kalloc, KOp.inckmemref 0x80002000, KOp.deckmemref 0x80002000,
          KOp.kfree 0x80002000]) = some s ∧
      (∀ i, 0 ≤ s.kmemref i ∧ s.kmemref i ≤ 2 ^ 31 - 1) ∧ Linked s.mem s.freelist := by
  have hsome : ((kinit smallK (fun _ => 0)).bind (fun s0 => runOps smallK (heldCall smallK) s0
        [KOp.kalloc, KOp.inckmemref 0x80002000, KOp.deckmemref 0x80002000,
          KOp.kfree 0x80002000])).isSome = true := by decide!
  obtain ⟨s, hs⟩ := Option.isSome_iff_exists.1 hsome
  exact ⟨s, hs, C5_counts_never_negative smallK s (KReach_of_trace hs)⟩

/-! ## Allocator: the effect of `kfree` -/

/-- C6 (as stated) fails: on the two-page machine, after `kinit` and one
`kalloc` (which returns `0x80002000` with count 1), `kfree(0x80002000)` brings
the count to 0 and puts the page at the head of the free list, but the page is
not filled with the junk byte 1: its first bytes hold the link to the previous
head `0x80001000` (bytes `00 10 00 80`), only the bytes from offset 8 on are
junk. And the count is an `int`: on a page whose count is `INT_MIN`, `kfree`
leaves the count at `INT_MAX`, not at `n - 1`. -/
theorem C6_counterexample :
    (kinit smallK (fun _ => 0)).bind (fun s0 =>
      (kfree smallK (kalloc smallK s0).2 0x80002000).map (fun s2 =>
        ((kalloc smallK s0).1, (kalloc smallK s0).2.kmemref (smallK.PGIDX 0x80002000),
          s2.kmemref (smallK.PGIDX 0x80002000), s2.freelist,
          [s2.mem 0x80002000, s2.mem 0x80002001, s2.mem 0x80002002, s2.mem 0x80002003,
            s2.mem 0x80002008])))
      = some (0x80002000, 1, 0, [0x80002000, 0x80001000], [0x00, 0x10, 0x00, 0x80, 0x01]) ∧
    (kfree smallK { c6State with kmemref := fun _ => -2147483648 } 0x80002000).map
      (fun s2 => s2.kmemref (smallK.PGIDX 0x80002000)) = some 2147483647 := by
  decide!

/-- C6 (amended): for every managed page with reference count `n`, an `int`
other than `INT_MIN`, `kfree` lowers its count to `n - 1` and leaves every
other entry of the count table (so every other page's count) unchanged; if
`n - 1` is not zero the free list and the whole memory are unchanged; if
`n - 1` is zero and the page is not already on the free list, then bytes
8..4095 of the page hold the junk byte 1, its first 8 bytes hold the previous
head of the free list (the link), the rest of memory is unchanged, the page is
the new head of the free list, and the next `kalloc` returns that page with
reference count 1 and leaves the free list as it was before the `kfree`. The
free list is the chain of `next` pointers in memory after the `kfree` and
after the `kalloc`, when it was before. -/
theorem C6_kfree_effect (P : KParams) (s : Kmem) (pa : Nat) (hm : managed P pa)
    (hlo : -2 ^ 31 < s.kmemref (P.PGIDX pa)) (hhi : s.kmemref (P.PGIDX pa) < 2 ^ 31) :
    ∃ s', kfree P s pa = some s' ∧
      s'.kmemref (P.PGIDX pa) = s.kmemref (P.PGIDX pa) - 1 ∧
      (∀ i, i ≠ P.PGIDX pa → s'.kmemref i = s.kmemref i) ∧
      (∀ q, managed P q → q ≠ pa → s'.kmemref (P.PGIDX q) = s.kmemref (P.PGIDX q)) ∧
      (s.kmemref (P.PGIDX pa) - 1 ≠ 0 → s'.freelist = s.freelist ∧ s'.mem = s.mem) ∧
      (s.kmemref (P.PGIDX pa) - 1 = 0 → pa ∉ s.freelist →
        (∀ i, 8 ≤ i → i < PGSIZE → s'.mem (pa + i) = 1) ∧
        (∀ i, i < 8 → s'.mem (pa + i) = s.head / 256 ^ i % 256) ∧
        (∀ a, a < pa ∨ pa + PGSIZE ≤ a → s'.mem a = s.mem a) ∧
        s'.freelist = pa :: s.freelist ∧
        (kalloc P s').1 = pa ∧ (kalloc P s').2.kmemref (P.PGIDX pa) = 1 ∧
        (kalloc P s').2.freelist = s.freelist ∧
        ((∀ p ∈ s.freelist, managed P p) → Linked s.mem s.freelist →
          Linked s'.mem s'.freelist ∧
          Linked (kalloc P s').2.mem (kalloc P s').2.freelist)) := by
  obtain ⟨s', hs'⟩ := kfree_isSome s hm
  obtain ⟨_, hk, hc⟩ := kfree_eq_some hs'
  have hi : i32 (s.kmemref (P.PGIDX pa) - 1) = s.kmemref (P.PGIDX pa) - 1 :=
    i32_eq (by omega) (by omega)
  rw [hi] at hk hc
  refine ⟨s', hs', by rw [hk, upd_same], fun i hi => by rw [hk, upd_other _ _ _ _ hi],
    fun q hq hne => by rw [hk, upd_other _ _ _ _ (PGIDX_ne P hq hm hne)], ?_, ?_⟩
  · intro hnz
    rcases hc with ⟨hz, _, _⟩ | ⟨_, hf, hmem⟩
    · exact absurd hz hnz
    · exact ⟨hf, hmem⟩
  · intro hz hpa
    rcases hc with ⟨_, hf, hmem⟩ | ⟨hnz, _, _⟩
    · refine ⟨?_, ?_, ?_, hf, ?_, ?_, ?_, ?_⟩
      · intro i h8 hi
        rw [hmem, write64_out _ _ _ _ (Or.inr (by omega)), memset_in _ _ _ _ _ (by omega) (by omega)]
      · intro i hi
        rw [hmem, write64_in _ _ _ _ (by omega) (by omega), Nat.add_sub_cancel_left]
      · intro a ha
        simp only [PGSIZE] at ha
        rw [hmem, write64_out _ _ _ _ (by omega), memset_out _ _ _ _ _ (by simp only [PGSIZE]; omega)]
      · rw [kalloc_cons P s' pa s.freelist hf]
      · rw [kalloc_cons P s' pa s.freelist hf]; exact upd_same _ _ _
      · rw [kalloc_cons P s' pa s.freelist hf]
      · intro hmg hl
        have hl' := kfree_Linked hmg hpa hl hs'
        refine ⟨hl', kalloc_Linked ?_ ?_ hl'⟩
        · intro p hp
          rw [hf] at hp
          rcases List.mem_cons.1 hp with e | hp
          · rw [e]; exact hm
          · exact hmg p hp
        · intro r rest e
          rw [hf] at e
          injection e with e1 e2
          rw [← e1, ← e2]
          exact hpa
    · exact absurd hz hnz

/-- C6 witness: the allocated page `0x80002000` of `c6State`, whose free list
`[0x80001000]` is the chain in memory (the first word of that page is 0). -/
theorem C6_kfree_effect_witness :
    managed smallK 0x80002000 ∧ c6State.kmemref (smallK.PGIDX 0x80002000) = 1 ∧
    ∃ s', kfree smallK c6State 0x80002000 = some s' ∧
      s'.freelist = [0x80002000, 0x80001000] ∧ Linked s'.mem s'.freelist := by
  have hm : managed smallK 0x80002000 := by decide
  have hmg : ∀ p ∈ c6State.freelist, managed smallK p := by
    intro p hp
    have e : p = 0x80001000 := by simpa [c6State] using hp
    rw [e]; decide
  have hl : Linked c6State.mem c6State.freelist := ⟨by decide, trivial⟩
  obtain ⟨s', h1, _, _, _, _, h6⟩ :=
    C6_kfree_effect smallK c6State 0x80002000 hm (by decide) (by decide)
  obtain ⟨_, _, _, hf, _, _, _, hlk⟩ := h6 (by decide) (by decide)
  exact ⟨hm, by decide, s', h1, hf, (hlk hmg hl).1⟩

/-! ## `uvmalloc` / `uvmdealloc` and `uvmcopy` on the nine-page machine -/

theorem kids_nil_not_mapped {m : Mem} {root : Nat} (h : kids m root = []) :
    ∀ va, ¬ mapped m root va := by
  intro va hm
  obtain ⟨t1, _, _, _, _, k1, _⟩ := walkp_ne_zero hm.1
  rw [h] at k1
  exact List.not_mem_nil _ k1

theorem Except_map_fst_ok {α β : Type} {x : Except Fail (α × β)} {a : α}
    (h : x.map (·.1) = .ok a) : ∃ b, x = .ok (a, b) := by
  cases x with
  | error e => simp [Except.map] at h
  | ok p =>
    obtain ⟨p1, p2⟩ := p
    simp only [Except.map, Except.ok.injEq] at h
    exact ⟨p2, by rw [h]⟩

theorem vmState_wf : WfPT vmK vmState vmRoot :=
  ⟨by decide!, by decide!, by decide!, by decide!, by decide!, by decide!⟩

theorem vmTwo_wf : WfPT vmK vmTwo vmNew :=
  ⟨by decide!, by decide!, by decide!, by decide!, by decide!, by decide!⟩

/-- C3 (as stated) fails: on the nine-page machine, `uvmcreate` leaves 8 free
pages; `uvmalloc(pt, 0, 4096, PTE_W)` succeeds and `uvmdealloc(pt, 4096, 0)`
returns 0, but only 6 pages are free afterwards (5 after the grow): the
level-1 and level-0 page-table pages that `walk` allocated stay in the
table. -/
theorem C3_counterexample :
    (match uvmalloc vmK vmState vmRoot 0 4096 PTE_W with
      | .ok (r1, s1) =>
        (match uvmdealloc vmK s1 vmRoot 4096 0 with
          | .ok (r2, s2) =>
            some (r1, r2, vmState.freelist.length, s1.freelist.length, s2.freelist.length)
          | .error _ => none)
      | .error _ => none)
      = some (4096, 0, 8, 5, 6) := by
  decide!

/-- C3 witness: the grow from 0 to 4096 on the empty table of the nine-page
machine. -/
theorem C3_grow_then_shrink_witness :
    WfPT vmK vmState vmRoot ∧
    ∃ s1 s2, uvmalloc vmK vmState vmRoot 0 4096 PTE_W = .ok (4096, s1) ∧
      uvmdealloc vmK s1 vmRoot 4096 0 = .ok (0, s2) ∧
      s2.freelist.length + (tablePages s2.mem vmRoot).length =
        vmState.freelist.length + (tablePages vmState.mem vmRoot).length := by
  have h1 : (uvmalloc vmK vmState vmRoot 0 4096 PTE_W).map (·.1) = .ok 4096 := by decide!
  obtain ⟨s1, hs1⟩ := Except_map_fst_ok h1
  obtain ⟨s2, h2, _, h3⟩ := C3_grow_then_shrink vmK vmState vmRoot 0 4096 PTE_W s1 vmState_wf
    (by decide) (by decide) (by norm_num) hs1
  exact ⟨vmState_wf, s1, s2, hs1, h2, h3⟩

/-- C2 (as stated) fails: on the nine-page machine the source table maps two
pages, the destination table is empty and three pages are free
(`0x80003000`, `0x80002000`, `0x80001000`). `uvmcopy(old, new, 8192)` copies
page 0 (data page `0x80003000`, page-table pages `0x80002000` and
`0x80001000`), finds no page for page 1 and returns -1; afterwards the free
list holds `0x80003000` only: the two page-table pages stay in the
destination table. -/
theorem C2_counterexample :
    vmTwo.freelist = [0x80003000, 0x80002000, 0x80001000] ∧
    tablePages vmTwo.mem vmNew = [0x80004000] ∧
    (uvmcopy vmK vmTwo vmRoot vmNew 8192).map (fun r => (r.1, r.2.freelist))
      = .ok (-1, [0x80003000]) := by
  decide!

/-- C2 witness: the failing copy on the nine-page machine. -/
theorem C2_uvmcopy_failure_unwinds_witness :
    WfPT vmK vmTwo vmNew ∧ (∀ va, ¬ mapped vmTwo.mem vmNew va) ∧
    ∃ s', uvmcopy vmK vmTwo vmRoot vmNew 8192 = .ok (-1, s') ∧
      (∀ va, ¬ mapped s'.mem vmNew va) ∧
      s'.freelist.length + (tablePages s'.mem vmNew).length =
        vmTwo.freelist.length + (tablePages vmTwo.mem vmNew).length := by
  have h0 : ∀ va, ¬ mapped vmTwo.mem vmNew va := kids_nil_not_mapped (by decide!)
  have h1 : (uvmcopy vmK vmTwo vmRoot vmNew 8192).map (·.1) = .ok (-1) := by decide!
  obtain ⟨s', hs'⟩ := Except_map_fst_ok h1
  obtain ⟨a, _, c⟩ := C2_uvmcopy_failure_unwinds vmK vmTwo vmRoot vmNew 8192 s' vmTwo_wf h0 hs'
  exact ⟨vmTwo_wf, h0, s', hs', a, c⟩

/-! ## `copyinstr` -/

theorem walkaddr_eq (P : KParams) (s : Kmem) (pt va : Nat) :
    walkaddr P s pt va =
      if va ≥ MAXVA then 0
      else if walkp s.mem va 2 pt = 0 then 0
      else if leafPte s.mem pt va &&& PTE_V = 0 then 0
      else if leafPte s.mem pt va &&& PTE_U = 0 then 0
      else PTE2PA (leafPte s.mem pt va) := by
  unfold walkaddr leafPte
  rw [walkLoop_false]

theorem walkaddr_ne_zero_iff (P : KParams) (s : Kmem) (pt va : Nat) :
    walkaddr P s pt va ≠ 0 ↔ userPage s.mem pt va := by
  rw [walkaddr_eq]
  unfold userPage mapped
  by_cases h1 : va ≥ MAXVA
  · rw [if_pos h1]
    constructor
    · intro h; exact absurd rfl h
    · intro h; exact absurd h.1 (Nat.not_lt.2 h1)
  · rw [if_neg h1]
    by_cases h2 : walkp s.mem va 2 pt = 0
    · rw [if_pos h2]
      exact ⟨fun h => absurd rfl h, fun h => absurd h2 h.2.1.1⟩
    · rw [if_neg h2]
      by_cases h3 : leafPte s.mem pt va &&& PTE_V = 0
      · rw [if_pos h3]
        exact ⟨fun h => absurd rfl h, fun h => absurd h3 h.2.1.2⟩
      · rw [if_neg h3]
        by_cases h4 : leafPte s.mem pt va &&& PTE_U = 0
        · rw [if_pos h4]
          exact ⟨fun h => absurd rfl h, fun h => absurd h4 h.2.2.1⟩
        · rw [if_neg h4]
          exact ⟨fun h => ⟨Nat.not_le.1 h1, ⟨h2, h3⟩, h4, h⟩, fun h => h.2.2.2⟩

theorem walkaddr_of_userPage {P : KParams} {s : Kmem} {pt va : Nat} (h : userPage s.mem pt va) :
    walkaddr P s pt va = PTE2PA (leafPte s.mem pt va) := by
  rw [walkaddr_eq, if_neg (Nat.not_le.2 h.1), if_neg h.2.1.1, if_neg h.2.1.2, if_neg h.2.2.1]

theorem page_chunk (x j : Nat) (h : x % PGSIZE + j < PGSIZE) :
    PGROUNDDOWN (x + j) = PGROUNDDOWN x ∧ (x + j) % PGSIZE = x % PGSIZE + j ∧
      x - PGROUNDDOWN x = x % PGSIZE := by
  unfold PGROUNDDOWN PGSIZE at *
  omega

theorem range_map_shift (f : Nat → Nat) (c n : Nat) :
    (List.range c).map f ++ (List.range n).map (fun j => f (c + j)) =
      (List.range (c + n)).map f := by
  rw [List.range_add, List.map_append, List.map_map]
  rfl

theorem copyinstrInner_spec (m : Mem) :
    ∀ (n p mx : Nat) (dst : List Nat),
      (∃ k, k < n ∧ m (p + k) = 0 ∧ (∀ j, j < k → m (p + j) ≠ 0) ∧
        copyinstrInner m n p mx dst =
          (true, dst ++ (List.range (k + 1)).map (fun j => m (p + j)), mx - k)) ∨
      ((∀ j, j < n → m (p + j) ≠ 0) ∧
        copyinstrInner m n p mx dst =
          (false, dst ++ (List.range n).map (fun j => m (p + j)), mx - n)) := by
  intro n
  induction n with
  | zero =>
    intro p mx dst
    right
    exact ⟨fun j hj => absurd hj (Nat.not_lt_zero _), by simp [copyinstrInner]⟩
  | succ n ih =>
    intro p mx dst
    rw [copyinstrInner]
    by_cases h0 : m p = 0
    · left
      refine ⟨0, Nat.succ_pos _, by simpa using h0, fun j hj => absurd hj (Nat.not_lt_zero _), ?_⟩
      rw [if_pos h0]
      have r1 : List.range 1 = [0] := rfl
      simp [h0, r1]
    · rw [if_neg h0]
      have hsh : ∀ k, dst ++ [m p] ++ (List.range k).map (fun j => m (p + 1 + j)) =
          dst ++ (List.range (k + 1)).map (fun j => m (p + j)) := by
        intro k
        have r1 : List.range 1 = [0] := rfl
        rw [List.append_assoc, Nat.add_comm k 1, ← range_map_shift (fun j => m (p + j)) 1 k, r1]
        simp only [List.map_cons, List.map_nil, Nat.add_zero, Nat.add_assoc]
      rcases ih (p + 1) (mx - 1) (dst ++ [m p]) with ⟨k, hk, hz, hnz, e⟩ | ⟨hnz, e⟩
      · left
        refine ⟨k + 1, Nat.succ_lt_succ hk, by rw [← hz]; congr 1; omega, ?_, ?_⟩
        · intro j hj
          cases j with
          | zero => simpa using h0
          | succ j =>
            have := hnz j (by omega)
            have e' : p + (j + 1) = p + 1 + j := by omega
            rw [e']; exact this
        · rw [e, hsh (k + 1)]
          congr 2
          omega
      · right
        refine ⟨?_, ?_⟩
        · intro j hj
          cases j with
          | zero => simpa using h0
          | succ j =>
            have := hnz j (by omega)
            have e' : p + (j + 1) = p + 1 + j := by omega
            rw [e']; exact this
        · rw [e, hsh n]
          congr 2
          omega

theorem chunk_bytes (P : KParams) (s : Kmem) (pt sv n : Nat) (h : sv % PGSIZE + n ≤ PGSIZE) :
    ∀ j, j < n →
      s.mem (walkaddr P s pt (PGROUNDDOWN sv) + (sv - PGROUNDDOWN sv) + j) =
        userByte P s pt (sv + j) := by
  intro j hj
  obtain ⟨h1, h2, h3⟩ := page_chunk sv j (by omega)
  unfold userByte
  rw [h1, h2, h3, Nat.add_assoc]

theorem chunk_len (sv mx : Nat) (hmx : 0 < mx) :
    0 < (if PGSIZE - (sv - PGROUNDDOWN sv) > mx then mx else PGSIZE - (sv - PGROUNDDOWN sv)) ∧
    (if PGSIZE - (sv - PGROUNDDOWN sv) > mx then mx else PGSIZE - (sv - PGROUNDDOWN sv)) ≤ mx ∧
    sv % PGSIZE +
      (if PGSIZE - (sv - PGROUNDDOWN sv) > mx then mx else PGSIZE - (sv - PGROUNDDOWN sv))
        ≤ PGSIZE ∧
    ((if PGSIZE - (sv - PGROUNDDOWN sv) > mx then mx else PGSIZE - (sv - PGROUNDDOWN sv)) < mx →
      PGROUNDDOWN sv + PGSIZE =
        sv + (if PGSIZE - (sv - PGROUNDDOWN sv) > mx then mx
              else PGSIZE - (sv - PGROUNDDOWN sv))) := by
  have h3 := (page_chunk sv 0 (by
    have := Nat.mod_lt sv (show 0 < PGSIZE by decide)
    omega)).2.2
  have hm := Nat.mod_lt sv (show 0 < PGSIZE by decide)
  have hle : PGROUNDDOWN sv ≤ sv := by unfold PGROUNDDOWN PGSIZE; omega
  rw [h3]
  split <;> refine ⟨?_, ?_, ?_, ?_⟩ <;> omega

theorem copyinstrLoop_spec (P : KParams) (s : Kmem) (pt srcva max : Nat)
    (H : ∀ k, k < max → userPage s.mem pt (PGROUNDDOWN (srcva + k))) :
    ∀ (fuel c sv : Nat), c ≤ max → max - c < fuel → (c < max → sv = srcva + c) →
      (∀ j, j < c → userByte P s pt (srcva + j) ≠ 0) →
      (∃ k, k < max ∧ userByte P s pt (srcva + k) = 0 ∧
        (∀ j, j < k → userByte P s pt (srcva + j) ≠ 0) ∧
        copyinstrLoop P s pt fuel sv (max - c)
            ((List.range c).map (fun j => userByte P s pt (srcva + j))) =
          .ok (0, (List.range (k + 1)).map (fun j => userByte P s pt (srcva + j)))) ∨
      ((∀ j, j < max → userByte P s pt (srcva + j) ≠ 0) ∧
        copyinstrLoop P s pt fuel sv (max - c)
            ((List.range c).map (fun j => userByte P s pt (srcva + j))) =
          .ok (-1, (List.range max).map (fun j => userByte P s pt (srcva + j)))) := by
  intro fuel
  induction fuel with
  | zero => intro c sv _ hf; exact absurd hf (Nat.not_lt_zero _)
  | succ f ih =>
    intro c sv hc hf hsv hnz
    rw [copyinstrLoop]
    by_cases hpos : max - c > 0
    · rw [if_pos hpos]
      have hcl : c < max := by omega
      have hsv' := hsv hcl
      have hup := H c hcl
      rw [← hsv'] at hup
      have hpa : walkaddr P s pt (PGROUNDDOWN sv) ≠ 0 := (walkaddr_ne_zero_iff P s pt _).2 hup
      simp only [hpa, if_false]
      obtain ⟨n1, n2, n3, n4⟩ := chunk_len sv (max - c) hpos
      have hb := chunk_bytes P s pt sv _ n3
      have hmap : ∀ k, k ≤
          (if PGSIZE - (sv - PGROUNDDOWN sv) > max - c then max - c
            else PGSIZE - (sv - PGROUNDDOWN sv)) →
          (List.range c).map (fun j => userByte P s pt (srcva + j)) ++
            (List.range k).map (fun j =>
              s.mem (walkaddr P s pt (PGROUNDDOWN sv) + (sv - PGROUNDDOWN sv) + j)) =
          (List.range (c + k)).map (fun j => userByte P s pt (srcva + j)) := by
        intro k hk
        rw [← range_map_shift (fun j => userByte P s pt (srcva + j)) c k]
        congr 1
        apply List.map_congr_left
        intro j hj
        rw [hb j (by have := List.mem_range.1 hj; omega), hsv', Nat.add_assoc]
      rcases copyinstrInner_spec s.mem _ (walkaddr P s pt (PGROUNDDOWN sv) + (sv - PGROUNDDOWN sv))
          (max - c) ((List.range c).map (fun j => userByte P s pt (srcva + j))) with
        ⟨k, hk, hz, hn, e⟩ | ⟨hn, e⟩
      · left
        rw [e]
        simp only [if_true]
        refine ⟨c + k, by omega, ?_, ?_, ?_⟩
        · rw [← Nat.add_assoc, ← hsv', ← hb k hk]; exact hz
        · intro j hj
          by_cases hjc : j < c
          · exact hnz j hjc
          · have hj' : j - c < k := by omega
            have := hn (j - c) hj'
            rw [hb (j - c) (by omega), hsv'] at this
            have e' : srcva + c + (j - c) = srcva + j := by omega
            rw [e'] at this; exact this
        · rw [hmap (k + 1) (by omega)]
          rfl
      · rw [e]
        simp only [Bool.false_eq_true, if_false]
        rw [hmap _ (Nat.le_refl _)]
        have hsub : max - c - (if PGSIZE - (sv - PGROUNDDOWN sv) > max - c then max - c
            else PGSIZE - (sv - PGROUNDDOWN sv)) =
            max - (c + (if PGSIZE - (sv - PGROUNDDOWN sv) > max - c then max - c
              else PGSIZE - (sv - PGROUNDDOWN sv))) := by omega
        rw [hsub]
        refine ih _ (PGROUNDDOWN sv + PGSIZE) (by omega) (by omega) ?_ ?_
        · intro hlt
          rw [n4 (by omega), hsv']
          omega
        · intro j hj
          by_cases hjc : j < c
          · exact hnz j hjc
          · have := hn (j - c) (by omega)
            rw [hb (j - c) (by omega), hsv'] at this
            have e' : srcva + c + (j - c) = srcva + j := by omega
            rw [e'] at this; exact this
    · rw [if_neg hpos]
      have hcm : c = max := by omega
      right
      rw [hcm] at hnz ⊢
      exact ⟨hnz, rfl⟩

/-- C7 (amended): for every page table, source address `srcva` and bound
`max` such that every user page overlapping the first `max` source bytes is
valid, user-accessible and mapped to a physical address other than 0:
`copyinstr` returns 0 if and only if one of the first `max` source bytes is the
zero byte (also when they cross page boundaries), on success `dst` holds the
source bytes up to and including the first zero byte, and when no zero byte
lies within the first `max` bytes it returns -1. -/
theorem C7_copyinstr_terminator (P : KParams) (s : Kmem) (pt srcva max : Nat)
    (H : ∀ k, k < max → userPage s.mem pt (PGROUNDDOWN (srcva + k))) :
    ∃ rc dst, copyinstr P s pt srcva max = .ok (rc, dst) ∧
      (rc = 0 ↔ ∃ k, k < max ∧ userByte P s pt (srcva + k) = 0) ∧
      (rc = 0 → ∃ k, k < max ∧ userByte P s pt (srcva + k) = 0 ∧
        (∀ j, j < k → userByte P s pt (srcva + j) ≠ 0) ∧
        dst = (List.range (k + 1)).map (fun j => userByte P s pt (srcva + j))) ∧
      ((¬ ∃ k, k < max ∧ userByte P s pt (srcva + k) = 0) → rc = -1) := by
  have h := copyinstrLoop_spec P s pt srcva max H (max + 1) 0 srcva (Nat.zero_le _) (by omega)
    (fun _ => rfl) (fun j hj => absurd hj (Nat.not_lt_zero _))
  unfold copyinstr
  simp only [Nat.sub_zero, List.range_zero, List.map_nil] at h
  rcases h with ⟨k, hk, hz, hn, e⟩ | ⟨hn, e⟩
  · refine ⟨0, _, e, ⟨fun _ => ⟨k, hk, hz⟩, fun _ => rfl⟩, fun _ => ⟨k, hk, hz, hn, rfl⟩, ?_⟩
    intro hno
    exact absurd ⟨k, hk, hz⟩ hno
  · refine ⟨-1, _, e, ⟨fun h0 => absurd h0 (by decide), ?_⟩, fun h0 => absurd h0 (by decide),
      fun _ => rfl⟩
    rintro ⟨k, hk, hz⟩
    exact absurd hz (hn k hk)

/-- C7 (as stated) fails: in the hand-built table the page at virtual address
0 is valid and user-accessible (entry `PTE_V | PTE_U | PTE_R`, physical page
0), and the first source byte is the zero byte, yet `copyinstr(pt, dst, 0, 10)`
returns -1: `walkaddr` returns the physical address 0, which `copyinstr`
takes for "not mapped". -/
theorem C7_counterexample :
    walkp (handTable (PTE_V ||| PTE_U ||| PTE_R) 0).mem 0 2 0x80001000 = 0x80003000 ∧
    leafPte (handTable (PTE_V ||| PTE_U ||| PTE_R) 0).mem 0x80001000 0
      = PTE_V ||| PTE_U ||| PTE_R ∧
    (PTE_V ||| PTE_U ||| PTE_R) &&& PTE_V ≠ 0 ∧ (PTE_V ||| PTE_U ||| PTE_R) &&& PTE_U ≠ 0 ∧
    (handTable (PTE_V ||| PTE_U ||| PTE_R) 0).mem (PTE2PA (PTE_V ||| PTE_U ||| PTE_R) + 0) = 0 ∧
    copyinstr smallK (handTable (PTE_V ||| PTE_U ||| PTE_R) 0) 0x80001000 0 10 = .ok (-1, []) := by
  decide!

/-- C7 witness: the page at virtual address 0 mapped to `0x80004000`, whose
first byte is zero. -/
theorem C7_copyinstr_terminator_witness :
    (∀ k, k < 10 → userPage (handTable (PA2PTE 0x80004000 ||| PTE_V ||| PTE_U ||| PTE_R) 0).mem
      0x80001000 (PGROUNDDOWN (0 + k))) ∧
    ∃ dst, copyinstr smallK (handTable (PA2PTE 0x80004000 ||| PTE_V ||| PTE_U ||| PTE_R) 0)
      0x80001000 0 10 = .ok (0, dst) := by
  have hup : userPage (handTable (PA2PTE 0x80004000 ||| PTE_V ||| PTE_U ||| PTE_R) 0).mem
      0x80001000 0 := by decide!
  have H : ∀ k, k < 10 →
      userPage (handTable (PA2PTE 0x80004000 ||| PTE_V ||| PTE_U ||| PTE_R) 0).mem
        0x80001000 (PGROUNDDOWN (0 + k)) := by
    intro k hk
    have e : PGROUNDDOWN (0 + k) = 0 := by unfold PGROUNDDOWN PGSIZE; omega
    rw [e]; exact hup
  obtain ⟨rc, dst, h1, h2, _, _⟩ := C7_copyinstr_terminator smallK
    (handTable (PA2PTE 0x80004000 ||| PTE_V ||| PTE_U ||| PTE_R) 0) 0x80001000 0 10 H
  have hz : userByte smallK (handTable (PA2PTE 0x80004000 ||| PTE_V ||| PTE_U ||| PTE_R) 0)
      0x80001000 (0 + 0) = 0 := by decide!
  have hrc : rc = 0 := h2.2 ⟨0, by decide, hz⟩
  rw [hrc] at h1
  exact ⟨H, dst, h1⟩

/-! ## `copyout` and `copyin` -/

theorem tablePages_aligned_of_root {m : Mem} {root : Nat} (h : root % PGSIZE = 0) :
    ∀ t ∈ tablePages m root, t % PGSIZE = 0 := by
  intro t ht
  rcases (mem_tablePages _ _ _).1 ht with e | h1 | ⟨t1, _, h0⟩
  · rw [e]; exact h
  · exact kids_aligned h1
  · exact kids_aligned h0

theorem memmoveIn_in (m : Mem) (dst : Nat) (src : Nat → Nat) (n j : Nat) (h : j < n) :
    memmoveIn m dst src n (dst + j) = src j := by
  unfold memmoveIn
  rw [if_pos ⟨Nat.le_add_right _ _, by omega⟩, Nat.add_sub_cancel_left]

theorem memmoveIn_out (m : Mem) (dst : Nat) (src : Nat → Nat) (n x : Nat)
    (h : x < dst ∨ dst + n ≤ x) : memmoveIn m dst src n x = m x := by
  unfold memmoveIn
  rw [if_neg (by omega)]

theorem not_writablePage_iff (m : Mem) (pt va0 : Nat) (h : ¬ (va0 ≥ MAXVA)) :
    (walkp m va0 2 pt = 0 ∨ leafPte m pt va0 &&& PTE_V = 0 ∨ leafPte m pt va0 &&& PTE_U = 0 ∨
      leafPte m pt va0 &&& PTE_W = 0) ↔ ¬ writablePage m pt va0 := by
  unfold writablePage mapped
  constructor
  · rintro (h1 | h1 | h1 | h1) hw
    · exact hw.2.1.1 h1
    · exact hw.2.1.2 h1
    · exact hw.2.2.1 h1
    · exact hw.2.2.2 h1
  · intro hw
    by_contra hcon
    simp only [not_or] at hcon
    exact hw ⟨Nat.not_le.1 h, ⟨hcon.1, hcon.2.1⟩, hcon.2.2.1, hcon.2.2.2⟩

theorem copyoutLoop_spec (P : KParams) (s0 : Kmem) (pt dstva : Nat) (src : Nat → Nat) (len : Nat)
    (hroot : pt % PGSIZE = 0)
    (H1 : ∀ k, k < len → writablePage s0.mem pt (PGROUNDDOWN (dstva + k)) →
      PTE2PA (leafPte s0.mem pt (PGROUNDDOWN (dstva + k))) ∉ tablePages s0.mem pt)
    (H2 : ∀ j k, j < len → k < len → writablePage s0.mem pt (PGROUNDDOWN (dstva + j)) →
      writablePage s0.mem pt (PGROUNDDOWN (dstva + k)) →
      PGROUNDDOWN (dstva + j) ≠ PGROUNDDOWN (dstva + k) →
      PTE2PA (leafPte s0.mem pt (PGROUNDDOWN (dstva + j))) ≠
        PTE2PA (leafPte s0.mem pt (PGROUNDDOWN (dstva + k)))) :
    ∀ (fuel c : Nat) (s' : Kmem) (dv : Nat), c ≤ len → len - c < fuel →
      (c < len → dv = dstva + c) → (c = 0 ∨ c = len ∨ (dstva + c) % PGSIZE = 0) →
      sameOn s0.mem s'.mem (tablePages s0.mem pt) →
      (∀ k, k < c → writablePage s0.mem pt (PGROUNDDOWN (dstva + k)) ∧
        s'.mem (PTE2PA (leafPte s0.mem pt (PGROUNDDOWN (dstva + k))) + (dstva + k) % PGSIZE)
          = src k) →
      ∃ rc s2, copyoutLoop P pt fuel s' dv (fun k => src (c + k)) (len - c) = .ok (rc, s2) ∧
        ((rc = -1 ∧ ∃ k, k < len ∧ ¬ writablePage s0.mem pt (PGROUNDDOWN (dstva + k))) ∨
         (rc = 0 ∧ (∀ k, k < len → writablePage s0.mem pt (PGROUNDDOWN (dstva + k))) ∧
           sameOn s0.mem s2.mem (tablePages s0.mem pt) ∧
           ∀ k, k < len →
             s2.mem (PTE2PA (leafPte s0.mem pt (PGROUNDDOWN (dstva + k))) + (dstva + k) % PGSIZE)
               = src k)) := by
  intro fuel
  induction fuel with
  | zero => intro c s' dv _ hf; exact absurd hf (Nat.not_lt_zero _)
  | succ f ih =>
    intro c s' dv hc hf hdv hal hsame hdone
    rw [copyoutLoop]
    by_cases hpos : len - c > 0
    · rw [if_pos hpos]
      have hcl : c < len := by omega
      have hdv' := hdv hcl
      subst hdv'
      by_cases hmax : PGROUNDDOWN (dstva + c) ≥ MAXVA
      · simp only [hmax, if_true]
        exact ⟨-1, s', rfl, Or.inl ⟨rfl, c, hcl, fun hw => absurd hw.1 (Nat.not_lt.2 hmax)⟩⟩
      · simp only [hmax, if_false]
        unfold walk
        rw [if_neg hmax, walkLoop_false]
        simp only
        have hwp : walkp s'.mem (PGROUNDDOWN (dstva + c)) 2 pt =
            walkp s0.mem (PGROUNDDOWN (dstva + c)) 2 pt := sameOn_walkp (sameOn_top hsame) _
        rw [hwp]
        by_cases hgood : writablePage s0.mem pt (PGROUNDDOWN (dstva + c))
        · have hlf : read64 s'.mem (walkp s0.mem (PGROUNDDOWN (dstva + c)) 2 pt) =
              leafPte s0.mem pt (PGROUNDDOWN (dstva + c)) := by
            have := sameOn_leafPte hsame _ hgood.2.1.1
            unfold leafPte at this
            rw [hwp] at this
            exact this
          rw [hlf]
          have hcond : ¬ (walkp s0.mem (PGROUNDDOWN (dstva + c)) 2 pt = 0 ∨
              leafPte s0.mem pt (PGROUNDDOWN (dstva + c)) &&& PTE_V = 0 ∨
              leafPte s0.mem pt (PGROUNDDOWN (dstva + c)) &&& PTE_U = 0 ∨
              leafPte s0.mem pt (PGROUNDDOWN (dstva + c)) &&& PTE_W = 0) :=
            fun hh => (not_writablePage_iff _ _ _ hmax).1 hh hgood
          rw [if_neg hcond]
          obtain ⟨n1, n2, n3, n4⟩ := chunk_len (dstva + c) (len - c) hpos
          obtain ⟨_, _, hoff⟩ := page_chunk (dstva + c) 0 (by
            have := Nat.mod_lt (dstva + c) (show 0 < PGSIZE by decide)
            omega)
          generalize hn : (if PGSIZE - (dstva + c - PGROUNDDOWN (dstva + c)) > len - c
              then len - c else PGSIZE - (dstva + c - PGROUNDDOWN (dstva + c))) = n at n1 n2 n3 n4 ⊢
          rw [hoff]
          have hpa := H1 c hcl hgood
          have hpal : PTE2PA (leafPte s0.mem pt (PGROUNDDOWN (dstva + c))) % PGSIZE = 0 :=
            PTE2PA_mod _
          have hrd : PGROUNDDOWN (dstva + c) % PGSIZE = 0 := by
            unfold PGROUNDDOWN; exact Nat.mul_mod_left _ _
          have hmc := Nat.mod_lt (dstva + c) (show 0 < PGSIZE by decide)
          have e1 : (fun k => src (c + (n + k))) = (fun k => src (c + n + k)) :=
            funext (fun k => by rw [Nat.add_assoc])
          rw [e1, Nat.sub_sub]
          refine ih _ _ _ (by omega) (by omega) ?_ ?_ ?_ ?_
          · intro hlt
            rw [n4 (by omega)]; omega
          · by_cases hlt : c + n < len
            · right; right
              have := n4 (by omega)
              simp only [PGSIZE] at this hrd ⊢
              omega
            · right; left; omega
          · intro t ht x hx1 hx2
            dsimp only
            have hta := tablePages_aligned_of_root (m := s0.mem) hroot t ht
            have hne : t ≠ PTE2PA (leafPte s0.mem pt (PGROUNDDOWN (dstva + c))) :=
              fun e => hpa (e ▸ ht)
            have hdis := pages_disjoint hta hpal hne ⟨hx1, hx2⟩
            rw [memmoveIn_out _ _ _ _ _ (by omega)]
            exact hsame t ht x hx1 hx2
          · intro k hk
            by_cases hkc : k < c
            · obtain ⟨hw, hv⟩ := hdone k hkc
              refine ⟨hw, ?_⟩
              dsimp only
              have hcal : (dstva + c) % PGSIZE = 0 := by
                rcases hal with h0 | h0 | h0
                · omega
                · omega
                · exact h0
              have hpg : PGROUNDDOWN (dstva + k) ≠ PGROUNDDOWN (dstva + c) := by
                unfold PGROUNDDOWN
                simp only [PGSIZE] at hcal ⊢
                omega
              have hne := H2 k c (by omega) hcl hw hgood hpg
              have hkal : PTE2PA (leafPte s0.mem pt (PGROUNDDOWN (dstva + k))) % PGSIZE = 0 :=
                PTE2PA_mod _
              have hmk := Nat.mod_lt (dstva + k) (show 0 < PGSIZE by decide)
              have hdis := pages_disjoint hkal hpal hne
                (x := PTE2PA (leafPte s0.mem pt (PGROUNDDOWN (dstva + k))) + (dstva + k) % PGSIZE)
                ⟨by omega, by omega⟩
              rw [memmoveIn_out _ _ _ _ _ (by omega)]
              exact hv
            · have hj : k - c < n := by omega
              obtain ⟨p1, p2, _⟩ := page_chunk (dstva + c) (k - c) (by omega)
              have ek : dstva + c + (k - c) = dstva + k := by omega
              rw [ek] at p1 p2
              rw [p1, p2]
              refine ⟨hgood, ?_⟩
              dsimp only
              rw [← Nat.add_assoc, memmoveIn_in _ _ _ _ _ hj]
              congr 1
              omega
        · have hcond : walkp s0.mem (PGROUNDDOWN (dstva + c)) 2 pt = 0 ∨
              read64 s'.mem (walkp s0.mem (PGROUNDDOWN (dstva + c)) 2 pt) &&& PTE_V = 0 ∨
              read64 s'.mem (walkp s0.mem (PGROUNDDOWN (dstva + c)) 2 pt) &&& PTE_U = 0 ∨
              read64 s'.mem (walkp s0.mem (PGROUNDDOWN (dstva + c)) 2 pt) &&& PTE_W = 0 := by
            by_cases hw0 : walkp s0.mem (PGROUNDDOWN (dstva + c)) 2 pt = 0
            · exact Or.inl hw0
            · have := sameOn_leafPte hsame _ hw0
              unfold leafPte at this
              rw [hwp] at this
              rw [this]
              have := (not_writablePage_iff s0.mem pt _ hmax).2 hgood
              unfold leafPte at this
              exact this
          rw [if_pos hcond]
          exact ⟨-1, s', rfl, Or.inl ⟨rfl, c, hcl, hgood⟩⟩
    · rw [if_neg hpos]
      have hcm : c = len := by omega
      rw [hcm] at hdone
      exact ⟨0, s', rfl, Or.inr ⟨rfl, fun k hk => (hdone k hk).1, hsame,
        fun k hk => (hdone k hk).2⟩⟩

theorem copyinLoop_spec (P : KParams) (s : Kmem) (pt srcva len : Nat)
    (H : ∀ k, k < len → userPage s.mem pt (PGROUNDDOWN (srcva + k))) :
    ∀ (fuel c sv : Nat), c ≤ len → len - c < fuel → (c < len → sv = srcva + c) →
      copyinLoop P s pt fuel sv (len - c)
          ((List.range c).map (fun j => userByte P s pt (srcva + j))) =
        .ok (0, (List.range len).map (fun j => userByte P s pt (srcva + j))) := by
  intro fuel
  induction fuel with
  | zero => intro c sv _ hf; exact absurd hf (Nat.not_lt_zero _)
  | succ f ih =>
    intro c sv hc hf hsv
    rw [copyinLoop]
    by_cases hpos : len - c > 0
    · rw [if_pos hpos]
      have hcl : c < len := by omega
      have hsv' := hsv hcl
      have hup := H c hcl
      rw [← hsv'] at hup
      have hpa : walkaddr P s pt (PGROUNDDOWN sv) ≠ 0 := (walkaddr_ne_zero_iff P s pt _).2 hup
      simp only [hpa, if_false]
      obtain ⟨n1, n2, n3, n4⟩ := chunk_len sv (len - c) hpos
      have hb := chunk_bytes P s pt sv _ n3
      generalize (if PGSIZE - (sv - PGROUNDDOWN sv) > len - c then len - c
        else PGSIZE - (sv - PGROUNDDOWN sv)) = n at n1 n2 n3 n4 hb ⊢
      unfold loadBytes
      have hl : (List.range n).map
            (fun i => s.mem (walkaddr P s pt (PGROUNDDOWN sv) + (sv - PGROUNDDOWN sv) + i)) =
          (List.range n).map (fun j => userByte P s pt (srcva + (c + j))) :=
        List.map_congr_left (fun j hj => by
          rw [hb j (List.mem_range.1 hj), hsv', Nat.add_assoc])
      rw [hl, range_map_shift (fun j => userByte P s pt (srcva + j)) c n, Nat.sub_sub]
      exact ih (c + n) _ (by omega) (by omega) (fun hlt => by rw [n4 (by omega)]; omega)
    · rw [if_neg hpos]
      have hcm : c = len := by omega
      rw [hcm]

/-- Claim C8, amended: when the root of the page table is page-aligned, no
writable destination page is mapped to a page-table page of the table or to
physical address 0, and distinct writable destination pages are mapped to
distinct physical pages, `copyout` returns, with -1 exactly when some page of
`[dstva, dstva+len)` is at or above `MAXVA` or lacks a valid, user-accessible,
writable level-0 entry, and otherwise with 0, the `len` translated destination
bytes equal to the source bytes and a following `copyin` of the same range
returning 0 and exactly those bytes. -/
theorem C8_copyout_then_copyin (P : KParams) (s : Kmem) (pt dstva : Nat) (src : Nat → Nat)
    (len : Nat) (hroot : pt % PGSIZE = 0)
    (H1 : ∀ k, k < len → writablePage s.mem pt (PGROUNDDOWN (dstva + k)) →
      PTE2PA (leafPte s.mem pt (PGROUNDDOWN (dstva + k))) ∉ tablePages s.mem pt)
    (H2 : ∀ j k, j < len → k < len → writablePage s.mem pt (PGROUNDDOWN (dstva + j)) →
      writablePage s.mem pt (PGROUNDDOWN (dstva + k)) →
      PGROUNDDOWN (dstva + j) ≠ PGROUNDDOWN (dstva + k) →
      PTE2PA (leafPte s.mem pt (PGROUNDDOWN (dstva + j))) ≠
        PTE2PA (leafPte s.mem pt (PGROUNDDOWN (dstva + k))))
    (H3 : ∀ k, k < len → writablePage s.mem pt (PGROUNDDOWN (dstva + k)) →
      PTE2PA (leafPte s.mem pt (PGROUNDDOWN (dstva + k))) ≠ 0) :
    ∃ rc s2, copyout P s pt dstva src len = .ok (rc, s2) ∧ (rc = 0 ∨ rc = -1) ∧
      (rc = -1 ↔ ∃ k, k < len ∧ ¬ writablePage s.mem pt (PGROUNDDOWN (dstva + k))) ∧
      (rc = 0 →
        (∀ k, k < len → userByte P s2 pt (dstva + k) = src k) ∧
        copyin P s2 pt dstva len = .ok (0, (List.range len).map src)) := by
  have hspec := copyoutLoop_spec P s pt dstva src len hroot H1 H2 (len + 1) 0 s dstva
    (Nat.zero_le _) (by omega) (fun _ => rfl) (Or.inl rfl) (fun _ _ _ _ _ => rfl)
    (fun k hk => absurd hk (Nat.not_lt_zero _))
  simp only [Nat.zero_add, Nat.sub_zero] at hspec
  obtain ⟨rc, s2, hrun, hres⟩ := hspec
  refine ⟨rc, s2, hrun, ?_⟩
  rcases hres with ⟨hrc, hbad⟩ | ⟨hrc, hall, hsame, hbytes⟩
  · refine ⟨Or.inr hrc, ⟨fun _ => hbad, fun _ => hrc⟩, ?_⟩
    intro h0
    rw [hrc] at h0
    exact absurd h0 (by decide)
  · have hup : ∀ k, k < len → userPage s2.mem pt (PGROUNDDOWN (dstva + k)) ∧
        leafPte s2.mem pt (PGROUNDDOWN (dstva + k)) =
          leafPte s.mem pt (PGROUNDDOWN (dstva + k)) := by
      intro k hk
      have hw := hall k hk
      obtain ⟨hm, _, hl⟩ := LeafPres_mapped (sameOn_LeafPres hsame) hw.2.1
      refine ⟨⟨hw.1, hm, ?_, ?_⟩, hl⟩
      · rw [hl]; exact hw.2.2.1
      · rw [hl]; exact H3 k hk hw
    have hub : ∀ k, k < len → userByte P s2 pt (dstva + k) = src k := by
      intro k hk
      unfold userByte
      rw [walkaddr_of_userPage (hup k hk).1, (hup k hk).2]
      exact hbytes k hk
    refine ⟨Or.inl hrc, ⟨?_, ?_⟩, fun _ => ⟨hub, ?_⟩⟩
    · intro h1
      rw [hrc] at h1
      exact absurd h1 (by decide)
    · rintro ⟨k, hk, hnw⟩
      exact absurd (hall k hk) hnw
    · have hin := copyinLoop_spec P s2 pt dstva len (fun k hk => (hup k hk).1) (len + 1) 0 dstva
        (Nat.zero_le _) (by omega) (fun _ => rfl)
      simp only [Nat.sub_zero, List.range_zero, List.map_nil] at hin
      unfold copyin
      rw [hin]
      congr 2
      exact List.map_congr_left (fun j hj => hub j (List.mem_range.1 hj))

/-- C8 (as stated) fails: in the hand-built table the pages at virtual
addresses 0 and 4096 are both valid, user-accessible and writable, and both
mapped to the physical page `0x80004000`. `copyout(pt, 0, src, 4097)` with
4096 source bytes 1 followed by one byte 2 returns 0, yet the byte at the
translated address of the first destination byte is 2, not the first source
byte 1 (the second page's write went to the same physical page), and a
following `copyin` of the same range returns 0 with first byte 2. -/
theorem C8_counterexample :
    writablePage
      (handTable (PA2PTE 0x80004000 ||| PTE_V ||| PTE_U ||| PTE_R ||| PTE_W)
        (PA2PTE 0x80004000 ||| PTE_V ||| PTE_U ||| PTE_R ||| PTE_W)).mem 0x80001000 0 ∧
    writablePage
      (handTable (PA2PTE 0x80004000 ||| PTE_V ||| PTE_U ||| PTE_R ||| PTE_W)
        (PA2PTE 0x80004000 ||| PTE_V ||| PTE_U ||| PTE_R ||| PTE_W)).mem 0x80001000 4096 ∧
    (match copyout smallK
        (handTable (PA2PTE 0x80004000 ||| PTE_V ||| PTE_U ||| PTE_R ||| PTE_W)
          (PA2PTE 0x80004000 ||| PTE_V ||| PTE_U ||| PTE_R ||| PTE_W))
        0x80001000 0 (fun k => if k < 4096 then 1 else 2) 4097 with
      | .ok (rc, s2) =>
        some (rc, userByte smallK s2 0x80001000 0,
          match copyin smallK s2 0x80001000 0 4097 with
          | .ok (rc2, dst) => some (rc2, dst.head?)
          | .error _ => none)
      | .error _ => none) = some (0, 2, some (0, some 2)) := by
  decide!

/-- C8 witness: three bytes copied to virtual address 0, whose page is mapped
writable to the physical page `0x80004000`. -/
theorem C8_copyout_then_copyin_witness :
    writablePage (handTable (PA2PTE 0x80004000 ||| PTE_V ||| PTE_U ||| PTE_R ||| PTE_W) 0).mem
      0x80001000 0 ∧
    ∃ rc s2, copyout smallK
        (handTable (PA2PTE 0x80004000 ||| PTE_V ||| PTE_U ||| PTE_R ||| PTE_W) 0)
        0x80001000 0 (fun k => k + 1) 3 = .ok (rc, s2) ∧ (rc = 0 ∨ rc = -1) ∧
      (rc = -1 ↔ ∃ k, k < 3 ∧ ¬ writablePage
        (handTable (PA2PTE 0x80004000 ||| PTE_V ||| PTE_U ||| PTE_R ||| PTE_W) 0).mem
        0x80001000 (PGROUNDDOWN (0 + k))) ∧
      (rc = 0 →
        (∀ k, k < 3 → userByte smallK s2 0x80001000 (0 + k) = k + 1) ∧
        copyin smallK s2 0x80001000 0 3 = .ok (0, (List.range 3).map (fun k => k + 1))) := by
  have hw : writablePage
      (handTable (PA2PTE 0x80004000 ||| PTE_V ||| PTE_U ||| PTE_R ||| PTE_W) 0).mem
      0x80001000 0 := by decide!
  have hpg : ∀ k, k < 3 → PGROUNDDOWN (0 + k) = 0 := by
    intro k hk
    unfold PGROUNDDOWN PGSIZE; omega
  have h1 : PTE2PA (leafPte
      (handTable (PA2PTE 0x80004000 ||| PTE_V ||| PTE_U ||| PTE_R ||| PTE_W) 0).mem
      0x80001000 0) ∉ tablePages
      (handTable (PA2PTE 0x80004000 ||| PTE_V ||| PTE_U ||| PTE_R ||| PTE_W) 0).mem
      0x80001000 := by decide!
  have h3 : PTE2PA (leafPte
      (handTable (PA2PTE 0x80004000 ||| PTE_V ||| PTE_U ||| PTE_R ||| PTE_W) 0).mem
      0x80001000 0) ≠ 0 := by decide!
  exact ⟨hw, C8_copyout_then_copyin smallK
    (handTable (PA2PTE 0x80004000 ||| PTE_V ||| PTE_U ||| PTE_R ||| PTE_W) 0)
    0x80001000 0 (fun k => k + 1) 3 (by decide)
    (fun k hk _ => by rw [hpg k hk]; exact h1)
    (fun j k hj hk _ _ hne => absurd (by rw [hpg j hj, hpg k hk]) hne)
    (fun k hk _ => by rw [hpg k hk]; exact h3)⟩

/-! ## `sys_mmap` failure, `sys_munmap` and the fault handler -/

/-- C11 (code defect): after four `sys_mmap` calls of one page each (slots 0
to 3, all four regions in use), `sys_mmap` for 93 pages reserves the run of
slots 36..128, finds no free region and returns -1; `dealloc_freespace` then
stops at slot 96, whose mask `1 << (96 % 64)`, computed as a 32-bit `int`, is
the mask of slot 64 that it has just cleared, and returns without clearing the
later slots: bit 0 of bitmap word 2 (slot 128) stays set, so the bitmap is not
the one before the call. The file reference count and the regions are as
before. -/
theorem C11_failed_mmap_leaves_slot_reserved :
    fourRegions.vma.map (fun v => v.valid) = [1, 1, 1, 1] ∧
    (List.range 4).map fourRegions.mmapbitmap = [15, 0, 0, 0] ∧
    (sys_mmap mmapArea fourRegions 0 (93 * PGSIZE) PROT_READ MAP_PRIVATE 3 0).1 = minus1 ∧
    (List.range 4).map
      (sys_mmap mmapArea fourRegions 0 (93 * PGSIZE) PROT_READ MAP_PRIVATE 3 0).2.mmapbitmap
        = [15, 0, 1, 0] ∧
    ((sys_mmap mmapArea fourRegions 0 (93 * PGSIZE) PROT_READ MAP_PRIVATE 3 0).2.files 7).ref
      = (fourRegions.files 7).ref ∧
    (sys_mmap mmapArea fourRegions 0 (93 * PGSIZE) PROT_READ MAP_PRIVATE 3 0).2.vma.map
        (fun v => (v.valid, v.addr, v.len))
      = fourRegions.vma.map (fun v => (v.valid, v.addr, v.len)) := by
  decide!

/-- C12 (code defect): a shared, writable region of two pages is mapped, its
second page is brought in by `uvmcoe` and the user writes the bytes 9, 9, 9 at
its start. `sys_munmap` of that second page alone returns 0 and frees the page,
but writes nothing to the file: its loop starts at `off = addr - vp->addr =
4096` and runs while `off < len = 4096`. The file bytes at offset 4096 are
still 0, not the in-memory 9. -/
theorem C12_unmap_of_second_page_writes_nothing :
    (match uvmcoe vmK mmapArea
        (sys_mmap mmapArea vmProc 0 (2 * PGSIZE) (PROT_READ ||| PROT_WRITE) MAP_SHARED 3 0).2
        vmState (mmapArea.MMAPBASE + PGSIZE) with
      | .ok (rc1, p1, s1) =>
        match copyout vmK s1 p1.pagetable (mmapArea.MMAPBASE + PGSIZE) (fun _ => 9) 3 with
        | .ok (rc2, s2) =>
          match sys_munmap vmK mmapArea trapframe p1 s2 (mmapArea.MMAPBASE + PGSIZE) PGSIZE with
          | .ok (rc3, p3, s3) =>
            some ([rc1, rc2], rc3, (List.range 3).map (fun i => userByte vmK s2 p1.pagetable
                (mmapArea.MMAPBASE + PGSIZE + i)),
              (List.range 3).map (fun i => (p3.files 7).content (4096 + i)),
              [s2.freelist.length, s3.freelist.length])
          | .error _ => none
        | .error _ => none
      | .error _ => none) = some ([0, 0], 0, [9, 9, 9], [0, 0, 0], [5, 6]) := by
  decide!

theorem findVma_some {c : Vma → Bool} :
    ∀ {l : List Vma} {i : Nat} {v : Vma}, findVma c l = some (i, v) →
      v ∈ l ∧ c v = true
  | [], _, _, h => by simp [findVma] at h
  | v :: vs, i, vp, h => by
    unfold findVma at h
    by_cases hc : c v = true
    · rw [if_pos hc] at h
      injection h with h
      injection h with _ h2
      rw [← h2]
      exact ⟨List.mem_cons_self _ _, hc⟩
    · rw [if_neg hc] at h
      cases hf : findVma c vs with
      | none => rw [hf] at h; simp at h
      | some r =>
        rw [hf] at h
        simp only [Option.map_some'] at h
        injection h with h
        injection h with _ h2
        obtain ⟨a, b⟩ := findVma_some (l := vs) (i := r.1) (v := r.2) hf
        rw [← h2]
        exact ⟨List.mem_cons_of_mem _ a, b⟩

theorem findVma_none {c : Vma → Bool} :
    ∀ {vs : List Vma}, (∀ v ∈ vs, c v = false) → findVma c vs = none
  | [], _ => rfl
  | v :: vs, h => by
    unfold findVma
    rw [if_neg (by rw [h v (List.mem_cons_self _ _)]; decide),
      findVma_none (fun w hw => h w (List.mem_cons_of_mem _ hw))]
    rfl

theorem findVma_exists {c : Vma → Bool} :
    ∀ {l : List Vma}, (∃ v ∈ l, c v = true) →
      ∃ i vp, findVma c l = some (i, vp) ∧ vp ∈ l ∧ c vp = true
  | [], h => by obtain ⟨v, hv, _⟩ := h; cases hv
  | v :: vs, h => by
    unfold findVma
    by_cases hc : c v = true
    · rw [if_pos hc]
      exact ⟨0, v, rfl, List.mem_cons_self _ _, hc⟩
    · rw [if_neg hc]
      obtain ⟨w, hw, hcw⟩ := h
      rcases List.mem_cons.1 hw with e | hw'
      · rw [e] at hcw; exact absurd hcw hc
      · obtain ⟨i, vp, h1, h2, h3⟩ := findVma_exists (l := vs) ⟨w, hw', hcw⟩
        rw [h1]
        exact ⟨i + 1, vp, rfl, List.mem_cons_of_mem _ h2, h3⟩

theorem free_vma_files {M : MParams} {T : Nat} {p p' : Proc} {i : Nat} {vp : Vma}
    (h : free_vma M T p i vp = .ok p') :
    ∀ f, (p'.files f).content = (p.files f).content ∧ (p'.files f).size = (p.files f).size := by
  unfold free_vma at h
  split at h
  · cases h
  · split at h
    · injection h with h
      rw [← h]
      intro f
      unfold fileclose upd
      dsimp only
      split
      · rename_i e; rw [e]; exact ⟨rfl, rfl⟩
      · exact ⟨rfl, rfl⟩
    · injection h with h
      rw [← h]
      exact fun f => ⟨rfl, rfl⟩

/-- Claim C13: if every valid region that covers the range `[addr, addr+len)`
has `MAP_SHARED` clear (a private mapping), then whatever `sys_munmap(addr,
len)` returns, every file has the content and the size it had before the call:
no file write is issued, whatever the resident pages contain. -/
theorem C13_private_unmap_writes_no_file (P : KParams) (M : MParams) (T : Nat) (p : Proc)
    (s : Kmem) (addr len r : Nat) (p' : Proc) (s' : Kmem)
    (hpriv : ∀ v ∈ p.vma, v.valid ≠ 0 → addr ≥ v.addr →
      u64 (addr + len) ≤ u64 (v.addr + v.len) → v.flags &&& MAP_SHARED = 0)
    (h : sys_munmap P M T p s addr len = .ok (r, p', s')) :
    ∀ f, (p'.files f).content = (p.files f).content ∧ (p'.files f).size = (p.files f).size := by
  unfold sys_munmap at h
  split at h
  · injection h with h
    injection h with _ h
    injection h with h _
    rw [← h]
    exact fun f => ⟨rfl, rfl⟩
  · split at h
    · injection h with h
      injection h with _ h
      injection h with h _
      rw [← h]
      exact fun f => ⟨rfl, rfl⟩
    · rename_i i vp hfind
      obtain ⟨hmem, hc⟩ := findVma_some hfind
      have hc' := of_decide_eq_true hc
      have hflag := hpriv vp hmem hc'.1 hc'.2.1 hc'.2.2
      simp only [hflag, ne_eq, not_true_eq_false, if_false, Bool.not_true, Bool.false_eq_true] at h
      split at h
      · cases h
      · split at h
        · cases h
        · rename_i p3 hfree
          injection h with h
          injection h with _ h
          injection h with h _
          rw [← h]
          exact fun f => free_vma_files hfree f

theorem Except_map_fst_ok3 {α β γ : Type} {x : Except Fail (α × β × γ)} {a : α}
    (h : x.map (·.1) = .ok a) : ∃ b c, x = .ok (a, b, c) := by
  cases x with
  | error e => cases h
  | ok v =>
    obtain ⟨v1, v2, v3⟩ := v
    injection h with h
    exact ⟨v2, v3, by rw [← h]⟩

/-- C13 witness: a private, writable one-page region whose page has been
brought in and overwritten with 9, 9, 9; `sys_munmap` of the region returns 0
and the file still holds zeros. -/
theorem C13_private_unmap_writes_no_file_witness :
    (List.range 3).map (userByte vmK (dirtied (PROT_READ ||| PROT_WRITE) MAP_PRIVATE) vmRoot
      ∘ (mmapArea.MMAPBASE + ·)) = [9, 9, 9] ∧
    ∃ p' s', sys_munmap vmK mmapArea trapframe (faulted (PROT_READ ||| PROT_WRITE) MAP_PRIVATE).1
        (dirtied (PROT_READ ||| PROT_WRITE) MAP_PRIVATE) mmapArea.MMAPBASE PGSIZE
          = .ok (0, p', s') ∧
      ∀ f, (p'.files f).content =
          ((faulted (PROT_READ ||| PROT_WRITE) MAP_PRIVATE).1.files f).content ∧
        (p'.files f).size = ((faulted (PROT_READ ||| PROT_WRITE) MAP_PRIVATE).1.files f).size := by
  have h1 : (sys_munmap vmK mmapArea trapframe (faulted (PROT_READ ||| PROT_WRITE) MAP_PRIVATE).1
      (dirtied (PROT_READ ||| PROT_WRITE) MAP_PRIVATE) mmapArea.MMAPBASE PGSIZE).map (·.1)
        = .ok 0 := by decide!
  obtain ⟨p', s', h⟩ := Except_map_fst_ok3 h1
  have hpriv : ∀ v ∈ (faulted (PROT_READ ||| PROT_WRITE) MAP_PRIVATE).1.vma, v.valid ≠ 0 →
      mmapArea.MMAPBASE ≥ v.addr → u64 (mmapArea.MMAPBASE + PGSIZE) ≤ u64 (v.addr + v.len) →
      v.flags &&& MAP_SHARED = 0 := by decide!
  exact ⟨by decide!, p', s', h,
    C13_private_unmap_writes_no_file vmK mmapArea trapframe _ _ _ _ 0 p' s' hpriv h⟩

/-- C14 (code defect): on a process with an empty bitmap, `sys_mmap` of 65
pages reserves slots 0..64, and `sys_munmap` of the whole region returns 0.
`dealloc_freespace` stops at slot 32, whose mask `1 << (32 % 64)`, a 32-bit
`int` shift, is the mask of slot 0 that it has just cleared, so slot 64 (bit 0
of word 1) stays set; `free_vma` finds it and leaves the region valid with its
file reference held. The bitmap, the region table and the reference count are
not those before the `sys_mmap`. -/
theorem C14_whole_unmap_leaves_region :
    (List.range 4).map vmProc.mmapbitmap = [0, 0, 0, 0] ∧ (vmProc.files 7).ref = 1 ∧
    vmProc.vma.map (fun v => v.valid) = [0, 0, 0, 0] ∧
    (sys_mmap mmapArea vmProc 0 (65 * PGSIZE) PROT_READ MAP_PRIVATE 3 0).1
      = mmapArea.MMAPBASE ∧
    (match sys_munmap vmK mmapArea trapframe
        (sys_mmap mmapArea vmProc 0 (65 * PGSIZE) PROT_READ MAP_PRIVATE 3 0).2 vmState
        mmapArea.MMAPBASE (65 * PGSIZE) with
      | .ok (rc, p, _) =>
        some (rc, (List.range 4).map p.mmapbitmap, (p.files 7).ref,
          p.vma.map (fun v => v.valid))
      | .error _ => none) = some (0, [0, 1, 0, 0], 2, [1, 0, 0, 0]) := by
  decide!

/-- C15 (code defect): with two free pages left, a fault on the page of a
one-page region makes `uvmcoe` take one page for the data and `mappages` fail
(`walk` gets the level-1 page but no level-0 page) with -1; `uvmcoe` tests
`mappages(...) == 1`, so it goes on and returns 0. No physical page is mapped
at the address: `walkaddr` gives 0, and the page that holds the file bytes is
neither mapped nor free. -/
theorem C15_fault_returns_zero_without_page :
    vmLow.freelist = [0x80002000, 0x80001000] ∧
    (match uvmcoe vmK mmapArea
        (sys_mmap mmapArea vmProc 0 PGSIZE PROT_READ MAP_SHARED 3 0).2 vmLow
        mmapArea.MMAPBASE with
      | .ok (rc, p, s) =>
        some (rc, p.killed, s.freelist, walkaddr vmK s vmRoot mmapArea.MMAPBASE)
      | .error _ => none) = some (0, 0, [], 0) := by
  decide!

/-- C16 (code defect): first, the run of C15: `uvmcoe` returns 0 although
`mappages` failed, and the level-0 entry of the address does not exist (`walk`
finds none). Second, a two-page region whose second page has been unmapped
(slot 1 clear, the region still valid): a fault on that page returns 0 and
maps it readable and user-accessible, but the bit that `uvmcoe` sets is bit
`(va - MMAPBASE) % PGSIZE = 0`, not the slot `(va - MMAPBASE) / PGSIZE = 1`,
which stays clear. -/
theorem C16_fault_returns_zero_without_entry_or_slot :
    (match uvmcoe vmK mmapArea
        (sys_mmap mmapArea vmProc 0 PGSIZE PROT_READ MAP_SHARED 3 0).2 vmLow
        mmapArea.MMAPBASE with
      | .ok (rc, _, s) => some (rc, walkp s.mem mmapArea.MMAPBASE 2 vmRoot)
      | .error _ => none) = some (0, 0) ∧
    (match sys_munmap vmK mmapArea trapframe
        (sys_mmap mmapArea vmProc 0 (2 * PGSIZE) PROT_READ MAP_SHARED 3 0).2 vmState
        (mmapArea.MMAPBASE + PGSIZE) PGSIZE with
      | .ok (rc0, p0, s0) =>
        match uvmcoe vmK mmapArea p0 s0 (mmapArea.MMAPBASE + PGSIZE) with
        | .ok (rc, p, s) =>
          some ([(rc0 : Int), rc], (List.range 4).map p0.mmapbitmap,
            (List.range 4).map p.mmapbitmap,
            PTE_FLAGS (leafPte s.mem vmRoot (mmapArea.MMAPBASE + PGSIZE)))
        | .error _ => none
      | .error _ => none)
      = some ([0, 0], [1, 0, 0, 0], [1, 0, 0, 0], PTE_V ||| PTE_R ||| PTE_U) := by
  decide!

/-- C17 (as stated) fails: after `sys_mmap` of one page the slot of the page
is marked in the bitmap (slot 0), and a fault on the page does not return -1:
`uvmcoe` returns 0, the process is not marked for termination, three pages
have left the free list (the data page and two page-table pages) and the page
is mapped. -/
theorem C17_counterexample :
    (List.range 4).map
      (sys_mmap mmapArea vmProc 0 PGSIZE PROT_READ MAP_SHARED 3 0).2.mmapbitmap = [1, 0, 0, 0] ∧
    (match uvmcoe vmK mmapArea
        (sys_mmap mmapArea vmProc 0 PGSIZE PROT_READ MAP_SHARED 3 0).2 vmState
        mmapArea.MMAPBASE with
      | .ok (rc, p, s) =>
        some (rc, p.killed, [vmState.freelist.length, s.freelist.length],
          decide (mapped s.mem vmRoot mmapArea.MMAPBASE))
      | .error _ => none) = some (0, 0, [8, 5], true) := by
  decide!

/-- Claim C17, amended: for every fault address whose page is covered by no
valid region, `uvmcoe` returns -2 and changes nothing. A marked slot does not
make `uvmcoe` fail (`sys_mmap` marks the slots of the regions it creates): for
a fault on the first page of the mmap area, covered by a valid region and with
its slot `(PGROUNDDOWN(va) - MMAPBASE) / PGSIZE` marked, `uvmcoe` returns -1
and marks the process for termination, without allocating or mapping a page,
when no physical page is free. -/
theorem C17_fault_outcomes (P : KParams) (M : MParams) (p : Proc) (s : Kmem) (va : Nat) :
    ((∀ v ∈ p.vma, ¬ (v.valid ≠ 0 ∧ PGROUNDDOWN va ≥ v.addr ∧
        PGROUNDDOWN va < u64 (v.addr + v.len))) →
      uvmcoe P M p s va = .ok (-2, p, s)) ∧
    ((∃ v ∈ p.vma, v.valid ≠ 0 ∧ PGROUNDDOWN va ≥ v.addr ∧
        PGROUNDDOWN va < u64 (v.addr + v.len)) →
      PGROUNDDOWN va = M.MMAPBASE →
      p.mmapbitmap ((PGROUNDDOWN va - M.MMAPBASE) / PGSIZE / 64) &&&
          2 ^ ((PGROUNDDOWN va - M.MMAPBASE) / PGSIZE % 64) ≠ 0 →
      s.freelist = [] → uvmcoe P M p s va = .ok (-1, kill p, s)) := by
  refine ⟨?_, ?_⟩
  · intro h
    unfold uvmcoe
    simp only
    rw [findVma_none (fun v hv => decide_eq_false (h v hv))]
  · intro h hva hb hfl
    obtain ⟨v, hv, hc⟩ := h
    obtain ⟨i, vp, hf, _, _⟩ := findVma_exists
      (c := fun v => decide (v.valid ≠ 0 ∧ PGROUNDDOWN va ≥ v.addr ∧
        PGROUNDDOWN va < u64 (v.addr + v.len))) ⟨v, hv, decide_eq_true hc⟩
    have h0 : u64 (PGROUNDDOWN va + 2 ^ 64 - M.MMAPBASE) % PGSIZE = 0 := by
      rw [hva, Nat.add_sub_cancel_left]; decide
    have hb' : p.mmapbitmap 0 &&& shl1 0 ≠ 0 := by
      rw [hva, Nat.sub_self] at hb
      exact hb
    unfold uvmcoe
    simp only
    rw [hf]
    simp only [h0, Nat.zero_mod, Nat.zero_div, hb', if_false, kalloc_nil P s hfl, if_true]

/-- C17 witness: on the process `vmProc` after `sys_mmap` of one page, a fault
below the mmap area is "not applicable"; a fault on the page (the first page
of the mmap area, slot 0 marked) with the free list emptied returns -1 and
marks the process. -/
theorem C17_fault_outcomes_witness :
    uvmcoe vmK mmapArea (sys_mmap mmapArea vmProc 0 PGSIZE PROT_READ MAP_SHARED 3 0).2
        vmState 0x5000
      = .ok (-2, (sys_mmap mmapArea vmProc 0 PGSIZE PROT_READ MAP_SHARED 3 0).2, vmState) ∧
    uvmcoe vmK mmapArea (sys_mmap mmapArea vmProc 0 PGSIZE PROT_READ MAP_SHARED 3 0).2
        { vmState with freelist := [] } mmapArea.MMAPBASE
      = .ok (-1, kill (sys_mmap mmapArea vmProc 0 PGSIZE PROT_READ MAP_SHARED 3 0).2,
          { vmState with freelist := [] }) :=
  ⟨(C17_fault_outcomes vmK mmapArea
      (sys_mmap mmapArea vmProc 0 PGSIZE PROT_READ MAP_SHARED 3 0).2 vmState 0x5000).1
      (by decide!),
    (C17_fault_outcomes vmK mmapArea
      (sys_mmap mmapArea vmProc 0 PGSIZE PROT_READ MAP_SHARED 3 0).2
      { vmState with freelist := [] } mmapArea.MMAPBASE).2 (by decide!) (by decide!)
      (by decide!) rfl⟩

/-! ## `walk` -/

/-- C18 (as stated) fails: for `va = MAXVA`, `walk` does not return the empty
result; it halts the kernel (`panic("walk")`), with or without allocation. -/
theorem C18_counterexample :
    walk vmK vmState vmRoot MAXVA false = .error .panic ∧
    walk vmK vmState vmRoot MAXVA true = .error .panic :=
  ⟨rfl, rfl⟩

/-- Claim C18, amended: for `va >= MAXVA`, `walk` halts. For `va < MAXVA`, on
a well-formed table, `walk(pt, va, create)` returns; it returns 0 exactly when
the level-2 entry of `va` is invalid and either `create` is unset or fewer
than two pages are free, or the level-2 entry is valid, the level-1 entry is
invalid and either `create` is unset or no page is free; in every other case
it returns the address of entry `PX(0, va)` of the level-0 page reached
through entries `PX(2, va)` and `PX(1, va)`; and with `create` unset the state
is unchanged. -/
theorem C18_walk_result (P : KParams) (s : Kmem) (pt va : Nat) (alloc : Bool)
    (hwf : WfPT P s pt) :
    (va ≥ MAXVA → walk P s pt va alloc = .error .panic) ∧
    (va < MAXVA → ∃ r s', walk P s pt va alloc = .ok (r, s') ∧
      (r = 0 ↔
        (child s.mem pt (PX 2 va) = none ∧ (alloc = false ∨ s.freelist.length < 2)) ∨
        (∃ t1, child s.mem pt (PX 2 va) = some t1 ∧ child s.mem t1 (PX 1 va) = none ∧
          (alloc = false ∨ s.freelist = []))) ∧
      (r ≠ 0 → ∃ t1 t0, child s'.mem pt (PX 2 va) = some t1 ∧
        child s'.mem t1 (PX 1 va) = some t0 ∧ r = t0 + 8 * PX 0 va) ∧
      (alloc = false → s' = s)) := by
  refine ⟨fun h => by unfold walk; rw [if_pos h], ?_⟩
  intro hva
  have hnot : ¬ (va ≥ MAXVA) := Nat.not_le.2 hva
  have hptr : ∀ r s', walkLoop P alloc va 2 s pt = (r, s') → r ≠ 0 →
      ∃ t1 t0, child s'.mem pt (PX 2 va) = some t1 ∧
        child s'.mem t1 (PX 1 va) = some t0 ∧ r = t0 + 8 * PX 0 va := by
    intro r s' e hr
    cases alloc with
    | false =>
      rw [walkLoop_false] at e
      injection e with e1 e2
      rw [← e2]
      rw [← e1] at hr
      obtain ⟨t1, t0, h2, h1, hw, _⟩ := walkp_ne_zero hr
      exact ⟨t1, t0, h2, h1, by rw [← e1]; exact hw⟩
    | true =>
      have hsp := (walk_alloc_spec (Held_init hwf) va).2.2
      rw [e] at hsp
      have hw : r = walkp s'.mem va 2 pt := hsp hr
      have hr' : walkp s'.mem va 2 pt ≠ 0 := by rw [← hw]; exact hr
      obtain ⟨t1, t0, h2, h1, hw', _⟩ := walkp_ne_zero hr'
      exact ⟨t1, t0, h2, h1, by rw [hw]; exact hw'⟩
  have hfalse : alloc = false → (walkLoop P alloc va 2 s pt).2 = s := by
    intro e; rw [e, walkLoop_false]
  refine ⟨(walkLoop P alloc va 2 s pt).1, (walkLoop P alloc va 2 s pt).2,
    by unfold walk; rw [if_neg hnot], ?_, hptr _ _ rfl, hfalse⟩
  have hra := hwf.root_aligned
  cases h2 : child s.mem pt (PX 2 va) with
  | some t1 =>
    have ht1k : t1 ∈ kids s.mem pt := (mem_kids _ _ _).2 ⟨_, PX_lt 2 va, h2⟩
    rw [walkLoop_succ_valid P alloc va 1 s pt t1 h2]
    cases h1 : child s.mem t1 (PX 1 va) with
    | some t0 =>
      rw [walkLoop_succ_valid P alloc va 0 s t1 t0 h1, walkLoop_zero]
      have ht0 : t0 ∈ tablePages s.mem pt :=
        (mem_tablePages _ _ _).2 (Or.inr (Or.inr ⟨t1, ht1k, (mem_kids _ _ _).2 ⟨_, PX_lt 1 va, h1⟩⟩))
      have hpos := hwf.tp_pos t0 ht0
      constructor
      · intro h0
        simp only at h0
        omega
      · rintro (⟨hn, _⟩ | ⟨t1', e1, hn, _⟩)
        · cases hn
        · injection e1 with e1
          rw [← e1, h1] at hn
          cases hn
    | none =>
      cases alloc with
      | false =>
        rw [walkLoop_false, walkp]
        have hp : pteAt s.mem t1 (PX (0 + 1) va) &&& PTE_V = 0 := child_none_iff.1 h1
        rw [if_neg (by rw [hp]; exact fun h => h rfl)]
        exact ⟨fun _ => Or.inr ⟨t1, rfl, h1, Or.inl rfl⟩, fun _ => rfl⟩
      | true =>
        cases hf : s.freelist with
        | nil =>
          rw [walkLoop_succ_nil P va 0 s t1 h1 hf]
          exact ⟨fun _ => Or.inr ⟨t1, rfl, h1, Or.inr rfl⟩, fun _ => rfl⟩
        | cons r rest =>
          have hrm : managed P r := hwf.fl_managed r (by rw [hf]; exact List.mem_cons_self _ _)
          have hrpos := managed_pos P hrm
          rw [walkLoop_succ_cons P va 0 s t1 r rest h1 hf (by omega), walkLoop_zero]
          constructor
          · intro h0
            simp only at h0
            omega
          · rintro (⟨hn, _⟩ | ⟨t1', _, _, hn⟩)
            · cases hn
            · rcases hn with hn | hn
              · cases hn
              · cases hn
  | none =>
    cases alloc with
    | false =>
      rw [walkLoop_false, walkp]
      have hp : pteAt s.mem pt (PX (1 + 1) va) &&& PTE_V = 0 := child_none_iff.1 h2
      rw [if_neg (by rw [hp]; exact fun h => h rfl)]
      exact ⟨fun _ => Or.inl ⟨rfl, Or.inl rfl⟩, fun _ => rfl⟩
    | true =>
      cases hf : s.freelist with
      | nil =>
        rw [walkLoop_succ_nil P va 1 s pt h2 hf]
        exact ⟨fun _ => Or.inl ⟨rfl, Or.inr (by simp)⟩, fun _ => rfl⟩
      | cons r rest =>
        have hrm : managed P r := hwf.fl_managed r (by rw [hf]; exact List.mem_cons_self _ _)
        have hrpos := managed_pos P hrm
        have hrne : r ≠ pt := by
          intro e
          exact hwf.tp_fl pt ((mem_tablePages _ _ _).2 (Or.inl rfl))
            (by rw [hf, ← e]; exact List.mem_cons_self _ _)
        rw [walkLoop_succ_cons P va 1 s pt r rest h2 hf (by omega)]
        have hc1 : child (install P s (pt + 8 * PX (1 + 1) va) r rest).mem r (PX (0 + 1) va)
            = none := by
          rw [install_child hra (PX_lt 2 va) hrm.1 (managed_lt P hrm) hrm.1 (PX_lt 1 va),
            if_neg (fun h => hrne h.1), if_pos rfl]
        cases rest with
        | nil =>
          rw [walkLoop_succ_nil P va 0 _ r hc1 rfl]
          exact ⟨fun _ => Or.inl ⟨rfl, Or.inr (by simp)⟩, fun _ => rfl⟩
        | cons r2 rest2 =>
          have hr2m : managed P r2 := hwf.fl_managed r2 (by
            rw [hf]; exact List.mem_cons_of_mem _ (List.mem_cons_self _ _))
          have hr2pos := managed_pos P hr2m
          rw [walkLoop_succ_cons P va 0 _ r r2 rest2 hc1 rfl (by omega), walkLoop_zero]
          constructor
          · intro h0
            simp only at h0
            omega
          · rintro (⟨_, hn⟩ | ⟨t1', hn, _⟩)
            · rcases hn with hn | hn
              · cases hn
              · simp only [List.length_cons] at hn
                omega
            · cases hn

/-- C18 witness: a walk with allocation for virtual address 0 on the empty
table of the nine-page machine (eight free pages) returns a level-0 entry. -/
theorem C18_walk_result_witness :
    ∃ r s', walk vmK vmState vmRoot 0 true = .ok (r, s') ∧ r ≠ 0 ∧
      ∃ t1 t0, child s'.mem vmRoot (PX 2 0) = some t1 ∧
        child s'.mem t1 (PX 1 0) = some t0 ∧ r = t0 + 8 * PX 0 0 := by
  obtain ⟨r, s', h, hz, hp, _⟩ :=
    (C18_walk_result vmK vmState vmRoot 0 true vmState_wf).2 (by decide)
  have hr : r ≠ 0 := by
    intro h0
    rcases hz.1 h0 with ⟨_, hn⟩ | ⟨t1, h2, _⟩
    · rcases hn with hn | hn
      · cases hn
      · exact absurd hn (by decide!)
    · have hnone : child vmState.mem vmRoot (PX 2 0) = none := by decide!
      rw [hnone] at h2
      cases h2
  exact ⟨r, s', h, hr, hp hr⟩

/-! ## Failure of `uvmalloc` -/

theorem filterMap_inj {α β : Type} (f : α → Option β) :
    ∀ (l : List α), (l.filterMap f).Nodup → ∀ a ∈ l, ∀ b ∈ l, ∀ x, f a = some x → f b = some x →
      l.Nodup → a = b := by
  intro l
  induction l with
  | nil => intro _ a ha; cases ha
  | cons c l ih =>
    intro hnd a ha b hb x hfa hfb hl
    have hl' := (List.nodup_cons.1 hl).2
    cases hc : f c with
    | none =>
      rw [List.filterMap_cons_none hc] at hnd
      rcases List.mem_cons.1 ha with e | ha'
      · rw [e, hc] at hfa; cases hfa
      · rcases List.mem_cons.1 hb with e | hb'
        · rw [e, hc] at hfb; cases hfb
        · exact ih hnd a ha' b hb' x hfa hfb hl'
    | some y =>
      rw [List.filterMap_cons_some hc] at hnd
      obtain ⟨hy, hnd'⟩ := List.nodup_cons.1 hnd
      rcases List.mem_cons.1 ha with e | ha'
      · rcases List.mem_cons.1 hb with e' | hb'
        · rw [e, e']
        · exfalso
          rw [e, hc] at hfa
          injection hfa with hfa
          exact hy (List.mem_filterMap.2 ⟨b, hb', by rw [hfb, hfa]⟩)
      · rcases List.mem_cons.1 hb with e' | hb'
        · exfalso
          rw [e', hc] at hfb
          injection hfb with hfb
          exact hy (List.mem_filterMap.2 ⟨a, ha', by rw [hfa, hfb]⟩)
        · exact ih hnd' a ha' b hb' x hfa hfb hl'

theorem kids_inj {m : Mem} {t i j x : Nat} (h : (kids m t).Nodup) (hi : i < 512) (hj : j < 512)
    (h1 : child m t i = some x) (h2 : child m t j = some x) : i = j := by
  unfold kids at h
  exact filterMap_inj (child m t) (List.range 512) h i (List.mem_range.2 hi) j
    (List.mem_range.2 hj) x h1 h2 (List.nodup_range 512)

theorem kids_disjoint {m : Mem} {root t1 t1' x : Nat} (h : (tablePages m root).Nodup)
    (h1 : t1 ∈ kids m root) (h1' : t1' ∈ kids m root) (hx : x ∈ kids m t1)
    (hx' : x ∈ kids m t1') : t1 = t1' := by
  unfold tablePages at h
  have h2 := (List.nodup_append.1 (List.nodup_cons.1 h).2).2.1
  rw [List.nodup_flatMap] at h2
  by_contra hne
  have hd : List.Disjoint (kids m t1) (kids m t1') :=
    List.Pairwise.forall (R := fun a b => List.Disjoint (kids m a) (kids m b))
      (fun a b hab => hab.symm) h2.2 h1 h1' hne
  exact hd hx hx'

/-- Two addresses with the same level-0 entry have the same three indices. -/
theorem walkp_inj {P : KParams} {s : Kmem} {root va va' : Nat} (hwf : WfPT P s root)
    (h : walkp s.mem va 2 root = walkp s.mem va' 2 root) (hne : walkp s.mem va 2 root ≠ 0) :
    PX 2 va = PX 2 va' ∧ PX 1 va = PX 1 va' ∧ PX 0 va = PX 0 va' := by
  obtain ⟨t1, t0, c2, c1, e, k1, k0, m0, m1⟩ := walkp_ne_zero hne
  obtain ⟨t1', t0', c2', c1', e', k1', k0', m0', m1'⟩ := walkp_ne_zero (h ▸ hne)
  rw [e, e'] at h
  have a0 := tablePages_aligned hwf t0 m0
  have a0' := tablePages_aligned hwf t0' m0'
  have p0 := PX_lt 0 va
  have p0' := PX_lt 0 va'
  have ht0 : t0 = t0' ∧ PX 0 va = PX 0 va' := by
    simp only [PGSIZE] at a0 a0'
    omega
  rw [← ht0.1] at k0' c1'
  have ht1 : t1 = t1' := kids_disjoint hwf.tp_nodup k1 k1' k0 k0'
  rw [← ht1] at c2' c1'
  have hk1 : (kids s.mem t1).Nodup := by
    have h := hwf.tp_nodup
    unfold tablePages at h
    have h2 := (List.nodup_append.1 (List.nodup_cons.1 h).2).2.1
    rw [List.nodup_flatMap] at h2
    exact h2.1 t1 k1
  exact ⟨kids_inj (kids_nodup hwf.tp_nodup) (PX_lt 2 va) (PX_lt 2 va') c2 c2',
    kids_inj hk1 (PX_lt 1 va) (PX_lt 1 va') c1 c1', ht0.2⟩

theorem PX_eq (l va : Nat) : PX l va = va / 2 ^ (12 + 9 * l) % 512 := by
  unfold PX
  have : (0x1FF : Nat) = 2 ^ 9 - 1 := by norm_num
  rw [this, Nat.and_pow_two_sub_one_eq_mod, Nat.shiftRight_eq_div_pow]

/-- A page-aligned address below `MAXVA` is given by its three indices. -/
theorem va_of_PX {va va' : Nat} (h : va % PGSIZE = 0) (h' : va' % PGSIZE = 0) (hlt : va < MAXVA)
    (hlt' : va' < MAXVA) (h2 : PX 2 va = PX 2 va') (h1 : PX 1 va = PX 1 va')
    (h0 : PX 0 va = PX 0 va') : va = va' := by
  rw [PX_eq, PX_eq] at h2 h1 h0
  simp only [PGSIZE, MAXVA] at h h' hlt hlt'
  norm_num at h2 h1 h0 hlt hlt'
  omega

theorem MappedRun_at {q : Nat → Prop} {m : Mem} {root : Nat} :
    ∀ (ds : List Nat) (a : Nat), MappedRun q m root a ds →
      ∀ j, j < ds.length → a + j * PGSIZE < MAXVA ∧ mapped m root (a + j * PGSIZE) ∧
        q (leafPte m root (a + j * PGSIZE)) := by
  intro ds
  induction ds with
  | nil => intro a _ j hj; exact absurd hj (Nat.not_lt_zero _)
  | cons d ds ih =>
    intro a h j hj
    obtain ⟨⟨h1, h2, _, h4⟩, h5⟩ := h
    cases j with
    | zero => simpa using ⟨h1, h2, h4⟩
    | succ j =>
      have := ih (a + PGSIZE) h5 j (by simpa using hj)
      have e : a + (j + 1) * PGSIZE = a + PGSIZE + j * PGSIZE := by ring
      rw [e]; exact this

theorem leafPte_of_slot {m : Mem} {root va va' : Nat}
    (h : walkp m va 2 root = walkp m va' 2 root) : leafPte m root va = leafPte m root va' := by
  unfold leafPte; rw [h]

/-- Steps that keep the level-0 entries keep the set of addresses whose entry
is an entry of the run. -/
theorem RunSlot_pres {m m' : Mem} {root a0 k : Nat} (hL : LeafPres m m' root)
    (hrun : ∀ j, j < k → mapped m root (a0 + j * PGSIZE)) (va : Nat) :
    RunSlot m' root a0 k va ↔ RunSlot m root a0 k va := by
  constructor
  · rintro ⟨j, hj, e⟩
    have hmj := hrun j hj
    obtain ⟨wj, lj⟩ := (hL (a0 + j * PGSIZE)).1 hmj.1
    by_cases h0 : walkp m va 2 root = 0
    · exfalso
      have hne : walkp m' va 2 root ≠ 0 := by rw [e, wj]; exact hmj.1
      have hinv := (hL va).2 h0 hne
      rw [leafPte_of_slot e, lj] at hinv
      exact hmj.2 hinv
    · have := ((hL va).1 h0).1
      exact ⟨j, hj, by rw [← this, e, wj]⟩
  · rintro ⟨j, hj, e⟩
    have hmj := hrun j hj
    obtain ⟨wj, _⟩ := (hL (a0 + j * PGSIZE)).1 hmj.1
    have h0 : walkp m va 2 root ≠ 0 := by rw [e]; exact hmj.1
    exact ⟨j, hj, by rw [((hL va).1 h0).1, wj, e]⟩

theorem GrowInv_init (m : Mem) (root a0 : Nat) : GrowInv m m root a0 0 :=
  ⟨fun _ _ => rfl, fun _ h => by obtain ⟨j, hj, _⟩ := h; exact absurd hj (Nat.not_lt_zero _),
    fun _ _ => ⟨fun _ => rfl, fun h0 h1 => absurd h0 h1⟩⟩

theorem GrowInv_pres {m0 m m' : Mem} {root a0 k : Nat} (hG : GrowInv m0 m root a0 k)
    (hL : LeafPres m m' root) (hrun : ∀ j, j < k → mapped m root (a0 + j * PGSIZE)) :
    GrowInv m0 m' root a0 k := by
  refine ⟨?_, ?_, ?_⟩
  · intro va h0
    have e := hG.keep va h0
    rw [((hL va).1 (by rw [e]; exact h0)).1, e]
  · intro va hr
    exact hG.fresh va ((RunSlot_pres hL hrun va).1 hr)
  · intro va hr
    have hr' : ¬ RunSlot m root a0 k va := fun h => hr ((RunSlot_pres hL hrun va).2 h)
    obtain ⟨o1, o2⟩ := hG.other va hr'
    refine ⟨fun h0 => ?_, fun h0 h1 => ?_⟩
    · have e := hG.keep va h0
      rw [((hL va).1 (by rw [e]; exact h0)).2]
      exact o1 h0
    · by_cases hm : walkp m va 2 root = 0
      · exact (hL va).2 hm h1
      · rw [((hL va).1 hm).2]
        exact o2 h0 hm

/-- Setting the invalid entry of the next page of the run. -/
theorem GrowInv_set {P : KParams} {s : Kmem} {root : Nat} {m0 : Mem} {a0 k a : Nat}
    (hwf : WfPT P s root) (hG : GrowInv m0 s.mem root a0 k) (ha : a = a0 + k * PGSIZE)
    (hw : walkp s.mem a 2 root ≠ 0) (hinv : leafPte s.mem root a &&& PTE_V = 0) (v : Nat)
    (hv : v < 2 ^ 64) :
    GrowInv m0 (write64 s.mem (walkp s.mem a 2 root) v) root a0 (k + 1) := by
  obtain ⟨_, hch⟩ := leaf_write_char hwf hw v hv
  have hrs : ∀ va, RunSlot (write64 s.mem (walkp s.mem a 2 root) v) root a0 (k + 1) va ↔
      RunSlot s.mem root a0 k va ∨ walkp s.mem va 2 root = walkp s.mem a 2 root := by
    intro va
    constructor
    · rintro ⟨j, hj, e⟩
      rw [(hch va).1, (hch _).1] at e
      by_cases hjk : j < k
      · exact Or.inl ⟨j, hjk, e⟩
      · have : j = k := by omega
        rw [this, ← ha] at e
        exact Or.inr e
    · rintro (⟨j, hj, e⟩ | e)
      · exact ⟨j, by omega, by rw [(hch va).1, (hch _).1]; exact e⟩
      · exact ⟨k, by omega, by rw [(hch va).1, (hch _).1, ← ha]; exact e⟩
  refine ⟨?_, ?_, ?_⟩
  · intro va h0
    rw [(hch va).1]; exact hG.keep va h0
  · intro va hr
    rcases (hrs va).1 hr with h1 | h1
    · exact hG.fresh va h1
    · by_cases hr0 : RunSlot s.mem root a0 k va
      · exact hG.fresh va hr0
      · intro hm
        have := (hG.other va hr0).1 hm.1
        have hm2 := hm.2
        rw [← this, leafPte_of_slot h1] at hm2
        exact hm2 hinv
  · intro va hr
    have hr0 : ¬ RunSlot s.mem root a0 k va := fun h => hr ((hrs va).2 (Or.inl h))
    have hne : walkp s.mem va 2 root ≠ walkp s.mem a 2 root := fun h => hr ((hrs va).2 (Or.inr h))
    obtain ⟨o1, o2⟩ := hG.other va hr0
    refine ⟨fun h0 => ?_, fun h0 h1 => ?_⟩
    · have hw' : walkp s.mem va 2 root ≠ 0 := by rw [hG.keep va h0]; exact h0
      rw [(hch va).2 hw', if_neg hne]
      exact o1 h0
    · rw [(hch va).1] at h1
      rw [(hch va).2 h1, if_neg hne]
      exact o2 h0 h1

theorem Cleared_refl (m : Mem) (root a : Nat) : Cleared m m root a 0 :=
  ⟨fun _ _ => rfl, fun _ h => by obtain ⟨j, hj, _⟩ := h; exact absurd hj (Nat.not_lt_zero _),
    fun _ _ => ⟨fun _ => rfl, fun h0 h1 => absurd h0 h1⟩⟩

theorem RunSlot_succ {m : Mem} {root a n va : Nat} :
    RunSlot m root a (n + 1) va ↔
      walkp m va 2 root = walkp m a 2 root ∨ RunSlot m root (a + PGSIZE) n va := by
  constructor
  · rintro ⟨j, hj, e⟩
    cases j with
    | zero => left; simpa using e
    | succ j =>
      right
      refine ⟨j, by omega, ?_⟩
      have : a + PGSIZE + j * PGSIZE = a + (j + 1) * PGSIZE := by ring
      rw [this]; exact e
  · rintro (e | ⟨j, hj, e⟩)
    · exact ⟨0, by omega, by simpa using e⟩
    · refine ⟨j + 1, by omega, ?_⟩
      have : a + PGSIZE + j * PGSIZE = a + (j + 1) * PGSIZE := by ring
      rw [← this]; exact e

/-- One iteration of the loop of `uvmunmap` (a `kfree`, which keeps the
entries, and the store of 0 into the entry of `a`) before the rest of the
run. -/
theorem Cleared_step {m m2 m' : Mem} {root a n : Nat} (hL : LeafPres m m2 root)
    (hrun : ∀ j, j < n + 1 → mapped m root (a + j * PGSIZE))
    (hch : ∀ va, walkp (write64 m2 (walkp m a 2 root) 0) va 2 root = walkp m2 va 2 root ∧
      (walkp m2 va 2 root ≠ 0 →
        leafPte (write64 m2 (walkp m a 2 root) 0) root va =
          if walkp m2 va 2 root = walkp m a 2 root then 0 else leafPte m2 root va))
    (hC : Cleared (write64 m2 (walkp m a 2 root) 0) m' root (a + PGSIZE) n) :
    Cleared m m' root a (n + 1) := by
  have hrun' : ∀ j, j < n → mapped m root (a + PGSIZE + j * PGSIZE) := by
    intro j hj
    have := hrun (j + 1) (by omega)
    have e : a + PGSIZE + j * PGSIZE = a + (j + 1) * PGSIZE := by ring
    rw [e]; exact this
  have hw3 : ∀ va, walkp m va 2 root ≠ 0 →
      walkp (write64 m2 (walkp m a 2 root) 0) va 2 root = walkp m va 2 root := by
    intro va h0
    rw [(hch va).1, ((hL va).1 h0).1]
  have hrs3 : ∀ va, RunSlot (write64 m2 (walkp m a 2 root) 0) root (a + PGSIZE) n va →
      RunSlot m root (a + PGSIZE) n va := by
    rintro va ⟨j, hj, e⟩
    have hmj := hrun' j hj
    rw [hw3 _ hmj.1] at e
    by_cases h0 : walkp m va 2 root = 0
    · exfalso
      rw [(hch va).1] at e
      have hne : walkp m2 va 2 root ≠ 0 := by rw [e]; exact hmj.1
      have hinv := (hL va).2 h0 hne
      have e2 : walkp m2 va 2 root = walkp m2 (a + PGSIZE + j * PGSIZE) 2 root := by
        rw [e, ((hL _).1 hmj.1).1]
      rw [leafPte_of_slot e2, ((hL _).1 hmj.1).2] at hinv
      exact hmj.2 hinv
    · rw [hw3 va h0] at e
      exact ⟨j, hj, e⟩
  have hrs3' : ∀ va, walkp m va 2 root ≠ 0 → RunSlot m root (a + PGSIZE) n va →
      RunSlot (write64 m2 (walkp m a 2 root) 0) root (a + PGSIZE) n va := by
    rintro va h0 ⟨j, hj, e⟩
    exact ⟨j, hj, by rw [hw3 va h0, hw3 _ (hrun' j hj).1]; exact e⟩
  have hleaf3 : ∀ va, walkp m va 2 root ≠ 0 →
      leafPte (write64 m2 (walkp m a 2 root) 0) root va =
        if walkp m va 2 root = walkp m a 2 root then 0 else leafPte m root va := by
    intro va h0
    obtain ⟨w, l⟩ := (hL va).1 h0
    rw [(hch va).2 (by rw [w]; exact h0), w, l]
  refine ⟨?_, ?_, ?_⟩
  · intro va h0
    rw [hC.keep va (by rw [hw3 va h0]; exact h0), hw3 va h0]
  · intro va hr h0
    have h03 : walkp (write64 m2 (walkp m a 2 root) 0) va 2 root ≠ 0 := by
      rw [hw3 va h0]; exact h0
    by_cases hr3 : RunSlot (write64 m2 (walkp m a 2 root) 0) root (a + PGSIZE) n va
    · exact hC.zero va hr3 h03
    · rw [((hC.other va hr3).1 h03), hleaf3 va h0]
      rcases RunSlot_succ.1 hr with e | hr'
      · rw [if_pos e]; rfl
      · exact absurd (hrs3' va h0 hr') hr3
  · intro va hr
    have hne : walkp m va 2 root ≠ walkp m a 2 root := fun e => hr (RunSlot_succ.2 (Or.inl e))
    have hr' : ¬ RunSlot m root (a + PGSIZE) n va := fun h => hr (RunSlot_succ.2 (Or.inr h))
    have hr3 : ¬ RunSlot (write64 m2 (walkp m a 2 root) 0) root (a + PGSIZE) n va :=
      fun h => hr' (hrs3 va h)
    refine ⟨fun h0 => ?_, fun h0 h1 => ?_⟩
    · rw [(hC.other va hr3).1 (by rw [hw3 va h0]; exact h0), hleaf3 va h0, if_neg hne]
    · by_cases h3 : walkp (write64 m2 (walkp m a 2 root) 0) va 2 root = 0
      · exact (hC.other va hr3).2 h3 h1
      · rw [(hC.other va hr3).1 h3]
        have h2 : walkp m2 va 2 root ≠ 0 := by rw [← (hch va).1]; exact h3
        rw [(hch va).2 h2]
        split
        · rfl
        · exact (hL va).2 h0 h2

/-- The loop of `uvmunmap` over a run of held pages whose entries are leaves:
it returns, all pages of the run are back on the free list, and exactly the
entries of the run have been cleared. -/
theorem uvmunmapLoop_cleared {P : KParams} {pool : List Nat} {root : Nat} :
    ∀ (ds : List Nat) (fuel a : Nat) (s : Kmem), Held P pool s root ds →
      MappedRun leafFlags s.mem root a ds → ds.length < fuel →
      ∃ s', uvmunmapLoop P root (a + ds.length * PGSIZE) true fuel a s = .ok s' ∧
        Held P pool s' root [] ∧ Cleared s.mem s'.mem root a ds.length := by
  intro ds
  induction ds with
  | nil =>
    intro fuel a s h _ hf
    cases fuel with
    | zero => exact absurd hf (Nat.lt_irrefl _)
    | succ f =>
      refine ⟨s, ?_, h, Cleared_refl _ _ _⟩
      rw [uvmunmapLoop]
      simp
  | cons d ds ih =>
    intro fuel a s h hrun hf
    cases fuel with
    | zero => exact absurd hf (Nat.not_lt_zero _)
    | succ f =>
      have hat := MappedRun_at (d :: ds) a hrun
      obtain ⟨⟨hlt, hm, hd, hq⟩, hrest⟩ := hrun
      have hl : a + (d :: ds).length * PGSIZE = a + PGSIZE + ds.length * PGSIZE := by
        simp only [List.length_cons]; ring
      have h1 : a < a + (d :: ds).length * PGSIZE := by
        simp only [List.length_cons, PGSIZE]; omega
      rw [uvmunmapLoop_step P root _ f a s h1 hlt hm.1 hm.2, if_neg hq, hd]
      obtain ⟨s2, hk, _, hH2, hL2⟩ := Held_kfree h (List.mem_cons_self d ds)
      rw [List.erase_cons_head] at hH2
      rw [hk]
      simp only
      obtain ⟨hm2, hw2, hl2⟩ := LeafPres_mapped hL2 hm
      have hdn : PTE2PA (leafPte s2.mem root a) ∉ ds := by
        rw [hl2, hd]; exact (List.nodup_cons.1 h.nodup).1
      obtain ⟨hH3, hR3, _⟩ := leaf_clear (q := leafFlags) hH2 hm2 ds hdn
      obtain ⟨_, hch⟩ := leaf_write_char hH2.wf hm2.1 0 (by norm_num)
      rw [hw2] at hH3 hR3 hch
      have hrun3 := hR3 ds (a + PGSIZE) (fun _ hx => hx) (MappedRun_pres hL2 ds _ hrest)
      have hf' : ds.length < f := by
        simp only [List.length_cons] at hf; omega
      rw [hl]
      obtain ⟨s', e, hH, hC⟩ := ih f (a + PGSIZE) _ hH3 hrun3 hf'
      refine ⟨s', e, hH, ?_⟩
      exact Cleared_step hL2 (fun j hj => (hat j hj).2.1) hch hC

theorem SameLeaves_of_rollback {m0 m m' : Mem} {root a0 k : Nat} (hG : GrowInv m0 m root a0 k)
    (hC : Cleared m m' root a0 k) (hrun : ∀ j, j < k → mapped m root (a0 + j * PGSIZE)) :
    SameLeaves m0 m' root := by
  have hnr : ∀ va, walkp m va 2 root = 0 → ¬ RunSlot m root a0 k va := by
    rintro va h0 ⟨j, hj, e⟩
    exact (hrun j hj).1 (by rw [← e]; exact h0)
  have key : ∀ va, (mapped m0 root va → mapped m' root va ∧
      leafPte m' root va = leafPte m0 root va) ∧ (mapped m' root va → mapped m0 root va) := by
    intro va
    by_cases h0 : walkp m0 va 2 root = 0
    · refine ⟨fun hm => absurd h0 hm.1, fun hm' => ?_⟩
      exfalso
      by_cases h1 : walkp m va 2 root = 0
      · exact hm'.2 ((hC.other va (hnr va h1)).2 h1 hm'.1)
      · by_cases hr : RunSlot m root a0 k va
        · exact hm'.2 (hC.zero va hr h1)
        · have := (hC.other va hr).1 h1
          have hv := hm'.2
          rw [this] at hv
          exact hv ((hG.other va hr).2 h0 h1)
    · have e1 := hG.keep va h0
      have h1 : walkp m va 2 root ≠ 0 := by rw [e1]; exact h0
      have e2 := hC.keep va h1
      by_cases hr : RunSlot m root a0 k va
      · refine ⟨fun hm => absurd hm (hG.fresh va hr), fun hm' => ?_⟩
        exact absurd (hC.zero va hr h1) hm'.2
      · have l1 := (hG.other va hr).1 h0
        have l2 := (hC.other va hr).1 h1
        refine ⟨fun hm => ⟨⟨by rw [e2, e1]; exact h0, by rw [l2, l1]; exact hm.2⟩,
          by rw [l2, l1]⟩, fun hm' => ⟨h0, ?_⟩⟩
        have := hm'.2
        rw [l2, l1] at this
        exact this
  intro va
  exact ⟨⟨(key va).2, fun hm => ((key va).1 hm).1⟩, fun hm => ((key va).1 hm).2⟩

theorem PGROUNDUP_aligned {a : Nat} (h : a % PGSIZE = 0) (hlt : a ≤ MAXVA) : PGROUNDUP a = a := by
  unfold PGROUNDUP u64
  simp only [PGSIZE, MAXVA] at *
  norm_num at *
  omega

/-- The rollback of `uvmalloc`: `uvmdealloc` from the address reached back to
the (rounded) old size. -/
theorem rollback_run {P : KParams} {pool : List Nat} {root : Nat} (ds : List Nat) (a0 : Nat)
    (s : Kmem) (hH : Held P pool s root ds) (hrun : MappedRun leafFlags s.mem root a0 ds)
    (ha0 : a0 % PGSIZE = 0) (hmax : a0 + ds.length * PGSIZE ≤ MAXVA) :
    ∃ r s', uvmdealloc P s root (a0 + ds.length * PGSIZE) a0 = .ok (r, s') ∧
      Held P pool s' root [] ∧ Cleared s.mem s'.mem root a0 ds.length := by
  unfold uvmdealloc
  by_cases hk : ds.length = 0
  · have hnil : ds = [] := List.length_eq_zero.1 hk
    rw [hk, if_pos (by omega)]
    rw [hnil] at hH
    exact ⟨_, s, rfl, hH, Cleared_refl _ _ _⟩
  · have hal : (a0 + ds.length * PGSIZE) % PGSIZE = 0 := by
      simp only [PGSIZE] at ha0 ⊢; omega
    have hpos : 0 < ds.length := Nat.pos_of_ne_zero hk
    rw [if_neg (by simp only [PGSIZE]; omega), PGROUNDUP_aligned ha0 (by omega),
      PGROUNDUP_aligned hal hmax, if_pos (by simp only [PGSIZE]; omega)]
    simp only
    have hnp : (a0 + ds.length * PGSIZE - a0) / PGSIZE = ds.length := by
      rw [Nat.add_sub_cancel_left]; exact Nat.mul_div_cancel _ (by decide)
    have h31 : ds.length < 2 ^ 31 := by
      simp only [PGSIZE, MAXVA] at hmax
      norm_num at hmax ⊢
      omega
    rw [hnp, intToU64_of_lt h31]
    unfold uvmunmap
    rw [if_neg (not_not.2 ha0), u64_of_lt (Nat.lt_of_le_of_lt hmax MAXVA_lt)]
    obtain ⟨s', e, hH', hC⟩ :=
      uvmunmapLoop_cleared ds (ds.length + 1) a0 s hH hrun (Nat.lt_succ_self _)
    rw [e]
    exact ⟨_, s', rfl, hH', hC⟩

/-- The `mappages` of the page `r` just allocated, at an address that was not
mapped when `uvmalloc` was called: it does not panic, and either fails and
leaves the entries as they are, or sets the entry of the address. -/
theorem grow_step_total {P : KParams} {pool : List Nat} {s : Kmem} {root : Nat} {ds : List Nat}
    {r a0 : Nat} {m0 : Mem} (h : Held P pool s root (ds ++ [r]))
    (hrun : MappedRun leafFlags s.mem root a0 ds) (hG : GrowInv m0 s.mem root a0 ds.length)
    (ha0 : a0 % PGSIZE = 0) (hlt : a0 + ds.length * PGSIZE < MAXVA)
    (hfree : ¬ mapped m0 root (a0 + ds.length * PGSIZE)) (xperm : Nat) (hx : xperm < 1024) :
    (∃ s3, mappages P s root (a0 + ds.length * PGSIZE) PGSIZE r (PTE_R ||| PTE_U ||| xperm)
          = .ok (-1, s3) ∧ Held P pool s3 root (ds ++ [r]) ∧
        MappedRun leafFlags s3.mem root a0 ds ∧ GrowInv m0 s3.mem root a0 ds.length) ∨
      (∃ s4, mappages P s root (a0 + ds.length * PGSIZE) PGSIZE r (PTE_R ||| PTE_U ||| xperm)
          = .ok (0, s4) ∧ Held P pool s4 root (ds ++ [r]) ∧
        MappedRun leafFlags s4.mem root a0 (ds ++ [r]) ∧
        GrowInv m0 s4.mem root a0 (ds.length + 1)) := by
  have hal : (a0 + ds.length * PGSIZE) % PGSIZE = 0 := by
    simp only [PGSIZE] at ha0 ⊢; omega
  have hperm := uperm_lt xperm hx
  rw [mappages_one P s root _ r _ hal hlt]
  obtain ⟨hH, hL, hp⟩ := walk_alloc_spec h (a0 + ds.length * PGSIZE)
  have hrin : r ∈ ds ++ [r] := List.mem_append_right _ (List.mem_singleton_self _)
  have hrm : managed P r := (h.props r hrin).1
  have hat := MappedRun_at ds a0 hrun
  have hrun1 := MappedRun_pres hL ds a0 hrun
  have hat1 := MappedRun_at ds a0 hrun1
  have hG1 := GrowInv_pres hG hL (fun j hj => (hat j hj).2.1)
  by_cases h0 : (walkLoop P true (a0 + ds.length * PGSIZE) 2 s root).1 = 0
  · rw [if_pos h0]
    exact Or.inl ⟨_, rfl, hH, hrun1, hG1⟩
  · rw [if_neg h0]
    have hw := hp h0
    have hw0 : walkp (walkLoop P true (a0 + ds.length * PGSIZE) 2 s root).2.mem
        (a0 + ds.length * PGSIZE) 2 root ≠ 0 := by rw [← hw]; exact h0
    have hnr : ¬ RunSlot (walkLoop P true (a0 + ds.length * PGSIZE) 2 s root).2.mem root a0
        ds.length (a0 + ds.length * PGSIZE) := by
      rintro ⟨j, hj, e⟩
      obtain ⟨i2, i1, i0⟩ := walkp_inj hH.wf e hw0
      have hjal : (a0 + j * PGSIZE) % PGSIZE = 0 := by
        simp only [PGSIZE] at ha0 ⊢; omega
      have := va_of_PX hal hjal hlt (hat j hj).1 i2 i1 i0
      simp only [PGSIZE] at this
      omega
    have hinv : leafPte (walkLoop P true (a0 + ds.length * PGSIZE) 2 s root).2.mem root
        (a0 + ds.length * PGSIZE) &&& PTE_V = 0 := by
      obtain ⟨o1, o2⟩ := hG1.other _ hnr
      by_cases hz : walkp m0 (a0 + ds.length * PGSIZE) 2 root = 0
      · exact o2 hz hw0
      · rw [o1 hz]
        by_contra hc
        exact hfree ⟨hz, hc⟩
    have hv : ¬ (read64 (walkLoop P true (a0 + ds.length * PGSIZE) 2 s root).2.mem
        (walkLoop P true (a0 + ds.length * PGSIZE) 2 s root).1 &&& PTE_V ≠ 0) := by
      unfold leafPte at hinv
      rw [← hw] at hinv
      exact not_not.2 hinv
    rw [if_neg hv]
    right
    have hv64 := Nat.lt_trans (mkpte_lt r (PTE_R ||| PTE_U ||| xperm) hperm (managed_lt P hrm))
      (by norm_num : 2 ^ 62 < 2 ^ 64)
    obtain ⟨k1, k2, _⟩ := leaf_set hH hw0 hinv (PA2PTE r ||| (PTE_R ||| PTE_U ||| xperm) ||| PTE_V)
      hv64 (mkpte_valid r _ hperm) (q := leafFlags) (uperm_flags r xperm hx) a0 ds rfl hlt hrun1
    have k3 := GrowInv_set hH.wf hG1 rfl hw0 hinv
      (PA2PTE r ||| (PTE_R ||| PTE_U ||| xperm) ||| PTE_V) hv64
    rw [mkpte_PTE2PA r _ hperm (managed_lt P hrm) hrm.1, ← hw] at k2
    rw [← hw] at k1 k3
    exact ⟨_, rfl, k1, k2, k3⟩

theorem erase_snoc {ds : List Nat} {r : Nat} (h : r ∉ ds) : (ds ++ [r]).erase r = ds := by
  rw [List.erase_append_right _ h, List.erase_cons_head, List.append_nil]

/-- The loop of `uvmalloc` from a state that holds the pages `ds` mapped so
far: it returns, with `newsz`, or with 0 and the leaf mappings that the table
had when `uvmalloc` was called. -/
theorem uvmallocLoop_total {P : KParams} {pool : List Nat} {root a0 newsz xperm : Nat}
    (m0 : Mem) (hx : xperm < 1024) (ha0 : a0 % PGSIZE = 0) (hmax : newsz ≤ MAXVA)
    (hfree : ∀ j, a0 + j * PGSIZE < newsz → ¬ mapped m0 root (a0 + j * PGSIZE)) :
    ∀ (fuel : Nat) (ds : List Nat) (s : Kmem), Held P pool s root ds →
      MappedRun leafFlags s.mem root a0 ds → GrowInv m0 s.mem root a0 ds.length →
      a0 + ds.length * PGSIZE < newsz + PGSIZE → 0 < fuel →
      newsz + PGSIZE ≤ a0 + (ds.length + fuel) * PGSIZE →
      ∃ r s', uvmallocLoop P root a0 newsz xperm fuel (a0 + ds.length * PGSIZE) s = .ok (r, s') ∧
        (r = newsz ∨ (r = 0 ∧ Held P pool s' root [] ∧ SameLeaves m0 s'.mem root)) := by
  intro fuel
  induction fuel with
  | zero => intro ds s _ _ _ _ h; exact absurd h (Nat.lt_irrefl _)
  | succ f ih =>
    intro ds s hH hrun hG hlo _ hfu
    rw [uvmallocLoop]
    have hat := MappedRun_at ds a0 hrun
    by_cases hlt : a0 + ds.length * PGSIZE < newsz
    · rw [if_pos hlt]
      have hmx : a0 + ds.length * PGSIZE < MAXVA := Nat.lt_of_lt_of_le hlt hmax
      cases hf : s.freelist with
      | nil =>
        rw [kalloc_nil P s hf]
        simp only [if_true]
        obtain ⟨r, s', e, hH', hC⟩ := rollback_run ds a0 s hH hrun ha0 (Nat.le_of_lt hmx)
        rw [e]
        exact ⟨0, s', rfl, Or.inr ⟨rfl, hH',
          SameLeaves_of_rollback hG hC (fun j hj => (hat j hj).2.1)⟩⟩
      | cons r rest =>
        obtain ⟨hk1, hrm, hH1, hL1⟩ := Held_kalloc hH hf
        have hr0 : (kalloc P s).1 ≠ 0 := by
          rw [hk1]; exact Nat.pos_iff_ne_zero.1 (managed_pos P hrm)
        simp only [hr0, if_false]
        rw [hk1]
        have hrin : r ∈ ds ++ [r] := List.mem_append_right _ (List.mem_singleton_self _)
        have hrn : r ∉ ds := by
          have := hH1.nodup
          rw [List.nodup_append] at this
          exact fun hx => this.2.2 hx (List.mem_singleton_self _)
        obtain ⟨hH2, hL2⟩ := Held_data_write hH1 hrin
          (memset (kalloc P s).2.mem r 0 PGSIZE) (fun x hx => memset_out _ _ _ _ _ (by omega))
        have hrun1 := MappedRun_pres hL1 ds a0 hrun
        have hrun2 := MappedRun_pres hL2 ds a0 hrun1
        have hG1 := GrowInv_pres hG hL1 (fun j hj => (hat j hj).2.1)
        have hG2 := GrowInv_pres hG1 hL2 (fun j hj => (MappedRun_at ds a0 hrun1 j hj).2.1)
        rcases grow_step_total hH2 hrun2 hG2 ha0 hmx (hfree ds.length hlt) xperm hx with
          ⟨s3, e, hH3, hrun3, hG3⟩ | ⟨s4, e, hH4, hrun4, hG4⟩
        · rw [e]
          simp only [ne_eq, Int.reduceNeg, neg_eq_zero, one_ne_zero, not_false_eq_true, if_true]
          obtain ⟨s5, hk, _, hH5, hL5⟩ := Held_kfree hH3 hrin
          rw [erase_snoc hrn] at hH5
          rw [hk]
          simp only
          have hrun5 := MappedRun_pres hL5 ds a0 hrun3
          have hG5 := GrowInv_pres hG3 hL5 (fun j hj => (MappedRun_at ds a0 hrun3 j hj).2.1)
          obtain ⟨r', s', e', hH', hC⟩ := rollback_run ds a0 s5 hH5 hrun5 ha0 (Nat.le_of_lt hmx)
          rw [e']
          exact ⟨0, s', rfl, Or.inr ⟨rfl, hH',
            SameLeaves_of_rollback hG5 hC (fun j hj => (MappedRun_at ds a0 hrun5 j hj).2.1)⟩⟩
        · rw [e]
          simp only [ne_eq, not_true_eq_false, if_false]
          have hlen : a0 + ds.length * PGSIZE + PGSIZE = a0 + (ds ++ [r]).length * PGSIZE := by
            simp only [List.length_append, List.length_singleton]; ring
          rw [hlen]
          have hl1 : (ds ++ [r]).length = ds.length + 1 := by
            simp only [List.length_append, List.length_singleton]
          have hG4' : GrowInv m0 s4.mem root a0 (ds ++ [r]).length := by rw [hl1]; exact hG4
          have hf0 : 0 < f := by
            by_contra hc
            have : f = 0 := by omega
            rw [this] at hfu
            simp only [PGSIZE] at hfu hlt
            omega
          exact ih (ds ++ [r]) s4 hH4 hrun4 hG4'
            (by rw [hl1]; simp only [PGSIZE] at hlt ⊢; omega) hf0
            (by rw [hl1]; simp only [PGSIZE] at hfu ⊢; omega)
    · rw [if_neg hlt]
      exact ⟨newsz, s, rfl, Or.inl rfl⟩

/-- C19 (as stated) fails: on the nine-page machine with three free pages,
`uvmalloc(pt, 4096, 12288, PTE_W)` maps the page at 4096 (one data page, two
page-table pages), finds no page for 8192, rolls back and returns 0, not the
original size 4096. -/
theorem C19_counterexample :
    vmTwo.freelist = [0x80003000, 0x80002000, 0x80001000] ∧
    (uvmalloc vmK vmTwo vmNew 4096 12288 PTE_W).map (fun r => (r.1, r.2.freelist))
      = .ok (0, [0x80003000]) := by
  decide!

/-! ## A failing call in `uvmalloc` -/

theorem UvmallocAt_loop {P : KParams} {pt newsz xperm a0 a : Nat} {s0 s : Kmem} (oldsz : Nat)
    (h : UvmallocAt P pt newsz xperm a0 s0 a s) :
    ∃ k, a = a0 + k * PGSIZE ∧ ∀ fuel, uvmallocLoop P pt oldsz newsz xperm (fuel + k) a0 s0
      = uvmallocLoop P pt oldsz newsz xperm fuel a s := by
  induction h with
  | start => exact ⟨0, by simp, fun fuel => rfl⟩
  | next a s s3 _ hlt hk hm ih =>
    obtain ⟨k, e, hl⟩ := ih
    refine ⟨k + 1, by rw [e]; ring, fun fuel => ?_⟩
    have e1 : fuel + (k + 1) = (fuel + 1) + k := by omega
    rw [e1, hl (fuel + 1), uvmallocLoop, if_pos hlt]
    simp only [hk, if_false, hm, ne_eq, not_true_eq_false]

theorem UvmallocAt_head {P : KParams} {pt newsz xperm a : Nat} {s s3 : Kmem} (hlt : a < newsz)
    (hk : (kalloc P s).1 ≠ 0)
    (hm : mappages P { (kalloc P s).2 with mem := memset (kalloc P s).2.mem (kalloc P s).1 0 PGSIZE }
      pt a PGSIZE (kalloc P s).1 (PTE_R ||| PTE_U ||| xperm) = .ok (0, s3))
    {a1 : Nat} {s1 : Kmem} (h : UvmallocAt P pt newsz xperm (a + PGSIZE) s3 a1 s1) :
    UvmallocAt P pt newsz xperm a s a1 s1 := by
  induction h with
  | start => exact UvmallocAt.next a s s3 UvmallocAt.start hlt hk hm
  | next a' s' s3' _ hlt' hk' hm' ih => exact UvmallocAt.next a' s' s3' ih hlt' hk' hm'

theorem uvmallocLoop_fails {P : KParams} {pt oldsz newsz xperm a : Nat} {s : Kmem}
    (hlt : a < newsz) (hf : UvmallocFails P pt xperm a s) (fuel r : Nat) (s' : Kmem)
    (h : uvmallocLoop P pt oldsz newsz xperm (fuel + 1) a s = .ok (r, s')) : r = 0 := by
  by_contra hr
  rw [uvmallocLoop, if_pos hlt] at h
  rcases hf with hk | ⟨rc, s3, hrc, hm⟩
  · simp only [hk, if_true] at h
    exact uvmdealloc_not_ok P _ pt _ _ r s' hr h
  · by_cases hk : (kalloc P s).1 = 0
    · simp only [hk, if_true] at h
      exact uvmdealloc_not_ok P _ pt _ _ r s' hr h
    · simp only [hk, if_false, hm, ne_eq, hrc, not_false_eq_true, if_true] at h
      cases hkf : kfree P s3 (kalloc P s).1 with
      | none => rw [hkf] at h; simp at h
      | some s4 =>
        rw [hkf] at h
        exact uvmdealloc_not_ok P s4 pt _ _ r s' hr h

theorem uvmallocLoop_zero {P : KParams} {pt oldsz newsz xperm : Nat} (hn : newsz ≠ 0) :
    ∀ (fuel a : Nat) (s s' : Kmem),
      uvmallocLoop P pt oldsz newsz xperm fuel a s = .ok (0, s') →
      ∃ a1 s1, UvmallocAt P pt newsz xperm a s a1 s1 ∧ a1 < newsz ∧
        UvmallocFails P pt xperm a1 s1 := by
  intro fuel
  induction fuel with
  | zero => intro a s s' h; simp [uvmallocLoop] at h
  | succ f ih =>
    intro a s s' h
    rw [uvmallocLoop] at h
    by_cases hlt : a < newsz
    · rw [if_pos hlt] at h
      by_cases hk : (kalloc P s).1 = 0
      · exact ⟨a, s, UvmallocAt.start, hlt, Or.inl hk⟩
      · simp only [hk, if_false] at h
        cases hm : mappages P
            { (kalloc P s).2 with mem := memset (kalloc P s).2.mem (kalloc P s).1 0 PGSIZE }
            pt a PGSIZE (kalloc P s).1 (PTE_R ||| PTE_U ||| xperm) with
        | error e => rw [hm] at h; simp at h
        | ok v =>
          obtain ⟨rc, s3⟩ := v
          rw [hm] at h
          by_cases hrc : rc = 0
          · subst hrc
            simp only [ne_eq, not_true_eq_false, if_false] at h
            obtain ⟨a1, s1, hat, h1, h2⟩ := ih (a + PGSIZE) s3 s' h
            exact ⟨a1, s1, UvmallocAt_head hlt hk hm hat, h1, h2⟩
          · exact ⟨a, s, UvmallocAt.start, hlt, Or.inr ⟨rc, s3, hrc, hm⟩⟩
    · rw [if_neg hlt] at h
      simp only [Except.ok.injEq, Prod.mk.injEq] at h
      exact absurd h.1 hn

/-- Claim C19, amended: on a well-formed table, for `xperm < 1024` and
`oldsz < newsz <= MAXVA` with no page of `[oldsz, newsz)` mapped, `uvmalloc`
returns. If a `kalloc` or `mappages` call fails in one of the iterations of
its loop, it returns 0 (not the original size), the table has the leaf
mappings it had before the call, and the free list together with the
page-table pages holds exactly the pages it held before: every data page
allocated during the call is back on the free list. If no call fails it
returns `newsz`. -/
theorem C19_uvmalloc_failure_rolls_back (P : KParams) (s : Kmem) (pt oldsz newsz xperm : Nat)
    (hwf : WfPT P s pt) (hx : xperm < 1024) (hlt : oldsz < newsz) (hmax : newsz ≤ MAXVA)
    (hfree : ∀ a, a % PGSIZE = 0 → oldsz ≤ a → a < newsz → ¬ mapped s.mem pt a) :
    ∃ r s', uvmalloc P s pt oldsz newsz xperm = .ok (r, s') ∧
      ((∃ a s1, UvmallocAt P pt newsz xperm (PGROUNDUP oldsz) s a s1 ∧ a < newsz ∧
          UvmallocFails P pt xperm a s1) →
        r = 0 ∧ SameLeaves s.mem s'.mem pt ∧
          (s'.freelist ++ tablePages s'.mem pt).Perm (s.freelist ++ tablePages s.mem pt)) ∧
      ((¬ ∃ a s1, UvmallocAt P pt newsz xperm (PGROUNDUP oldsz) s a s1 ∧ a < newsz ∧
          UvmallocFails P pt xperm a s1) → r = newsz) := by
  unfold uvmalloc
  rw [if_neg (Nat.not_lt.2 (Nat.le_of_lt hlt))]
  have hup : oldsz ≤ PGROUNDUP oldsz ∧ PGROUNDUP oldsz < oldsz + PGSIZE := by
    unfold PGROUNDUP u64
    simp only [PGSIZE, MAXVA] at *
    norm_num at *
    omega
  have hfree' : ∀ j, PGROUNDUP oldsz + j * PGSIZE < newsz →
      ¬ mapped s.mem pt (PGROUNDUP oldsz + j * PGSIZE) := by
    intro j hj
    have hal := PGROUNDUP_mod oldsz
    exact hfree _ (by simp only [PGSIZE] at hal ⊢; omega) (by omega) hj
  have hfu : newsz + PGSIZE ≤
      PGROUNDUP oldsz + (([] : List Nat).length + (newsz / PGSIZE + 2)) * PGSIZE := by
    simp only [List.length_nil, PGSIZE]
    omega
  obtain ⟨r, s', e, hr⟩ := uvmallocLoop_total (P := P) s.mem hx (PGROUNDUP_mod oldsz)
    hmax hfree' (newsz / PGSIZE + 2) [] s (Held_init hwf) trivial (GrowInv_init _ _ _)
    (by simp only [List.length_nil, PGSIZE] at hup ⊢; omega) (Nat.succ_pos _) hfu
  have e' : uvmallocLoop P pt (PGROUNDUP oldsz) newsz xperm (newsz / PGSIZE + 2)
      (PGROUNDUP oldsz) s = .ok (r, s') := by simpa using e
  have hn0 : newsz ≠ 0 := by omega
  refine ⟨r, s', e', ?_, ?_⟩
  · rintro ⟨a, s1, hat, ha, hfl⟩
    obtain ⟨k, hk, hl⟩ := UvmallocAt_loop (PGROUNDUP oldsz) hat
    have hkb : k + 2 ≤ newsz / PGSIZE + 2 := by
      have : k * PGSIZE < newsz := by omega
      have := (Nat.le_div_iff_mul_le (by decide : 0 < PGSIZE)).2 (Nat.le_of_lt this)
      omega
    have e2 := hl (newsz / PGSIZE + 2 - k)
    rw [Nat.sub_add_cancel (by omega)] at e2
    rw [e2] at e'
    have e3 : newsz / PGSIZE + 2 - k = (newsz / PGSIZE + 1 - k) + 1 := by omega
    rw [e3] at e'
    have hr0 : r = 0 := uvmallocLoop_fails ha hfl _ r s' e'
    rcases hr with h1 | ⟨_, hH, hS⟩
    · omega
    · exact ⟨hr0, hS, Held_nil_perm hH⟩
  · intro hno
    rcases hr with h1 | ⟨h0, _, _⟩
    · exact h1
    · rw [h0] at e'
      exact absurd (uvmallocLoop_zero hn0 _ _ _ _ e') hno

/-- C19 witness: the failing grow on the nine-page machine. -/
theorem C19_uvmalloc_failure_rolls_back_witness :
    WfPT vmK vmTwo vmNew ∧
    ∃ s', uvmalloc vmK vmTwo vmNew 4096 12288 PTE_W = .ok (0, s') ∧
      SameLeaves vmTwo.mem s'.mem vmNew ∧
      (s'.freelist ++ tablePages s'.mem vmNew).Perm (vmTwo.freelist ++ tablePages vmTwo.mem vmNew) := by
  have h0 : ∀ va, ¬ mapped vmTwo.mem vmNew va := kids_nil_not_mapped (by decide!)
  have h1 : (uvmalloc vmK vmTwo vmNew 4096 12288 PTE_W).map (·.1) = .ok 0 := by decide!
  obtain ⟨s1, hs1⟩ := Except_map_fst_ok h1
  obtain ⟨r, s', e, hfail, hok⟩ := C19_uvmalloc_failure_rolls_back vmK vmTwo vmNew 4096 12288
    PTE_W vmTwo_wf (by decide) (by decide) (by decide) (fun a _ _ _ => h0 a)
  rw [hs1] at e
  injection e with e
  injection e with e1 e2
  by_cases hf : ∃ a s1, UvmallocAt vmK vmNew 12288 PTE_W (PGROUNDUP 4096) vmTwo a s1 ∧ a < 12288 ∧
      UvmallocFails vmK vmNew PTE_W a s1
  · obtain ⟨_, a, b⟩ := hfail hf
    rw [← e2] at a b
    exact ⟨vmTwo_wf, s1, hs1, a, b⟩
  · have := hok hf
    omega

/-! ## Success of `uvmcopy` -/

theorem install_frame (P : KParams) (s : Kmem) (slot r : Nat) (l : List Nat) (x : Nat)
    (hr : ¬ (r ≤ x ∧ x < r + PGSIZE)) (hs : ¬ (slot ≤ x ∧ x < slot + 8)) :
    (install P s slot r l).mem x = s.mem x := by
  unfold install
  simp only
  rw [write64_out _ _ _ _ (by omega), memset_out _ _ _ _ _ (by omega),
    memset_out _ _ _ _ _ (by omega)]

/-- `walk` with allocation stores only into the page-table pages and into
pages of the free list. -/
theorem walk_alloc_frame {P : KParams} {s : Kmem} {root : Nat} (hwf : WfPT P s root) (va x : Nat)
    (hx : Outside (s.freelist ++ tablePages s.mem root) x) :
    (walkLoop P true va 2 s root).2.mem x = s.mem x := by
  have hroot : ¬ (root ≤ x ∧ x < root + PGSIZE) :=
    hx root (List.mem_append_right _ ((mem_tablePages _ _ _).2 (Or.inl rfl)))
  have hcell : ∀ t i, i < 512 → ¬ (t ≤ x ∧ x < t + PGSIZE) →
      ¬ (t + 8 * i ≤ x ∧ x < t + 8 * i + 8) :=
    fun t i hi hn hc => hn (cell_in_page hi hc.1 hc.2)
  cases h2 : child s.mem root (PX 2 va) with
  | some t1 =>
    have ht1k : t1 ∈ kids s.mem root := (mem_kids _ _ _).2 ⟨_, PX_lt 2 va, h2⟩
    have ht1 : ¬ (t1 ≤ x ∧ x < t1 + PGSIZE) :=
      hx t1 (List.mem_append_right _ ((mem_tablePages _ _ _).2 (Or.inr (Or.inl ht1k))))
    rw [walkLoop_succ_valid P true va 1 s root t1 h2]
    cases h1 : child s.mem t1 (PX 1 va) with
    | some t0 => rw [walkLoop_succ_valid P true va 0 s t1 t0 h1, walkLoop_zero]
    | none =>
      cases hf : s.freelist with
      | nil => rw [walkLoop_succ_nil P va 0 s t1 h1 hf]
      | cons r rest =>
        have hrm : managed P r := hwf.fl_managed r (by rw [hf]; exact List.mem_cons_self _ _)
        have hr : ¬ (r ≤ x ∧ x < r + PGSIZE) :=
          hx r (List.mem_append_left _ (by rw [hf]; exact List.mem_cons_self _ _))
        rw [walkLoop_succ_cons P va 0 s t1 r rest h1 hf
          (Nat.pos_iff_ne_zero.1 (managed_pos P hrm)), walkLoop_zero]
        exact install_frame P s _ r rest x hr (hcell t1 _ (PX_lt 1 va) ht1)
  | none =>
    cases hf : s.freelist with
    | nil => rw [walkLoop_succ_nil P va 1 s root h2 hf]
    | cons r rest =>
      have hrm : managed P r := hwf.fl_managed r (by rw [hf]; exact List.mem_cons_self _ _)
      have hr : ¬ (r ≤ x ∧ x < r + PGSIZE) :=
        hx r (List.mem_append_left _ (by rw [hf]; exact List.mem_cons_self _ _))
      have hrne : r ≠ root := by
        intro e
        exact hwf.tp_fl root ((mem_tablePages _ _ _).2 (Or.inl rfl))
          (by rw [hf, ← e]; exact List.mem_cons_self _ _)
      rw [walkLoop_succ_cons P va 1 s root r rest h2 hf
        (Nat.pos_iff_ne_zero.1 (managed_pos P hrm))]
      have hc1 : child (install P s (root + 8 * PX (1 + 1) va) r rest).mem r (PX (0 + 1) va)
          = none := by
        rw [install_child hwf.root_aligned (PX_lt 2 va) hrm.1 (managed_lt P hrm) hrm.1
          (PX_lt 1 va), if_neg (fun h => hrne h.1), if_pos rfl]
      have e1 := install_frame P s (root + 8 * PX (1 + 1) va) r rest x hr
        (hcell root _ (PX_lt 2 va) hroot)
      cases rest with
      | nil =>
        rw [walkLoop_succ_nil P va 0 _ r hc1 rfl]
        exact e1
      | cons r2 rest2 =>
        have hr2m : managed P r2 := hwf.fl_managed r2 (by
          rw [hf]; exact List.mem_cons_of_mem _ (List.mem_cons_self _ _))
        have hr2 : ¬ (r2 ≤ x ∧ x < r2 + PGSIZE) :=
          hx r2 (List.mem_append_left _ (by
            rw [hf]; exact List.mem_cons_of_mem _ (List.mem_cons_self _ _)))
        rw [walkLoop_succ_cons P va 0 _ r r2 rest2 hc1 rfl
          (Nat.pos_iff_ne_zero.1 (managed_pos P hr2m)), walkLoop_zero]
        simp only
        rw [install_frame P _ _ r2 rest2 x hr2 (hcell r _ (PX_lt 1 va) hr), e1]

theorem outside_of_not_mem {ts : List Nat} {d x : Nat} (hts : ∀ t ∈ ts, t % PGSIZE = 0)
    (hd : d % PGSIZE = 0) (hn : d ∉ ts) (hx : d ≤ x ∧ x < d + PGSIZE) : Outside ts x :=
  fun t ht => pages_disjoint hd (hts t ht) (fun e => hn (e ▸ ht)) hx

theorem Held_sub {P : KParams} {pool : List Nat} {s : Kmem} {root : Nat} {held : List Nat}
    (h : Held P pool s root held) :
    (∀ t ∈ s.freelist ++ tablePages s.mem root, t ∈ pool) ∧ (∀ d ∈ held, d ∈ pool) :=
  ⟨fun _ ht => h.perm.subset (List.mem_append_right _ ht),
    fun _ hd => h.perm.subset (List.mem_append_left _ hd)⟩

theorem Held_same_pages {P : KParams} {pool : List Nat} {s s' : Kmem} {root : Nat}
    {held : List Nat} (h : Held P pool s root held) (h' : Held P pool s' root held) :
    ∀ t, t ∈ s'.freelist ++ tablePages s'.mem root → t ∈ s.freelist ++ tablePages s.mem root := by
  have hp := h'.perm.trans h.perm.symm
  exact fun t ht => ((List.perm_append_left_iff held).1 hp).subset ht

theorem Held_aligned {P : KParams} {pool : List Nat} {s : Kmem} {root : Nat} {held : List Nat}
    (h : Held P pool s root held) :
    (∀ t ∈ s.freelist ++ tablePages s.mem root, t % PGSIZE = 0) ∧
      ∀ d ∈ held, d % PGSIZE = 0 := by
  refine ⟨fun t ht => ?_, fun d hd => (h.props d hd).1.1⟩
  rcases List.mem_append.1 ht with h1 | h1
  · exact (h.wf.fl_managed t h1).1
  · exact tablePages_aligned h.wf t h1

/-- A successful `mappages` of one page: the entry of the address holds the
page and the permissions, every valid entry is as before, and only the
page-table pages and pages of the free list have been written. -/
theorem map_step {P : KParams} {pool : List Nat} {s : Kmem} {root : Nat} {held : List Nat}
    (h : Held P pool s root held) (a pa perm : Nat) (hal : a % PGSIZE = 0) (hlt : a < MAXVA)
    (hperm : perm < 1024) (hpa : pa < 2 ^ 64) (s4 : Kmem)
    (e : mappages P s root a PGSIZE pa perm = .ok (0, s4)) :
    Held P pool s4 root held ∧ walkp s4.mem a 2 root ≠ 0 ∧
      leafPte s4.mem root a = PA2PTE pa ||| perm ||| PTE_V ∧
      (∀ va, mapped s.mem root va → walkp s4.mem va 2 root = walkp s.mem va 2 root ∧
        leafPte s4.mem root va = leafPte s.mem root va) ∧
      (∀ x, Outside (s.freelist ++ tablePages s.mem root) x → s4.mem x = s.mem x) := by
  rw [mappages_one P s root a pa perm hal hlt] at e
  obtain ⟨hH, hL, hp⟩ := walk_alloc_spec h a
  by_cases h0 : (walkLoop P true a 2 s root).1 = 0
  · rw [if_pos h0] at e
    injection e with e
    injection e with e1 _
    exact absurd e1 (by decide)
  · rw [if_neg h0] at e
    by_cases hv : read64 (walkLoop P true a 2 s root).2.mem (walkLoop P true a 2 s root).1
        &&& PTE_V ≠ 0
    · rw [if_pos hv] at e; cases e
    · rw [if_neg hv] at e
      injection e with e
      injection e with _ e2
      have hw := hp h0
      have hw0 : walkp (walkLoop P true a 2 s root).2.mem a 2 root ≠ 0 := by rw [← hw]; exact h0
      have hinv : leafPte (walkLoop P true a 2 s root).2.mem root a &&& PTE_V = 0 := by
        unfold leafPte; rw [← hw]; exact not_not.1 hv
      have hv64 := Nat.lt_trans (mkpte_lt pa perm hperm hpa) (by norm_num : 2 ^ 62 < 2 ^ 64)
      obtain ⟨htp, hch⟩ := leaf_write_char hH.wf hw0 (PA2PTE pa ||| perm ||| PTE_V) hv64
      rw [← hw] at htp hch
      have hH4 : Held P pool s4 root held := by
        rw [← e2]
        exact Held_of_tablePages_eq hH rfl rfl htp
      rw [← e2]
      refine ⟨by rw [e2]; exact hH4, ?_, ?_, ?_, ?_⟩
      · simp only
        rw [(hch a).1]; exact hw0
      · simp only
        rw [(hch a).2 hw0, if_pos hw.symm]
      · intro va hm
        obtain ⟨hm1, w1, l1⟩ := LeafPres_mapped hL hm
        simp only
        have hne : walkp (walkLoop P true a 2 s root).2.mem va 2 root ≠
            (walkLoop P true a 2 s root).1 := by
          intro ee
          have := hm1.2
          rw [leafPte_of_slot (ee.trans hw)] at this
          exact this hinv
        rw [(hch va).1, (hch va).2 hm1.1, if_neg hne]
        exact ⟨w1, l1⟩
      · intro x hx
        simp only
        have hcellin : ¬ ((walkLoop P true a 2 s root).1 ≤ x ∧
            x < (walkLoop P true a 2 s root).1 + 8) := by
          intro hc
          obtain ⟨t1, t0, _, _, ew, _, _, m0, _⟩ := walkp_ne_zero hw0
          rw [hw, ew] at hc
          have hin := cell_in_page (PX_lt 0 a) hc.1 hc.2
          exact hx t0 (Held_same_pages h hH t0 (List.mem_append_right _ m0)) hin
        rw [write64_out _ _ _ _ (by omega)]
        exact walk_alloc_frame h.wf a x hx

theorem memmove_in (m : Mem) (dst src n j : Nat) (h : j < n) :
    memmove m dst src n (dst + j) = m (src + j) := by
  unfold memmove
  rw [if_pos ⟨Nat.le_add_right _ _, by omega⟩, Nat.add_sub_cancel_left]

theorem memmove_out (m : Mem) (dst src n x : Nat) (h : x < dst ∨ dst + n ≤ x) :
    memmove m dst src n x = m x := by
  unfold memmove
  rw [if_neg (by omega)]

theorem unwind_ne_ok (x : Except Fail Kmem) (s' : Kmem) :
    (match x with
      | .error e => (Except.error e : Except Fail (Int × Kmem))
      | .ok s1 => .ok (-1, s1)) ≠ .ok (0, s') := by
  cases x with
  | error e => intro h; cases h
  | ok s1 =>
    intro h
    injection h with h
    injection h with h _
    exact absurd h (by decide)

/-- The loop of `uvmcopy`, when it ends with 0. -/
theorem uvmcopyLoop_ok {P : KParams} {pool : List Nat} {old new sz : Nat} (m0 : Mem)
    (hold : old % PGSIZE = 0) (hpool : ∀ t ∈ pool, t % PGSIZE = 0)
    (htab : ∀ t ∈ tablePages m0 old, t ∉ pool)
    (hpg : ∀ j, j * PGSIZE < sz → PTE2PA (leafPte m0 old (j * PGSIZE)) ∉ pool) :
    ∀ (fuel : Nat) (ds : List Nat) (s s' : Kmem), CopyInv P m0 old new pool s ds →
      uvmcopyLoop P old new sz fuel (ds.length * PGSIZE) s = .ok (0, s') →
      ∃ ds', CopyInv P m0 old new pool s' ds' ∧ sz ≤ ds'.length * PGSIZE := by
  intro fuel
  induction fuel with
  | zero => intro ds s s' _ h; cases h
  | succ f ih =>
    intro ds s s' hI h
    rw [uvmcopyLoop] at h
    by_cases hlt : ds.length * PGSIZE < sz
    · rw [if_pos hlt] at h
      unfold walk at h
      by_cases hmax : ds.length * PGSIZE ≥ MAXVA
      · rw [if_pos hmax] at h; cases h
      · rw [if_neg hmax, walkLoop_false] at h
        simp only at h
        have hH := hI.held
        have hsame : sameOn m0 s.mem (tablePages m0 old) := by
          intro t ht x hx1 hx2
          exact hI.frame x (outside_of_not_mem hpool
            (tablePages_aligned_of_root hold t ht) (htab t ht) ⟨hx1, hx2⟩)
        have hwp : walkp s.mem (ds.length * PGSIZE) 2 old =
            walkp m0 (ds.length * PGSIZE) 2 old := sameOn_walkp (sameOn_top hsame) _
        rw [hwp] at h
        by_cases hz : walkp m0 (ds.length * PGSIZE) 2 old = 0
        · rw [if_pos hz] at h; cases h
        · rw [if_neg hz] at h
          have hlf : read64 s.mem (walkp m0 (ds.length * PGSIZE) 2 old) =
              leafPte m0 old (ds.length * PGSIZE) := by
            have := sameOn_leafPte hsame _ hz
            unfold leafPte at this
            rw [hwp] at this
            exact this
          rw [hlf] at h
          by_cases hv : leafPte m0 old (ds.length * PGSIZE) &&& PTE_V = 0
          · rw [if_pos hv] at h; cases h
          · rw [if_neg hv] at h
            cases hf : s.freelist with
            | nil =>
              rw [kalloc_nil P s hf] at h
              simp only [if_true] at h
              exact absurd h (unwind_ne_ok _ _)
            | cons r rest =>
              obtain ⟨hk1, hrm, hH1, hL1⟩ := Held_kalloc hH hf
              have hkm : (kalloc P s).2.mem = memset s.mem r 5 PGSIZE := by
                rw [kalloc_cons P s r rest hf]
              have hr0 : (kalloc P s).1 ≠ 0 := by
                rw [hk1]; exact Nat.pos_iff_ne_zero.1 (managed_pos P hrm)
              simp only [hr0, if_false] at h
              rw [hk1] at h
              have hrin : r ∈ ds ++ [r] := List.mem_append_right _ (List.mem_singleton_self _)
              have hrn : r ∉ ds := by
                have := hH1.nodup
                rw [List.nodup_append] at this
                exact fun hx => this.2.2 hx (List.mem_singleton_self _)
              obtain ⟨hH2, hL2⟩ := Held_data_write hH1 hrin
                (memmove (kalloc P s).2.mem r (PTE2PA (leafPte m0 old (ds.length * PGSIZE)))
                  PGSIZE) (fun x hx => memmove_out _ _ _ _ _ (by omega))
              have hal : (ds.length * PGSIZE) % PGSIZE = 0 := Nat.mul_mod_left _ _
              cases hmp : mappages P
                  { (kalloc P s).2 with
                    mem := memmove (kalloc P s).2.mem r
                      (PTE2PA (leafPte m0 old (ds.length * PGSIZE))) PGSIZE }
                  new (ds.length * PGSIZE) PGSIZE r
                  (PTE_FLAGS (leafPte m0 old (ds.length * PGSIZE))) with
              | error e => rw [hmp] at h; cases h
              | ok res =>
                obtain ⟨rc, s3⟩ := res
                rw [hmp] at h
                simp only at h
                by_cases hrc : rc ≠ 0
                · rw [if_pos hrc] at h
                  cases hkf : kfree P s3 r with
                  | none => rw [hkf] at h; cases h
                  | some s4 =>
                    rw [hkf] at h
                    exact absurd h (unwind_ne_ok _ _)
                · rw [if_neg hrc] at h
                  have hrc0 : rc = 0 := not_not.1 hrc
                  rw [hrc0] at hmp
                  obtain ⟨hH3, n1, n2, n3, n4⟩ := map_step hH2 _ r _ hal (Nat.not_le.1 hmax)
                    (PTE_FLAGS_lt _) (managed_lt P hrm) s3 hmp
                  have hlen : ds.length * PGSIZE + PGSIZE = (ds ++ [r]).length * PGSIZE := by
                    simp only [List.length_append, List.length_singleton]; ring
                  rw [hlen] at h
                  refine ih (ds ++ [r]) s3 s' ⟨hH3, ?_, ?_⟩ h
                  · intro x hx
                    rw [n4 x (fun t ht => hx t ((Held_sub hH2).1 t ht))]
                    simp only
                    have hrx := hx r ((Held_sub hH1).2 r hrin)
                    rw [memmove_out _ _ _ _ _ (by omega), hkm, memset_out _ _ _ _ _ (by omega)]
                    exact hI.frame x hx
                  · intro j hj
                    by_cases hjl : j < ds.length
                    · obtain ⟨d, hd, c1, c2, c3, c4⟩ := hI.copied j hjl
                      have hdv : leafPte s.mem new (j * PGSIZE) &&& PTE_V ≠ 0 := by
                        rw [c3]; exact mkpte_valid d _ (PTE_FLAGS_lt _)
                      obtain ⟨hm1, w1, l1⟩ := LeafPres_mapped hL1 ⟨c2, hdv⟩
                      obtain ⟨hm2, w2, l2⟩ := LeafPres_mapped hL2 hm1
                      obtain ⟨w3, l3⟩ := n3 _ hm2
                      refine ⟨d, List.mem_append_left _ hd, c1, ?_, ?_, ?_⟩
                      · rw [w3]; exact hm2.1
                      · rw [l3, l2, l1]; exact c3
                      · intro x hx
                        have hd2 := hH2.props d (List.mem_append_left _ hd)
                        have hdal := hd2.1.1
                        have hdr : d ≠ r := fun e => hrn (e ▸ hd)
                        have hout : Outside (List.append (kalloc P s).2.freelist
                            (tablePages (memmove (kalloc P s).2.mem r
                              (PTE2PA (leafPte m0 old (ds.length * PGSIZE))) PGSIZE) new))
                            (d + x) := by
                          refine outside_of_not_mem (Held_aligned hH2).1 hdal ?_ ⟨by omega, by omega⟩
                          intro hmem
                          rcases List.mem_append.1 hmem with q | q
                          · exact hd2.2.1 q
                          · exact hd2.2.2.1 q
                        rw [n4 _ hout]
                        simp only
                        have hdis := pages_disjoint hdal hrm.1 hdr
                          (x := d + x) ⟨by omega, by omega⟩
                        rw [memmove_out _ _ _ _ _ (by omega), hkm,
                          memset_out _ _ _ _ _ (by omega)]
                        exact c4 x hx
                    · have hje : j = ds.length := by
                        simp only [List.length_append, List.length_singleton] at hj
                        omega
                      rw [hje]
                      refine ⟨r, hrin, ⟨hz, hv⟩, n1, n2, ?_⟩
                      intro x hx
                      have hr2 := hH2.props r hrin
                      have hout : Outside (List.append (kalloc P s).2.freelist
                          (tablePages (memmove (kalloc P s).2.mem r
                            (PTE2PA (leafPte m0 old (ds.length * PGSIZE))) PGSIZE) new))
                          (r + x) := by
                        refine outside_of_not_mem (Held_aligned hH2).1 hrm.1 ?_ ⟨by omega, by omega⟩
                        intro hmem
                        rcases List.mem_append.1 hmem with q | q
                        · exact hr2.2.1 q
                        · exact hr2.2.2.1 q
                      rw [n4 _ hout]
                      simp only
                      rw [memmove_in _ _ _ _ _ hx, hkm]
                      have hpn := hpg ds.length hlt
                      have hrp : r ∈ pool := (Held_sub hH1).2 r hrin
                      have hne : PTE2PA (leafPte m0 old (ds.length * PGSIZE)) ≠ r :=
                        fun e => hpn (e ▸ hrp)
                      have hdis := pages_disjoint (PTE2PA_mod _) hrm.1 hne
                        (x := PTE2PA (leafPte m0 old (ds.length * PGSIZE)) + x)
                        ⟨by omega, by omega⟩
                      rw [memset_out _ _ _ _ _ (by omega)]
                      exact hI.frame _ (outside_of_not_mem hpool (PTE2PA_mod _) hpn
                        ⟨by omega, by omega⟩)
    · rw [if_neg hlt] at h
      injection h with h
      injection h with _ h
      rw [← h]
      exact ⟨ds, hI, Nat.le_of_not_lt hlt⟩

theorem flags_or_valid (e : Nat) (h : e &&& PTE_V ≠ 0) : PTE_FLAGS e ||| 1 = PTE_FLAGS e := by
  have h1 := (valid_iff e).1 h
  unfold PTE_FLAGS
  apply Nat.eq_of_testBit_eq
  intro i
  rw [Nat.testBit_or]
  cases i with
  | zero =>
    rw [Nat.testBit_and]
    have : e.testBit 0 = true := by
      rw [Nat.testBit_zero]; exact decide_eq_true h1
    rw [this]; rfl
  | succ i =>
    have : Nat.testBit 1 (i + 1) = false := by
      rw [Nat.testBit_succ]; exact Nat.zero_testBit i
    rw [this, Bool.or_false]

/-- Claim C20: let the destination table be well formed, the source root
page-aligned, and the source's page-table pages and the source pages below
`sz` be neither on the free list nor page-table pages of the destination. If
`uvmcopy(old, new, sz)` returns 0, then for every page-aligned `va < sz` the
source maps `va`, the destination maps `va` to a different physical page that
holds the same 4096 bytes, with the same flag bits; the source's page-table
pages and the source pages are unchanged. -/
theorem C20_uvmcopy_success (P : KParams) (s : Kmem) (old new sz : Nat) (s' : Kmem)
    (hwf : WfPT P s new) (hold : old % PGSIZE = 0)
    (htab : ∀ t ∈ tablePages s.mem old, t ∉ s.freelist ∧ t ∉ tablePages s.mem new)
    (hpg : ∀ va, va % PGSIZE = 0 → va < sz →
      PTE2PA (leafPte s.mem old va) ∉ s.freelist ∧
        PTE2PA (leafPte s.mem old va) ∉ tablePages s.mem new)
    (h : uvmcopy P s old new sz = .ok (0, s')) :
    (∀ va, va % PGSIZE = 0 → va < sz →
      mapped s.mem old va ∧ mapped s'.mem new va ∧
      PTE2PA (leafPte s'.mem new va) ≠ PTE2PA (leafPte s.mem old va) ∧
      (∀ x, x < PGSIZE → s'.mem (PTE2PA (leafPte s'.mem new va) + x) =
        s'.mem (PTE2PA (leafPte s.mem old va) + x)) ∧
      PTE_FLAGS (leafPte s'.mem new va) = PTE_FLAGS (leafPte s.mem old va)) ∧
    sameOn s.mem s'.mem (tablePages s.mem old) ∧
    (∀ va, va % PGSIZE = 0 → va < sz → ∀ x, x < PGSIZE →
      s'.mem (PTE2PA (leafPte s.mem old va) + x) = s.mem (PTE2PA (leafPte s.mem old va) + x)) := by
  have hH0 := Held_init hwf
  have hpool := (Held_aligned hH0).1
  have htab' : ∀ t ∈ tablePages s.mem old, t ∉ s.freelist ++ tablePages s.mem new := by
    intro t ht hm
    rcases List.mem_append.1 hm with q | q
    · exact (htab t ht).1 q
    · exact (htab t ht).2 q
  have hpg' : ∀ j, j * PGSIZE < sz →
      PTE2PA (leafPte s.mem old (j * PGSIZE)) ∉ s.freelist ++ tablePages s.mem new := by
    intro j hj hm
    have := hpg (j * PGSIZE) (Nat.mul_mod_left _ _) hj
    rcases List.mem_append.1 hm with q | q
    · exact this.1 q
    · exact this.2 q
  unfold uvmcopy at h
  have h' : uvmcopyLoop P old new sz (sz / PGSIZE + 2) (([] : List Nat).length * PGSIZE) s
      = .ok (0, s') := by simpa using h
  obtain ⟨ds, hI, hsz⟩ := uvmcopyLoop_ok (P := P) s.mem hold hpool htab' hpg' _ [] s s'
    ⟨hH0, fun _ _ => rfl, fun j hj => absurd hj (Nat.not_lt_zero _)⟩ h'
  have hsrc : ∀ va, va % PGSIZE = 0 → va < sz → ∀ x, x < PGSIZE →
      s'.mem (PTE2PA (leafPte s.mem old va) + x) = s.mem (PTE2PA (leafPte s.mem old va) + x) := by
    intro va hal hlt x hx
    have hj : va / PGSIZE * PGSIZE = va := Nat.div_mul_cancel (Nat.dvd_of_mod_eq_zero hal)
    have := hpg' (va / PGSIZE) (by rw [hj]; exact hlt)
    rw [hj] at this
    exact hI.frame _ (outside_of_not_mem hpool (PTE2PA_mod _) this ⟨by omega, by omega⟩)
  refine ⟨?_, ?_, hsrc⟩
  · intro va hal hlt
    have hj : va / PGSIZE * PGSIZE = va := Nat.div_mul_cancel (Nat.dvd_of_mod_eq_zero hal)
    have hjl : va / PGSIZE < ds.length := by
      simp only [PGSIZE] at hj hsz hlt ⊢
      by_contra hc
      have : ds.length * 4096 ≤ va / 4096 * 4096 := Nat.mul_le_mul_right _ (Nat.le_of_not_lt hc)
      omega
    obtain ⟨d, hd, c1, c2, c3, c4⟩ := hI.copied _ hjl
    rw [hj] at c1 c2 c3 c4
    have hdp := hI.held.props d hd
    have hfl := PTE_FLAGS_lt (leafPte s.mem old va)
    have hpa : PTE2PA (leafPte s'.mem new va) = d := by
      rw [c3]; exact mkpte_PTE2PA d _ hfl (managed_lt P hdp.1) hdp.1.1
    have hnp := hpg' (va / PGSIZE) (by rw [hj]; exact hlt)
    rw [hj] at hnp
    refine ⟨c1, ⟨c2, by rw [c3]; exact mkpte_valid d _ hfl⟩, ?_, ?_, ?_⟩
    · rw [hpa]
      intro e
      exact hnp (e ▸ (Held_sub hI.held).2 d hd)
    · intro x hx
      rw [hpa, c4 x hx, hsrc va hal hlt x hx]
    · rw [c3, PTE_FLAGS_mkpte d _ hfl]
      exact flags_or_valid _ c1.2
  · intro t ht x hx1 hx2
    exact hI.frame x (outside_of_not_mem hpool (tablePages_aligned_of_root hold t ht)
      (htab' t ht) ⟨hx1, hx2⟩)

/-- C20 witness: on the nine-page machine the table `vmRoot` maps two pages,
the table `vmNew` is empty and three pages are free; `uvmcopy` of the first
page returns 0. -/
theorem C20_uvmcopy_success_witness :
    ∃ s', uvmcopy vmK vmTwo vmRoot vmNew 4096 = .ok (0, s') ∧
      mapped vmTwo.mem vmRoot 0 ∧ mapped s'.mem vmNew 0 ∧
      PTE2PA (leafPte s'.mem vmNew 0) ≠ PTE2PA (leafPte vmTwo.mem vmRoot 0) ∧
      (∀ x, x < PGSIZE → s'.mem (PTE2PA (leafPte s'.mem vmNew 0) + x) =
        s'.mem (PTE2PA (leafPte vmTwo.mem vmRoot 0) + x)) ∧
      PTE_FLAGS (leafPte s'.mem vmNew 0) = PTE_FLAGS (leafPte vmTwo.mem vmRoot 0) := by
  have h1 : (uvmcopy vmK vmTwo vmRoot vmNew 4096).map (·.1) = .ok 0 := by decide!
  obtain ⟨s', hs'⟩ := Except_map_fst_ok h1
  have htab : ∀ t ∈ tablePages vmTwo.mem vmRoot,
      t ∉ vmTwo.freelist ∧ t ∉ tablePages vmTwo.mem vmNew := by decide!
  have hpg0 : PTE2PA (leafPte vmTwo.mem vmRoot 0) ∉ vmTwo.freelist ∧
      PTE2PA (leafPte vmTwo.mem vmRoot 0) ∉ tablePages vmTwo.mem vmNew := by decide!
  have hpg : ∀ va, va % PGSIZE = 0 → va < 4096 →
      PTE2PA (leafPte vmTwo.mem vmRoot va) ∉ vmTwo.freelist ∧
        PTE2PA (leafPte vmTwo.mem vmRoot va) ∉ tablePages vmTwo.mem vmNew := by
    intro va h1 h2
    have : va = 0 := by simp only [PGSIZE] at h1; omega
    rw [this]; exact hpg0
  have key := (C20_uvmcopy_success vmK vmTwo vmRoot vmNew 4096 s' vmTwo_wf (by decide!) htab hpg
    hs').1 0 (by decide) (by decide)
  exact ⟨s', hs', key⟩

/-! ## Unmapping a partly resident range, a failed fault, a stale buffer -/

/-- C24 (code defect): a private region of two pages is mapped and its first
page is brought in by `uvmcoe`; the second page has never been faulted in, but
the level-0 table that holds its entry exists now. `sys_munmap` tests
`walk(p->pagetable, va, 0)`, which is non-null for the second page, and calls
`uvmunmap` on it, which halts the kernel ("not mapped"): `sys_munmap` of the
two pages, and of the second page alone, does not return, while `sys_munmap`
of the first page alone returns 0. -/
theorem C24_unmap_of_partly_resident_range_halts :
    (uvmcoe vmK mmapArea
        (sys_mmap mmapArea vmProc 0 (2 * PGSIZE) PROT_READ MAP_PRIVATE 3 0).2 vmState
        mmapArea.MMAPBASE).map (fun (r : Int × Proc × Kmem) => r.1) = .ok 0 ∧
    partlyResident.1.vma.map (fun (v : Vma) => (v.valid, v.addr, v.len))
      = [(1, mmapArea.MMAPBASE, 2 * PGSIZE), (0, 0, 0), (0, 0, 0), (0, 0, 0)] ∧
    mapped partlyResident.2.mem vmRoot mmapArea.MMAPBASE ∧
    ¬ mapped partlyResident.2.mem vmRoot (mmapArea.MMAPBASE + PGSIZE) ∧
    (walk vmK partlyResident.2 vmRoot (mmapArea.MMAPBASE + PGSIZE) false).map
        (fun (r : Nat × Kmem) => decide (r.1 ≠ 0)) = .ok true ∧
    (sys_munmap vmK mmapArea trapframe partlyResident.1 partlyResident.2 mmapArea.MMAPBASE
        (2 * PGSIZE)).map (fun (r : Nat × Proc × Kmem) => r.1) = .error .panic ∧
    (sys_munmap vmK mmapArea trapframe partlyResident.1 partlyResident.2
        (mmapArea.MMAPBASE + PGSIZE) PGSIZE).map (fun (r : Nat × Proc × Kmem) => r.1)
      = .error .panic ∧
    (sys_munmap vmK mmapArea trapframe partlyResident.1 partlyResident.2 mmapArea.MMAPBASE
        PGSIZE).map (fun (r : Nat × Proc × Kmem) => r.1) = .ok 0 := by
  decide!

/-- C25 (code defect): a fault on the page of a one-page region. With one
free page left, `uvmcoe` takes it for the data and `mappages` fails at once
(no page for the level-1 table) with -1; `uvmcoe` tests `mappages(...) == 1`,
so it returns 0, not -1: the process is not marked, the data page
`0x80001000` keeps reference count 1 and is not given back (the free list is
empty), and the faulting page is left unmapped. With two free pages, `walk`
installs a level-1 table before it fails, so the root entry of the address, 0
before, now points to the page `0x80001000`, and again 0 is returned with both
pages gone. -/
theorem C25_failed_fault_returns_zero_and_leaks :
    (kalloc vmK vmLow).2.freelist = [0x80001000] ∧
    (match uvmcoe vmK mmapArea
        (sys_mmap mmapArea vmProc 0 PGSIZE PROT_READ MAP_SHARED 3 0).2 (kalloc vmK vmLow).2
        mmapArea.MMAPBASE with
      | .ok (rc, p, s) =>
        some (rc, p.killed, s.freelist, s.kmemref (vmK.PGIDX 0x80001000),
          decide (mapped s.mem vmRoot mmapArea.MMAPBASE))
      | .error _ => none) = some (0, 0, [], 1, false) ∧
    (match uvmcoe vmK mmapArea
        (sys_mmap mmapArea vmProc 0 PGSIZE PROT_READ MAP_SHARED 3 0).2 vmLow
        mmapArea.MMAPBASE with
      | .ok (rc, _, s) =>
        some (rc, s.freelist, pteAt vmLow.mem vmRoot (PX 2 mmapArea.MMAPBASE),
          pteAt s.mem vmRoot (PX 2 mmapArea.MMAPBASE),
          decide (mapped s.mem vmRoot mmapArea.MMAPBASE))
      | .error _ => none) = some (0, [], 0, PA2PTE 0x80001000 ||| PTE_V, false) := by
  decide!

/-- C27 (code defect): 13 shards of 3 buffers, block `n` of the device holding
`n`. Blocks 0, 13 and 26 fill the home shard 0 of block 39, so `bread(0, 39)`
caches it in shard 1, buffer `(1, 0)`, which is then released, as is the buffer
of block 0. The next `bread(0, 39)` claims the freed buffer `(0, 0)` of shard 0
without looking at shard 1; 7 is stored in it and written to the device, and it
is released and then recycled by `bread(0, 0)`. The last `bread(0, 39)` finds no
match and no free buffer in shard 0 and returns the copy left in shard 1: its
data is 39, the device holds 7. -/
theorem C27_stale_copy_served :
    (runDOps { bcache := Bcache.init 13 3, disk := fun _ n => n }
      [.bread 0 0, .bread 0 13, .bread 0 26, .bread 0 39, .brelse (1, 0), .brelse (0, 0),
        .bread 0 39, .store (0, 0) 7, .brelse (0, 0), .bread 0 0, .bread 0 39]).map (·.1)
      = .ok [((0, 0), 0, 0), ((0, 1), 13, 13), ((0, 2), 26, 26), ((1, 0), 39, 39),
          ((0, 0), 39, 39), ((0, 0), 0, 0), ((1, 0), 39, 7)] := by
  decide!

/-! ## `bget` without a cached copy -/

theorem scanShard_blank (dev blk : Nat) : ∀ (bs : List Buf) (j x : Nat),
    (scanShard dev blk bs j (some x)).2 = some x
  | [], _, _ => rfl
  | b :: bs, j, x => by
    unfold scanShard
    split
    · rfl
    · simp only [reduceCtorEq, false_and, if_false]
      exact scanShard_blank dev blk bs (j + 1) x

theorem scanShard_fst (dev blk : Nat) : ∀ (bs : List Buf) (j : Nat) (blank : Option Nat),
    ((scanShard dev blk bs j blank).1 = none ↔ ∀ b ∈ bs, ¬ (b.dev = dev ∧ b.blockno = blk))
  | [], _, _ => by simp [scanShard]
  | b :: bs, j, blank => by
    unfold scanShard
    by_cases h : b.dev = dev ∧ b.blockno = blk
    · rw [if_pos h]
      simp only [reduceCtorEq, false_iff]
      intro hall
      exact hall b (List.mem_cons_self _ _) h
    · rw [if_neg h, scanShard_fst dev blk bs]
      simp only [List.mem_cons, forall_eq_or_imp, h, not_false_eq_true, true_and]

theorem scanShard_busy (dev blk : Nat) : ∀ (bs : List Buf) (j : Nat),
    (∀ b ∈ bs, ¬ (b.dev = dev ∧ b.blockno = blk)) →
    ((scanShard dev blk bs j none).2 = none ↔ ∀ b ∈ bs, b.refcnt ≠ 0)
  | [], _, _ => by simp [scanShard]
  | b :: bs, j, hk => by
    unfold scanShard
    rw [if_neg (hk b (List.mem_cons_self _ _))]
    by_cases h : b.refcnt = 0
    · simp only [h, and_self, if_true, scanShard_blank, reduceCtorEq, List.mem_cons,
        forall_eq_or_imp, ne_eq, not_true_eq_false, false_and]
    · simp only [h, and_false, if_false, List.mem_cons, forall_eq_or_imp, ne_eq,
        not_false_eq_true, true_and]
      exact scanShard_busy dev blk bs (j + 1) (fun b hb => hk b (List.mem_cons_of_mem _ hb))

theorem scanShard_free (dev blk : Nat) : ∀ (bs : List Buf) (j i : Nat),
    (∀ b ∈ bs, ¬ (b.dev = dev ∧ b.blockno = blk)) → i < bs.length →
    (bs.getD i Buf.zero).refcnt = 0 → (∀ i', i' < i → (bs.getD i' Buf.zero).refcnt ≠ 0) →
    (scanShard dev blk bs j none).2 = some (j + i)
  | [], _, _, _, hi, _, _ => by simp at hi
  | b :: bs, j, 0, hk, _, hz, _ => by
    unfold scanShard
    rw [if_neg (hk b (List.mem_cons_self _ _))]
    have hz' : b.refcnt = 0 := hz
    simp only [hz', and_self, if_true, scanShard_blank, Nat.add_zero]
  | b :: bs, j, i + 1, hk, hi, hz, hb => by
    unfold scanShard
    rw [if_neg (hk b (List.mem_cons_self _ _))]
    have h0 : b.refcnt ≠ 0 := hb 0 (Nat.succ_pos _)
    simp only [h0, and_false, if_false]
    rw [scanShard_free dev blk bs (j + 1) i (fun b hb => hk b (List.mem_cons_of_mem _ hb))
      (by simpa using hi) (by simpa using hz)
      (fun i' hi' => by simpa using hb (i' + 1) (by omega))]
    congr 1
    omega

theorem probe_next {n plain k : Nat} (hp : plain < n) (hk : k < n) :
    (if (plain + k) % n + 1 = n then 0 else (plain + k) % n + 1) = (plain + (k + 1)) % n ∧
    ((plain + (k + 1)) % n ≠ plain ↔ k + 1 < n) := by
  by_cases h : plain + k < n
  · rw [Nat.mod_eq_of_lt h]
    by_cases h1 : plain + k + 1 = n
    · rw [if_pos h1, show plain + (k + 1) = n by omega, Nat.mod_self]
      exact ⟨rfl, by omega⟩
    · rw [if_neg h1, Nat.mod_eq_of_lt (show plain + (k + 1) < n by omega)]
      exact ⟨rfl, by omega⟩
  · have e1 : (plain + k) % n = plain + k - n := by
      rw [Nat.mod_eq_sub_mod (by omega), Nat.mod_eq_of_lt (by omega)]
    have e2 : (plain + (k + 1)) % n = plain + (k + 1) - n := by
      rw [Nat.mod_eq_sub_mod (by omega), Nat.mod_eq_of_lt (by omega)]
    rw [e1, e2, if_neg (by omega)]
    exact ⟨by omega, by omega⟩

theorem acquiresleep_map_ne_panic (bc : Bcache) (b : BufPtr) :
    (acquiresleep bc b).map (fun bc2 => (b, bc2)) ≠ .error .panic := by
  unfold acquiresleep
  split
  · intro h; cases h
  · intro h; cases h

theorem bgetLoop_panic (dev blk : Nat) (bc : Bcache) (plain : Nat) (hp : plain < bc.length) :
    ∀ (fuel k : Nat), k < bc.length → fuel + k = bc.length →
      (bgetLoop dev blk plain fuel ((plain + k) % bc.length) bc = .error .panic ↔
        ∀ k', k ≤ k' → k' < bc.length → ∀ b ∈ bc.getD ((plain + k') % bc.length) [],
          ¬ (b.dev = dev ∧ b.blockno = blk) ∧ b.refcnt ≠ 0) := by
  intro fuel
  induction fuel with
  | zero => intro k hk hf; omega
  | succ fuel ih =>
    intro k hk hf
    have hfst := scanShard_fst dev blk (bc.getD ((plain + k) % bc.length) []) 0 none
    unfold bgetLoop
    rcases hs : scanShard dev blk (bc.getD ((plain + k) % bc.length) []) 0 none with ⟨a, c⟩
    rw [hs] at hfst
    cases a with
    | some j =>
      simp only
      constructor
      · intro h; exact absurd h (acquiresleep_map_ne_panic _ _)
      · intro h
        have : (some j : Option Nat) = none := hfst.2 (fun b hb => (h k (Nat.le_refl _) hk b hb).1)
        cases this
    | none =>
      have hkey := hfst.1 rfl
      have hbusy := scanShard_busy dev blk (bc.getD ((plain + k) % bc.length) []) 0 hkey
      rw [hs] at hbusy
      cases c with
      | some j =>
        simp only
        constructor
        · intro h; exact absurd h (acquiresleep_map_ne_panic _ _)
        · intro h
          have : (some j : Option Nat) = none :=
            hbusy.2 (fun b hb => (h k (Nat.le_refl _) hk b hb).2)
          cases this
      | none =>
        simp only
        have hall := hbusy.1 rfl
        obtain ⟨e1, e2⟩ := probe_next hp hk
        rw [e1]
        by_cases hlast : k + 1 < bc.length
        · rw [if_pos (e2.2 hlast), ih (k + 1) hlast (by omega)]
          constructor
          · intro h k' hk' hk'' b hb
            by_cases hkk : k' = k
            · subst hkk; exact ⟨hkey b hb, hall b hb⟩
            · exact h k' (by omega) hk'' b hb
          · intro h k' hk' hk'' b hb
            exact h k' (by omega) hk'' b hb
        · rw [if_neg (fun h => hlast (e2.1 h))]
          simp only [true_iff]
          intro k' hk' hk'' b hb
          have : k' = k := by omega
          subst this
          exact ⟨hkey b hb, hall b hb⟩

theorem bgetLoop_claim (dev blk : Nat) (bc : Bcache) (plain : Nat) (hp : plain < bc.length)
    (k j : Nat) (hk : k < bc.length)
    (hkey : ∀ b ∈ bc.getD ((plain + k) % bc.length) [], ¬ (b.dev = dev ∧ b.blockno = blk))
    (hj : j < (bc.getD ((plain + k) % bc.length) []).length)
    (hz : (bc.at ((plain + k) % bc.length, j)).refcnt = 0)
    (hbefore : ∀ j', j' < j → (bc.at ((plain + k) % bc.length, j')).refcnt ≠ 0) :
    ∀ (fuel k0 : Nat), k0 ≤ k → fuel + k0 = bc.length →
      (∀ k', k0 ≤ k' → k' < k → ∀ b ∈ bc.getD ((plain + k') % bc.length) [],
        ¬ (b.dev = dev ∧ b.blockno = blk) ∧ b.refcnt ≠ 0) →
      bgetLoop dev blk plain fuel ((plain + k0) % bc.length) bc =
        (acquiresleep (bc.put ((plain + k) % bc.length, j)
            { bc.at ((plain + k) % bc.length, j) with
              dev := dev, blockno := blk, valid := 0, refcnt := 1 })
          ((plain + k) % bc.length, j)).map (fun bc2 => (((plain + k) % bc.length, j), bc2)) := by
  intro fuel
  induction fuel with
  | zero => intro k0 hk0 hf; omega
  | succ fuel ih =>
    intro k0 hk0 hf hearlier
    unfold bgetLoop
    by_cases hkk : k0 = k
    · subst hkk
      have h1 := (scanShard_fst dev blk (bc.getD ((plain + k0) % bc.length) []) 0 none).2 hkey
      have h2 := scanShard_free dev blk (bc.getD ((plain + k0) % bc.length) []) 0 j hkey hj hz
        hbefore
      rw [Nat.zero_add] at h2
      have hs : scanShard dev blk (bc.getD ((plain + k0) % bc.length) []) 0 none
          = (none, some j) := Prod.ext h1 h2
      rw [hs]
    · have hlt : k0 < k := by omega
      have hsh := hearlier k0 (Nat.le_refl _) hlt
      have h1 := (scanShard_fst dev blk (bc.getD ((plain + k0) % bc.length) []) 0 none).2
        (fun b hb => (hsh b hb).1)
      have h2 := (scanShard_busy dev blk (bc.getD ((plain + k0) % bc.length) []) 0
        (fun b hb => (hsh b hb).1)).2 (fun b hb => (hsh b hb).2)
      have hs : scanShard dev blk (bc.getD ((plain + k0) % bc.length) []) 0 none
          = (none, none) := Prod.ext h1 h2
      rw [hs]
      simp only
      obtain ⟨e1, e2⟩ := probe_next hp (show k0 < bc.length by omega)
      rw [e1, if_pos (e2.2 (by omega))]
      exact ih (k0 + 1) (by omega) (by omega) (fun k' hk' hk'' => hearlier k' (by omega) hk'')

theorem Bcache.getD_put (bc : Bcache) (i j : Nat) (v : Buf) (hi : i < bc.length) (i' : Nat) :
    (bc.put (i, j) v).getD i' [] = if i' = i then (bc.getD i []).set j v else bc.getD i' [] := by
  unfold Bcache.put
  simp only [List.getD_eq_getElem?_getD, List.getElem?_set]
  by_cases h : i = i'
  · subst h
    simp [hi]
  · rw [if_neg h, if_neg (fun e => h e.symm)]

theorem Bcache.at_put_same (bc : Bcache) (i j : Nat) (v : Buf) (hi : i < bc.length)
    (hj : j < (bc.getD i []).length) : (bc.put (i, j) v).at (i, j) = v := by
  unfold Bcache.at
  rw [Bcache.getD_put bc i j v hi]
  rw [List.getD_eq_getElem?_getD] at hj
  simp [List.getD_eq_getElem?_getD, List.getElem?_set, hj]

theorem Bcache.at_put_other (bc : Bcache) (i j : Nat) (v : Buf) (hi : i < bc.length)
    (p : BufPtr) (hp : p ≠ (i, j)) : (bc.put (i, j) v).at p = bc.at p := by
  obtain ⟨a, b⟩ := p
  unfold Bcache.at
  rw [Bcache.getD_put bc i j v hi]
  by_cases h : a = i
  · subst h
    have hb : j ≠ b := fun e => hp (by rw [e])
    simp [List.getD_eq_getElem?_getD, List.getElem?_set, hb]
  · simp [h]

theorem Bcache.put_put (bc : Bcache) (i j : Nat) (v w : Buf) (hi : i < bc.length) :
    (bc.put (i, j) v).put (i, j) w = bc.put (i, j) w := by
  have h := Bcache.getD_put bc i j v hi i
  rw [if_pos rfl] at h
  unfold Bcache.put at h ⊢
  simp only [h, List.set_set]

theorem probe_cover {n plain i : Nat} (hp : plain < n) (hi : i < n) :
    ∃ k, k < n ∧ (plain + k) % n = i := by
  by_cases h : plain ≤ i
  · exact ⟨i - plain, by omega, by rw [show plain + (i - plain) = i by omega, Nat.mod_eq_of_lt hi]⟩
  · exact ⟨i + n - plain, by omega, by
      rw [show plain + (i + n - plain) = i + n by omega, Nat.add_mod_right, Nat.mod_eq_of_lt hi]⟩

theorem Bcache.getD_mem (bc : Bcache) (i : Nat) (hi : i < bc.length) : bc.getD i [] ∈ bc := by
  rw [List.getD_eq_getElem?_getD, List.getElem?_eq_getElem hi]
  exact List.getElem_mem _

/-- Claim C23: in a cache with at least one shard, let no buffer carry the key
`(dev, blockno)`, and let buffer `j` of shard `i`, the `k`-th shard in the order
home shard, home shard + 1, ..., wrapping at `NBUCKET`, be the first buffer
with reference count 0 in that order (every buffer of the `k` shards probed
before has a nonzero count, and so have the buffers before `j` in shard `i`).
Then `bget` claims this buffer: it returns it with the key set to the request,
`valid = 0`, `refcnt = 1` and the sleep-lock taken, every other buffer being
as before (were the lock of the buffer held, `bget` would wait for it).
And `bget` halts the kernel if and only if no buffer carries the key and every
buffer of every shard has a positive reference count. -/
theorem C23_bget_claims_first_free (bc : Bcache) (dev blockno : Nat) (hn : bc ≠ []) :
    (∀ k i j, k < bc.length → i = (blockno % bc.length + k) % bc.length →
      j < (bc.getD i []).length →
      (∀ sh ∈ bc, ∀ b ∈ sh, ¬ (b.dev = dev ∧ b.blockno = blockno)) →
      (∀ k', k' < k → ∀ b ∈ bc.getD ((blockno % bc.length + k') % bc.length) [],
        b.refcnt ≠ 0) →
      (∀ j', j' < j → (bc.at (i, j')).refcnt ≠ 0) →
      (bc.at (i, j)).refcnt = 0 →
      bget bc dev blockno =
          (if (bc.at (i, j)).locked then .error .sleeps
           else .ok ((i, j), bc.put (i, j) { bc.at (i, j) with
              dev := dev, blockno := blockno, valid := 0, refcnt := 1, locked := true })) ∧
        ∀ v p, p ≠ (i, j) → (bc.put (i, j) v).at p = bc.at p) ∧
    (bget bc dev blockno = .error .panic ↔
      (∀ sh ∈ bc, ∀ b ∈ sh, ¬ (b.dev = dev ∧ b.blockno = blockno)) ∧
        ∀ sh ∈ bc, ∀ b ∈ sh, 0 < b.refcnt) := by
  have hlen : 0 < bc.length := List.length_pos.2 hn
  have hp : blockno % bc.length < bc.length := Nat.mod_lt _ hlen
  refine ⟨?_, ?_⟩
  · intro k i j hk hi hj hkey hearlier hbefore hz
    subst hi
    have hi : (blockno % bc.length + k) % bc.length < bc.length := Nat.mod_lt _ hlen
    refine ⟨?_, fun v p hne => Bcache.at_put_other bc _ j v hi p hne⟩
    have hloop := bgetLoop_claim dev blockno bc (blockno % bc.length) hp k j hk
      (fun b hb => hkey _ (Bcache.getD_mem bc _ hi) b hb) hj hz hbefore bc.length 0
      (Nat.zero_le _) rfl
      (fun k' _ hk' b hb =>
        ⟨hkey _ (Bcache.getD_mem bc _ (Nat.mod_lt _ hlen)) b hb, hearlier k' hk' b hb⟩)
    unfold bget
    rw [Nat.add_zero, Nat.mod_eq_of_lt hp] at hloop
    rw [hloop]
    unfold acquiresleep
    rw [Bcache.at_put_same bc _ j _ hi hj]
    by_cases hl : (bc.at ((blockno % bc.length + k) % bc.length, j)).locked = true
    · simp only [hl, if_true]
      rfl
    · simp only [hl, if_false, Bool.false_eq_true]
      rw [Bcache.put_put bc _ j _ _ hi]
      rfl
  · have h := bgetLoop_panic dev blockno bc (blockno % bc.length) hp bc.length 0 hlen rfl
    rw [Nat.add_zero, Nat.mod_eq_of_lt hp] at h
    unfold bget
    rw [h]
    constructor
    · intro hall
      refine ⟨fun sh hsh b hb => ?_, fun sh hsh b hb => ?_⟩
      · obtain ⟨i, hi, rfl⟩ := List.getElem_of_mem hsh
        obtain ⟨k, hk, hki⟩ := probe_cover hp hi
        refine (hall k (Nat.zero_le _) hk b ?_).1
        rw [hki, List.getD_eq_getElem?_getD, List.getElem?_eq_getElem hi]
        exact hb
      · obtain ⟨i, hi, rfl⟩ := List.getElem_of_mem hsh
        obtain ⟨k, hk, hki⟩ := probe_cover hp hi
        refine Nat.pos_of_ne_zero (hall k (Nat.zero_le _) hk b ?_).2
        rw [hki, List.getD_eq_getElem?_getD, List.getElem?_eq_getElem hi]
        exact hb
    · intro hall k' _ hk' b hb
      have hm := Bcache.getD_mem bc _ (Nat.mod_lt (blockno % bc.length + k') hlen)
      exact ⟨hall.1 _ hm b hb, Nat.pos_iff_ne_zero.1 (hall.2 _ hm b hb)⟩

/-- C23 witness: in `twoShards`, `bget(0, 4)` (home shard 0, full) claims the
second buffer of shard 1. -/
theorem C23_bget_claims_first_free_witness :
    twoShards ≠ [] ∧
    bget twoShards 0 4 = .ok ((1, 1),
      [[{ dev := 0, blockno := 0, valid := 1, refcnt := 1, locked := true, data := 10 },
        { dev := 0, blockno := 2, valid := 1, refcnt := 1, locked := true, data := 12 }],
       [{ dev := 0, blockno := 1, valid := 1, refcnt := 2, locked := false, data := 11 },
        { dev := 0, blockno := 4, valid := 0, refcnt := 1, locked := true, data := 13 }]]) ∧
    bget twoShards 0 4 ≠ .error .panic :=
  ⟨by decide,
   ((C23_bget_claims_first_free twoShards 0 4 (by decide)).1 1 1 1 (by decide) (by decide)
      (by decide) (by decide) (by decide) (by decide) (by decide)).1,
   fun h => absurd (((C23_bget_claims_first_free twoShards 0 4 (by decide)).2.1 h).2
      [{ dev := 0, blockno := 1, valid := 1, refcnt := 2, locked := false, data := 11 },
       { dev := 0, blockno := 3, valid := 1, refcnt := 0, locked := false, data := 13 }]
      (by decide) { dev := 0, blockno := 3, valid := 1, refcnt := 0, locked := false, data := 13 }
      (by decide)) (by decide)⟩

/-! ## `mappages` of several pages -/

theorem mappagesLoop_ok_step (P : KParams) (root last perm fuel a pa : Nat) (s s' : Kmem)
    (hal : a % PGSIZE = 0) (hlt : a < MAXVA)
    (h : mappagesLoop P root last perm (fuel + 1) a pa s = .ok (0, s')) :
    ∃ s2, mappages P s root a PGSIZE pa perm = .ok (0, s2) ∧
      (if a = last then s' = s2
       else mappagesLoop P root last perm fuel (a + PGSIZE) (pa + PGSIZE) s2 = .ok (0, s')) := by
  rw [mappages_one P s root a pa perm hal hlt]
  unfold mappagesLoop at h
  unfold walk at h
  rw [if_neg (Nat.not_le.2 hlt)] at h
  simp only at h
  by_cases h0 : (walkLoop P true a 2 s root).1 = 0
  · rw [if_pos h0] at h
    injection h with h
    injection h with h1 _
    exact absurd h1 (by decide)
  · rw [if_neg h0] at h ⊢
    by_cases hv : read64 (walkLoop P true a 2 s root).2.mem (walkLoop P true a 2 s root).1
        &&& PTE_V ≠ 0
    · rw [if_pos hv] at h; cases h
    · rw [if_neg hv] at h ⊢
      refine ⟨_, rfl, ?_⟩
      by_cases hl : a = last
      · rw [if_pos hl] at h ⊢
        injection h with h
        injection h with _ h2
        exact h2.symm
      · rw [if_neg hl] at h ⊢
        exact h

theorem map_step_grow {P : KParams} {pool : List Nat} {s : Kmem} {root : Nat} {held : List Nat}
    (h : Held P pool s root held) {m0 : Mem} {a0 k : Nat} (hG : GrowInv m0 s.mem root a0 k)
    (hrun : ∀ j, j < k → mapped s.mem root (a0 + j * PGSIZE))
    (a pa perm : Nat) (ha : a = a0 + k * PGSIZE) (hal : a % PGSIZE = 0) (hlt : a < MAXVA)
    (hperm : perm < 1024) (hpa : pa < 2 ^ 64) (s4 : Kmem)
    (e : mappages P s root a PGSIZE pa perm = .ok (0, s4)) :
    GrowInv m0 s4.mem root a0 (k + 1) := by
  rw [mappages_one P s root a pa perm hal hlt] at e
  obtain ⟨hH, hL, hp⟩ := walk_alloc_spec h a
  by_cases h0 : (walkLoop P true a 2 s root).1 = 0
  · rw [if_pos h0] at e
    injection e with e
    injection e with e1 _
    exact absurd e1 (by decide)
  · rw [if_neg h0] at e
    by_cases hv : read64 (walkLoop P true a 2 s root).2.mem (walkLoop P true a 2 s root).1
        &&& PTE_V ≠ 0
    · rw [if_pos hv] at e; cases e
    · rw [if_neg hv] at e
      injection e with e
      injection e with _ e2
      have hw := hp h0
      have hw0 : walkp (walkLoop P true a 2 s root).2.mem a 2 root ≠ 0 := by rw [← hw]; exact h0
      have hinv : leafPte (walkLoop P true a 2 s root).2.mem root a &&& PTE_V = 0 := by
        unfold leafPte; rw [← hw]; exact not_not.1 hv
      have hv64 := Nat.lt_trans (mkpte_lt pa perm hperm hpa) (by norm_num : 2 ^ 62 < 2 ^ 64)
      have hG1 := GrowInv_pres hG hL hrun
      have k3 := GrowInv_set hH.wf hG1 ha hw0 hinv (PA2PTE pa ||| perm ||| PTE_V) hv64
      rw [← hw] at k3
      rw [← e2]
      exact k3

theorem mappagesLoop_ok {P : KParams} {pool : List Nat} {root : Nat} {held : List Nat}
    (m0 : Mem) (va pa perm n : Nat) (hva : va % PGSIZE = 0) (hmax : va + n * PGSIZE ≤ MAXVA)
    (hperm : perm < 1024) (hpa : pa + n * PGSIZE ≤ 2 ^ 64) :
    ∀ (fuel k : Nat) (s s' : Kmem), Held P pool s root held → GrowInv m0 s.mem root va k →
      (∀ j, j < k → mapped s.mem root (va + j * PGSIZE) ∧
        leafPte s.mem root (va + j * PGSIZE) = PA2PTE (pa + j * PGSIZE) ||| perm ||| PTE_V) →
      k < n →
      mappagesLoop P root (va + (n - 1) * PGSIZE) perm fuel (va + k * PGSIZE)
        (pa + k * PGSIZE) s = .ok (0, s') →
      Held P pool s' root held ∧ GrowInv m0 s'.mem root va n ∧
        ∀ j, j < n → mapped s'.mem root (va + j * PGSIZE) ∧
          leafPte s'.mem root (va + j * PGSIZE) = PA2PTE (pa + j * PGSIZE) ||| perm ||| PTE_V := by
  intro fuel
  induction fuel with
  | zero => intro k s s' _ _ _ _ h; cases h
  | succ fuel ih =>
    intro k s s' hH hG hrun hk h
    have hal : (va + k * PGSIZE) % PGSIZE = 0 := by simp only [PGSIZE] at hva ⊢; omega
    have hlt : va + k * PGSIZE < MAXVA := by simp only [PGSIZE] at hmax ⊢; omega
    have hpk : pa + k * PGSIZE < 2 ^ 64 := by simp only [PGSIZE] at hpa ⊢; omega
    obtain ⟨s2, e, hrest⟩ := mappagesLoop_ok_step P root _ perm fuel _ _ s s' hal hlt h
    obtain ⟨hH2, hw2, hl2, hold2, _⟩ := map_step hH _ _ perm hal hlt hperm hpk s2 e
    have hG2 := map_step_grow hH hG (fun j hj => (hrun j hj).1) _ _ perm rfl hal hlt hperm hpk s2 e
    have hrun2 : ∀ j, j < k + 1 → mapped s2.mem root (va + j * PGSIZE) ∧
        leafPte s2.mem root (va + j * PGSIZE) = PA2PTE (pa + j * PGSIZE) ||| perm ||| PTE_V := by
      intro j hj
      by_cases hjk : j = k
      · subst hjk
        exact ⟨⟨hw2, by rw [hl2]; exact mkpte_valid _ _ hperm⟩, hl2⟩
      · obtain ⟨hm, hl⟩ := hrun j (by omega)
        obtain ⟨w, l⟩ := hold2 _ hm
        exact ⟨⟨by rw [w]; exact hm.1, by rw [l]; exact hm.2⟩, by rw [l]; exact hl⟩
    by_cases hl : va + k * PGSIZE = va + (n - 1) * PGSIZE
    · rw [if_pos hl] at hrest
      have hkn : k + 1 = n := by simp only [PGSIZE] at hl; omega
      rw [hrest, ← hkn]
      exact ⟨hH2, hG2, hrun2⟩
    · rw [if_neg hl] at hrest
      have hkn : k + 1 < n := by
        by_contra hc
        have : k = n - 1 := by omega
        exact hl (by rw [this])
      have e1 : va + k * PGSIZE + PGSIZE = va + (k + 1) * PGSIZE := by
        simp only [PGSIZE]; omega
      have e2 : pa + k * PGSIZE + PGSIZE = pa + (k + 1) * PGSIZE := by
        simp only [PGSIZE]; omega
      rw [e1, e2] at hrest
      exact ih (k + 1) s2 s' hH2 hG2 hrun2 hkn hrest

theorem GrowInv_outside {m0 m : Mem} {root a0 k va : Nat} (hG : GrowInv m0 m root a0 k)
    (hn : ¬ RunSlot m root a0 k va) :
    (mapped m root va ↔ mapped m0 root va) ∧
      (mapped m0 root va → leafPte m root va = leafPte m0 root va) := by
  obtain ⟨o1, o2⟩ := hG.other va hn
  refine ⟨⟨fun hm => ?_, fun hm => ?_⟩, fun hm => o1 hm.1⟩
  · by_cases hz : walkp m0 va 2 root = 0
    · exact absurd (o2 hz hm.1) hm.2
    · exact ⟨hz, by rw [← o1 hz]; exact hm.2⟩
  · exact ⟨by rw [hG.keep va hm.1]; exact hm.1, by rw [o1 hm.1]; exact hm.2⟩

theorem PX_rounddown (l va : Nat) : PX l (PGROUNDDOWN va) = PX l va := by
  rw [PX_eq, PX_eq]
  unfold PGROUNDDOWN
  rw [pow_add, ← Nat.div_div_eq_div_mul, ← Nat.div_div_eq_div_mul,
    show (2 : Nat) ^ 12 = PGSIZE by decide, Nat.mul_div_cancel _ (by decide : 0 < PGSIZE)]

theorem walkp_rounddown (m : Mem) (va root : Nat) :
    walkp m (PGROUNDDOWN va) 2 root = walkp m va 2 root := by
  simp only [walkp, PX_rounddown]

theorem and_U_mkpte (pa perm : Nat) (hp : perm < 1024) (hu : perm &&& PTE_U ≠ 0) :
    (PA2PTE pa ||| perm ||| PTE_V) &&& PTE_U ≠ 0 := by
  have h1 : (PA2PTE pa ||| perm ||| PTE_V) &&& PTE_U
      = PTE_FLAGS (PA2PTE pa ||| perm ||| PTE_V) &&& PTE_U := by
    unfold PTE_FLAGS
    rw [Nat.and_assoc]
    rfl
  rw [h1, PTE_FLAGS_mkpte pa perm hp, Nat.and_comm, Nat.and_or_distrib_left]
  intro h
  apply hu
  have : PTE_U &&& (1 : Nat) = 0 := by decide
  rw [this, Nat.or_zero, Nat.and_comm] at h
  exact h

/-- Claim C21: for a well-formed table, page-aligned `va` and `pa`, a nonzero
`size` that is a multiple of the page size with `va + size <= MAXVA`, flags
`perm` within the ten flag bits and `pa + size` within 64 bits: when
`mappages(pt, va, size, pa, perm)` returns 0, for every `k < size/PGSIZE` the
level-0 entry of `va + k*PGSIZE` is valid, holds the physical address
`pa + k*PGSIZE` and the flags `perm | PTE_V`, and `walkaddr` returns
`pa + k*PGSIZE` when `perm` includes `PTE_U`; and for every address below
`MAXVA` outside `[va, va+size)` the entry is valid after the call exactly when
it was before, with the same content, and `walkaddr` gives the same result
(for every address at all). A target page that is already mapped makes
`mappages` halt, so on return 0 none was. -/
theorem C21_mappages_success (P : KParams) (s : Kmem) (pt va size pa perm : Nat) (s' : Kmem)
    (hwf : WfPT P s pt) (hva : va % PGSIZE = 0) (hpa : pa % PGSIZE = 0)
    (hsz : size % PGSIZE = 0) (hpos : size ≠ 0) (hmax : va + size ≤ MAXVA)
    (hperm : perm < 1024) (hpa64 : pa + size ≤ 2 ^ 64)
    (h : mappages P s pt va size pa perm = .ok (0, s')) :
    (∀ k, k < size / PGSIZE →
      mapped s'.mem pt (va + k * PGSIZE) ∧
      PTE2PA (leafPte s'.mem pt (va + k * PGSIZE)) = pa + k * PGSIZE ∧
      PTE_FLAGS (leafPte s'.mem pt (va + k * PGSIZE)) = perm ||| PTE_V ∧
      (perm &&& PTE_U ≠ 0 → walkaddr P s' pt (va + k * PGSIZE) = pa + k * PGSIZE)) ∧
    (∀ va', ¬ (va ≤ va' ∧ va' < va + size) →
      (va' < MAXVA → (mapped s'.mem pt va' ↔ mapped s.mem pt va') ∧
        (mapped s.mem pt va' → leafPte s'.mem pt va' = leafPte s.mem pt va')) ∧
      walkaddr P s' pt va' = walkaddr P s pt va') := by
  have hn : size = size / PGSIZE * PGSIZE := by simp only [PGSIZE] at hsz ⊢; omega
  have hn0 : 0 < size / PGSIZE := by simp only [PGSIZE] at hsz ⊢; omega
  have hlast : u64 (va + size - PGSIZE) = va + (size / PGSIZE - 1) * PGSIZE := by
    rw [u64_of_lt (by have := MAXVA_lt; omega)]
    simp only [PGSIZE] at hsz hn ⊢; omega
  unfold mappages at h
  rw [if_neg (not_not.2 hva), if_neg (not_not.2 hsz), if_neg hpos, hlast] at h
  have h' : mappagesLoop P pt (va + (size / PGSIZE - 1) * PGSIZE) perm (size / PGSIZE)
      (va + 0 * PGSIZE) (pa + 0 * PGSIZE) s = .ok (0, s') := by
    rw [Nat.zero_mul, Nat.add_zero, Nat.add_zero]; exact h
  obtain ⟨hH, hG, hrun⟩ := mappagesLoop_ok s.mem va pa perm (size / PGSIZE) hva
    (by rw [← hn]; exact hmax) hperm (by rw [← hn]; exact hpa64) (size / PGSIZE) 0 s s'
    (Held_init hwf) (GrowInv_init _ _ _) (fun j hj => absurd hj (Nat.not_lt_zero _)) hn0 h'
  have hout : ∀ va', va' < MAXVA → ¬ (va ≤ va' ∧ va' < va + size) →
      ¬ RunSlot s'.mem pt va (size / PGSIZE) va' := by
    rintro va' hlt' hno ⟨j, hj, e⟩
    have hmj := (hrun j hj).1
    rw [← walkp_rounddown] at e
    obtain ⟨i2, i1, i0⟩ := walkp_inj hH.wf e (by rw [e]; exact hmj.1)
    have hjal : (va + j * PGSIZE) % PGSIZE = 0 := by simp only [PGSIZE] at hva ⊢; omega
    have hjlt : va + j * PGSIZE < MAXVA := by simp only [PGSIZE] at hn hmax hj ⊢; omega
    have hral : PGROUNDDOWN va' % PGSIZE = 0 := by unfold PGROUNDDOWN; simp
    have hrlt : PGROUNDDOWN va' < MAXVA := by
      unfold PGROUNDDOWN; simp only [PGSIZE]; omega
    have := va_of_PX hral hjal hrlt hjlt i2 i1 i0
    unfold PGROUNDDOWN at this
    simp only [PGSIZE] at this hn hno hj
    omega
  refine ⟨?_, ?_⟩
  · intro k hk
    obtain ⟨hm, hl⟩ := hrun k hk
    have hpk : pa + k * PGSIZE < 2 ^ 64 := by simp only [PGSIZE] at hn hpa64 hk ⊢; omega
    have hpal : (pa + k * PGSIZE) % PGSIZE = 0 := by simp only [PGSIZE] at hpa ⊢; omega
    have hlt : va + k * PGSIZE < MAXVA := by simp only [PGSIZE] at hn hmax hk ⊢; omega
    refine ⟨hm, by rw [hl]; exact mkpte_PTE2PA _ _ hperm hpk hpal,
      by rw [hl]; exact PTE_FLAGS_mkpte _ _ hperm, ?_⟩
    intro hu
    rw [walkaddr_eq, if_neg (Nat.not_le.2 hlt), if_neg hm.1, if_neg hm.2,
      if_neg (by rw [hl]; exact and_U_mkpte _ _ hperm hu), hl]
    exact mkpte_PTE2PA _ _ hperm hpk hpal
  · intro va' hno
    have key : va' < MAXVA → (mapped s'.mem pt va' ↔ mapped s.mem pt va') ∧
        (mapped s.mem pt va' → leafPte s'.mem pt va' = leafPte s.mem pt va') :=
      fun hlt' => GrowInv_outside hG (hout va' hlt' hno)
    refine ⟨key, ?_⟩
    rw [walkaddr_eq, walkaddr_eq]
    by_cases hlt' : va' ≥ MAXVA
    · rw [if_pos hlt', if_pos hlt']
    · rw [if_neg hlt', if_neg hlt']
      obtain ⟨k1, k2⟩ := key (Nat.lt_of_not_le hlt')
      by_cases hm : mapped s.mem pt va'
      · have hm' := k1.2 hm
        rw [if_neg hm'.1, if_neg hm'.2, if_neg hm.1, if_neg hm.2, k2 hm]
      · have hm' : ¬ mapped s'.mem pt va' := fun x => hm (k1.1 x)
        have e1 : ∀ (m : Mem), ¬ mapped m pt va' →
            (if walkp m va' 2 pt = 0 then 0
              else if leafPte m pt va' &&& PTE_V = 0 then 0
              else if leafPte m pt va' &&& PTE_U = 0 then 0
              else PTE2PA (leafPte m pt va')) = 0 := by
          intro m hmm
          by_cases a1 : walkp m va' 2 pt = 0
          · rw [if_pos a1]
          · rw [if_neg a1]
            by_cases a2 : leafPte m pt va' &&& PTE_V = 0
            · rw [if_pos a2]
            · exact absurd ⟨a1, a2⟩ hmm
        rw [e1 _ hm, e1 _ hm']

/-- C21 witness: on the empty table `vmRoot` of the nine-page machine,
`mappages` of two pages at `0x3000`, readable and user-accessible, onto the
physical pages from `0x87000000` returns 0; `walkaddr` then gives the two
physical pages, and for the page at `0x5000` what it gave before. -/
theorem C21_mappages_success_witness :
    ∃ s', mappages vmK vmState vmRoot 0x3000 (2 * PGSIZE) 0x87000000 (PTE_R ||| PTE_U)
        = .ok (0, s') ∧
      walkaddr vmK s' vmRoot (0x3000 + 0 * PGSIZE) = 0x87000000 + 0 * PGSIZE ∧
      walkaddr vmK s' vmRoot (0x3000 + 1 * PGSIZE) = 0x87000000 + 1 * PGSIZE ∧
      walkaddr vmK s' vmRoot 0x5000 = walkaddr vmK vmState vmRoot 0x5000 := by
  have h1 : (mappages vmK vmState vmRoot 0x3000 (2 * PGSIZE) 0x87000000
      (PTE_R ||| PTE_U)).map (·.1) = .ok 0 := by decide!
  obtain ⟨s', h⟩ := Except_map_fst_ok h1
  have T := C21_mappages_success vmK vmState vmRoot 0x3000 (2 * PGSIZE) 0x87000000
    (PTE_R ||| PTE_U) s' vmState_wf (by decide) (by decide) (by decide) (by decide)
    (by decide) (by decide) (by decide) h
  exact ⟨s', h, (T.1 0 (by decide)).2.2.2 (by decide), (T.1 1 (by decide)).2.2.2 (by decide),
    (T.2 0x5000 (by decide)).2⟩

/-! ## The invariant of a table built by `uvmalloc` -/

theorem leaf_write_top {P : KParams} {s : Kmem} {root : Nat} (hwf : WfPT P s root)
    {va : Nat} (hw : walkp s.mem va 2 root ≠ 0) (v : Nat) :
    sameOn s.mem (write64 s.mem (walkp s.mem va 2 root) v) (root :: kids s.mem root) := by
  obtain ⟨t1, t0, _, _, e, k1, k0, ht0, _⟩ := walkp_ne_zero hw
  have hlt := leaf_not_top hwf.tp_nodup k1 k0
  have hal := tablePages_aligned hwf
  intro t ht x h1 h2
  have hta : t % PGSIZE = 0 := hal t (top_mem_tablePages (List.mem_cons.1 ht))
  have hne : t ≠ t0 := by
    rcases List.mem_cons.1 ht with e' | hk
    · exact fun e'' => hlt.1 (e''.symm.trans e')
    · exact fun e'' => hlt.2 (e'' ▸ hk)
  rw [e]
  apply write64_out
  by_contra hcon
  have hin := cell_in_page (PX_lt 0 va) (t := t0) (x := x) (by omega) (by omega)
  exact pages_disjoint hta (hal t0 ht0) hne ⟨h1, h2⟩ hin

theorem TabInv_frame {P : KParams} {s s' : Kmem} {root : Nat} (h : TabInv P s root)
    (hm : sameOn s.mem s'.mem (root :: kids s.mem root))
    (hk : ∀ t ∈ tablePages s.mem root, s'.kmemref (P.PGIDX t) = 1) : TabInv P s' root := by
  have hkids := (sameOn_kids hm).1
  have htp := sameOn_tablePages hm
  refine ⟨?_, ?_⟩
  · intro t ht i hi hv
    rw [hkids] at ht
    have hc : pteAt s'.mem t i = pteAt s.mem t i := pteAt_congr hi (hm t (List.mem_cons.2 ht))
    rw [hc] at hv ⊢
    exact h.ent t ht i hi hv
  · intro t ht
    rw [htp] at ht
    exact ⟨(h.tref t ht).1, hk t ht⟩

theorem tabpte_flags (r : Nat) : PTE_FLAGS (PA2PTE r ||| PTE_V) = PTE_V := by
  rw [tabpte_eq, PTE_FLAGS_mkpte _ 0 (by norm_num)]
  rfl

theorem TabInv_install {P : KParams} {s : Kmem} {root : Nat} (h : TabInv P s root)
    (hwf : WfPT P s root) {parent idx r : Nat} {l : List Nat}
    (hp : parent = root ∨ parent ∈ kids s.mem root) (hidx : idx < 512)
    (hinv : child s.mem parent idx = none) (hrm : managed P r)
    (hrt : r ∉ tablePages s.mem root) :
    TabInv P (install P s (parent + 8 * idx) r l) root := by
  have hpa := top_aligned hwf hp
  have hperm := install_tablePages (l := l) hwf hp hidx hinv hrm hrt
  have hpr : parent ≠ r := fun e => hrt (e ▸ top_mem_tablePages hp)
  have hrr : root ≠ r := fun e => hrt (e ▸ top_mem_tablePages (Or.inl rfl))
  refine ⟨?_, ?_⟩
  · intro t ht i hi hv
    have htm' : t ∈ r :: tablePages s.mem root := hperm.mem_iff.1 (top_mem_tablePages ht)
    have hta : t % PGSIZE = 0 := by
      rcases List.mem_cons.1 htm' with e | h'
      · rw [e]; exact hrm.1
      · exact tablePages_aligned hwf t h'
    rw [install_pteAt hpa hidx hrm.1 (managed_lt P hrm) hta hi] at hv ⊢
    by_cases h1 : t = parent ∧ i = idx
    · rw [if_pos h1]
      exact tabpte_flags r
    · rw [if_neg h1] at hv ⊢
      by_cases h2 : t = r
      · rw [if_pos h2] at hv
        exact absurd (Nat.zero_and _) hv
      · rw [if_neg h2] at hv ⊢
        have hold : t = root ∨ t ∈ kids s.mem root := by
          rcases ht with e | hk
          · exact Or.inl e
          · right
            rcases hp with hp | hp
            · subst hp
              have := (kids_install_parent (l := l) hpa hidx hrm.1 (managed_lt P hrm) hpr
                hinv).mem_iff.1 hk
              rcases List.mem_cons.1 this with e | h'
              · exact absurd e h2
              · exact h'
            · have hne : root ≠ parent := fun e => kids_root_not_root hwf.tp_nodup hp e.symm
              rw [kids_install_other hpa hidx hrm.1 (managed_lt P hrm) hpr hwf.root_aligned hne
                hrr] at hk
              exact hk
        exact h.ent t hold i hi hv
  · intro t ht
    rcases List.mem_cons.1 (hperm.mem_iff.1 ht) with e | h'
    · rw [e]
      exact ⟨hrm, upd_same _ _ _⟩
    · refine ⟨(h.tref t h').1, ?_⟩
      show upd s.kmemref (P.PGIDX r) 1 (P.PGIDX t) = 1
      unfold upd
      split
      · rfl
      · exact (h.tref t h').2

theorem TabInv_walk_level1 {P : KParams} {pool : List Nat} {s : Kmem} {root : Nat}
    {held : List Nat} (h : Held P pool s root held) (ht : TabInv P s root) (va t1 : Nat)
    (h2 : child s.mem root (PX 2 va) = some t1) :
    TabInv P (walkLoop P true va 1 s t1).2 root := by
  have k1 : t1 ∈ kids s.mem root := (mem_kids _ _ _).2 ⟨_, PX_lt 2 va, h2⟩
  cases c1 : child s.mem t1 (PX 1 va) with
  | some t0 =>
    rw [walkLoop_succ_valid P true va 0 s t1 t0 c1, walkLoop_zero]
    exact ht
  | none =>
    cases hf : s.freelist with
    | nil =>
      rw [walkLoop_succ_nil P va 0 s t1 c1 hf]
      exact ht
    | cons r rest =>
      have hrf : r ∈ s.freelist := by rw [hf]; exact List.mem_cons_self _ _
      have hrm : managed P r := h.wf.fl_managed r hrf
      have hrt : r ∉ tablePages s.mem root := fun ht => h.wf.tp_fl r ht hrf
      rw [walkLoop_succ_cons P va 0 s t1 r rest c1 hf (Nat.pos_iff_ne_zero.1 (managed_pos P hrm)),
        walkLoop_zero]
      exact TabInv_install ht h.wf (Or.inr k1) (PX_lt 1 va) c1 hrm hrt

theorem TabInv_walk {P : KParams} {pool : List Nat} {s : Kmem} {root : Nat}
    {held : List Nat} (h : Held P pool s root held) (ht : TabInv P s root) (va : Nat) :
    TabInv P (walkLoop P true va 2 s root).2 root := by
  cases c2 : child s.mem root (PX 2 va) with
  | some t1 =>
    rw [walkLoop_succ_valid P true va 1 s root t1 c2]
    exact TabInv_walk_level1 h ht va t1 c2
  | none =>
    cases hf : s.freelist with
    | nil =>
      rw [walkLoop_succ_nil P va 1 s root c2 hf]
      exact ht
    | cons r rest =>
      have hrf : r ∈ s.freelist := by rw [hf]; exact List.mem_cons_self _ _
      have hrm : managed P r := h.wf.fl_managed r hrf
      have hrt : r ∉ tablePages s.mem root := fun ht => h.wf.tp_fl r ht hrf
      rw [walkLoop_succ_cons P va 1 s root r rest c2 hf
        (Nat.pos_iff_ne_zero.1 (managed_pos P hrm))]
      have hH := install_Held h (Or.inl rfl) (PX_lt 2 va) c2 hf
      have hT := TabInv_install (l := rest) ht h.wf (Or.inl rfl) (PX_lt 2 va) c2 hrm hrt
      have h2' : child (install P s (root + 8 * PX 2 va) r rest).mem root (PX 2 va) = some r := by
        rw [install_child h.wf.root_aligned (PX_lt 2 va) hrm.1 (managed_lt P hrm)
          h.wf.root_aligned (PX_lt 2 va), if_pos ⟨rfl, rfl⟩]
      exact TabInv_walk_level1 hH hT va r h2'

theorem and_two_pow_ne_zero (x k : Nat) : x &&& 2 ^ k ≠ 0 ↔ x.testBit k = true := by
  constructor
  · intro h
    obtain ⟨i, hi⟩ := Nat.ne_zero_implies_bit_true h
    rw [Nat.testBit_and, Nat.testBit_two_pow] at hi
    simp only [Bool.and_eq_true, decide_eq_true_eq] at hi
    rw [hi.2]; exact hi.1
  · intro h e
    have : (x &&& 2 ^ k).testBit k = true := by
      rw [Nat.testBit_and, Nat.testBit_two_pow, h]; simp
    rw [e] at this
    simp at this

theorem mkpte_R (pa xperm : Nat) :
    (PA2PTE pa ||| (PTE_R ||| PTE_U ||| xperm) ||| PTE_V) &&& PTE_R ≠ 0 := by
  have : PTE_R = 2 ^ 1 := rfl
  rw [this, and_two_pow_ne_zero]
  simp only [Nat.testBit_or]
  have hb : Nat.testBit 2 1 = true := by decide
  simp [hb]

theorem and_div_pow (a b : Nat) : ∀ k, (a &&& b) / 2 ^ k = a / 2 ^ k &&& b / 2 ^ k
  | 0 => by simp
  | k + 1 => by
    rw [pow_succ, ← Nat.div_div_eq_div_mul, ← Nat.div_div_eq_div_mul, ← Nat.div_div_eq_div_mul,
      and_div_pow a b k, Nat.and_div_two]

theorem clearU_valid (e : Nat) : (e &&& (2 ^ 64 - 1 - PTE_U)) &&& PTE_V = e &&& PTE_V := by
  rw [Nat.and_assoc]
  rfl

theorem clearU_R (e : Nat) : (e &&& (2 ^ 64 - 1 - PTE_U)) &&& PTE_R = e &&& PTE_R := by
  rw [Nat.and_assoc]
  rfl

theorem clearU_PTE2PA (e : Nat) (he : e < 2 ^ 64) :
    PTE2PA (e &&& (2 ^ 64 - 1 - PTE_U)) = PTE2PA e := by
  unfold PTE2PA
  rw [Nat.shiftRight_eq_div_pow, Nat.shiftRight_eq_div_pow, and_div_pow]
  have h1 : (2 ^ 64 - 1 - PTE_U) / 2 ^ 10 = 2 ^ 54 - 1 := by decide
  rw [h1, Nat.and_pow_two_sub_one_of_lt_two_pow]
  rw [Nat.div_lt_iff_lt_mul (by norm_num)]
  calc e < 2 ^ 64 := he
    _ = 2 ^ 54 * 2 ^ 10 := by norm_num

theorem flagsV_perm (e : Nat) (h : PTE_FLAGS e = PTE_V) : e &&& permBits = 0 := by
  have h1 : e &&& permBits = PTE_FLAGS e &&& permBits := by
    unfold PTE_FLAGS
    rw [Nat.and_assoc]
    rfl
  rw [h1, h]
  rfl

theorem R_perm (e : Nat) (h : e &&& PTE_R ≠ 0) : e &&& permBits ≠ 0 := by
  have h1 : PTE_R = 2 ^ 1 := rfl
  rw [h1, and_two_pow_ne_zero] at h
  intro hz
  have : (e &&& permBits).testBit 1 = true := by
    rw [Nat.testBit_and, h]
    decide
  rw [hz] at this
  simp at this

theorem kfree_held {P : KParams} {pool : List Nat} {s : Kmem} {root : Nat} {held : List Nat}
    (h : Held P pool s root held) {d : Nat} (hd : d ∈ held) :
    ∃ s', kfree P s d = some s' ∧ s'.freelist = d :: s.freelist ∧
      Held P pool s' root (held.erase d) ∧ LeafPres s.mem s'.mem root ∧
      sameOn s.mem s'.mem (tablePages s.mem root) ∧
      s'.kmemref = upd s.kmemref (P.PGIDX d) 0 := by
  obtain ⟨s', hs', hfl, hH, hL⟩ := Held_kfree h hd
  obtain ⟨hdm, hdf, hdt, hdk⟩ := h.props d hd
  obtain ⟨_, hk, hc⟩ := kfree_eq_some hs'
  rw [hdk, i32_zero] at hk hc
  rcases hc with ⟨_, _, hmem⟩ | ⟨hnz, _, _⟩
  · refine ⟨s', hs', hfl, hH, hL, ?_, hk⟩
    refine outside_sameOn hdm.1 (tablePages_aligned h.wf) hdt ?_
    intro x hx
    simp only [PGSIZE] at hx
    rw [hmem, write64_out _ _ _ _ (by omega),
      memset_out _ _ _ _ _ (by simp only [PGSIZE]; omega)]
  · exact absurd rfl hnz

theorem PtInv_kalloc_zero {P : KParams} {pool : List Nat} {s : Kmem} {root : Nat}
    {held live : List Nat} (h : PtInv P pool s root held live) {r : Nat} {rest : List Nat}
    (hf : s.freelist = r :: rest) :
    (kalloc P s).1 = r ∧ managed P r ∧ r ∉ live ∧
      PtInv P pool { (kalloc P s).2 with mem := memset (kalloc P s).2.mem r 0 PGSIZE } root
        (held ++ [r]) live := by
  obtain ⟨e1, hrm, hH1, hL1⟩ := Held_kalloc h.acc hf
  have hrin : r ∈ held ++ [r] := List.mem_append_right _ (List.mem_singleton_self _)
  obtain ⟨hH2, hL2⟩ := Held_data_write hH1 hrin (memset (kalloc P s).2.mem r 0 PGSIZE)
    (fun x hx => memset_out _ _ _ _ _ (by omega))
  have hL := LeafPres_trans hL1 hL2
  have hrf : r ∈ s.freelist := by rw [hf]; exact List.mem_cons_self _ _
  have hrt : r ∉ tablePages s.mem root := fun ht => h.acc.wf.tp_fl r ht hrf
  have hrl : r ∉ live := fun hl => (h.acc.props r (h.sub r hl)).2.1 hrf
  have hk := kalloc_cons P s r rest hf
  refine ⟨e1, hrm, hrl, hH2, ?_, fun d hd => List.mem_append_left _ (h.sub d hd),
    LeafInv_pres hL h.leaf, Uniq_pres hL h.uniq, ?_⟩
  · refine TabInv_frame h.tab (sameOn_top ?_) ?_
    · refine outside_sameOn hrm.1 (tablePages_aligned h.acc.wf) hrt ?_
      intro x hx
      show memset (kalloc P s).2.mem r 0 PGSIZE x = s.mem x
      rw [hk, memset_out _ _ _ _ _ (by omega)]
      show memset s.mem r 5 PGSIZE x = s.mem x
      rw [memset_out _ _ _ _ _ (by omega)]
    · intro t ht
      show (kalloc P s).2.kmemref (P.PGIDX t) = 1
      rw [hk]
      show upd s.kmemref (P.PGIDX r) 1 (P.PGIDX t) = 1
      unfold upd
      split
      · rfl
      · exact (h.tab.tref t ht).2
  · intro va hm
    obtain ⟨hm0, _, hl⟩ := LeafPres_mapped_back hL hm
    show leafPte (memset (kalloc P s).2.mem r 0 PGSIZE) root va &&& PTE_R ≠ 0
    rw [hl]
    exact h.rd va hm0

theorem PtInv_kfree {P : KParams} {pool : List Nat} {s : Kmem} {root : Nat}
    {held live : List Nat} (h : PtInv P pool s root held live) {d : Nat} (hd : d ∈ held)
    (hdl : d ∉ live) (s' : Kmem) (e : kfree P s d = some s') :
    PtInv P pool s' root (held.erase d) live := by
  obtain ⟨s2, e2, _, hH, hL, hs, hk⟩ := kfree_held h.acc hd
  rw [e] at e2
  injection e2 with e2
  subst e2
  obtain ⟨hdm, _, hdt, _⟩ := h.acc.props d hd
  refine ⟨hH, ?_, ?_, LeafInv_pres hL h.leaf, Uniq_pres hL h.uniq, ?_⟩
  · refine TabInv_frame h.tab (sameOn_top hs) ?_
    intro t ht
    rw [hk, upd_other _ _ _ _ (PGIDX_ne P (h.tab.tref t ht).1 hdm (fun e => hdt (e ▸ ht)))]
    exact (h.tab.tref t ht).2
  · intro x hx
    exact (List.mem_erase_of_ne (fun e => hdl (by rw [← e]; exact hx))).2 (h.sub x hx)
  · intro va hm
    obtain ⟨hm0, _, hl⟩ := LeafPres_mapped_back hL hm
    rw [hl]
    exact h.rd va hm0

theorem PtInv_leaf_set {P : KParams} {pool : List Nat} {s : Kmem} {root : Nat}
    {held live : List Nat} (h : PtInv P pool s root held live) {a : Nat}
    (hw : walkp s.mem a 2 root ≠ 0)
    (r xperm : Nat) (hx : xperm < 1024) (hr : r ∈ held) (hrl : r ∉ live) (s' : Kmem)
    (hf : s'.freelist = s.freelist) (hk : s'.kmemref = s.kmemref)
    (hm : s'.mem = write64 s.mem (walkp s.mem a 2 root)
      (PA2PTE r ||| (PTE_R ||| PTE_U ||| xperm) ||| PTE_V)) :
    PtInv P pool s' root held (live ++ [r]) := by
  have hperm := uperm_lt xperm hx
  have hrm : managed P r := (h.acc.props r hr).1
  have hv64 := Nat.lt_trans (mkpte_lt r _ hperm (managed_lt P hrm))
    (by norm_num : 2 ^ 62 < 2 ^ 64)
  obtain ⟨htp, hch⟩ := leaf_write_char h.acc.wf hw (PA2PTE r ||| (PTE_R ||| PTE_U ||| xperm)
    ||| PTE_V) hv64
  have htop := leaf_write_top h.acc.wf hw (PA2PTE r ||| (PTE_R ||| PTE_U ||| xperm) ||| PTE_V)
  rw [← hm] at htp hch htop
  have hcase : ∀ va', mapped s'.mem root va' →
      (walkp s.mem va' 2 root = walkp s.mem a 2 root ∧
        leafPte s'.mem root va' = PA2PTE r ||| (PTE_R ||| PTE_U ||| xperm) ||| PTE_V) ∨
      (walkp s.mem va' 2 root ≠ walkp s.mem a 2 root ∧ mapped s.mem root va' ∧
        leafPte s'.mem root va' = leafPte s.mem root va') := by
    intro va' hm'
    have hw' : walkp s.mem va' 2 root ≠ 0 := by
      rw [← (hch va').1]; exact hm'.1
    have hl := (hch va').2 hw'
    by_cases heq : walkp s.mem va' 2 root = walkp s.mem a 2 root
    · rw [if_pos heq] at hl
      exact Or.inl ⟨heq, hl⟩
    · rw [if_neg heq] at hl
      exact Or.inr ⟨heq, ⟨hw', by rw [← hl]; exact hm'.2⟩, hl⟩
  have hpa := mkpte_PTE2PA r _ hperm (managed_lt P hrm) hrm.1
  refine ⟨Held_of_tablePages_eq h.acc hf hk htp,
    TabInv_frame h.tab htop (fun t ht => by rw [hk]; exact (h.tab.tref t ht).2), ?_, ?_, ?_, ?_⟩
  · intro d hd
    rcases List.mem_append.1 hd with hd | hd
    · exact h.sub d hd
    · rw [List.mem_singleton] at hd; rw [hd]; exact hr
  · intro va' hm'
    rcases hcase va' hm' with ⟨_, hl⟩ | ⟨_, hm0, hl⟩
    · rw [hl, hpa]
      exact List.mem_append_right _ (List.mem_singleton_self _)
    · rw [hl]
      exact List.mem_append_left _ (h.leaf va' hm0)
  · intro va1 va2 hm1 hm2 hpe
    rw [(hch va1).1, (hch va2).1]
    rcases hcase va1 hm1 with ⟨w1, l1⟩ | ⟨w1, m1, l1⟩ <;>
      rcases hcase va2 hm2 with ⟨w2, l2⟩ | ⟨w2, m2, l2⟩
    · rw [w1, w2]
    · exfalso
      have : PTE2PA (leafPte s.mem root va2) = r := by
        rw [← l2, ← hpa, ← l1]; exact hpe.symm
      exact hrl (this ▸ h.leaf va2 m2)
    · exfalso
      have : PTE2PA (leafPte s.mem root va1) = r := by
        rw [← l1, ← hpa, ← l2]; exact hpe
      exact hrl (this ▸ h.leaf va1 m1)
    · exact h.uniq va1 va2 m1 m2 (by rw [← l1, ← l2]; exact hpe)
  · intro va' hm'
    rcases hcase va' hm' with ⟨_, hl⟩ | ⟨_, hm0, hl⟩
    · rw [hl]
      exact mkpte_R r xperm
    · rw [hl]
      exact h.rd va' hm0

theorem PtInv_map_one {P : KParams} {pool : List Nat} {s : Kmem} {root : Nat}
    {held live : List Nat} (h : PtInv P pool s root held live) (a r xperm : Nat)
    (hal : a % PGSIZE = 0) (hlt : a < MAXVA) (hx : xperm < 1024) (hr : r ∈ held)
    (hrl : r ∉ live) (rc : Int) (s3 : Kmem)
    (e : mappages P s root a PGSIZE r (PTE_R ||| PTE_U ||| xperm) = .ok (rc, s3)) :
    (rc = 0 ∧ PtInv P pool s3 root held (live ++ [r])) ∨
      (rc ≠ 0 ∧ PtInv P pool s3 root held live) := by
  rw [mappages_one P s root a r _ hal hlt] at e
  obtain ⟨hH, hL, hp⟩ := walk_alloc_spec h.acc a
  have hT := TabInv_walk h.acc h.tab a
  have hrd : ∀ va, mapped (walkLoop P true a 2 s root).2.mem root va →
      leafPte (walkLoop P true a 2 s root).2.mem root va &&& PTE_R ≠ 0 := by
    intro va hm
    obtain ⟨hm0, _, hl⟩ := LeafPres_mapped_back hL hm
    rw [hl]
    exact h.rd va hm0
  have hI : PtInv P pool (walkLoop P true a 2 s root).2 root held live :=
    ⟨hH, hT, h.sub, LeafInv_pres hL h.leaf, Uniq_pres hL h.uniq, hrd⟩
  by_cases h0 : (walkLoop P true a 2 s root).1 = 0
  · rw [if_pos h0] at e
    injection e with e
    injection e with e1 e2
    right
    rw [← e2]
    exact ⟨by rw [← e1]; decide, hI⟩
  · rw [if_neg h0] at e
    by_cases hv : read64 (walkLoop P true a 2 s root).2.mem (walkLoop P true a 2 s root).1
        &&& PTE_V ≠ 0
    · rw [if_pos hv] at e; cases e
    · rw [if_neg hv] at e
      injection e with e
      injection e with e1 e2
      left
      refine ⟨e1.symm, ?_⟩
      have hw := hp h0
      have hw0 : walkp (walkLoop P true a 2 s root).2.mem a 2 root ≠ 0 := by rw [← hw]; exact h0
      refine PtInv_leaf_set hI hw0 r xperm hx hr hrl s3 ?_ ?_ ?_
      · rw [← e2]
      · rw [← e2]
      · rw [← e2, ← hw]

theorem PtInv_leaf_clear {P : KParams} {pool : List Nat} {s : Kmem} {root : Nat}
    {H live : List Nat} (hH : Held P pool s root H) (hT : TabInv P s root)
    (hleaf : LeafInv s.mem root live) (huniq : Uniq s.mem root)
    (hrd : ∀ va, mapped s.mem root va → leafPte s.mem root va &&& PTE_R ≠ 0) {a : Nat}
    (hm : mapped s.mem root a)
    (hsub : ∀ x ∈ live, x ≠ PTE2PA (leafPte s.mem root a) → x ∈ H) (s' : Kmem)
    (hf : s'.freelist = s.freelist) (hk : s'.kmemref = s.kmemref)
    (hmem : s'.mem = write64 s.mem (walkp s.mem a 2 root) 0) :
    PtInv P pool s' root H
      (live.filter (fun x => decide (x ≠ PTE2PA (leafPte s.mem root a)))) := by
  obtain ⟨htp, hch⟩ := leaf_write_char hH.wf hm.1 0 (by norm_num)
  have htop := leaf_write_top hH.wf hm.1 0
  rw [← hmem] at htp hch htop
  have hcase : ∀ va', mapped s'.mem root va' →
      walkp s.mem va' 2 root ≠ walkp s.mem a 2 root ∧ mapped s.mem root va' ∧
        leafPte s'.mem root va' = leafPte s.mem root va' := by
    intro va' hm'
    have hw' : walkp s.mem va' 2 root ≠ 0 := by
      rw [← (hch va').1]; exact hm'.1
    have hl := (hch va').2 hw'
    by_cases heq : walkp s.mem va' 2 root = walkp s.mem a 2 root
    · rw [if_pos heq] at hl
      exact absurd (by rw [hl]; rfl) hm'.2
    · rw [if_neg heq] at hl
      exact ⟨heq, ⟨hw', by rw [← hl]; exact hm'.2⟩, hl⟩
  refine ⟨Held_of_tablePages_eq hH hf hk htp,
    TabInv_frame hT htop (fun t ht => by rw [hk]; exact (hT.tref t ht).2), ?_, ?_, ?_, ?_⟩
  · intro x hx
    obtain ⟨h1, h2⟩ := List.mem_filter.1 hx
    exact hsub x h1 (of_decide_eq_true h2)
  · intro va' hm'
    obtain ⟨hne, hm0, hl⟩ := hcase va' hm'
    rw [hl]
    refine List.mem_filter.2 ⟨hleaf va' hm0, decide_eq_true ?_⟩
    intro e
    exact hne (huniq va' a hm0 hm e)
  · intro va1 va2 hm1 hm2 hpe
    rw [(hch va1).1, (hch va2).1]
    obtain ⟨_, m1, l1⟩ := hcase va1 hm1
    obtain ⟨_, m2, l2⟩ := hcase va2 hm2
    exact huniq va1 va2 m1 m2 (by rw [← l1, ← l2]; exact hpe)
  · intro va' hm'
    obtain ⟨_, hm0, hl⟩ := hcase va' hm'
    rw [hl]
    exact hrd va' hm0

theorem PtInv_unmap_keep {P : KParams} {pool : List Nat} {s : Kmem} {root : Nat}
    {held live : List Nat} (h : PtInv P pool s root held live) {a : Nat}
    (hm : mapped s.mem root a) :
    PtOK P pool { s with mem := write64 s.mem (walkp s.mem a 2 root) 0 } root :=
  ⟨held, _, PtInv_leaf_clear h.acc h.tab h.leaf h.uniq h.rd hm (fun x hx _ => h.sub x hx) _
    rfl rfl rfl⟩

theorem PtInv_unmap_free {P : KParams} {pool : List Nat} {s : Kmem} {root : Nat}
    {held live : List Nat} (h : PtInv P pool s root held live) {a : Nat}
    (hm : mapped s.mem root a) :
    ∃ s2, kfree P s (PTE2PA (leafPte s.mem root a)) = some s2 ∧
      PtOK P pool { s2 with mem := write64 s2.mem (walkp s.mem a 2 root) 0 } root := by
  have hd := h.sub _ (h.leaf a hm)
  obtain ⟨s2, e2, _, hH, hL, hs, hk⟩ := kfree_held h.acc hd
  obtain ⟨hdm, _, hdt, _⟩ := h.acc.props _ hd
  obtain ⟨hm2, hw2, hl2⟩ := LeafPres_mapped hL hm
  have hT : TabInv P s2 root := by
    refine TabInv_frame h.tab (sameOn_top hs) ?_
    intro t ht
    rw [hk, upd_other _ _ _ _ (PGIDX_ne P (h.tab.tref t ht).1 hdm (fun e => hdt (e ▸ ht)))]
    exact (h.tab.tref t ht).2
  have hrd : ∀ va, mapped s2.mem root va → leafPte s2.mem root va &&& PTE_R ≠ 0 := by
    intro va hmv
    obtain ⟨hm0, _, hl⟩ := LeafPres_mapped_back hL hmv
    rw [hl]
    exact h.rd va hm0
  refine ⟨s2, e2, held.erase (PTE2PA (leafPte s.mem root a)), _,
    PtInv_leaf_clear hH hT (LeafInv_pres hL h.leaf) (Uniq_pres hL h.uniq) hrd hm2 ?_ _ rfl rfl
      (by rw [hw2])⟩
  intro x hx hne
  rw [hl2] at hne
  exact (List.mem_erase_of_ne hne).2 (h.sub x hx)

theorem PtInv_clearU {P : KParams} {pool : List Nat} {s : Kmem} {root : Nat}
    {held live : List Nat} (h : PtInv P pool s root held live) {a : Nat}
    (hw : walkp s.mem a 2 root ≠ 0) (s' : Kmem)
    (hf : s'.freelist = s.freelist) (hk : s'.kmemref = s.kmemref)
    (hmem : s'.mem = write64 s.mem (walkp s.mem a 2 root)
      (leafPte s.mem root a &&& (2 ^ 64 - 1 - PTE_U))) :
    PtInv P pool s' root held live := by
  have he : leafPte s.mem root a < 2 ^ 64 := read64_lt _ _
  have hv64 : leafPte s.mem root a &&& (2 ^ 64 - 1 - PTE_U) < 2 ^ 64 :=
    Nat.lt_of_le_of_lt Nat.and_le_left he
  obtain ⟨htp, hch⟩ := leaf_write_char h.acc.wf hw _ hv64
  have htop := leaf_write_top h.acc.wf hw (leafPte s.mem root a &&& (2 ^ 64 - 1 - PTE_U))
  rw [← hmem] at htp hch htop
  have hcase : ∀ va', walkp s.mem va' 2 root ≠ 0 →
      leafPte s'.mem root va' &&& PTE_V = leafPte s.mem root va' &&& PTE_V ∧
      leafPte s'.mem root va' &&& PTE_R = leafPte s.mem root va' &&& PTE_R ∧
      PTE2PA (leafPte s'.mem root va') = PTE2PA (leafPte s.mem root va') := by
    intro va' hw'
    have hl := (hch va').2 hw'
    by_cases heq : walkp s.mem va' 2 root = walkp s.mem a 2 root
    · rw [if_pos heq] at hl
      rw [hl, leafPte_of_slot heq]
      exact ⟨clearU_valid _, clearU_R _, clearU_PTE2PA _ he⟩
    · rw [if_neg heq] at hl
      rw [hl]
      exact ⟨rfl, rfl, rfl⟩
  have hback : ∀ va', mapped s'.mem root va' → mapped s.mem root va' := by
    intro va' hm'
    have hw' : walkp s.mem va' 2 root ≠ 0 := by
      rw [← (hch va').1]; exact hm'.1
    exact ⟨hw', by rw [← (hcase va' hw').1]; exact hm'.2⟩
  refine ⟨Held_of_tablePages_eq h.acc hf hk htp,
    TabInv_frame h.tab htop (fun t ht => by rw [hk]; exact (h.tab.tref t ht).2), h.sub,
    ?_, ?_, ?_⟩
  · intro va' hm'
    have hm0 := hback va' hm'
    rw [(hcase va' hm0.1).2.2]
    exact h.leaf va' hm0
  · intro va1 va2 hm1 hm2 hpe
    rw [(hch va1).1, (hch va2).1]
    have m1 := hback va1 hm1
    have m2 := hback va2 hm2
    exact h.uniq va1 va2 m1 m2 (by
      rw [← (hcase va1 m1.1).2.2, ← (hcase va2 m2.1).2.2]; exact hpe)
  · intro va' hm'
    have hm0 := hback va' hm'
    rw [(hcase va' hm0.1).2.1]
    exact h.rd va' hm0

theorem uvmunmapLoop_inv {P : KParams} {pool : List Nat} {root : Nat} (lim : Nat)
    (do_free : Bool) :
    ∀ (fuel a : Nat) (s s' : Kmem), PtOK P pool s root →
      uvmunmapLoop P root lim do_free fuel a s = .ok s' → PtOK P pool s' root := by
  intro fuel
  induction fuel with
  | zero => intro a s s' _ h; cases h
  | succ fuel ih =>
    intro a s s' hI h
    rw [uvmunmapLoop] at h
    by_cases h1 : a < lim
    · rw [if_pos h1] at h
      unfold walk at h
      by_cases h3 : a ≥ MAXVA
      · rw [if_pos h3] at h; cases h
      · rw [if_neg h3, walkLoop_false] at h
        simp only at h
        by_cases hw : walkp s.mem a 2 root = 0
        · rw [if_pos hw] at h; cases h
        · rw [if_neg hw] at h
          by_cases hv : read64 s.mem (walkp s.mem a 2 root) &&& PTE_V = 0
          · rw [if_pos hv] at h; cases h
          · rw [if_neg hv] at h
            by_cases hfl : PTE_FLAGS (read64 s.mem (walkp s.mem a 2 root)) = PTE_V
            · rw [if_pos hfl] at h; cases h
            · rw [if_neg hfl] at h
              have hm : mapped s.mem root a := ⟨hw, hv⟩
              obtain ⟨held, live, hP⟩ := hI
              cases do_free with
              | false =>
                simp only [Bool.false_eq_true, if_false] at h
                exact ih _ _ _ (PtInv_unmap_keep hP hm) h
              | true =>
                simp only [if_true] at h
                obtain ⟨s2, e2, hI2⟩ := PtInv_unmap_free hP hm
                unfold leafPte at e2
                rw [e2] at h
                exact ih _ _ _ hI2 h
    · rw [if_neg h1] at h
      injection h with h
      rw [← h]
      exact hI

theorem uvmunmap_inv {P : KParams} {pool : List Nat} {root : Nat} (s s' : Kmem)
    (va npages : Nat) (do_free : Bool) (hI : PtOK P pool s root)
    (h : uvmunmap P s root va npages do_free = .ok s') : PtOK P pool s' root := by
  unfold uvmunmap at h
  split at h
  · cases h
  · exact uvmunmapLoop_inv _ _ _ _ _ _ hI h

theorem uvmdealloc_inv {P : KParams} {pool : List Nat} {root : Nat} (s s' : Kmem)
    (oldsz newsz r : Nat) (hI : PtOK P pool s root)
    (h : uvmdealloc P s root oldsz newsz = .ok (r, s')) : PtOK P pool s' root := by
  unfold uvmdealloc at h
  split at h
  · injection h with h
    injection h with _ h
    rw [← h]; exact hI
  · split at h
    · simp only at h
      split at h
      · cases h
      · rename_i s1 e1
        injection h with h
        injection h with _ h
        rw [← h]
        exact uvmunmap_inv _ _ _ _ _ hI e1
    · injection h with h
      injection h with _ h
      rw [← h]; exact hI

theorem uvmclear_inv {P : KParams} {pool : List Nat} {root : Nat} (s s' : Kmem) (va : Nat)
    (hI : PtOK P pool s root) (h : uvmclear P s root va = .ok s') : PtOK P pool s' root := by
  unfold uvmclear walk at h
  by_cases h3 : va ≥ MAXVA
  · rw [if_pos h3] at h; cases h
  · rw [if_neg h3, walkLoop_false] at h
    simp only at h
    by_cases hw : walkp s.mem va 2 root = 0
    · rw [if_pos hw] at h; cases h
    · rw [if_neg hw] at h
      injection h with h
      obtain ⟨held, live, hP⟩ := hI
      refine ⟨held, live, PtInv_clearU hP hw s' ?_ ?_ ?_⟩
      · rw [← h]
      · rw [← h]
      · rw [← h]; rfl

theorem uvmallocLoop_inv {P : KParams} {pool : List Nat} {root : Nat} (oldsz newsz xperm : Nat)
    (hx : xperm < 1024) :
    ∀ (fuel a : Nat) (s : Kmem) (r : Nat) (s' : Kmem), PtOK P pool s root →
      uvmallocLoop P root oldsz newsz xperm fuel a s = .ok (r, s') → PtOK P pool s' root := by
  intro fuel
  induction fuel with
  | zero => intro a s r s' _ h; cases h
  | succ fuel ih =>
    intro a s r s' hI h
    rw [uvmallocLoop] at h
    by_cases h1 : a < newsz
    · rw [if_pos h1] at h
      simp only at h
      cases hf : s.freelist with
      | nil =>
        rw [kalloc_nil P s hf] at h
        simp only [if_true] at h
        split at h
        · cases h
        · rename_i x s1 e1
          injection h with h
          injection h with _ h
          rw [← h]
          exact uvmdealloc_inv _ _ _ _ _ hI e1
      | cons r0 rest =>
        obtain ⟨held, live, hP⟩ := hI
        obtain ⟨e1, hrm, hrl, hP2⟩ := PtInv_kalloc_zero hP hf
        have hr0 : r0 ≠ 0 := Nat.pos_iff_ne_zero.1 (managed_pos P hrm)
        rw [e1, if_neg hr0] at h
        have hrin : r0 ∈ held ++ [r0] := List.mem_append_right _ (List.mem_singleton_self _)
        by_cases hal : a % PGSIZE = 0 ∧ a < MAXVA
        · split at h
          · cases h
          · rename_i rc s3 e3
            rcases PtInv_map_one hP2 a r0 xperm hal.1 hal.2 hx hrin hrl rc s3 e3 with
              ⟨hrc, hP3⟩ | ⟨hrc, hP3⟩
            · rw [if_neg (not_not.2 hrc)] at h
              exact ih _ _ _ _ ⟨_, _, hP3⟩ h
            · rw [if_pos hrc] at h
              split at h
              · cases h
              · rename_i s4 e4
                have hP4 := PtInv_kfree hP3 hrin hrl s4 e4
                split at h
                · cases h
                · rename_i x s5 e5
                  injection h with h
                  injection h with _ h
                  rw [← h]
                  exact uvmdealloc_inv _ _ _ _ _ ⟨_, _, hP4⟩ e5
        · obtain ⟨e, he⟩ := mappages_panic P
            { (kalloc P s).2 with mem := memset (kalloc P s).2.mem r0 0 PGSIZE } root a r0
            (PTE_R ||| PTE_U ||| xperm) hal
          rw [he] at h
          cases h
    · rw [if_neg h1] at h
      injection h with h
      injection h with _ h
      rw [← h]
      exact hI

theorem uvmalloc_inv {P : KParams} {pool : List Nat} {root : Nat} (s s' : Kmem)
    (oldsz newsz xperm r : Nat) (hx : xperm < 1024) (hI : PtOK P pool s root)
    (h : uvmalloc P s root oldsz newsz xperm = .ok (r, s')) : PtOK P pool s' root := by
  unfold uvmalloc at h
  split at h
  · injection h with h
    injection h with _ h
    rw [← h]; exact hI
  · exact uvmallocLoop_inv _ _ _ hx _ _ _ _ _ hI h

theorem uvmcreate_inv {P : KParams} {s : Kmem} (hnd : s.freelist.Nodup)
    (hmg : ∀ p ∈ s.freelist, managed P p) (hroot : (uvmcreate P s).1 ≠ 0) :
    PtInv P s.freelist (uvmcreate P s).2 (uvmcreate P s).1 [] [] ∧
      kids (uvmcreate P s).2.mem (uvmcreate P s).1 = [] ∧
      ∃ rest, s.freelist = (uvmcreate P s).1 :: rest ∧ (uvmcreate P s).2.freelist = rest := by
  unfold uvmcreate at hroot ⊢
  cases hf : s.freelist with
  | nil =>
    rw [kalloc_nil P s hf] at hroot
    simp at hroot
  | cons r rest =>
    rw [kalloc_cons P s r rest hf]
    have hrf : r ∈ s.freelist := by rw [hf]; exact List.mem_cons_self _ _
    have hrm : managed P r := hmg r hrf
    have hr0 : r ≠ 0 := Nat.pos_iff_ne_zero.1 (managed_pos P hrm)
    simp only [hr0, if_false]
    have hnd' : (r :: rest).Nodup := hf ▸ hnd
    have hz : ∀ i, i < 512 →
        pteAt (memset (memset s.mem r 5 PGSIZE) r 0 PGSIZE) r i = 0 := by
      intro i hi
      unfold pteAt
      exact read64_memset_in _ _ _ _ _ (by omega) (by simp only [PGSIZE]; omega) rfl
    have hkids : kids (memset (memset s.mem r 5 PGSIZE) r 0 PGSIZE) r = [] := by
      unfold kids
      rw [List.filterMap_eq_nil_iff]
      intro i hi
      rw [child_none_iff, hz i (List.mem_range.1 hi)]
      rfl
    have htp : tablePages (memset (memset s.mem r 5 PGSIZE) r 0 PGSIZE) r = [r] := by
      unfold tablePages
      rw [hkids]
      rfl
    have hsub : ∀ p ∈ rest, managed P p := fun p hp =>
      hmg p (by rw [hf]; exact List.mem_cons_of_mem _ hp)
    refine ⟨⟨⟨⟨(List.nodup_cons.1 hnd').2, hsub, hrm.1, ?_, ?_, ?_⟩, List.nodup_nil, ?_, ?_⟩,
      ⟨?_, ?_⟩, ?_, ?_, ?_, ?_⟩, hkids, rest, rfl, rfl⟩
    · show (tablePages (memset (memset s.mem r 5 PGSIZE) r 0 PGSIZE) r).Nodup
      rw [htp]; exact List.nodup_singleton r
    · show ∀ t ∈ tablePages (memset (memset s.mem r 5 PGSIZE) r 0 PGSIZE) r, 0 < t
      rw [htp]
      intro t ht
      rw [List.mem_singleton] at ht
      rw [ht]; exact managed_pos P hrm
    · show ∀ t ∈ tablePages (memset (memset s.mem r 5 PGSIZE) r 0 PGSIZE) r, t ∉ rest
      rw [htp]
      intro t ht
      rw [List.mem_singleton] at ht
      rw [ht]; exact (List.nodup_cons.1 hnd').1
    · intro d hd; cases hd
    · show ([] ++ (rest ++ tablePages (memset (memset s.mem r 5 PGSIZE) r 0 PGSIZE) r)).Perm
        (r :: rest)
      rw [htp, List.nil_append]
      exact List.perm_append_singleton r rest
    · intro t ht i hi hv
      show PTE_FLAGS (pteAt (memset (memset s.mem r 5 PGSIZE) r 0 PGSIZE) t i) = PTE_V
      have ht' : t = r := by
        rcases ht with e | hk
        · exact e
        · have hk' : t ∈ kids (memset (memset s.mem r 5 PGSIZE) r 0 PGSIZE) r := hk
          rw [hkids] at hk'
          cases hk'
      have hv' : pteAt (memset (memset s.mem r 5 PGSIZE) r 0 PGSIZE) t i &&& PTE_V ≠ 0 := hv
      rw [ht', hz i hi] at hv'
      exact absurd rfl hv'
    · show ∀ t ∈ tablePages (memset (memset s.mem r 5 PGSIZE) r 0 PGSIZE) r,
        managed P t ∧ upd s.kmemref (P.PGIDX r) 1 (P.PGIDX t) = 1
      rw [htp]
      intro t ht
      rw [List.mem_singleton] at ht
      rw [ht]
      exact ⟨hrm, upd_same _ _ _⟩
    · intro d hd; cases hd
    · intro va hm
      exact absurd hm (kids_nil_not_mapped hkids va)
    · intro va va' hm
      exact absurd hm (kids_nil_not_mapped hkids va)
    · intro va hm
      exact absurd hm (kids_nil_not_mapped hkids va)

/-! ## Permission bits of the entries -/

theorem PX_compose (i2 i1 i0 : Nat) (h2 : i2 < 512) (h1 : i1 < 512) (h0 : i0 < 512) :
    PX 2 (i2 * 2 ^ 30 + i1 * 2 ^ 21 + i0 * 2 ^ 12) = i2 ∧
    PX 1 (i2 * 2 ^ 30 + i1 * 2 ^ 21 + i0 * 2 ^ 12) = i1 ∧
    PX 0 (i2 * 2 ^ 30 + i1 * 2 ^ 21 + i0 * 2 ^ 12) = i0 := by
  rw [PX_eq, PX_eq, PX_eq]
  norm_num
  omega

theorem entry_is_leaf {P : KParams} {s : Kmem} {root : Nat} (hwf : WfPT P s root)
    {t1 t0 i : Nat} (h1 : t1 ∈ kids s.mem root) (h0 : t0 ∈ kids s.mem t1) (hi : i < 512) :
    ∃ va, walkp s.mem va 2 root ≠ 0 ∧ leafPte s.mem root va = pteAt s.mem t0 i := by
  obtain ⟨i2, hi2, c2⟩ := (mem_kids _ _ _).1 h1
  obtain ⟨i1, hi1, c1⟩ := (mem_kids _ _ _).1 h0
  obtain ⟨p2, p1, p0⟩ := PX_compose i2 i1 i hi2 hi1 hi
  have hw : walkp s.mem (i2 * 2 ^ 30 + i1 * 2 ^ 21 + i * 2 ^ 12) 2 root = t0 + 8 * i := by
    have := @walkp_of_children s.mem (i2 * 2 ^ 30 + i1 * 2 ^ 21 + i * 2 ^ 12) root t1 t0
      (by rw [p2]; exact c2) (by rw [p1]; exact c1)
    rw [p0] at this
    exact this
  have hpos : 0 < t0 := hwf.tp_pos t0 ((mem_tablePages _ _ _).2 (Or.inr (Or.inr ⟨t1, h1, h0⟩)))
  refine ⟨_, by rw [hw]; omega, ?_⟩
  unfold leafPte pteAt
  rw [hw]

theorem PermInv_of_PtOK {P : KParams} {pool : List Nat} {s : Kmem} {root : Nat}
    (h : PtOK P pool s root) : PermInv s.mem root := by
  obtain ⟨held, live, hP⟩ := h
  refine ⟨fun i hi hv => flagsV_perm _ (hP.tab.ent root (Or.inl rfl) i hi hv),
    fun t1 h1 i hi hv => flagsV_perm _ (hP.tab.ent t1 (Or.inr h1) i hi hv), ?_⟩
  intro t1 h1 t0 h0 i hi hv
  obtain ⟨va, hw, hl⟩ := entry_is_leaf hP.acc.wf h1 h0 hi
  rw [← hl] at hv ⊢
  exact R_perm _ (hP.rd va ⟨hw, hv⟩)

theorem Except_map_ok {α β : Type} {x : Except Fail α} {f : α → β} {b : β}
    (h : x.map f = .ok b) : ∃ a, x = .ok a ∧ f a = b := by
  cases x with
  | error e => cases h
  | ok a =>
    injection h with h
    exact ⟨a, rfl, h⟩


/-! ## `freewalk` and `uvmfree` -/

theorem kids_eq_range' (m : Mem) (t : Nat) :
    kids m t = (List.range' 0 512).filterMap (child m t) := by
  unfold kids
  rw [List.range_eq_range']

theorem freeOrder_last (m : Mem) : ∀ (l t : Nat), t ∈ freeOrder m l t
  | 0, t => List.mem_singleton_self t
  | _ + 1, t => List.mem_append_right _ (List.mem_singleton_self t)

theorem freeOrder_congr {m m' : Mem} :
    ∀ (l t : Nat), (∀ p ∈ freeOrder m l t, ∀ x, p ≤ x → x < p + PGSIZE → m' x = m x) →
      freeOrder m' l t = freeOrder m l t ∧ (Leafless m l t → Leafless m' l t) := by
  intro l
  induction l with
  | zero =>
    intro t h
    refine ⟨rfl, fun hc i hi => ?_⟩
    rw [pteAt_congr hi (h t (List.mem_singleton_self t))]
    exact hc i hi
  | succ l ih =>
    intro t h
    have ht := h t (freeOrder_last m (l + 1) t)
    have hk : kids m' t = kids m t := kids_congr ht
    have hsub : ∀ c ∈ kids m t, ∀ p ∈ freeOrder m l c, p ∈ freeOrder m (l + 1) t := by
      intro c hc p hp
      exact List.mem_append_left _ (List.mem_flatMap.2 ⟨c, hc, hp⟩)
    refine ⟨?_, fun hc => ⟨fun i hi hv => ?_, fun c hcm => ?_⟩⟩
    · show (kids m' t).flatMap (freeOrder m' l) ++ [t] = (kids m t).flatMap (freeOrder m l) ++ [t]
      rw [hk, List.flatMap_congr (fun c hc => (ih c (fun p hp => h p (hsub c hc p hp))).1)]
    · rw [pteAt_congr hi ht] at hv ⊢
      exact hc.1 i hi hv
    · rw [hk] at hcm
      exact (ih c (fun p hp => h p (hsub c hcm p hp))).2 (hc.2 c hcm)

theorem kfree_one {P : KParams} (s : Kmem) {t : Nat} (hm : managed P t)
    (hk : s.kmemref (P.PGIDX t) = 1) :
    ∃ s', kfree P s t = some s' ∧ s'.freelist = t :: s.freelist ∧
      s'.kmemref = upd s.kmemref (P.PGIDX t) 0 ∧
      ∀ x, ¬ (t ≤ x ∧ x < t + PGSIZE) → s'.mem x = s.mem x := by
  obtain ⟨s', hs'⟩ := kfree_isSome s hm
  obtain ⟨_, hk', hc⟩ := kfree_eq_some hs'
  rw [hk, i32_zero] at hk' hc
  rcases hc with ⟨_, hfl, hmem⟩ | ⟨hnz, _, _⟩
  · refine ⟨s', hs', hfl, hk', fun x hx => ?_⟩
    simp only [PGSIZE] at hx
    rw [hmem, write64_out _ _ _ _ (by omega),
      memset_out _ _ _ _ _ (by simp only [PGSIZE]; omega)]
  · exact absurd rfl hnz

theorem freewalkLoop_skip (rec : Nat → Kmem → Except Fail Kmem) (t : Nat) :
    ∀ (n i : Nat) (s : Kmem), (∀ j, i ≤ j → j < i + n → pteAt s.mem t j &&& PTE_V = 0) →
      freewalkLoop rec t n i s = .ok s := by
  intro n
  induction n with
  | zero => intro i s _; rfl
  | succ n ih =>
    intro i s h
    rw [freewalkLoop]
    have h0 : read64 s.mem (t + 8 * i) &&& PTE_V = 0 := h i (Nat.le_refl _) (by omega)
    simp only [h0, ne_eq, not_true_eq_false, false_and, if_false]
    exact ih (i + 1) s (fun j h1 h2 => h j (by omega) (by omega))

theorem freewalk_zero (P : KParams) : FreewalkSpec P 0 := by
  intro t s fuel hf hc _ hpg
  cases fuel with
  | zero => exact absurd hf (Nat.lt_irrefl _)
  | succ f =>
    obtain ⟨hm, hk⟩ := hpg t (List.mem_singleton_self t)
    obtain ⟨s', e, hfl, hk', hmem⟩ := kfree_one s hm hk
    refine ⟨s', ?_, ?_, ?_, ?_⟩
    · rw [freewalk, freewalkLoop_skip _ t 512 0 s (fun j _ hj => hc j (by omega))]
      simp only
      rw [e]
    · rw [hfl]; rfl
    · intro x hx
      exact hmem x (hx t (List.mem_singleton_self t))
    · intro p hp hn
      have hne : p ≠ t := fun e => hn (by rw [e]; exact List.mem_singleton_self t)
      rw [hk', upd_other _ _ _ _ (PGIDX_ne P hp hm hne)]

theorem entriesBelow_zero (m : Mem) (l t i : Nat) : entriesBelow m l t i 0 = [] := rfl

theorem entriesBelow_some (m : Mem) (l t i n c : Nat) (h : child m t i = some c) :
    entriesBelow m l t i (n + 1) = freeOrder m l c ++ entriesBelow m l t (i + 1) n := by
  unfold entriesBelow
  rw [List.range'_succ, List.filterMap_cons, h, List.flatMap_cons]

theorem entriesBelow_none (m : Mem) (l t i n : Nat) (h : child m t i = none) :
    entriesBelow m l t i (n + 1) = entriesBelow m l t (i + 1) n := by
  unfold entriesBelow
  rw [List.range'_succ, List.filterMap_cons, h]

theorem freeOrder_succ (m : Mem) (l t : Nat) :
    freeOrder m (l + 1) t = entriesBelow m l t 0 512 ++ [t] := by
  unfold entriesBelow
  rw [← kids_eq_range']
  rfl

theorem Outside_append {a b : List Nat} {x : Nat} :
    Outside (a ++ b) x ↔ Outside a x ∧ Outside b x := by
  unfold Outside
  constructor
  · intro h
    exact ⟨fun t ht => h t (List.mem_append_left _ ht), fun t ht => h t (List.mem_append_right _ ht)⟩
  · intro h t ht
    rcases List.mem_append.1 ht with h1 | h1
    · exact h.1 t h1
    · exact h.2 t h1

theorem nodup_split {a b c : List Nat} {t : Nat} (h : (a ++ (b ++ c) ++ [t]).Nodup) :
    b.Nodup ∧ (∀ p ∈ b, p ∉ a) ∧ (∀ p ∈ a, p ≠ t) ∧ (∀ p ∈ b, p ≠ t) ∧
      (a ++ b ++ c ++ [t]).Nodup := by
  have h2 : (a ++ b ++ c ++ [t]).Nodup := by
    rw [List.append_assoc a b c]; exact h
  rw [List.nodup_append] at h
  obtain ⟨h1, _, h3⟩ := h
  rw [List.nodup_append] at h1
  obtain ⟨_, h5, h6⟩ := h1
  rw [List.nodup_append] at h5
  refine ⟨h5.1, ?_, ?_, ?_, h2⟩
  · intro p hp hpa
    exact h6 hpa (List.mem_append_left _ hp)
  · intro p hp e
    exact h3 (List.mem_append_left _ hp) (by rw [e]; exact List.mem_singleton_self t)
  · intro p hp e
    exact h3 (List.mem_append_right _ (List.mem_append_left _ hp))
      (by rw [e]; exact List.mem_singleton_self t)

theorem freewalkLoop_spec (P : KParams) (l fuel : Nat) (hl : l < fuel) (ih : FreewalkSpec P l)
    (m0 : Mem) (k0 : Nat → Int) (fl0 : List Nat) (t : Nat) (ht : managed P t)
    (hflag : ∀ i, i < 512 → pteAt m0 t i &&& PTE_V ≠ 0 →
      pteAt m0 t i &&& (PTE_R ||| PTE_W ||| PTE_X) = 0)
    (hcl : ∀ i, i < 512 → ∀ c, child m0 t i = some c → Leafless m0 l c) :
    ∀ (n i : Nat) (s : Kmem) (done : List Nat), i + n = 512 →
      (done ++ entriesBelow m0 l t i n ++ [t]).Nodup →
      (∀ p ∈ done ++ entriesBelow m0 l t i n, managed P p) →
      (∀ p ∈ entriesBelow m0 l t i n, k0 (P.PGIDX p) = 1) →
      s.freelist = done.reverse ++ fl0 →
      (∀ x, Outside done x → (x < t ∨ t + 8 * i ≤ x) → s.mem x = m0 x) →
      (∀ p, managed P p → p ∉ done → s.kmemref (P.PGIDX p) = k0 (P.PGIDX p)) →
      ∃ s', freewalkLoop (freewalk P fuel) t n i s = .ok s' ∧
        s'.freelist = (done ++ entriesBelow m0 l t i n).reverse ++ fl0 ∧
        (∀ x, Outside (done ++ entriesBelow m0 l t i n) x → (x < t ∨ t + PGSIZE ≤ x) →
          s'.mem x = m0 x) ∧
        (∀ p, managed P p → p ∉ done ++ entriesBelow m0 l t i n →
          s'.kmemref (P.PGIDX p) = k0 (P.PGIDX p)) := by
  intro n
  induction n with
  | zero =>
    intro i s done hi _ _ _ hfl hmem hk
    rw [entriesBelow_zero, List.append_nil]
    refine ⟨s, rfl, hfl, fun x hx hr => hmem x hx ?_, hk⟩
    simp only [PGSIZE] at hr
    omega
  | succ n ihn =>
    intro i s done hi hnd hmg hk1 hfl hmem hk
    have hi' : i < 512 := by omega
    have hdt : ∀ p ∈ done, p ≠ t := by
      intro p hp e
      rw [List.nodup_append] at hnd
      exact hnd.2.2 (List.mem_append_left _ hp) (by rw [e]; exact List.mem_singleton_self t)
    have hcell : read64 s.mem (t + 8 * i) = pteAt m0 t i := by
      unfold pteAt
      refine read64_congr m0 s.mem _ (fun x h1 h2 => hmem x ?_ (Or.inr h1))
      intro p hp
      have hin := cell_in_page hi' h1 (by omega)
      exact pages_disjoint ht.1 (hmg p (List.mem_append_left _ hp)).1
        (fun e => hdt p hp e.symm) hin
    rw [freewalkLoop]
    simp only [hcell]
    by_cases hv : pteAt m0 t i &&& PTE_V ≠ 0
    · have hc : child m0 t i = some (PTE2PA (pteAt m0 t i)) := by
        unfold child; rw [if_pos hv]
      rw [if_pos ⟨hv, hflag i hi' hv⟩]
      rw [entriesBelow_some m0 l t i n _ hc] at hnd hmg hk1 ⊢
      obtain ⟨n1, n2, _, n4, n5⟩ := nodup_split hnd
      have hagree : ∀ p ∈ freeOrder m0 l (PTE2PA (pteAt m0 t i)), ∀ x, p ≤ x → x < p + PGSIZE →
          s.mem x = m0 x := by
        intro p hp x h1 h2
        have hpm := hmg p (List.mem_append_right _ (List.mem_append_left _ hp))
        refine hmem x ?_ ?_
        · intro q hq
          exact pages_disjoint hpm.1 (hmg q (List.mem_append_left _ hq)).1
            (fun e => n2 p hp (by rw [e]; exact hq)) ⟨h1, h2⟩
        · have := pages_disjoint hpm.1 ht.1 (n4 p hp) ⟨h1, h2⟩
          simp only [PGSIZE] at this ⊢
          omega
      obtain ⟨e1, e2⟩ := freeOrder_congr l (PTE2PA (pteAt m0 t i)) hagree
      obtain ⟨s1, r1, r2, r3, r4⟩ := ih (PTE2PA (pteAt m0 t i)) s fuel hl
        (e2 (hcl i hi' _ hc)) (by rw [e1]; exact n1)
        (by
          rw [e1]
          intro p hp
          have hpm := hmg p (List.mem_append_right _ (List.mem_append_left _ hp))
          exact ⟨hpm, by rw [hk p hpm (n2 p hp)]; exact hk1 p (List.mem_append_left _ hp)⟩)
      rw [e1] at r2 r3 r4
      rw [r1]
      simp only
      obtain ⟨s', q1, q2, q3, q4⟩ := ihn (i + 1)
        { s1 with mem := write64 s1.mem (t + 8 * i) 0 }
        (done ++ freeOrder m0 l (PTE2PA (pteAt m0 t i))) (by omega) n5
        (fun p hp => hmg p (by rw [← List.append_assoc]; exact hp))
        (fun p hp => hk1 p (List.mem_append_right _ hp))
        (by
          show s1.freelist = _
          rw [r2, hfl, List.reverse_append, List.append_assoc])
        (by
          intro x hx hr
          show write64 s1.mem (t + 8 * i) 0 x = m0 x
          obtain ⟨o1, o2⟩ := Outside_append.1 hx
          rw [write64_out _ _ _ _ (by omega), r3 x o2]
          exact hmem x o1 (by omega))
        (by
          intro p hp hn
          show s1.kmemref (P.PGIDX p) = k0 (P.PGIDX p)
          rw [r4 p hp (fun h => hn (List.mem_append_right _ h))]
          exact hk p hp (fun h => hn (List.mem_append_left _ h)))
      rw [List.append_assoc] at q2 q3 q4
      exact ⟨s', q1, q2, q3, q4⟩
    · have hc : child m0 t i = none := by
        unfold child; rw [if_neg hv]
      rw [if_neg (fun h => hv h.1), if_neg hv]
      rw [entriesBelow_none m0 l t i n hc] at hnd hmg hk1 ⊢
      exact ihn (i + 1) s done (by omega) hnd hmg hk1 hfl
        (fun x hx hr => hmem x hx (by omega)) hk

theorem freewalk_succ (P : KParams) (l : Nat) (ih : FreewalkSpec P l) :
    FreewalkSpec P (l + 1) := by
  intro t s fuel hf hc hnd hpg
  cases fuel with
  | zero => exact absurd hf (Nat.not_lt_zero _)
  | succ f =>
    rw [freeOrder_succ] at hnd hpg ⊢
    have htm := hpg t (List.mem_append_right _ (List.mem_singleton_self t))
    have hcl : ∀ i, i < 512 → ∀ c, child s.mem t i = some c → Leafless s.mem l c :=
      fun i hi c hcc => hc.2 c ((mem_kids _ _ _).2 ⟨i, hi, hcc⟩)
    obtain ⟨s1, q1, q2, q3, q4⟩ := freewalkLoop_spec P l f (by omega) ih s.mem s.kmemref
      s.freelist t htm.1 hc.1 hcl 512 0 s [] rfl (by rw [List.nil_append]; exact hnd)
      (fun p hp => (hpg p (List.mem_append_left _ (by rw [List.nil_append] at hp; exact hp))).1)
      (fun p hp => (hpg p (List.mem_append_left _ hp)).2) rfl (fun x _ _ => rfl)
      (fun p _ _ => rfl)
    rw [List.nil_append] at q2 q3 q4
    have htn : t ∉ entriesBelow s.mem l t 0 512 := by
      intro h
      rw [List.nodup_append] at hnd
      exact hnd.2.2 h (List.mem_singleton_self t)
    have hk1 : s1.kmemref (P.PGIDX t) = 1 := by
      rw [q4 t htm.1 htn]; exact htm.2
    obtain ⟨s', e, hfl, hk', hmem⟩ := kfree_one s1 htm.1 hk1
    refine ⟨s', ?_, ?_, ?_, ?_⟩
    · rw [freewalk, q1]
      simp only
      rw [e]
    · rw [hfl, q2, List.reverse_append]
      rfl
    · intro x hx
      obtain ⟨o1, o2⟩ := Outside_append.1 hx
      have hnt := o2 t (List.mem_singleton_self t)
      rw [hmem x hnt]
      exact q3 x o1 (by omega)
    · intro p hp hn
      have htl : t ∈ entriesBelow s.mem l t 0 512 ++ [t] :=
        List.mem_append_right _ (List.mem_singleton_self t)
      have hne : p ≠ t := fun e => hn (by rw [e]; exact htl)
      rw [hk', upd_other _ _ _ _ (PGIDX_ne P hp htm.1 hne)]
      exact q4 p hp (fun h => hn (List.mem_append_left _ h))

theorem freewalk_spec (P : KParams) : ∀ l, FreewalkSpec P l
  | 0 => freewalk_zero P
  | l + 1 => freewalk_succ P l (freewalk_spec P l)

theorem freeOrder_two_perm (m : Mem) (root : Nat) :
    (freeOrder m 2 root).Perm (tablePages m root) := by
  have h0 : freeOrder m 0 = fun t => [t] := by funext t; rfl
  have h1 : freeOrder m 1 = fun t1 => kids m t1 ++ [t1] := by
    funext t1
    show (kids m t1).flatMap (freeOrder m 0) ++ [t1] = _
    rw [h0, List.flatMap_singleton']
  show ((kids m root).flatMap (freeOrder m 1) ++ [root]).Perm
    (root :: (kids m root ++ (kids m root).flatMap (kids m)))
  rw [h1]
  refine (List.perm_append_singleton _ _).trans (List.Perm.cons _ ?_)
  refine (List.flatMap_append_perm (kids m root) (kids m) (fun t => [t])).symm.trans ?_
  rw [List.flatMap_singleton']
  exact List.perm_append_comm

theorem flagsV_rwx (e : Nat) (h : PTE_FLAGS e = PTE_V) :
    e &&& (PTE_R ||| PTE_W ||| PTE_X) = 0 := by
  have h1 : e &&& (PTE_R ||| PTE_W ||| PTE_X) = PTE_FLAGS e &&& (PTE_R ||| PTE_W ||| PTE_X) := by
    unfold PTE_FLAGS
    rw [Nat.and_assoc]
    rfl
  rw [h1, h]
  rfl

theorem Leafless_of_inv {P : KParams} {s : Kmem} {root : Nat} (hwf : WfPT P s root)
    (hT : TabInv P s root) (hleaf : LeafInv s.mem root []) : Leafless s.mem 2 root := by
  refine ⟨fun i hi hv => flagsV_rwx _ (hT.ent root (Or.inl rfl) i hi hv), fun t1 h1 =>
    ⟨fun i hi hv => flagsV_rwx _ (hT.ent t1 (Or.inr h1) i hi hv), fun t0 h0 i hi => ?_⟩⟩
  by_contra hv
  obtain ⟨va, hw, hl⟩ := entry_is_leaf hwf h1 h0 hi
  have := hleaf va ⟨hw, by rw [hl]; exact hv⟩
  cases this

theorem Held_perm_cancel {P : KParams} {pool : List Nat} {s : Kmem} {root : Nat}
    {h1 h2 : List Nat} (a : Held P pool s root h1) (b : Held P pool s root h2) : h1.Perm h2 :=
  (List.perm_append_right_iff _).1 (a.perm.trans b.perm.symm)

theorem freewalk_leafless {P : KParams} {pool : List Nat} {s : Kmem} {root : Nat}
    (hH : Held P pool s root []) (hI : PtOK P pool s root) (hleaf : LeafInv s.mem root [])
    (fuel : Nat) (hf : 3 ≤ fuel) :
    ∃ s', freewalk P fuel root s = .ok s' ∧
      s'.freelist = (freeOrder s.mem 2 root).reverse ++ s.freelist ∧ s'.freelist.Perm pool := by
  obtain ⟨held, live, hP⟩ := hI
  have hperm := freeOrder_two_perm s.mem root
  obtain ⟨s', e, hfl, _, _⟩ := freewalk_spec P 2 root s fuel (by omega)
    (Leafless_of_inv hP.acc.wf hP.tab hleaf) (hperm.nodup_iff.2 hP.acc.wf.tp_nodup)
    (fun p hp => hP.tab.tref p (hperm.mem_iff.1 hp))
  refine ⟨s', e, hfl, ?_⟩
  rw [hfl]
  refine ((List.reverse_perm _).append_right _).trans ?_
  refine (hperm.append_right _).trans ?_
  exact List.perm_append_comm.trans (Held_nil_perm hH)

/-- Claim C22: let `uvmcreate`, on an allocator whose free list holds distinct
managed pages, return a table, and let `uvmalloc` grow it from 0 to `sz` (extra
permission bits inside the ten flag bits) and return `sz`. Then
`uvmfree(pt, sz)`, with recursion depth 3 or more allowed, returns: the
`uvmunmap` part returns, `freewalk` then pushes the page-table pages on the free
list in post-order (every page after the pages its entries point to, the root
last), the free list afterwards is a permutation of the free list before
`uvmcreate`, and it holds every page-table page and every data page that the
table had. -/
theorem C22_uvmfree_returns_all_pages (P : KParams) (s0 : Kmem) (sz xperm fuel : Nat)
    (s2 : Kmem) (hnd : s0.freelist.Nodup) (hmg : ∀ p ∈ s0.freelist, managed P p)
    (hroot : (uvmcreate P s0).1 ≠ 0) (hx : xperm < 1024) (hfuel : 3 ≤ fuel)
    (hg : uvmalloc P (uvmcreate P s0).2 (uvmcreate P s0).1 0 sz xperm = .ok (sz, s2)) :
    ∃ s3 s4,
      (if sz > 0 then uvmunmap P s2 (uvmcreate P s0).1 0 (PGROUNDUP sz / PGSIZE) true
        else .ok s2) = .ok s3 ∧
      uvmfree P fuel s2 (uvmcreate P s0).1 sz = .ok s4 ∧
      s4.freelist = (freeOrder s3.mem 2 (uvmcreate P s0).1).reverse ++ s3.freelist ∧
      s4.freelist.Perm s0.freelist ∧
      (∀ t ∈ tablePages s2.mem (uvmcreate P s0).1, t ∈ s4.freelist) ∧
      (∀ va, mapped s2.mem (uvmcreate P s0).1 va →
        PTE2PA (leafPte s2.mem (uvmcreate P s0).1 va) ∈ s4.freelist) := by
  obtain ⟨hI1, _, _⟩ := uvmcreate_inv hnd hmg hroot
  generalize (uvmcreate P s0).1 = root at *
  generalize (uvmcreate P s0).2 = s1 at *
  have hI2 : PtOK P s0.freelist s2 root := uvmalloc_inv s1 s2 0 sz xperm sz hx ⟨[], [], hI1⟩ hg
  have hr0 : PGROUNDUP 0 = 0 := by decide
  unfold uvmalloc at hg
  rw [if_neg (Nat.not_lt_zero _), hr0] at hg
  have hg' : uvmallocLoop P root 0 sz xperm (sz / PGSIZE + 2)
      (0 + ([] : List Nat).length * PGSIZE) s1 = .ok (sz, s2) := by
    simpa using hg
  obtain ⟨ds, hH, hrun, k3, _, k5⟩ :=
    uvmallocLoop_spec hx (by decide : 0 % PGSIZE = 0) _ [] s1 s2 hI1.acc trivial hg'
  have hlast : 0 < ds.length → 0 + (ds.length - 1) * PGSIZE < MAXVA :=
    fun hpos => MappedRun_lt ds _ hrun (ds.length - 1) (by omega)
  obtain ⟨held, live, hP2⟩ := hI2
  have hpc := Held_perm_cancel hP2.acc hH
  have hleaf2 : LeafInv s2.mem root ds :=
    fun va hm => hpc.mem_iff.1 (hP2.sub _ (hP2.leaf va hm))
  have key : ∃ s3, (if sz > 0 then uvmunmap P s2 root 0 (PGROUNDUP sz / PGSIZE) true
      else .ok s2) = .ok s3 ∧ Held P s0.freelist s3 root [] ∧ PtOK P s0.freelist s3 root ∧
      LeafInv s3.mem root [] := by
    by_cases hz : sz > 0
    · rw [if_pos hz]
      have hk5 : 0 + (ds.length - 1) * PGSIZE < sz := k5 (by
        simp only [List.length_nil, PGSIZE] at k3 ⊢; omega)
      have hpos : 0 < ds.length := by
        simp only [List.length_nil, PGSIZE] at k3 ⊢; omega
      have hl := hlast hpos
      have hn : PGROUNDUP sz / PGSIZE = ds.length := by
        unfold PGROUNDUP u64
        unfold MAXVA at hl
        simp only [PGSIZE] at k3 hk5 hl ⊢
        omega
      rw [hn]
      rcases uvmunmap_run ds 0 s2 hH hrun (by decide) (by
          unfold MAXVA at hl; simp only [PGSIZE] at hl ⊢; omega) with
        ⟨s3, e, hH3, hL3⟩ | ⟨_, e, he1, he2⟩
      · exact ⟨s3, e, hH3, uvmunmap_inv _ _ _ _ _ ⟨held, live, hP2⟩ e, hL3 hleaf2 hP2.uniq⟩
      · exact absurd he2 he1
    · rw [if_neg hz]
      have hnil : ds = [] := by
        apply List.length_eq_zero.1
        by_contra hne
        have := k5 (by simp only [List.length_nil]; omega)
        omega
      rw [hnil] at hH hleaf2
      exact ⟨s2, rfl, hH, ⟨held, live, hP2⟩, hleaf2⟩
  obtain ⟨s3, e3, hH3, hI3, hleaf3⟩ := key
  obtain ⟨s4, e4, hfl, hperm⟩ := freewalk_leafless hH3 hI3 hleaf3 fuel hfuel
  refine ⟨s3, s4, e3, ?_, hfl, hperm, ?_, ?_⟩
  · unfold uvmfree
    rw [e3]
    exact e4
  · intro t ht
    exact hperm.mem_iff.2 ((Held_sub hH).1 t (List.mem_append_right _ ht))
  · intro va hm
    exact hperm.mem_iff.2 ((Held_sub hH).2 _ (hleaf2 va hm))

/-- C22 witness: on the nine-page machine, the table made by `uvmcreate` and
grown to two pages is torn down by `uvmfree`, and the free list is a
permutation of the free list before `uvmcreate`. -/
theorem C22_uvmfree_returns_all_pages_witness :
    ∃ s2 s4, uvmalloc vmK (uvmcreate vmK vmBoot).2 (uvmcreate vmK vmBoot).1 0 8192 PTE_W
        = .ok (8192, s2) ∧
      uvmfree vmK 3 s2 (uvmcreate vmK vmBoot).1 8192 = .ok s4 ∧
      s4.freelist.Perm vmBoot.freelist := by
  have h1 : (uvmalloc vmK (uvmcreate vmK vmBoot).2 (uvmcreate vmK vmBoot).1 0 8192
      PTE_W).map (·.1) = .ok 8192 := by decide!
  obtain ⟨s2, h⟩ := Except_map_fst_ok h1
  obtain ⟨_, s4, _, e, _, hp, _⟩ := C22_uvmfree_returns_all_pages vmK vmBoot 8192 PTE_W 3 s2
    (by decide!) (by decide!) (by decide!) (by decide) (by decide) h
  exact ⟨s2, s4, h, e, hp⟩
/-! ## The invariant of a table under all the calls -/

/-- The invariant carries over to a state whose valid level-0 entries are
entries of the old state, once the table pages and the pages mapped are shown
to be apart from the free list. -/
theorem PtSafe_sub {P : KParams} {s s' : Kmem} {root : Nat} (h : PtSafe P s root)
    (hwf : WfPT P s' root) (htab : TabInv P s' root)
    (hsub : ∀ va, mapped s'.mem root va → mapped s.mem root va ∧
      walkp s'.mem va 2 root = walkp s.mem va 2 root ∧
      leafPte s'.mem root va = leafPte s.mem root va)
    (hap : ∀ x, x ∉ s.freelist → x ∉ tablePages s.mem root →
      (∃ va, mapped s'.mem root va ∧ PTE2PA (leafPte s'.mem root va) = x) →
      x ∉ s'.freelist ∧ x ∉ tablePages s'.mem root) : PtSafe P s' root := by
  refine ⟨hwf, htab, ?_, ?_, ?_⟩
  · intro va hm hmg
    obtain ⟨hm0, _, hl⟩ := hsub va hm
    have hmg0 : managed P (PTE2PA (leafPte s.mem root va)) := by rw [← hl]; exact hmg
    obtain ⟨a1, a2⟩ := h.apart va hm0 hmg0
    rw [← hl] at a1 a2
    exact hap _ a1 a2 ⟨va, hm, rfl⟩
  · intro va va' hm hm' hmg hpe
    obtain ⟨hm0, hw, hl⟩ := hsub va hm
    obtain ⟨hm0', hw', hl'⟩ := hsub va' hm'
    rw [hw, hw']
    rw [hl] at hmg hpe
    rw [hl'] at hpe
    exact h.uniq va va' hm0 hm0' hmg hpe
  · intro va hm
    obtain ⟨hm0, _, hl⟩ := hsub va hm
    rw [hl]
    exact h.rwx va hm0

theorem Loose_sub {s s' : Kmem} {root y : Nat} (h : Loose s root y)
    (hsub : ∀ va, mapped s'.mem root va → mapped s.mem root va ∧
      leafPte s'.mem root va = leafPte s.mem root va)
    (hap : y ∉ s.freelist → y ∉ tablePages s.mem root →
      y ∉ s'.freelist ∧ y ∉ tablePages s'.mem root) : Loose s' root y := by
  obtain ⟨a1, a2⟩ := hap h.1 h.2.1
  refine ⟨a1, a2, fun va hm => ?_⟩
  obtain ⟨hm0, hl⟩ := hsub va hm
  rw [hl]
  exact h.2.2 va hm0

/-- A store outside the page-table pages, the allocator unchanged. -/
theorem PtSafe_sameOn {P : KParams} {s s' : Kmem} {root : Nat} (h : PtSafe P s root)
    (hf : s'.freelist = s.freelist) (hk : s'.kmemref = s.kmemref)
    (hs : sameOn s.mem s'.mem (tablePages s.mem root)) :
    PtSafe P s' root ∧ (∀ y, Loose s root y → Loose s' root y) ∧
      tablePages s'.mem root = tablePages s.mem root := by
  have htp : tablePages s'.mem root = tablePages s.mem root :=
    sameOn_tablePages (sameOn_top hs)
  have hL := sameOn_LeafPres hs
  have hsub : ∀ va, mapped s'.mem root va → mapped s.mem root va ∧
      walkp s'.mem va 2 root = walkp s.mem va 2 root ∧
      leafPte s'.mem root va = leafPte s.mem root va := fun va hm => LeafPres_mapped_back hL hm
  refine ⟨PtSafe_sub h (Held_of_tablePages_eq (Held_init h.wf) hf hk htp).wf
    (TabInv_frame h.tab (sameOn_top hs) (fun t ht => by rw [hk]; exact (h.tab.tref t ht).2))
    hsub (fun x h1 h2 _ => by rw [hf, htp]; exact ⟨h1, h2⟩), ?_, htp⟩
  intro y hy
  exact Loose_sub hy (fun va hm => ⟨(hsub va hm).1, (hsub va hm).2.2⟩)
    (fun h1 h2 => by rw [hf, htp]; exact ⟨h1, h2⟩)

/-- A store into a page that is not a page-table page. -/
theorem PtSafe_page_write {P : KParams} {s : Kmem} {root d : Nat} (h : PtSafe P s root)
    (s' : Kmem) (hd : d % PGSIZE = 0) (hdt : d ∉ tablePages s.mem root)
    (hf : s'.freelist = s.freelist) (hk : s'.kmemref = s.kmemref)
    (hm : ∀ x, ¬ (d ≤ x ∧ x < d + PGSIZE) → s'.mem x = s.mem x) :
    PtSafe P s' root ∧ (∀ y, Loose s root y → Loose s' root y) ∧
      tablePages s'.mem root = tablePages s.mem root :=
  PtSafe_sameOn h hf hk (outside_sameOn hd (tablePages_aligned h.wf) hdt hm)

/-- `kalloc` takes the head of the free list: the invariant holds after it, and
the page is loose. -/
theorem PtSafe_kalloc {P : KParams} {s : Kmem} {root : Nat} (h : PtSafe P s root)
    {r : Nat} {rest : List Nat} (hf : s.freelist = r :: rest) :
    (kalloc P s).1 = r ∧ managed P r ∧ PtSafe P (kalloc P s).2 root ∧
      Loose (kalloc P s).2 root r ∧ (∀ y, Loose s root y → Loose (kalloc P s).2 root y) ∧
      (kalloc P s).2.freelist = rest ∧
      (∀ x, ¬ (r ≤ x ∧ x < r + PGSIZE) → (kalloc P s).2.mem x = s.mem x) ∧
      tablePages (kalloc P s).2.mem root = tablePages s.mem root := by
  obtain ⟨e1, hrm, hH, hL⟩ := Held_kalloc (Held_init h.wf) hf
  have hk := kalloc_cons P s r rest hf
  have hrf : r ∈ s.freelist := by rw [hf]; exact List.mem_cons_self _ _
  have hrt : r ∉ tablePages s.mem root := fun ht => h.wf.tp_fl r ht hrf
  have hfr : ∀ x, ¬ (r ≤ x ∧ x < r + PGSIZE) → (kalloc P s).2.mem x = s.mem x := by
    intro x hx
    rw [hk]
    show memset s.mem r 5 PGSIZE x = s.mem x
    rw [memset_out _ _ _ _ _ (by omega)]
  have hs : sameOn s.mem (kalloc P s).2.mem (tablePages s.mem root) :=
    outside_sameOn hrm.1 (tablePages_aligned h.wf) hrt hfr
  have htp : tablePages (kalloc P s).2.mem root = tablePages s.mem root :=
    sameOn_tablePages (sameOn_top hs)
  have hfl : (kalloc P s).2.freelist = rest := by rw [hk]
  have hnd : (r :: rest).Nodup := hf ▸ h.wf.fl_nodup
  have hsub : ∀ va, mapped (kalloc P s).2.mem root va → mapped s.mem root va ∧
      walkp (kalloc P s).2.mem va 2 root = walkp s.mem va 2 root ∧
      leafPte (kalloc P s).2.mem root va = leafPte s.mem root va :=
    fun va hm => LeafPres_mapped_back hL hm
  have hap : ∀ x, x ∉ s.freelist → x ∉ tablePages s.mem root →
      x ∉ (kalloc P s).2.freelist ∧ x ∉ tablePages (kalloc P s).2.mem root := by
    intro x h1 h2
    rw [hfl, htp]
    exact ⟨fun hx => h1 (by rw [hf]; exact List.mem_cons_of_mem _ hx), h2⟩
  have hT : TabInv P (kalloc P s).2 root := by
    refine TabInv_frame h.tab (sameOn_top hs) ?_
    intro t ht
    rw [hk]
    show upd s.kmemref (P.PGIDX r) 1 (P.PGIDX t) = 1
    unfold upd
    split
    · rfl
    · exact (h.tab.tref t ht).2
  refine ⟨e1, hrm, PtSafe_sub h hH.wf hT hsub (fun x h1 h2 _ => hap x h1 h2), ?_, ?_, hfl, hfr,
    htp⟩
  · refine ⟨by rw [hfl]; exact (List.nodup_cons.1 hnd).1, by rw [htp]; exact hrt, ?_⟩
    intro va hm e
    obtain ⟨hm0, _, hl⟩ := hsub va hm
    rw [hl] at e
    exact (h.apart va hm0 (by rw [e]; exact hrm)).1 (by rw [e]; exact hrf)
  · intro y hy
    exact Loose_sub hy (fun va hm => ⟨(hsub va hm).1, (hsub va hm).2.2⟩) (hap y)

/-- `walk` with allocation keeps the invariant; loose pages stay loose; it
stores only into free pages and page-table pages, and the free and page-table
pages afterwards are among those before. -/
theorem PtSafe_walk {P : KParams} {s : Kmem} {root : Nat} (h : PtSafe P s root) (a : Nat) :
    PtSafe P (walkLoop P true a 2 s root).2 root ∧
    (∀ y, Loose s root y → Loose (walkLoop P true a 2 s root).2 root y) ∧
    ((walkLoop P true a 2 s root).1 ≠ 0 →
      (walkLoop P true a 2 s root).1 = walkp (walkLoop P true a 2 s root).2.mem a 2 root) ∧
    (∀ x, Outside (s.freelist ++ tablePages s.mem root) x →
      (walkLoop P true a 2 s root).2.mem x = s.mem x) ∧
    (∀ t, t ∈ (walkLoop P true a 2 s root).2.freelist ++
        tablePages (walkLoop P true a 2 s root).2.mem root →
      t ∈ s.freelist ++ tablePages s.mem root) := by
  obtain ⟨hH, hL, hp⟩ := walk_alloc_spec (Held_init h.wf) a
  have hT := TabInv_walk (Held_init h.wf) h.tab a
  have hin := Held_same_pages (Held_init h.wf) hH
  have hsub : ∀ va, mapped (walkLoop P true a 2 s root).2.mem root va → mapped s.mem root va ∧
      walkp (walkLoop P true a 2 s root).2.mem va 2 root = walkp s.mem va 2 root ∧
      leafPte (walkLoop P true a 2 s root).2.mem root va = leafPte s.mem root va :=
    fun va hm => LeafPres_mapped_back hL hm
  have hap : ∀ x, x ∉ s.freelist → x ∉ tablePages s.mem root →
      x ∉ (walkLoop P true a 2 s root).2.freelist ∧
        x ∉ tablePages (walkLoop P true a 2 s root).2.mem root := by
    intro x h1 h2
    refine ⟨fun hx => ?_, fun hx => ?_⟩
    · rcases List.mem_append.1 (hin x (List.mem_append_left _ hx)) with h' | h'
      · exact h1 h'
      · exact h2 h'
    · rcases List.mem_append.1 (hin x (List.mem_append_right _ hx)) with h' | h'
      · exact h1 h'
      · exact h2 h'
  refine ⟨PtSafe_sub h hH.wf hT hsub (fun x h1 h2 _ => hap x h1 h2), ?_, hp,
    fun x hx => walk_alloc_frame h.wf a x hx, hin⟩
  intro y hy
  exact Loose_sub hy (fun va hm => ⟨(hsub va hm).1, (hsub va hm).2.2⟩) (hap y)

/-- A store of `v` into an existing level-0 entry: when `v` is valid it
carries one of the bits R, W, X, and the page it maps, if it is a page of the
allocator, is neither free nor a page-table page nor mapped by another
entry. -/
theorem PtSafe_leaf_write {P : KParams} {s : Kmem} {root a : Nat} (h : PtSafe P s root)
    (hw : walkp s.mem a 2 root ≠ 0) (v : Nat) (hv : v < 2 ^ 64)
    (hval : v &&& PTE_V ≠ 0 → v &&& rwxBits ≠ 0 ∧ (managed P (PTE2PA v) →
      PTE2PA v ∉ s.freelist ∧ PTE2PA v ∉ tablePages s.mem root ∧
      ∀ va', mapped s.mem root va' → walkp s.mem va' 2 root ≠ walkp s.mem a 2 root →
        PTE2PA (leafPte s.mem root va') ≠ PTE2PA v))
    (s' : Kmem) (hf : s'.freelist = s.freelist) (hk : s'.kmemref = s.kmemref)
    (hm : s'.mem = write64 s.mem (walkp s.mem a 2 root) v) :
    PtSafe P s' root ∧
    (∀ y, Loose s root y → (v &&& PTE_V ≠ 0 → PTE2PA v ≠ y) → Loose s' root y) ∧
    tablePages s'.mem root = tablePages s.mem root ∧
    (∀ va', mapped s'.mem root va' →
      (walkp s.mem va' 2 root = walkp s.mem a 2 root ∧ leafPte s'.mem root va' = v) ∨
      (walkp s.mem va' 2 root ≠ walkp s.mem a 2 root ∧ mapped s.mem root va' ∧
        leafPte s'.mem root va' = leafPte s.mem root va')) := by
  obtain ⟨htp, hch⟩ := leaf_write_char h.wf hw v hv
  have htop := leaf_write_top h.wf hw v
  rw [← hm] at htp hch htop
  have hcase : ∀ va', mapped s'.mem root va' →
      (walkp s.mem va' 2 root = walkp s.mem a 2 root ∧ leafPte s'.mem root va' = v) ∨
      (walkp s.mem va' 2 root ≠ walkp s.mem a 2 root ∧ mapped s.mem root va' ∧
        leafPte s'.mem root va' = leafPte s.mem root va') := by
    intro va' hm'
    have hw' : walkp s.mem va' 2 root ≠ 0 := by
      rw [← (hch va').1]; exact hm'.1
    have hl := (hch va').2 hw'
    by_cases heq : walkp s.mem va' 2 root = walkp s.mem a 2 root
    · rw [if_pos heq] at hl
      exact Or.inl ⟨heq, hl⟩
    · rw [if_neg heq] at hl
      exact Or.inr ⟨heq, ⟨hw', by rw [← hl]; exact hm'.2⟩, hl⟩
  refine ⟨⟨(Held_of_tablePages_eq (Held_init h.wf) hf hk htp).wf,
    TabInv_frame h.tab htop (fun t ht => by rw [hk]; exact (h.tab.tref t ht).2), ?_, ?_, ?_⟩,
    ?_, htp, hcase⟩
  · intro va' hm' hmg
    rw [hf, htp]
    rcases hcase va' hm' with ⟨_, hl⟩ | ⟨_, hm0, hl⟩
    · have hvv : v &&& PTE_V ≠ 0 := by rw [← hl]; exact hm'.2
      rw [hl] at hmg ⊢
      obtain ⟨b1, b2, _⟩ := (hval hvv).2 hmg
      exact ⟨b1, b2⟩
    · rw [hl] at hmg ⊢
      exact h.apart va' hm0 hmg
  · intro va1 va2 hm1 hm2 hmg hpe
    rw [(hch va1).1, (hch va2).1]
    rcases hcase va1 hm1 with ⟨w1, l1⟩ | ⟨w1, m1, l1⟩ <;>
      rcases hcase va2 hm2 with ⟨w2, l2⟩ | ⟨w2, m2, l2⟩
    · rw [w1, w2]
    · exfalso
      have hvv : v &&& PTE_V ≠ 0 := by rw [← l1]; exact hm1.2
      rw [l1] at hmg hpe
      rw [l2] at hpe
      exact ((hval hvv).2 hmg).2.2 va2 m2 w2 hpe.symm
    · exfalso
      have hvv : v &&& PTE_V ≠ 0 := by rw [← l2]; exact hm2.2
      rw [l1] at hmg hpe
      rw [l2] at hpe
      exact ((hval hvv).2 (by rw [← hpe]; exact hmg)).2.2 va1 m1 w1 hpe
    · rw [l1] at hmg hpe
      rw [l2] at hpe
      exact h.uniq va1 va2 m1 m2 hmg hpe
  · intro va' hm'
    rcases hcase va' hm' with ⟨_, hl⟩ | ⟨_, hm0, hl⟩
    · have hvv : v &&& PTE_V ≠ 0 := by rw [← hl]; exact hm'.2
      rw [hl]
      exact (hval hvv).1
    · rw [hl]
      exact h.rwx va' hm0
  · intro y hy hne
    refine ⟨by rw [hf]; exact hy.1, by rw [htp]; exact hy.2.1, ?_⟩
    intro va' hm'
    rcases hcase va' hm' with ⟨_, hl⟩ | ⟨_, hm0, hl⟩
    · have hvv : v &&& PTE_V ≠ 0 := by rw [← hl]; exact hm'.2
      rw [hl]
      exact hne hvv
    · rw [hl]
      exact hy.2.2 va' hm0

/-- `kfree` of a loose page. -/
theorem PtSafe_kfree_loose {P : KParams} {s s' : Kmem} {root d : Nat} (h : PtSafe P s root)
    (hd : Loose s root d) (e : kfree P s d = some s') :
    PtSafe P s' root ∧ ∀ y, y ≠ d → Loose s root y → Loose s' root y := by
  obtain ⟨hdm, hk, hc⟩ := kfree_eq_some e
  have hkt : ∀ t ∈ tablePages s.mem root, s'.kmemref (P.PGIDX t) = 1 := by
    intro t ht
    rw [hk, upd_other _ _ _ _ (PGIDX_ne P (h.tab.tref t ht).1 hdm (fun e => hd.2.1 (e ▸ ht)))]
    exact (h.tab.tref t ht).2
  have hmem : ∀ x, ¬ (d ≤ x ∧ x < d + PGSIZE) → s'.mem x = s.mem x := by
    intro x hx
    rcases hc with ⟨_, _, hm⟩ | ⟨_, _, hm⟩
    · simp only [PGSIZE] at hx
      rw [hm, write64_out _ _ _ _ (by omega),
        memset_out _ _ _ _ _ (by simp only [PGSIZE]; omega)]
    · rw [hm]
  have hs : sameOn s.mem s'.mem (tablePages s.mem root) :=
    outside_sameOn hdm.1 (tablePages_aligned h.wf) hd.2.1 hmem
  have htp : tablePages s'.mem root = tablePages s.mem root :=
    sameOn_tablePages (sameOn_top hs)
  have hL := sameOn_LeafPres hs
  have hsub : ∀ va, mapped s'.mem root va → mapped s.mem root va ∧
      walkp s'.mem va 2 root = walkp s.mem va 2 root ∧
      leafPte s'.mem root va = leafPte s.mem root va := fun va hm => LeafPres_mapped_back hL hm
  have hfl : ∀ x, x ∈ s'.freelist → x = d ∨ x ∈ s.freelist := by
    intro x hx
    rcases hc with ⟨_, hf, _⟩ | ⟨_, hf, _⟩
    · rw [hf] at hx
      exact List.mem_cons.1 hx
    · rw [hf] at hx
      exact Or.inr hx
  have hwf : WfPT P s' root := by
    refine ⟨?_, ?_, h.wf.root_aligned, by rw [htp]; exact h.wf.tp_nodup,
      by rw [htp]; exact h.wf.tp_pos, ?_⟩
    · rcases hc with ⟨_, hf, _⟩ | ⟨_, hf, _⟩
      · rw [hf]; exact List.nodup_cons.2 ⟨hd.1, h.wf.fl_nodup⟩
      · rw [hf]; exact h.wf.fl_nodup
    · intro p hp
      rcases hfl p hp with e' | hp
      · rw [e']; exact hdm
      · exact h.wf.fl_managed p hp
    · rw [htp]
      intro t ht hx
      rcases hfl t hx with e' | hx
      · exact hd.2.1 (e' ▸ ht)
      · exact h.wf.tp_fl t ht hx
  refine ⟨PtSafe_sub h hwf (TabInv_frame h.tab (sameOn_top hs) hkt) hsub ?_, ?_⟩
  · rintro x h1 h2 ⟨va, hm, e'⟩
    rw [htp]
    refine ⟨fun hx => ?_, h2⟩
    rcases hfl x hx with e'' | hx
    · obtain ⟨hm0, _, hl⟩ := hsub va hm
      rw [hl, e''] at e'
      exact hd.2.2 va hm0 e'
    · exact h1 hx
  · intro y hne hy
    refine Loose_sub hy (fun va hm => ⟨(hsub va hm).1, (hsub va hm).2.2⟩) ?_
    intro h1 h2
    rw [htp]
    refine ⟨fun hx => ?_, h2⟩
    rcases hfl y hx with e'' | hx
    · exact hne e''
    · exact h1 hx

theorem Kmem_ext {s s' : Kmem} (hf : s'.freelist = s.freelist) (hk : s'.kmemref = s.kmemref)
    (hm : ∀ x, s'.mem x = s.mem x) : s' = s := by
  cases s
  cases s'
  simp only at hf hk hm
  rw [hf, hk, funext hm]

/-- The step of `uvmunmap` without `kfree`: the entry is cleared. -/
theorem PtSafe_unmap_keep {P : KParams} {s : Kmem} {root a : Nat} (h : PtSafe P s root)
    (hw : walkp s.mem a 2 root ≠ 0) :
    PtSafe P { s with mem := write64 s.mem (walkp s.mem a 2 root) 0 } root :=
  (PtSafe_leaf_write h hw 0 (by norm_num) (fun hv => absurd (Nat.zero_and _) hv)
    { s with mem := write64 s.mem (walkp s.mem a 2 root) 0 } rfl rfl rfl).1

/-- The step of `uvmunmap` with `kfree`: the page goes back to the allocator
and the entry is cleared. -/
theorem PtSafe_unmap_free {P : KParams} {s s2 : Kmem} {root a : Nat} (h : PtSafe P s root)
    (hm : mapped s.mem root a) (e : kfree P s (PTE2PA (leafPte s.mem root a)) = some s2) :
    PtSafe P { s2 with mem := write64 s2.mem (walkp s.mem a 2 root) 0 } root := by
  obtain ⟨hdm, hk2, hc2⟩ := kfree_eq_some e
  obtain ⟨hdf, hdt⟩ := h.apart a hm hdm
  obtain ⟨hS, _, htp, hcase⟩ := PtSafe_leaf_write h hm.1 0 (by norm_num)
    (fun hv => absurd (Nat.zero_and _) hv)
    { s with mem := write64 s.mem (walkp s.mem a 2 root) 0 } rfl rfl rfl
  have hloose : Loose { s with mem := write64 s.mem (walkp s.mem a 2 root) 0 } root
      (PTE2PA (leafPte s.mem root a)) := by
    refine ⟨hdf, by rw [htp]; exact hdt, ?_⟩
    intro va' hm' e'
    rcases hcase va' hm' with ⟨_, hl⟩ | ⟨hne, hm0, hl⟩
    · exact hm'.2 (by rw [hl]; rfl)
    · rw [hl] at e'
      exact hne (h.uniq va' a hm0 hm (by rw [e']; exact hdm) e')
  obtain ⟨s3, e3⟩ := kfree_isSome { s with mem := write64 s.mem (walkp s.mem a 2 root) 0 } hdm
  obtain ⟨hS3, _⟩ := PtSafe_kfree_loose hS hloose e3
  obtain ⟨_, hk3, hc3⟩ := kfree_eq_some e3
  obtain ⟨t1, t0, _, _, eslot, _, _, ht0, _⟩ := walkp_ne_zero hm.1
  have ht0a := tablePages_aligned h.wf t0 ht0
  have hdisj : ∀ x, walkp s.mem a 2 root ≤ x → x < walkp s.mem a 2 root + 8 →
      ¬ (PTE2PA (leafPte s.mem root a) ≤ x ∧ x < PTE2PA (leafPte s.mem root a) + PGSIZE) := by
    intro x h1 h2
    rw [eslot] at h1 h2
    exact pages_disjoint ht0a hdm.1 (fun e' => hdt (e' ▸ ht0)) (cell_in_page (PX_lt 0 a) h1 h2)
  have heq : ({ s2 with mem := write64 s2.mem (walkp s.mem a 2 root) 0 } : Kmem) = s3 := by
    refine Kmem_ext ?_ ?_ ?_
    · show s2.freelist = s3.freelist
      rcases hc2 with ⟨z2, f2, _⟩ | ⟨z2, f2, _⟩ <;> rcases hc3 with ⟨z3, f3, _⟩ | ⟨z3, f3, _⟩
      · rw [f2, f3]
      · exact absurd z2 z3
      · exact absurd z3 z2
      · rw [f2, f3]
    · show s2.kmemref = s3.kmemref
      rw [hk2, hk3]
    · intro x
      show write64 s2.mem (walkp s.mem a 2 root) 0 x = s3.mem x
      rcases hc2 with ⟨z2, _, m2⟩ | ⟨z2, _, m2⟩ <;> rcases hc3 with ⟨z3, _, m3⟩ | ⟨z3, _, m3⟩
      · rw [m2, m3]
        show _ = write64 (memset (write64 s.mem (walkp s.mem a 2 root) 0)
          (PTE2PA (leafPte s.mem root a)) 1 PGSIZE) (PTE2PA (leafPte s.mem root a)) s.head x
        by_cases hx : walkp s.mem a 2 root ≤ x ∧ x < walkp s.mem a 2 root + 8
        · have hd := hdisj x hx.1 hx.2
          simp only [PGSIZE] at hd
          rw [write64_in _ _ _ _ hx.1 hx.2, write64_out _ _ _ _ (by omega),
            memset_out _ _ _ _ _ (by simp only [PGSIZE]; omega), write64_in _ _ _ _ hx.1 hx.2]
        · rw [write64_out _ _ _ _ (by omega)]
          unfold write64 memset
          simp only [hx, if_false]
      · exact absurd z2 z3
      · exact absurd z3 z2
      · rw [m2, m3]
  rw [heq]
  exact hS3

theorem clearU_rwx (e : Nat) : (e &&& (2 ^ 64 - 1 - PTE_U)) &&& rwxBits = e &&& rwxBits := by
  rw [Nat.and_assoc]
  rfl

/-- The store of `uvmclear`. -/
theorem PtSafe_clearU {P : KParams} {s : Kmem} {root a : Nat} (h : PtSafe P s root)
    (hw : walkp s.mem a 2 root ≠ 0) (s' : Kmem)
    (hf : s'.freelist = s.freelist) (hk : s'.kmemref = s.kmemref)
    (hmem : s'.mem = write64 s.mem (walkp s.mem a 2 root)
      (leafPte s.mem root a &&& (2 ^ 64 - 1 - PTE_U))) : PtSafe P s' root := by
  have he : leafPte s.mem root a < 2 ^ 64 := read64_lt _ _
  have hv64 : leafPte s.mem root a &&& (2 ^ 64 - 1 - PTE_U) < 2 ^ 64 :=
    Nat.lt_of_le_of_lt Nat.and_le_left he
  refine (PtSafe_leaf_write h hw _ hv64 ?_ s' hf hk hmem).1
  intro hv
  rw [clearU_valid] at hv
  have hm : mapped s.mem root a := ⟨hw, hv⟩
  rw [clearU_rwx, clearU_PTE2PA _ he]
  refine ⟨h.rwx a hm, fun hmg => ?_⟩
  obtain ⟨b1, b2⟩ := h.apart a hm hmg
  refine ⟨b1, b2, fun va' hm' hne e' => ?_⟩
  exact hne (h.uniq va' a hm' hm (by rw [e']; exact hmg) e')

theorem uvmunmapLoop_safe {P : KParams} {root : Nat} (lim : Nat) (do_free : Bool) :
    ∀ (fuel a : Nat) (s s' : Kmem), PtSafe P s root →
      uvmunmapLoop P root lim do_free fuel a s = .ok s' → PtSafe P s' root := by
  intro fuel
  induction fuel with
  | zero => intro a s s' _ h; cases h
  | succ fuel ih =>
    intro a s s' hI h
    rw [uvmunmapLoop] at h
    by_cases h1 : a < lim
    · rw [if_pos h1] at h
      unfold walk at h
      by_cases h3 : a ≥ MAXVA
      · rw [if_pos h3] at h; cases h
      · rw [if_neg h3, walkLoop_false] at h
        simp only at h
        by_cases hw : walkp s.mem a 2 root = 0
        · rw [if_pos hw] at h; cases h
        · rw [if_neg hw] at h
          by_cases hv : read64 s.mem (walkp s.mem a 2 root) &&& PTE_V = 0
          · rw [if_pos hv] at h; cases h
          · rw [if_neg hv] at h
            by_cases hfl : PTE_FLAGS (read64 s.mem (walkp s.mem a 2 root)) = PTE_V
            · rw [if_pos hfl] at h; cases h
            · rw [if_neg hfl] at h
              have hm : mapped s.mem root a := ⟨hw, hv⟩
              cases do_free with
              | false =>
                simp only [Bool.false_eq_true, if_false] at h
                exact ih _ _ _ (PtSafe_unmap_keep hI hw) h
              | true =>
                simp only [if_true] at h
                cases e2 : kfree P s (PTE2PA (read64 s.mem (walkp s.mem a 2 root))) with
                | none => rw [e2] at h; cases h
                | some s2 =>
                  rw [e2] at h
                  exact ih _ _ _ (PtSafe_unmap_free hI hm e2) h
    · rw [if_neg h1] at h
      injection h with h
      rw [← h]
      exact hI

theorem uvmunmap_safe {P : KParams} {root : Nat} (s s' : Kmem) (va npages : Nat)
    (do_free : Bool) (hI : PtSafe P s root)
    (h : uvmunmap P s root va npages do_free = .ok s') : PtSafe P s' root := by
  unfold uvmunmap at h
  split at h
  · cases h
  · exact uvmunmapLoop_safe _ _ _ _ _ _ hI h

theorem uvmdealloc_safe {P : KParams} {root : Nat} (s s' : Kmem) (oldsz newsz r : Nat)
    (hI : PtSafe P s root) (h : uvmdealloc P s root oldsz newsz = .ok (r, s')) :
    PtSafe P s' root := by
  unfold uvmdealloc at h
  split at h
  · injection h with h
    injection h with _ h
    rw [← h]; exact hI
  · split at h
    · simp only at h
      split at h
      · cases h
      · rename_i s1 e1
        injection h with h
        injection h with _ h
        rw [← h]
        exact uvmunmap_safe _ _ _ _ _ hI e1
    · injection h with h
      injection h with _ h
      rw [← h]; exact hI

theorem uvmclear_safe {P : KParams} {root : Nat} (s s' : Kmem) (va : Nat)
    (hI : PtSafe P s root) (h : uvmclear P s root va = .ok s') : PtSafe P s' root := by
  unfold uvmclear walk at h
  by_cases h3 : va ≥ MAXVA
  · rw [if_pos h3] at h; cases h
  · rw [if_neg h3, walkLoop_false] at h
    simp only at h
    by_cases hw : walkp s.mem va 2 root = 0
    · rw [if_pos hw] at h; cases h
    · rw [if_neg hw] at h
      injection h with h
      refine PtSafe_clearU hI hw s' ?_ ?_ ?_
      · rw [← h]
      · rw [← h]
      · rw [← h]; rfl

theorem PA2PTE_rounddown (pa : Nat) : PA2PTE (PGROUNDDOWN pa) = PA2PTE pa := by
  rw [PA2PTE_eq, PA2PTE_eq]
  unfold PGROUNDDOWN PGSIZE
  rw [Nat.mul_div_cancel _ (by norm_num)]

theorem flags_rwx (e : Nat) : PTE_FLAGS e &&& rwxBits = e &&& rwxBits := by
  unfold PTE_FLAGS
  rw [Nat.and_assoc]
  rfl

theorem mkpte_rwx (pa perm : Nat) (hp : perm < 1024) :
    (PA2PTE pa ||| perm ||| PTE_V) &&& rwxBits = perm &&& rwxBits := by
  rw [← flags_rwx, PTE_FLAGS_mkpte pa perm hp, Nat.and_comm, Nat.and_or_distrib_left,
    Nat.and_comm]
  have : rwxBits &&& 1 = 0 := by decide
  rw [this, Nat.or_zero]

theorem rwx_perm (e : Nat) (h : e &&& rwxBits ≠ 0) : e &&& permBits ≠ 0 := by
  intro hz
  apply h
  have e1 : rwxBits = permBits &&& rwxBits := by decide
  rw [e1, ← Nat.and_assoc, hz, Nat.zero_and]

/-- One iteration of the loop of `mappages`: the walk, and then the store of
the entry for the page `x` when the walk finds an invalid entry. -/
theorem PtSafe_map_step {P : KParams} {s : Kmem} {root : Nat} (h : PtSafe P s root)
    (a x perm : Nat) (hperm : perm < 1024) (hrwx : perm &&& rwxBits ≠ 0)
    (hx64 : x < 2 ^ 64) (hown : Owned P s root (PGROUNDDOWN x)) :
    PtSafe P (walkLoop P true a 2 s root).2 root ∧
    (∀ y, Loose s root y → Loose (walkLoop P true a 2 s root).2 root y) ∧
    (∀ z, Outside (s.freelist ++ tablePages s.mem root) z →
      (walkLoop P true a 2 s root).2.mem z = s.mem z) ∧
    (∀ t, t ∈ (walkLoop P true a 2 s root).2.freelist ++
        tablePages (walkLoop P true a 2 s root).2.mem root →
      t ∈ s.freelist ++ tablePages s.mem root) ∧
    ((walkLoop P true a 2 s root).1 ≠ 0 →
      read64 (walkLoop P true a 2 s root).2.mem (walkLoop P true a 2 s root).1 &&& PTE_V = 0 →
      ∀ s2 : Kmem, s2.freelist = (walkLoop P true a 2 s root).2.freelist →
        s2.kmemref = (walkLoop P true a 2 s root).2.kmemref →
        s2.mem = write64 (walkLoop P true a 2 s root).2.mem (walkLoop P true a 2 s root).1
          (PA2PTE x ||| perm ||| PTE_V) →
        PtSafe P s2 root ∧ (∀ y, y ≠ PGROUNDDOWN x → Loose s root y → Loose s2 root y) ∧
        (∀ z, Outside (s.freelist ++ tablePages s.mem root) z → s2.mem z = s.mem z) ∧
        (∀ t, t ∈ s2.freelist ++ tablePages s2.mem root →
          t ∈ s.freelist ++ tablePages s.mem root)) := by
  obtain ⟨hS, hLo, hp, hfr, hin⟩ := PtSafe_walk h a
  refine ⟨hS, hLo, hfr, hin, ?_⟩
  intro h0 _ s2 hf hk hm
  have hw := hp h0
  have hw0 : walkp (walkLoop P true a 2 s root).2.mem a 2 root ≠ 0 := by rw [← hw]; exact h0
  rw [hw] at hm
  have hxa : PGROUNDDOWN x % PGSIZE = 0 := by
    unfold PGROUNDDOWN; exact Nat.mul_mod_left _ _
  have hx64' : PGROUNDDOWN x < 2 ^ 64 :=
    Nat.lt_of_le_of_lt (by unfold PGROUNDDOWN; exact Nat.div_mul_le_self _ _) hx64
  have hpa : PTE2PA (PA2PTE x ||| perm ||| PTE_V) = PGROUNDDOWN x := by
    rw [← PA2PTE_rounddown]
    exact mkpte_PTE2PA _ perm hperm hx64' hxa
  have hv64 : PA2PTE x ||| perm ||| PTE_V < 2 ^ 64 :=
    Nat.lt_trans (mkpte_lt x perm hperm hx64) (by norm_num)
  obtain ⟨hS2, hLo2, htp2, _⟩ := PtSafe_leaf_write hS hw0 (PA2PTE x ||| perm ||| PTE_V) hv64
    (fun _ => ⟨by rw [mkpte_rwx x perm hperm]; exact hrwx, fun hmg => by
      rw [hpa] at hmg ⊢
      obtain ⟨b1, b2, b3⟩ := hLo _ (hown hmg)
      exact ⟨b1, b2, fun va' hm' _ => b3 va' hm'⟩⟩) s2 hf hk hm
  refine ⟨hS2, ?_, ?_, ?_⟩
  · intro y hne hy
    exact hLo2 y (hLo y hy) (fun _ => by rw [hpa]; exact fun e => hne e.symm)
  · intro z hz
    obtain ⟨t1, t0, _, _, eslot, _, _, ht0, _⟩ := walkp_ne_zero hw0
    have ht0p : t0 ∈ s.freelist ++ tablePages s.mem root := hin t0 (List.mem_append_right _ ht0)
    have hnz := hz t0 ht0p
    rw [hm, write64_out _ _ _ _ ?_]
    · exact hfr z hz
    · rw [eslot]
      by_contra hc
      exact hnz (cell_in_page (PX_lt 0 a) (by omega) (by omega))
  · intro t ht
    rw [hf, htp2] at ht
    exact hin t ht

/-- The loop of `mappages`: the pages mapped are pages the caller owns. -/
theorem mappagesLoop_safe {P : KParams} {root : Nat} (last perm : Nat) (hperm : perm < 1024)
    (hrwx : perm &&& rwxBits ≠ 0) :
    ∀ (fuel a pa : Nat) (s : Kmem) (rc : Int) (s' : Kmem), PtSafe P s root →
      pa + fuel * PGSIZE ≤ 2 ^ 64 →
      (∀ k, k < fuel → Owned P s root (PGROUNDDOWN (pa + k * PGSIZE))) →
      mappagesLoop P root last perm fuel a pa s = .ok (rc, s') → PtSafe P s' root := by
  intro fuel
  induction fuel with
  | zero => intro a pa s rc s' _ _ _ h; cases h
  | succ fuel ih =>
    intro a pa s rc s' hI hb hown h
    rw [mappagesLoop] at h
    unfold walk at h
    by_cases h3 : a ≥ MAXVA
    · rw [if_pos h3] at h; cases h
    · rw [if_neg h3] at h
      simp only at h
      have hx64 : pa < 2 ^ 64 := by simp only [PGSIZE] at hb; omega
      have hown0 : Owned P s root (PGROUNDDOWN pa) := by
        have := hown 0 (Nat.succ_pos _)
        rwa [Nat.zero_mul, Nat.add_zero] at this
      obtain ⟨hS, _, _, _, hwr⟩ := PtSafe_map_step hI a pa perm hperm hrwx hx64 hown0
      by_cases h0 : (walkLoop P true a 2 s root).1 = 0
      · rw [if_pos h0] at h
        injection h with h
        injection h with _ h
        rw [← h]; exact hS
      · rw [if_neg h0] at h
        by_cases hv : read64 (walkLoop P true a 2 s root).2.mem (walkLoop P true a 2 s root).1
            &&& PTE_V ≠ 0
        · rw [if_pos hv] at h; cases h
        · rw [if_neg hv] at h
          obtain ⟨hS2, hLo2, _, _⟩ := hwr h0 (not_not.1 hv)
            { (walkLoop P true a 2 s root).2 with mem := (write64 (walkLoop P true a 2 s root).2.mem
              (walkLoop P true a 2 s root).1 (PA2PTE pa ||| perm ||| PTE_V)) } rfl rfl rfl
          by_cases hl : a = last
          · rw [if_pos hl] at h
            injection h with h
            injection h with _ h
            rw [← h]; exact hS2
          · rw [if_neg hl] at h
            have hb' : pa + PGSIZE + fuel * PGSIZE ≤ 2 ^ 64 := by
              simp only [PGSIZE] at hb ⊢; omega
            refine ih (a + PGSIZE) (pa + PGSIZE) _ rc s' hS2 hb' ?_ h
            intro k hk hmg
            have e1 : pa + PGSIZE + k * PGSIZE = pa + (k + 1) * PGSIZE := by ring
            rw [e1] at hmg ⊢
            refine hLo2 _ ?_ (hown (k + 1) (by omega) hmg)
            unfold PGROUNDDOWN
            simp only [PGSIZE]
            omega

theorem mappages_safe {P : KParams} {root : Nat} (s s' : Kmem) (va size pa perm : Nat)
    (rc : Int) (hI : PtSafe P s root) (hperm : perm < 1024) (hrwx : perm &&& rwxBits ≠ 0)
    (hb : pa + size ≤ 2 ^ 64)
    (hown : ∀ k, k < size / PGSIZE → Owned P s root (PGROUNDDOWN (pa + k * PGSIZE)))
    (h : mappages P s root va size pa perm = .ok (rc, s')) : PtSafe P s' root := by
  unfold mappages at h
  split at h
  · cases h
  · split at h
    · cases h
    · split at h
      · cases h
      · refine mappagesLoop_safe _ perm hperm hrwx _ _ _ _ _ _ hI ?_ hown h
        have := Nat.div_mul_le_self size PGSIZE
        omega

theorem PGROUNDDOWN_aligned {x : Nat} (h : x % PGSIZE = 0) : PGROUNDDOWN x = x := by
  unfold PGROUNDDOWN
  exact Nat.div_mul_cancel (Nat.dvd_of_mod_eq_zero h)

/-- A call of `mappages` for one page. -/
theorem PtSafe_map_one {P : KParams} {s : Kmem} {root : Nat} (h : PtSafe P s root)
    (a x perm : Nat) (hal : a % PGSIZE = 0) (hlt : a < MAXVA) (hperm : perm < 1024)
    (hrwx : perm &&& rwxBits ≠ 0) (hx64 : x < 2 ^ 64) (hxa : x % PGSIZE = 0)
    (hown : Owned P s root x) (rc : Int) (s3 : Kmem)
    (e : mappages P s root a PGSIZE x perm = .ok (rc, s3)) :
    PtSafe P s3 root ∧ (rc ≠ 0 → ∀ y, Loose s root y → Loose s3 root y) ∧
    (∀ z, Outside (s.freelist ++ tablePages s.mem root) z → s3.mem z = s.mem z) ∧
    (∀ t, t ∈ s3.freelist ++ tablePages s3.mem root →
      t ∈ s.freelist ++ tablePages s.mem root) := by
  rw [mappages_one P s root a x _ hal hlt] at e
  obtain ⟨hS, hLo, hfr, hin, hwr⟩ := PtSafe_map_step h a x perm hperm hrwx hx64
    (by rw [PGROUNDDOWN_aligned hxa]; exact hown)
  by_cases h0 : (walkLoop P true a 2 s root).1 = 0
  · rw [if_pos h0] at e
    injection e with e
    injection e with e1 e2
    rw [← e2]
    exact ⟨hS, fun _ => hLo, hfr, hin⟩
  · rw [if_neg h0] at e
    by_cases hv : read64 (walkLoop P true a 2 s root).2.mem (walkLoop P true a 2 s root).1
        &&& PTE_V ≠ 0
    · rw [if_pos hv] at e; cases e
    · rw [if_neg hv] at e
      injection e with e
      injection e with e1 e2
      obtain ⟨hS2, _, hfr2, hin2⟩ := hwr h0 (not_not.1 hv) s3 (by rw [← e2]) (by rw [← e2])
        (by rw [← e2])
      exact ⟨hS2, fun hrc => absurd e1.symm hrc, hfr2, hin2⟩

theorem uperm_rwx (xperm : Nat) : (PTE_R ||| PTE_U ||| xperm) &&& rwxBits ≠ 0 := by
  intro hz
  have h1 : ((PTE_R ||| PTE_U ||| xperm) &&& rwxBits).testBit 1 = true := by
    rw [Nat.testBit_and, Nat.testBit_or, Nat.testBit_or]
    have h2 : PTE_R.testBit 1 = true := by decide
    have h3 : rwxBits.testBit 1 = true := by decide
    rw [h2, h3]
    rfl
  rw [hz] at h1
  simp at h1

theorem uvmallocLoop_safe {P : KParams} {root : Nat} (oldsz newsz xperm : Nat)
    (hx : xperm < 1024) :
    ∀ (fuel a : Nat) (s : Kmem) (r : Nat) (s' : Kmem), PtSafe P s root →
      uvmallocLoop P root oldsz newsz xperm fuel a s = .ok (r, s') → PtSafe P s' root := by
  intro fuel
  induction fuel with
  | zero => intro a s r s' _ h; cases h
  | succ fuel ih =>
    intro a s r s' hI h
    rw [uvmallocLoop] at h
    by_cases h1 : a < newsz
    · rw [if_pos h1] at h
      simp only at h
      cases hf : s.freelist with
      | nil =>
        rw [kalloc_nil P s hf] at h
        simp only [if_true] at h
        split at h
        · cases h
        · rename_i x s1 e1
          injection h with h
          injection h with _ h
          rw [← h]
          exact uvmdealloc_safe _ _ _ _ _ hI e1
      | cons r0 rest =>
        obtain ⟨e1, hrm, hS1, hL1, _, _, _, _⟩ := PtSafe_kalloc hI hf
        have hr0 : r0 ≠ 0 := Nat.pos_iff_ne_zero.1 (managed_pos P hrm)
        rw [e1, if_neg hr0] at h
        obtain ⟨hS2, hLo2, _⟩ := PtSafe_page_write hS1
          { (kalloc P s).2 with mem := memset (kalloc P s).2.mem r0 0 PGSIZE } hrm.1 hL1.2.1 rfl rfl (fun x hx => memset_out _ _ _ _ _ (by omega))
        have hL2 := hLo2 r0 hL1
        by_cases hal : a % PGSIZE = 0 ∧ a < MAXVA
        · split at h
          · cases h
          · rename_i rc s3 e3
            obtain ⟨hS3, hLo3, _, _⟩ := PtSafe_map_one hS2 a r0 (PTE_R ||| PTE_U ||| xperm)
              hal.1 hal.2 (uperm_lt xperm hx) (uperm_rwx xperm) (managed_lt P hrm) hrm.1
              (fun _ => hL2) rc s3 e3
            by_cases hrc : rc = 0
            · rw [if_neg (not_not.2 hrc)] at h
              exact ih _ _ _ _ hS3 h
            · rw [if_pos hrc] at h
              split at h
              · cases h
              · rename_i s4 e4
                obtain ⟨hS4, _⟩ := PtSafe_kfree_loose hS3 (hLo3 hrc r0 hL2) e4
                split at h
                · cases h
                · rename_i x s5 e5
                  injection h with h
                  injection h with _ h
                  rw [← h]
                  exact uvmdealloc_safe _ _ _ _ _ hS4 e5
        · obtain ⟨e, he⟩ := mappages_panic P
            { (kalloc P s).2 with mem := memset (kalloc P s).2.mem r0 0 PGSIZE } root a r0
            (PTE_R ||| PTE_U ||| xperm) hal
          rw [he] at h
          cases h
    · rw [if_neg h1] at h
      injection h with h
      injection h with _ h
      rw [← h]
      exact hI

theorem uvmalloc_safe {P : KParams} {root : Nat} (s s' : Kmem) (oldsz newsz xperm r : Nat)
    (hx : xperm < 1024) (hI : PtSafe P s root)
    (h : uvmalloc P s root oldsz newsz xperm = .ok (r, s')) : PtSafe P s' root := by
  unfold uvmalloc at h
  split at h
  · injection h with h
    injection h with _ h
    rw [← h]; exact hI
  · exact uvmallocLoop_safe _ _ _ hx _ _ _ _ _ hI h

theorem tablePages_aligned_root {m : Mem} {root : Nat} (h : root % PGSIZE = 0) :
    ∀ t ∈ tablePages m root, t % PGSIZE = 0 := by
  intro t ht
  rcases (mem_tablePages _ _ _).1 ht with e | h1 | ⟨t1, _, h0⟩
  · rw [e]; exact h
  · exact kids_aligned h1
  · exact kids_aligned h0

/-- The source of a copy stays a source while the stores go into free pages and
page-table pages of the destination only. -/
theorem CopySource_frame {P : KParams} {s s' : Kmem} {root old sz : Nat}
    (hc : CopySource s root old sz) (hwf : WfPT P s root)
    (hfr : ∀ z, Outside (s.freelist ++ tablePages s.mem root) z → s'.mem z = s.mem z)
    (hin : ∀ t, t ∈ s'.freelist ++ tablePages s'.mem root →
      t ∈ s.freelist ++ tablePages s.mem root) : CopySource s' root old sz := by
  obtain ⟨hold, hsep, hsrc⟩ := hc
  have hpool : ∀ t ∈ s.freelist ++ tablePages s.mem root, t % PGSIZE = 0 := by
    intro t ht
    rcases List.mem_append.1 ht with h1 | h1
    · exact (hwf.fl_managed t h1).1
    · exact tablePages_aligned hwf t h1
  have hs : sameOn s.mem s'.mem (tablePages s.mem old) := by
    intro t ht x h1 h2
    refine hfr x (outside_of_not_mem hpool (tablePages_aligned_root hold t ht) ?_ ⟨h1, h2⟩)
    intro hm
    rcases List.mem_append.1 hm with h' | h'
    · exact (hsep t ht).1 h'
    · exact (hsep t ht).2 h'
  have htp : tablePages s'.mem old = tablePages s.mem old := sameOn_tablePages (sameOn_top hs)
  have hL := sameOn_LeafPres hs
  refine ⟨hold, ?_, ?_⟩
  · intro t ht
    rw [htp] at ht
    refine ⟨fun hx => ?_, fun hx => ?_⟩
    · rcases List.mem_append.1 (hin t (List.mem_append_left _ hx)) with h' | h'
      · exact (hsep t ht).1 h'
      · exact (hsep t ht).2 h'
    · rcases List.mem_append.1 (hin t (List.mem_append_right _ hx)) with h' | h'
      · exact (hsep t ht).1 h'
      · exact (hsep t ht).2 h'
  · intro va hlt hm
    obtain ⟨hm0, _, hl⟩ := LeafPres_mapped_back hL hm
    rw [hl]
    exact hsrc va hlt hm0

theorem uvmcopyLoop_safe {P : KParams} {root old sz : Nat} :
    ∀ (fuel i : Nat) (s : Kmem) (rc : Int) (s' : Kmem), PtSafe P s root →
      CopySource s root old sz →
      uvmcopyLoop P old root sz fuel i s = .ok (rc, s') → PtSafe P s' root := by
  intro fuel
  induction fuel with
  | zero => intro i s rc s' _ _ h; cases h
  | succ fuel ih =>
    intro i s rc s' hI hC h
    rw [uvmcopyLoop] at h
    by_cases h1 : i < sz
    · rw [if_pos h1] at h
      unfold walk at h
      by_cases h3 : i ≥ MAXVA
      · rw [if_pos h3] at h; cases h
      · rw [if_neg h3, walkLoop_false] at h
        simp only at h
        by_cases hw : walkp s.mem i 2 old = 0
        · rw [if_pos hw] at h; cases h
        · rw [if_neg hw] at h
          by_cases hv : read64 s.mem (walkp s.mem i 2 old) &&& PTE_V = 0
          · rw [if_pos hv] at h; cases h
          · rw [if_neg hv] at h
            have hmo : mapped s.mem old i := ⟨hw, hv⟩
            have hfl : PTE_FLAGS (read64 s.mem (walkp s.mem i 2 old)) &&& rwxBits ≠ 0 := by
              rw [flags_rwx]
              exact hC.2.2 i h1 hmo
            cases hf : s.freelist with
            | nil =>
              rw [kalloc_nil P s hf] at h
              simp only [if_true] at h
              split at h
              · cases h
              · rename_i s1 e1
                injection h with h
                injection h with _ h
                rw [← h]
                exact uvmunmap_safe _ _ _ _ _ hI e1
            | cons r0 rest =>
              obtain ⟨e1, hrm, hS1, hL1, _, hfl1, hfr1, htp1⟩ := PtSafe_kalloc hI hf
              have hr0 : r0 ≠ 0 := Nat.pos_iff_ne_zero.1 (managed_pos P hrm)
              rw [e1, if_neg hr0] at h
              obtain ⟨hS2, hLo2, htp2⟩ := PtSafe_page_write hS1
                { (kalloc P s).2 with mem := (memmove (kalloc P s).2.mem r0
                  (PTE2PA (read64 s.mem (walkp s.mem i 2 old))) PGSIZE) } hrm.1 hL1.2.1 rfl rfl (fun x hx => memmove_out _ _ _ _ _ (by omega))
              have hL2 := hLo2 r0 hL1
              by_cases hal : i % PGSIZE = 0 ∧ i < MAXVA
              · split at h
                · cases h
                · rename_i rc3 s3 e3
                  obtain ⟨hS3, hLo3, hfr3, hin3⟩ := PtSafe_map_one hS2 i r0
                    (PTE_FLAGS (read64 s.mem (walkp s.mem i 2 old)))
                    hal.1 hal.2 (PTE_FLAGS_lt _) hfl (managed_lt P hrm) hrm.1
                    (fun _ => hL2) rc3 s3 e3
                  by_cases hrc : rc3 = 0
                  · rw [if_neg (not_not.2 hrc)] at h
                    refine ih _ _ _ _ hS3 (CopySource_frame hC hI.wf ?_ ?_) h
                    · intro z hz
                      have hrf : r0 ∈ s.freelist := by rw [hf]; exact List.mem_cons_self _ _
                      have hnr : ¬ (r0 ≤ z ∧ z < r0 + PGSIZE) :=
                        hz r0 (List.mem_append_left _ hrf)
                      rw [hfr3 z ?_]
                      · show memmove (kalloc P s).2.mem r0 _ PGSIZE z = s.mem z
                        rw [memmove_out _ _ _ _ _ (by omega)]
                        exact hfr1 z hnr
                      · intro t ht
                        refine hz t ?_
                        rcases List.mem_append.1 ht with h' | h'
                        · have h'' : t ∈ (kalloc P s).2.freelist := h'
                          rw [hfl1] at h''
                          exact List.mem_append_left _ (by rw [hf]; exact List.mem_cons_of_mem _ h'')
                        · rw [htp2, htp1] at h'
                          exact List.mem_append_right _ h'
                    · intro t ht
                      rcases List.mem_append.1 (hin3 t ht) with h' | h'
                      · have h'' : t ∈ (kalloc P s).2.freelist := h'
                        rw [hfl1] at h''
                        exact List.mem_append_left _ (by rw [hf]; exact List.mem_cons_of_mem _ h'')
                      · rw [htp2, htp1] at h'
                        exact List.mem_append_right _ h'
                  · rw [if_pos hrc] at h
                    split at h
                    · cases h
                    · rename_i s4 e4
                      obtain ⟨hS4, _⟩ := PtSafe_kfree_loose hS3 (hLo3 hrc r0 hL2) e4
                      split at h
                      · cases h
                      · rename_i s5 e5
                        injection h with h
                        injection h with _ h
                        rw [← h]
                        exact uvmunmap_safe _ _ _ _ _ hS4 e5
              · obtain ⟨e, he⟩ := mappages_panic P
                  { (kalloc P s).2 with mem := (memmove (kalloc P s).2.mem r0
                    (PTE2PA (read64 s.mem (walkp s.mem i 2 old))) PGSIZE) } root i r0
                  (PTE_FLAGS (read64 s.mem (walkp s.mem i 2 old))) hal
                rw [he] at h
                cases h
    · rw [if_neg h1] at h
      injection h with h
      injection h with _ h
      rw [← h]
      exact hI

theorem uvmcopy_safe {P : KParams} {root : Nat} (s s' : Kmem) (old sz : Nat) (rc : Int)
    (hI : PtSafe P s root) (hC : CopySource s root old sz)
    (h : uvmcopy P s old root sz = .ok (rc, s')) : PtSafe P s' root := by
  unfold uvmcopy at h
  exact uvmcopyLoop_safe _ _ _ _ _ hI hC h

theorem PtSafe_of_PtInv {P : KParams} {pool : List Nat} {s : Kmem} {root : Nat}
    {held live : List Nat} (h : PtInv P pool s root held live) : PtSafe P s root := by
  refine ⟨h.acc.wf, h.tab, ?_, ?_, ?_⟩
  · intro va hm _
    obtain ⟨_, a, b, _⟩ := h.acc.props _ (h.sub _ (h.leaf va hm))
    exact ⟨a, b⟩
  · intro va va' hm hm' _ e
    exact h.uniq va va' hm hm' e
  · intro va hm
    have hr := h.rd va hm
    intro hz
    apply hr
    have e1 : PTE_R = rwxBits &&& PTE_R := by decide
    rw [e1, ← Nat.and_assoc, hz, Nat.zero_and]

theorem PermInv_of_PtSafe {P : KParams} {s : Kmem} {root : Nat} (h : PtSafe P s root) :
    PermInv s.mem root := by
  refine ⟨fun i hi hv => flagsV_perm _ (h.tab.ent root (Or.inl rfl) i hi hv),
    fun t1 h1 i hi hv => flagsV_perm _ (h.tab.ent t1 (Or.inr h1) i hi hv), ?_⟩
  intro t1 h1 t0 h0 i hi hv
  obtain ⟨va, hw, hl⟩ := entry_is_leaf h.wf h1 h0 hi
  rw [← hl] at hv ⊢
  exact rwx_perm _ (h.rwx va ⟨hw, hv⟩)


/-! ## Permission bits of the entries -/

theorem PtOp_run_safe {P : KParams} {root : Nat} (s s' : Kmem) (op : PtOp)
    (hI : PtSafe P s root) (hs : op.safe P root s) (h : op.run P root s = .ok s') :
    PtSafe P s' root := by
  cases op with
  | mappages va size pa perm =>
    obtain ⟨a, ea, e2⟩ := Except_map_ok h
    obtain ⟨rc, s2⟩ := a
    obtain ⟨h1, h2, h3, h4⟩ := hs
    simp only at e2
    rw [← e2]
    exact mappages_safe _ _ _ _ _ _ rc hI h1 h2 h3 h4 ea
  | uvmunmap va npages do_free => exact uvmunmap_safe _ _ _ _ _ hI h
  | uvmalloc oldsz newsz xperm =>
    obtain ⟨a, ea, e2⟩ := Except_map_ok h
    obtain ⟨r, s2⟩ := a
    exact uvmalloc_safe _ _ _ _ _ r hs hI (by rw [ea]; simp only at e2; rw [e2])
  | uvmdealloc oldsz newsz =>
    obtain ⟨a, ea, e2⟩ := Except_map_ok h
    obtain ⟨r, s2⟩ := a
    exact uvmdealloc_safe _ _ _ _ r hI (by rw [ea]; simp only at e2; rw [e2])
  | uvmcopy old sz =>
    obtain ⟨a, ea, e2⟩ := Except_map_ok h
    obtain ⟨rc, s2⟩ := a
    simp only at e2
    rw [← e2]
    exact uvmcopy_safe _ _ _ _ rc hI hs ea
  | uvmclear va => exact uvmclear_safe _ _ _ hI h

theorem PtReach_safe {P : KParams} {root : Nat} {s : Kmem} (h : PtReach P root s) :
    PtSafe P s root := by
  induction h with
  | create s0 hnd hmg hroot => exact PtSafe_of_PtInv (uvmcreate_inv hnd hmg hroot).1
  | call root s op s' _ hs hrun ih => exact PtOp_run_safe s s' op ih hs hrun

theorem PtReach_run {P : KParams} {root : Nat} :
    ∀ (ops : List PtOp) (s s' : Kmem), PtReach P root s →
      (∀ op ∈ ops, ∀ s, op.safe P root s) → runPtOps P root s ops = .ok s' →
      PtReach P root s' := by
  intro ops
  induction ops with
  | nil =>
    intro s s' hI _ h
    injection h with h
    rw [← h]; exact hI
  | cons op ops ih =>
    intro s s' hI hops h
    rw [runPtOps] at h
    split at h
    · cases h
    · rename_i s1 e1
      exact ih s1 s' (PtReach.call root s op s1 hI (hops op (List.mem_cons_self _ _) s) e1)
        (fun o ho => hops o (List.mem_cons_of_mem _ ho)) h

theorem not_PermInv_of_leaf (m : Mem) (root va : Nat)
    (hm : mapped m root va) (hz : leafPte m root va &&& permBits = 0) :
    ¬ PermInv m root := by
  intro h
  obtain ⟨t1, t0, _, _, e, k1, k0, _, _⟩ := walkp_ne_zero hm.1
  have hl : leafPte m root va = pteAt m t0 (PX 0 va) := by
    unfold leafPte pteAt
    rw [e]
  rw [hl] at hz
  exact h.2.2 t1 k1 t0 k0 (PX 0 va) (PX_lt 0 va) (by rw [← hl]; exact hm.2) hz

theorem vmAlias_run :
    runPtOps vmK vmRoot vmState [.mappages 0 PGSIZE 0x87000000 PTE_R,
      .mappages 4096 PGSIZE 0x80007000 PTE_R, .uvmunmap 4096 1 true] = .ok vmAlias := by
  have h1 : (runPtOps vmK vmRoot vmState [.mappages 0 PGSIZE 0x87000000 PTE_R,
      .mappages 4096 PGSIZE 0x80007000 PTE_R, .uvmunmap 4096 1 true]).map (fun _ => ())
        = .ok () := by decide!
  obtain ⟨s, hs, _⟩ := Except_map_ok h1
  have e : vmAlias = s := by
    unfold vmAlias
    rw [hs]
  rw [e]
  exact hs

theorem vmCopied_run :
    runPtOps vmK vmSecond.1 vmSecond.2 [.uvmcopy vmRoot PGSIZE, .uvmclear 0] = .ok vmCopied := by
  have h1 : (runPtOps vmK vmSecond.1 vmSecond.2 [.uvmcopy vmRoot PGSIZE, .uvmclear 0]).map
      (fun _ => ()) = .ok () := by decide!
  obtain ⟨s, hs, _⟩ := Except_map_ok h1
  have e : vmCopied = s := by
    unfold vmCopied
    rw [hs]
  rw [e]
  exact hs

/-- C26 (as stated) fails. On the nine-page machine, `uvmcreate` and then
`mappages(root, 0, PGSIZE, 0x87000000, 0)` return without a panic (the state
`vmBare`), and the level-0 entry of address 0 is valid with the flags `PTE_V`
alone, so it carries no permission bit. The same entry results from `mappages`
with `perm = PTE_U` followed by `uvmclear(root, 0)` (the state `vmGuard`).
Readable mappings do not save the claim either: `mappages` of the page
`0x80007000`, which is the level-0 page of the table, followed by `uvmunmap`
of that mapping with `do_free = 1` (the state `vmAlias`) frees the level-0
page, and `kfree` fills it with the junk byte: its entry for address 8192 is
`0x0101010101010101`, valid without a permission bit. And `uvmcopy` hands on
what the source has: after `mappages(vmRoot, 0, PGSIZE, 0x87000000, PTE_U)`
and a second `uvmcreate` (the state `vmSecond`), `uvmcopy(vmRoot, root2,
PGSIZE)` and `uvmclear(root2, 0)` on the second table leave its entry for
address 0 valid without a permission bit (the state `vmCopied`). -/
theorem C26_counterexample :
    vmRoot = (uvmcreate vmK vmBoot).1 ∧ vmState = (uvmcreate vmK vmBoot).2 ∧
    runPtOps vmK vmRoot vmState [.mappages 0 PGSIZE 0x87000000 0] = .ok vmBare ∧
    runPtOps vmK vmRoot vmState [.mappages 0 PGSIZE 0x87000000 PTE_U, .uvmclear 0]
      = .ok vmGuard ∧
    runPtOps vmK vmRoot vmState [.mappages 0 PGSIZE 0x87000000 PTE_R,
      .mappages 4096 PGSIZE 0x80007000 PTE_R, .uvmunmap 4096 1 true] = .ok vmAlias ∧
    mapped vmBare.mem vmRoot 0 ∧ leafPte vmBare.mem vmRoot 0 = PA2PTE 0x87000000 ||| PTE_V ∧
    mapped vmGuard.mem vmRoot 0 ∧ leafPte vmGuard.mem vmRoot 0 = PA2PTE 0x87000000 ||| PTE_V ∧
    (PA2PTE 0x87000000 ||| PTE_V) &&& permBits = 0 ∧
    mapped vmAlias.mem vmRoot 8192 ∧ leafPte vmAlias.mem vmRoot 8192 = 0x0101010101010101 ∧
    0x0101010101010101 &&& permBits = 0 ∧
    runPtOps vmK vmSecond.1 vmSecond.2 [.uvmcopy vmRoot PGSIZE, .uvmclear 0] = .ok vmCopied ∧
    mapped vmCopied.mem vmSecond.1 0 ∧
    leafPte vmCopied.mem vmSecond.1 0 = PA2PTE 0x80005000 ||| PTE_V ∧
    (PA2PTE 0x80005000 ||| PTE_V) &&& permBits = 0 ∧
    ¬ PermInv vmBare.mem vmRoot ∧ ¬ PermInv vmGuard.mem vmRoot ∧
    ¬ PermInv vmAlias.mem vmRoot ∧ ¬ PermInv vmCopied.mem vmSecond.1 :=
  ⟨rfl, rfl, rfl, rfl, vmAlias_run, by decide!, by decide!, by decide!, by decide!, by decide,
    by decide!, by decide!, by decide, vmCopied_run, by decide!, by decide!, by decide,
    not_PermInv_of_leaf vmBare.mem vmRoot 0 (by decide!) (by decide!),
    not_PermInv_of_leaf vmGuard.mem vmRoot 0 (by decide!) (by decide!),
    not_PermInv_of_leaf vmAlias.mem vmRoot 8192 (by decide!) (by decide!),
    not_PermInv_of_leaf vmCopied.mem vmSecond.1 0 (by decide!) (by decide!)⟩

/-- Claim C26, amended: take `uvmcreate` on an allocator whose free list holds
distinct managed pages, and let it return a table. After any sequence of
`mappages`, `uvmunmap`, `uvmalloc`, `uvmdealloc`, `uvmcopy` (into the table)
and `uvmclear` calls on that table none of which panics, every valid entry of
the root and of the level-1 pages carries none of the permission bits, and
every valid entry of the level-0 pages carries at least one, provided that the
callers respect `PtOp.safe`: the permissions given to `mappages` and
`uvmalloc` lie inside the ten flag bits, those given to `mappages` include one
of `PTE_R`, `PTE_W`, `PTE_X`; each physical page given to `mappages` lies
outside the range of the allocator or is neither free, nor a page-table page
of the table, nor mapped in it; and the source of `uvmcopy` is a table whose
page-table pages are neither free nor pages of the destination and whose
entries below `sz` carry one of `PTE_R`, `PTE_W`, `PTE_X`. -/
theorem C26_permission_bits (P : KParams) (root : Nat) (s : Kmem) (h : PtReach P root s) :
    PermInv s.mem root :=
  PermInv_of_PtSafe (PtReach_safe h)

theorem vmTwo_source : CopySource vmTwo vmNew vmRoot 4096 := by
  refine ⟨by decide!, by decide!, ?_⟩
  intro va hlt hm
  have e : walkp vmTwo.mem va 2 vmRoot = walkp vmTwo.mem 0 2 vmRoot := by
    rw [← walkp_rounddown]
    have : PGROUNDDOWN va = 0 := by
      unfold PGROUNDDOWN PGSIZE
      omega
    rw [this]
  have hl : leafPte vmTwo.mem vmRoot va = leafPte vmTwo.mem vmRoot 0 := by
    unfold leafPte
    rw [e]
  rw [hl]
  decide!

/-- C26 witness: on the nine-page machine, the table `vmRoot` grown by
`uvmalloc` to two pages, the device page `0x87000000` mapped by `mappages`,
the second page made inaccessible to the user by `uvmclear`, the device page
unmapped and the second page removed by `uvmdealloc`; and the table `vmNew`
after `uvmcopy` of one page from the table `vmRoot`. -/
theorem C26_permission_bits_witness :
    (∃ s, runPtOps vmK (uvmcreate vmK vmBoot).1 (uvmcreate vmK vmBoot).2
        [.uvmalloc 0 8192 PTE_W, .mappages 0x10000 PGSIZE 0x87000000 (PTE_R ||| PTE_W),
          .uvmclear 4096, .uvmunmap 0x10000 1 false, .uvmdealloc 8192 4096] = .ok s ∧
      PtReach vmK (uvmcreate vmK vmBoot).1 s ∧ PermInv s.mem (uvmcreate vmK vmBoot).1) ∧
    (∃ s, (PtOp.uvmcopy vmRoot 4096).run vmK vmNew vmTwo = .ok s ∧
      PtReach vmK vmNew s ∧ PermInv s.mem vmNew) := by
  refine ⟨?_, ?_⟩
  · have h1 : (runPtOps vmK (uvmcreate vmK vmBoot).1 (uvmcreate vmK vmBoot).2
        [.uvmalloc 0 8192 PTE_W, .mappages 0x10000 PGSIZE 0x87000000 (PTE_R ||| PTE_W),
          .uvmclear 4096, .uvmunmap 0x10000 1 false, .uvmdealloc 8192 4096]).map (fun _ => ())
          = .ok () := by decide!
    obtain ⟨s, h, _⟩ := Except_map_ok h1
    have h0 : PtReach vmK (uvmcreate vmK vmBoot).1 (uvmcreate vmK vmBoot).2 :=
      PtReach.create vmBoot (by decide!) (by decide!) (by decide!)
    have hr : PtReach vmK (uvmcreate vmK vmBoot).1 s := by
      refine PtReach_run _ _ s h0 ?_ h
      intro op hop s1
      simp only [List.mem_cons, List.mem_singleton, List.not_mem_nil, or_false] at hop
      rcases hop with e | e | e | e | e <;> rw [e]
      · show PTE_W < 1024
        decide
      · refine ⟨by decide, by decide, by decide, ?_⟩
        intro k hk hmg
        have hk0 : k = 0 := by
          have : PGSIZE / PGSIZE = 1 := by decide
          omega
        rw [hk0] at hmg
        exact absurd hmg (by decide)
      · trivial
      · trivial
      · trivial
    exact ⟨s, h, hr, C26_permission_bits vmK _ s hr⟩
  · have h1 : ((PtOp.uvmcopy vmRoot 4096).run vmK vmNew vmTwo).map (fun _ => ()) = .ok () := by
      decide!
    obtain ⟨s, h, _⟩ := Except_map_ok h1
    have h0 : PtReach vmK vmNew vmTwo :=
      PtReach.create vmGrown (by decide!) (by decide!) (by decide!)
    have hr : PtReach vmK vmNew s := PtReach.call vmNew vmTwo (PtOp.uvmcopy vmRoot 4096) s h0 vmTwo_source h
    exact ⟨s, h, hr, C26_permission_bits vmK vmNew s hr⟩
end Xv6
